import Mathlib

/-!
# AES block primitive and SILC cipher mode layer

A shallow embedding of `lib/silccrypt/aes.c` (Brian Gladman's AES as adapted
for SILC).  C arrays are functions from an index to a value, bytes and 32-bit
words are natural numbers, and every C macro of the source becomes a function
of the same name.
-/

namespace Aes

/-! ## Bytes, words and arrays -/

/-- A C array of machine integers, read by index. -/
structure Arr where
  get : Nat → Nat

instance : CoeFun Arr (fun _ => Nat → Nat) := ⟨Arr.get⟩

/-- An array of zeros (`calloc`ed or not yet written storage). -/
def Arr.zero : Arr := ⟨fun _ => 0⟩

/-- Array store `a[i] = v`. -/
def upd (a : Arr) (i v : Nat) : Arr := ⟨fun j => if j = i then v else a j⟩

/-- Modelled from the spec: `bytes2word` of the absent aes_internal.h, packing
four bytes little-endian into a 32-bit word. -/
def bytes2word (b0 b1 b2 b3 : Nat) : Nat :=
  (b3 <<< 24) ||| (b2 <<< 16) ||| (b1 <<< 8) ||| b0

/-- Modelled from the spec: `bval(x,n)` of the absent aes_internal.h, byte `n`
of the word `x`, `(uint_8t)(x >> 8*n)`. -/
def bval (x n : Nat) : Nat := (x >>> (8 * n)) % 256

/-- Modelled from the spec: `word_in(x,c)` of the absent aes_internal.h, the
little-endian 32-bit word at byte offset `4*c` of a byte buffer. -/
def word_in (x : List Nat) (c : Nat) : Nat :=
  bytes2word (x.getD (4 * c) 0) (x.getD (4 * c + 1) 0) (x.getD (4 * c + 2) 0)
    (x.getD (4 * c + 3) 0)

/-! ## GF(2^8) multiples and the lookup tables -/

/-- Modelled from the spec: the AES field polynomial `WPOLY` (x^8+x^4+x^3+x+1)
of the absent aes_internal.h. -/
def WPOLY : Nat := 0x011b

/-- Modelled from the spec: `f2`, multiplication by 2 in GF(2^8). -/
def f2 (x : Nat) : Nat := (x <<< 1) ^^^ (((x >>> 7) &&& 1) * WPOLY)

/-- Modelled from the spec: `f4`, multiplication by 4 in GF(2^8). -/
def f4 (x : Nat) : Nat :=
  (x <<< 2) ^^^ (((x >>> 6) &&& 1) * WPOLY) ^^^ (((x >>> 6) &&& 2) * WPOLY)

/-- Modelled from the spec: `f8`, multiplication by 8 in GF(2^8). -/
def f8 (x : Nat) : Nat :=
  (x <<< 3) ^^^ (((x >>> 5) &&& 1) * WPOLY) ^^^ (((x >>> 5) &&& 2) * WPOLY)
    ^^^ (((x >>> 5) &&& 4) * WPOLY)

/-- Modelled from the spec: `f3`, multiplication by 3 in GF(2^8). -/
def f3 (x : Nat) : Nat := f2 x ^^^ x
/-- Modelled from the spec: `f9`, multiplication by 9 in GF(2^8). -/
def f9 (x : Nat) : Nat := f8 x ^^^ x
/-- Modelled from the spec: `fb`, multiplication by 11 in GF(2^8). -/
def fb (x : Nat) : Nat := f8 x ^^^ f2 x ^^^ x
/-- Modelled from the spec: `fd`, multiplication by 13 in GF(2^8). -/
def fd (x : Nat) : Nat := f8 x ^^^ f4 x ^^^ x
/-- Modelled from the spec: `fe`, multiplication by 14 in GF(2^8). -/
def fe (x : Nat) : Nat := f8 x ^^^ f4 x ^^^ f2 x

/-- Modelled from the spec: `sb_data` of the absent aes_internal.h, the AES
S-box. -/
def sb_data : List Nat :=
  [0x63, 0x7c, 0x77, 0x7b, 0xf2, 0x6b, 0x6f, 0xc5, 0x30, 0x01, 0x67, 0x2b, 0xfe, 0xd7, 0xab, 0x76,
   0xca, 0x82, 0xc9, 0x7d, 0xfa, 0x59, 0x47, 0xf0, 0xad, 0xd4, 0xa2, 0xaf, 0x9c, 0xa4, 0x72, 0xc0,
   0xb7, 0xfd, 0x93, 0x26, 0x36, 0x3f, 0xf7, 0xcc, 0x34, 0xa5, 0xe5, 0xf1, 0x71, 0xd8, 0x31, 0x15,
   0x04, 0xc7, 0x23, 0xc3, 0x18, 0x96, 0x05, 0x9a, 0x07, 0x12, 0x80, 0xe2, 0xeb, 0x27, 0xb2, 0x75,
   0x09, 0x83, 0x2c, 0x1a, 0x1b, 0x6e, 0x5a, 0xa0, 0x52, 0x3b, 0xd6, 0xb3, 0x29, 0xe3, 0x2f, 0x84,
   0x53, 0xd1, 0x00, 0xed, 0x20, 0xfc, 0xb1, 0x5b, 0x6a, 0xcb, 0xbe, 0x39, 0x4a, 0x4c, 0x58, 0xcf,
   0xd0, 0xef, 0xaa, 0xfb, 0x43, 0x4d, 0x33, 0x85, 0x45, 0xf9, 0x02, 0x7f, 0x50, 0x3c, 0x9f, 0xa8,
   0x51, 0xa3, 0x40, 0x8f, 0x92, 0x9d, 0x38, 0xf5, 0xbc, 0xb6, 0xda, 0x21, 0x10, 0xff, 0xf3, 0xd2,
   0xcd, 0x0c, 0x13, 0xec, 0x5f, 0x97, 0x44, 0x17, 0xc4, 0xa7, 0x7e, 0x3d, 0x64, 0x5d, 0x19, 0x73,
   0x60, 0x81, 0x4f, 0xdc, 0x22, 0x2a, 0x90, 0x88, 0x46, 0xee, 0xb8, 0x14, 0xde, 0x5e, 0x0b, 0xdb,
   0xe0, 0x32, 0x3a, 0x0a, 0x49, 0x06, 0x24, 0x5c, 0xc2, 0xd3, 0xac, 0x62, 0x91, 0x95, 0xe4, 0x79,
   0xe7, 0xc8, 0x37, 0x6d, 0x8d, 0xd5, 0x4e, 0xa9, 0x6c, 0x56, 0xf4, 0xea, 0x65, 0x7a, 0xae, 0x08,
   0xba, 0x78, 0x25, 0x2e, 0x1c, 0xa6, 0xb4, 0xc6, 0xe8, 0xdd, 0x74, 0x1f, 0x4b, 0xbd, 0x8b, 0x8a,
   0x70, 0x3e, 0xb5, 0x66, 0x48, 0x03, 0xf6, 0x0e, 0x61, 0x35, 0x57, 0xb9, 0x86, 0xc1, 0x1d, 0x9e,
   0xe1, 0xf8, 0x98, 0x11, 0x69, 0xd9, 0x8e, 0x94, 0x9b, 0x1e, 0x87, 0xe9, 0xce, 0x55, 0x28, 0xdf,
   0x8c, 0xa1, 0x89, 0x0d, 0xbf, 0xe6, 0x42, 0x68, 0x41, 0x99, 0x2d, 0x0f, 0xb0, 0x54, 0xbb, 0x16]

/-- Modelled from the spec: `isb_data` of the absent aes_internal.h, the
inverse AES S-box. -/
def isb_data : List Nat :=
  [0x52, 0x09, 0x6a, 0xd5, 0x30, 0x36, 0xa5, 0x38, 0xbf, 0x40, 0xa3, 0x9e, 0x81, 0xf3, 0xd7, 0xfb,
   0x7c, 0xe3, 0x39, 0x82, 0x9b, 0x2f, 0xff, 0x87, 0x34, 0x8e, 0x43, 0x44, 0xc4, 0xde, 0xe9, 0xcb,
   0x54, 0x7b, 0x94, 0x32, 0xa6, 0xc2, 0x23, 0x3d, 0xee, 0x4c, 0x95, 0x0b, 0x42, 0xfa, 0xc3, 0x4e,
   0x08, 0x2e, 0xa1, 0x66, 0x28, 0xd9, 0x24, 0xb2, 0x76, 0x5b, 0xa2, 0x49, 0x6d, 0x8b, 0xd1, 0x25,
   0x72, 0xf8, 0xf6, 0x64, 0x86, 0x68, 0x98, 0x16, 0xd4, 0xa4, 0x5c, 0xcc, 0x5d, 0x65, 0xb6, 0x92,
   0x6c, 0x70, 0x48, 0x50, 0xfd, 0xed, 0xb9, 0xda, 0x5e, 0x15, 0x46, 0x57, 0xa7, 0x8d, 0x9d, 0x84,
   0x90, 0xd8, 0xab, 0x00, 0x8c, 0xbc, 0xd3, 0x0a, 0xf7, 0xe4, 0x58, 0x05, 0xb8, 0xb3, 0x45, 0x06,
   0xd0, 0x2c, 0x1e, 0x8f, 0xca, 0x3f, 0x0f, 0x02, 0xc1, 0xaf, 0xbd, 0x03, 0x01, 0x13, 0x8a, 0x6b,
   0x3a, 0x91, 0x11, 0x41, 0x4f, 0x67, 0xdc, 0xea, 0x97, 0xf2, 0xcf, 0xce, 0xf0, 0xb4, 0xe6, 0x73,
   0x96, 0xac, 0x74, 0x22, 0xe7, 0xad, 0x35, 0x85, 0xe2, 0xf9, 0x37, 0xe8, 0x1c, 0x75, 0xdf, 0x6e,
   0x47, 0xf1, 0x1a, 0x71, 0x1d, 0x29, 0xc5, 0x89, 0x6f, 0xb7, 0x62, 0x0e, 0xaa, 0x18, 0xbe, 0x1b,
   0xfc, 0x56, 0x3e, 0x4b, 0xc6, 0xd2, 0x79, 0x20, 0x9a, 0xdb, 0xc0, 0xfe, 0x78, 0xcd, 0x5a, 0xf4,
   0x1f, 0xdd, 0xa8, 0x33, 0x88, 0x07, 0xc7, 0x31, 0xb1, 0x12, 0x10, 0x59, 0x27, 0x80, 0xec, 0x5f,
   0x60, 0x51, 0x7f, 0xa9, 0x19, 0xb5, 0x4a, 0x0d, 0x2d, 0xe5, 0x7a, 0x9f, 0x93, 0xc9, 0x9c, 0xef,
   0xa0, 0xe0, 0x3b, 0x4d, 0xae, 0x2a, 0xf5, 0xb0, 0xc8, 0xeb, 0xbb, 0x3c, 0x83, 0x53, 0x99, 0x61,
   0x17, 0x2b, 0x04, 0x7e, 0xba, 0x77, 0xd6, 0x26, 0xe1, 0x69, 0x14, 0x63, 0x55, 0x21, 0x0c, 0x7d]

/-- S-box lookup. -/
def sb (p : Nat) : Nat := sb_data.getD p 0
/-- Inverse S-box lookup. -/
def isb (p : Nat) : Nat := isb_data.getD p 0

/-- Modelled from the spec: column generators `u0..u3` of the absent
aes_internal.h (forward round, MixColumns folded in). -/
def ucol (i p : Nat) : Nat :=
  match i with
  | 0 => bytes2word (f2 p) p p (f3 p)
  | 1 => bytes2word (f3 p) (f2 p) p p
  | 2 => bytes2word p (f3 p) (f2 p) p
  | _ => bytes2word p p (f3 p) (f2 p)

/-- Modelled from the spec: column generators `v0..v3` of the absent
aes_internal.h (inverse MixColumns). -/
def vcol (i p : Nat) : Nat :=
  match i with
  | 0 => bytes2word (fe p) (f9 p) (fd p) (fb p)
  | 1 => bytes2word (fb p) (fe p) (f9 p) (fd p)
  | 2 => bytes2word (fd p) (fb p) (fe p) (f9 p)
  | _ => bytes2word (f9 p) (fd p) (fb p) (fe p)

/-- Modelled from the spec: column generators `w0..w3` of the absent
aes_internal.h (a byte placed in one lane). -/
def wcol (i p : Nat) : Nat :=
  match i with
  | 0 => bytes2word p 0 0 0
  | 1 => bytes2word 0 p 0 0
  | 2 => bytes2word 0 0 p 0
  | _ => bytes2word 0 0 0 p

/-- Table `t_fn[4][256]`, declared in aes.c as `d_4(uint_32t, t_dec(f,n), sb_data, u0, u1, u2, u3)`. -/
def t_fn (i b : Nat) : Nat := ucol i (sb b)
/-- Table `t_fl[4][256]`, `d_4(uint_32t, t_dec(f,l), sb_data, w0, w1, w2, w3)`. -/
def t_fl (i b : Nat) : Nat := wcol i (sb b)
/-- Table `t_in[4][256]`, `d_4(uint_32t, t_dec(i,n), isb_data, v0, v1, v2, v3)`. -/
def t_in (i b : Nat) : Nat := vcol i (isb b)
/-- Table `t_il[4][256]`, `d_4(uint_32t, t_dec(i,l), isb_data, w0, w1, w2, w3)`. -/
def t_il (i b : Nat) : Nat := wcol i (isb b)
/-- Table `t_im[4][256]`, `d_4(uint_32t, t_dec(i,m), mm_data, v0, v1, v2, v3)`. -/
def t_im (i b : Nat) : Nat := vcol i b

/-- Modelled from the spec: `rc_data` of the absent aes_internal.h, the ten
AES round constants; `t_rc` is `rc_data(w0)`. -/
def rc_data : List Nat := [0x01, 0x02, 0x04, 0x08, 0x10, 0x20, 0x40, 0x80, 0x1b, 0x36]

/-- Table `t_rc[RC_LENGTH]`. -/
def t_rc (i : Nat) : Nat := wcol 0 (rc_data.getD i 0)

/-- Modelled from the spec: `vf1(x,r,c)` of the absent aes_internal.h. -/
def vf1 (x : Nat) (_r _c : Nat) : Nat := x
/-- Modelled from the spec: `rf1(r,c)` of the absent aes_internal.h. -/
def rf1 (r _c : Nat) : Nat := r
/-- Modelled from the spec: `rf2(r,c)` of the absent aes_internal.h. -/
def rf2 (r c : Nat) : Nat := (8 + r - c) &&& 3

/-- Modelled from the spec: `four_tables(x,tab,vf,rf,c)` of the absent
aes_internal.h, one probe into each of four tables, XORed. -/
def four_tables {α : Type} (x : α) (tab : Nat → Nat → Nat) (vf : α → Nat → Nat → Nat)
    (rf : Nat → Nat → Nat) (c : Nat) : Nat :=
  tab 0 (bval (vf x 0 c) (rf 0 c)) ^^^ tab 1 (bval (vf x 1 c) (rf 1 c))
    ^^^ tab 2 (bval (vf x 2 c) (rf 2 c)) ^^^ tab 3 (bval (vf x 3 c) (rf 3 c))

/-- Modelled from the spec: `ls_box(x,c)` of the absent aes_internal.h:
S-box each byte and rotate the word by `c` byte lanes. -/
def ls_box (x c : Nat) : Nat := four_tables x t_fl vf1 rf2 c

/-- Modelled from the spec: `ff(x)` of the absent aes_internal.h, the inverse
MixColumn of one word (`inv_mcol`). -/
def ff (x : Nat) : Nat := four_tables x t_im vf1 rf1 0

/-! ## Contexts -/

/-- The cipher context `aes_encrypt_ctx` / `aes_decrypt_ctx` (the two members
of the `AesContext` union share one layout): the schedule words `ks` and the
bytes `inf.b[0]` (16 times the round count) and `inf.b[2]` (stream cursor). -/
structure aes_ctx where
  ks : Arr
  inf_b0 : Nat
  inf_b2 : Nat

/-- Locals of a key-schedule routine: the schedule being written and `ss`. -/
structure KSt where
  k : Arr
  ss : Arr

/-! ## Encryption key schedule -/

/-- The macro `ke4(k,i)`. -/
def ke4 (i : Nat) (st : KSt) : KSt :=
  let ss := upd st.ss 0 (st.ss 0 ^^^ (ls_box (st.ss 3) 3 ^^^ t_rc i))
  let k := upd st.k (4 * i + 4) (ss 0)
  let ss := upd ss 1 (ss 1 ^^^ ss 0)
  let k := upd k (4 * i + 5) (ss 1)
  let ss := upd ss 2 (ss 2 ^^^ ss 1)
  let k := upd k (4 * i + 6) (ss 2)
  let ss := upd ss 3 (ss 3 ^^^ ss 2)
  let k := upd k (4 * i + 7) (ss 3)
  ⟨k, ss⟩

/-- Loading `n` key words: `cx->ks[j] = ss[j] = word_in(key, j)` for `j < n`. -/
def key_in (key : List Nat) (n : Nat) (st : KSt) : KSt :=
  match n with
  | 0 => st
  | j + 1 =>
    let st := key_in key j st
    ⟨upd st.k j (word_in key j), upd st.ss j (word_in key j)⟩

/-- The function `aes_encrypt_key128`. -/
def aes_encrypt_key128 (key : List Nat) (cx : aes_ctx) : aes_ctx :=
  let st := key_in key 4 ⟨cx.ks, Arr.zero⟩
  let st := ke4 1 (ke4 0 st)
  let st := ke4 3 (ke4 2 st)
  let st := ke4 5 (ke4 4 st)
  let st := ke4 7 (ke4 6 st)
  let st := ke4 8 st
  let st := ke4 9 st
  { cx with ks := st.k, inf_b0 := 10 * 16 }

/-- The macro `kef6(k,i)`. -/
def kef6 (i : Nat) (st : KSt) : KSt :=
  let ss := upd st.ss 0 (st.ss 0 ^^^ (ls_box (st.ss 5) 3 ^^^ t_rc i))
  let k := upd st.k (6 * i + 6) (ss 0)
  let ss := upd ss 1 (ss 1 ^^^ ss 0)
  let k := upd k (6 * i + 7) (ss 1)
  let ss := upd ss 2 (ss 2 ^^^ ss 1)
  let k := upd k (6 * i + 8) (ss 2)
  let ss := upd ss 3 (ss 3 ^^^ ss 2)
  let k := upd k (6 * i + 9) (ss 3)
  ⟨k, ss⟩

/-- The macro `ke6(k,i)`. -/
def ke6 (i : Nat) (st : KSt) : KSt :=
  let st := kef6 i st
  let ss := upd st.ss 4 (st.ss 4 ^^^ st.ss 3)
  let k := upd st.k (6 * i + 10) (ss 4)
  let ss := upd ss 5 (ss 5 ^^^ ss 4)
  let k := upd k (6 * i + 11) (ss 5)
  ⟨k, ss⟩

/-- The function `aes_encrypt_key192`. -/
def aes_encrypt_key192 (key : List Nat) (cx : aes_ctx) : aes_ctx :=
  let st := key_in key 6 ⟨cx.ks, Arr.zero⟩
  let st := ke6 1 (ke6 0 st)
  let st := ke6 3 (ke6 2 st)
  let st := ke6 5 (ke6 4 st)
  let st := ke6 6 st
  let st := kef6 7 st
  { cx with ks := st.k, inf_b0 := 12 * 16 }

/-- The macro `kef8(k,i)`. -/
def kef8 (i : Nat) (st : KSt) : KSt :=
  let ss := upd st.ss 0 (st.ss 0 ^^^ (ls_box (st.ss 7) 3 ^^^ t_rc i))
  let k := upd st.k (8 * i + 8) (ss 0)
  let ss := upd ss 1 (ss 1 ^^^ ss 0)
  let k := upd k (8 * i + 9) (ss 1)
  let ss := upd ss 2 (ss 2 ^^^ ss 1)
  let k := upd k (8 * i + 10) (ss 2)
  let ss := upd ss 3 (ss 3 ^^^ ss 2)
  let k := upd k (8 * i + 11) (ss 3)
  ⟨k, ss⟩

/-- The macro `ke8(k,i)`. -/
def ke8 (i : Nat) (st : KSt) : KSt :=
  let st := kef8 i st
  let ss := upd st.ss 4 (st.ss 4 ^^^ ls_box (st.ss 3) 0)
  let k := upd st.k (8 * i + 12) (ss 4)
  let ss := upd ss 5 (ss 5 ^^^ ss 4)
  let k := upd k (8 * i + 13) (ss 5)
  let ss := upd ss 6 (ss 6 ^^^ ss 5)
  let k := upd k (8 * i + 14) (ss 6)
  let ss := upd ss 7 (ss 7 ^^^ ss 6)
  let k := upd k (8 * i + 15) (ss 7)
  ⟨k, ss⟩

/-- The function `aes_encrypt_key256`. -/
def aes_encrypt_key256 (key : List Nat) (cx : aes_ctx) : aes_ctx :=
  let st := key_in key 8 ⟨cx.ks, Arr.zero⟩
  let st := ke8 1 (ke8 0 st)
  let st := ke8 3 (ke8 2 st)
  let st := ke8 5 (ke8 4 st)
  let st := kef8 6 st
  { cx with ks := st.k, inf_b0 := 14 * 16 }

/-- The function `aes_encrypt_key`: dispatch on the key length, given in bytes
or in bits; any other length falls out of the switch and changes nothing. -/
def aes_encrypt_key (key : List Nat) (key_len : Nat) (cx : aes_ctx) : aes_ctx :=
  if key_len = 16 ∨ key_len = 128 then aes_encrypt_key128 key cx
  else if key_len = 24 ∨ key_len = 192 then aes_encrypt_key192 key cx
  else if key_len = 32 ∨ key_len = 256 then aes_encrypt_key256 key cx
  else cx

/-! ## Block encryption -/

/-- The macro `fwd_var(x,r,c)`: the state word feeding row `r` of column `c`. -/
def fwd_var (x : Arr) (r c : Nat) : Nat :=
  if r = 0 then (if c = 0 then x 0 else if c = 1 then x 1 else if c = 2 then x 2 else x 3)
  else if r = 1 then (if c = 0 then x 1 else if c = 1 then x 2 else if c = 2 then x 3 else x 0)
  else if r = 2 then (if c = 0 then x 2 else if c = 1 then x 3 else if c = 2 then x 0 else x 1)
  else (if c = 0 then x 3 else if c = 1 then x 0 else if c = 2 then x 1 else x 2)

/-- The macro `fwd_rnd(y,x,k,c)`, with the round key at `ks + kp`. -/
def fwd_rnd (y x ks : Arr) (kp c : Nat) : Arr :=
  upd y c (ks (kp + c) ^^^ four_tables x t_fn fwd_var rf1 c)

/-- The macro `fwd_lrnd(y,x,k,c)`, with the round key at `ks + kp`. -/
def fwd_lrnd (y x ks : Arr) (kp c : Nat) : Arr :=
  upd y c (ks (kp + c) ^^^ four_tables x t_fl fwd_var rf1 c)

/-- The macro `round(rm,y,x,k)`: the column macro `rm` on columns 0 to 3. -/
def round (rm : Arr → Arr → Arr → Nat → Nat → Arr) (y x ks : Arr) (kp : Nat) : Arr :=
  rm (rm (rm (rm y x ks kp 0) x ks kp 1) x ks kp 2) x ks kp 3

/-- The macro `state_in(y,x,k)`: load the block and add the first round key. -/
def state_in (y : Arr) (x : List Nat) (ks : Arr) (kp : Nat) : Arr :=
  upd (upd (upd (upd y 0 (word_in x 0 ^^^ ks (kp + 0))) 1 (word_in x 1 ^^^ ks (kp + 1)))
    2 (word_in x 2 ^^^ ks (kp + 2))) 3 (word_in x 3 ^^^ ks (kp + 3))

/-- Modelled from the spec: `word_out(y,c,v)` of the absent aes_internal.h
stores the word little-endian; `state_out(y,x)` writes all sixteen bytes. -/
def state_out (x : Arr) : List Nat :=
  [bval (x 0) 0, bval (x 0) 1, bval (x 0) 2, bval (x 0) 3,
   bval (x 1) 0, bval (x 1) 1, bval (x 1) 2, bval (x 1) 3,
   bval (x 2) 0, bval (x 2) 1, bval (x 2) 2, bval (x 2) 3,
   bval (x 3) 0, bval (x 3) 1, bval (x 3) 2, bval (x 3) 3]

/-- Locals of a block transform: the two state arrays and the key pointer. -/
structure RSt where
  b0 : Arr
  b1 : Arr
  kp : Nat

/-- The number of columns `N_COLS`. -/
def N_COLS : Nat := 4

/-- Two forward rounds and `kp += 2 * N_COLS`: the body of `case 14 * 16` and
of `case 12 * 16` in `aes_encrypt`. -/
def enc_two (ks : Arr) (s : RSt) : RSt :=
  let b1 := round fwd_rnd s.b1 s.b0 ks (s.kp + 1 * N_COLS)
  let b0 := round fwd_rnd s.b0 b1 ks (s.kp + 2 * N_COLS)
  ⟨b0, b1, s.kp + 2 * N_COLS⟩

/-- Nine forward rounds and the last round: the body of `case 10 * 16` in
`aes_encrypt`. -/
def enc_ten (ks : Arr) (s : RSt) : RSt :=
  let b1 := round fwd_rnd s.b1 s.b0 ks (s.kp + 1 * N_COLS)
  let b0 := round fwd_rnd s.b0 b1 ks (s.kp + 2 * N_COLS)
  let b1 := round fwd_rnd b1 b0 ks (s.kp + 3 * N_COLS)
  let b0 := round fwd_rnd b0 b1 ks (s.kp + 4 * N_COLS)
  let b1 := round fwd_rnd b1 b0 ks (s.kp + 5 * N_COLS)
  let b0 := round fwd_rnd b0 b1 ks (s.kp + 6 * N_COLS)
  let b1 := round fwd_rnd b1 b0 ks (s.kp + 7 * N_COLS)
  let b0 := round fwd_rnd b0 b1 ks (s.kp + 8 * N_COLS)
  let b1 := round fwd_rnd b1 b0 ks (s.kp + 9 * N_COLS)
  let b0 := round fwd_lrnd b0 b1 ks (s.kp + 10 * N_COLS)
  ⟨b0, b1, s.kp⟩

/-- The function `aes_encrypt`: one block through the schedule of `cx`.  The
switch on `inf.b[0]` falls through from the larger to the smaller key size,
and applies no round at all for any other value. -/
def aes_encrypt (inp : List Nat) (cx : aes_ctx) : List Nat :=
  let s : RSt := ⟨state_in (Arr.zero) inp cx.ks 0, Arr.zero, 0⟩
  let s :=
    if cx.inf_b0 = 14 * 16 then enc_ten cx.ks (enc_two cx.ks (enc_two cx.ks s))
    else if cx.inf_b0 = 12 * 16 then enc_ten cx.ks (enc_two cx.ks s)
    else if cx.inf_b0 = 10 * 16 then enc_ten cx.ks s
    else s
  state_out s.b0

/-! ## Decryption key schedule -/

/-- The macro `v(n,i)`: where word `i` of the expanded key is stored in the
reversed decryption schedule (C evaluates it in signed `int`). -/
def v (n i : Nat) : Nat := ((n : Int) - (i : Int) + 2 * ((i &&& 3 : Nat) : Int)).toNat

/-- The macro `kdf4(k,i)`. -/
def kdf4 (i : Nat) (st : KSt) : KSt :=
  let k := st.k
  let ss := st.ss
  let ss := upd ss 0 (ss 0 ^^^ ss 2 ^^^ ss 1 ^^^ ss 3)
  let ss := upd ss 1 (ss 1 ^^^ ss 3)
  let ss := upd ss 2 (ss 2 ^^^ ss 3)
  let ss := upd ss 4 (ls_box (ss ((i + 3) % 4)) 3 ^^^ t_rc i)
  let ss := upd ss (i % 4) (ss (i % 4) ^^^ ss 4)
  let ss := upd ss 4 (ss 4 ^^^ k (v 40 (4 * i)))
  let k := upd k (v 40 (4 * i + 4)) (ff (ss 4))
  let ss := upd ss 4 (ss 4 ^^^ k (v 40 (4 * i + 1)))
  let k := upd k (v 40 (4 * i + 5)) (ff (ss 4))
  let ss := upd ss 4 (ss 4 ^^^ k (v 40 (4 * i + 2)))
  let k := upd k (v 40 (4 * i + 6)) (ff (ss 4))
  let ss := upd ss 4 (ss 4 ^^^ k (v 40 (4 * i + 3)))
  let k := upd k (v 40 (4 * i + 7)) (ff (ss 4))
  ⟨k, ss⟩

/-- The macro `kd4(k,i)`. -/
def kd4 (i : Nat) (st : KSt) : KSt :=
  let k := st.k
  let ss := st.ss
  let ss := upd ss 4 (ls_box (ss ((i + 3) % 4)) 3 ^^^ t_rc i)
  let ss := upd ss (i % 4) (ss (i % 4) ^^^ ss 4)
  let ss := upd ss 4 (ff (ss 4))
  let ss := upd ss 4 (ss 4 ^^^ k (v 40 (4 * i)))
  let k := upd k (v 40 (4 * i + 4)) (ss 4)
  let ss := upd ss 4 (ss 4 ^^^ k (v 40 (4 * i + 1)))
  let k := upd k (v 40 (4 * i + 5)) (ss 4)
  let ss := upd ss 4 (ss 4 ^^^ k (v 40 (4 * i + 2)))
  let k := upd k (v 40 (4 * i + 6)) (ss 4)
  let ss := upd ss 4 (ss 4 ^^^ k (v 40 (4 * i + 3)))
  let k := upd k (v 40 (4 * i + 7)) (ss 4)
  ⟨k, ss⟩

/-- The macro `kdl4(k,i)`. -/
def kdl4 (i : Nat) (st : KSt) : KSt :=
  let k := st.k
  let ss := st.ss
  let ss := upd ss 4 (ls_box (ss ((i + 3) % 4)) 3 ^^^ t_rc i)
  let ss := upd ss (i % 4) (ss (i % 4) ^^^ ss 4)
  let ss := upd ss 0 (ss 0 ^^^ ss 1)
  let k := upd k (v 40 (4 * i + 4)) (ss 0 ^^^ ss 2 ^^^ ss 3)
  let k := upd k (v 40 (4 * i + 5)) (ss 1 ^^^ ss 3)
  let k := upd k (v 40 (4 * i + 6)) (ss 0)
  let k := upd k (v 40 (4 * i + 7)) (ss 1)
  ⟨k, ss⟩

/-- Loading `n` key words into the reversed schedule:
`cx->ks[v(nn,(j))] = ss[j] = word_in(key, j)` for `j < n`. -/
def key_in_rev (key : List Nat) (nn : Nat) (n : Nat) (st : KSt) : KSt :=
  match n with
  | 0 => st
  | j + 1 =>
    let st := key_in_rev key nn j st
    ⟨upd st.k (v nn j) (word_in key j), upd st.ss j (word_in key j)⟩

/-- Loading key word `j` through the inverse MixColumn:
`cx->ks[v(nn,(j))] = ff(ss[j] = word_in(key, j))`. -/
def key_in_ff (key : List Nat) (nn : Nat) (j : Nat) (st : KSt) : KSt :=
  ⟨upd st.k (v nn j) (ff (word_in key j)), upd st.ss j (word_in key j)⟩

/-- The function `aes_decrypt_key128`. -/
def aes_decrypt_key128 (key : List Nat) (cx : aes_ctx) : aes_ctx :=
  let st := key_in_rev key 40 4 ⟨cx.ks, Arr.zero⟩
  let st := kd4 1 (kdf4 0 st)
  let st := kd4 3 (kd4 2 st)
  let st := kd4 5 (kd4 4 st)
  let st := kd4 7 (kd4 6 st)
  let st := kdl4 9 (kd4 8 st)
  { cx with ks := st.k, inf_b0 := 10 * 16 }

/-- The macro `kdf6(k,i)`. -/
def kdf6 (i : Nat) (st : KSt) : KSt :=
  let k := st.k
  let ss := st.ss
  let ss := upd ss 0 (ss 0 ^^^ (ls_box (ss 5) 3 ^^^ t_rc i))
  let k := upd k (v 48 (6 * i + 6)) (ff (ss 0))
  let ss := upd ss 1 (ss 1 ^^^ ss 0)
  let k := upd k (v 48 (6 * i + 7)) (ff (ss 1))
  let ss := upd ss 2 (ss 2 ^^^ ss 1)
  let k := upd k (v 48 (6 * i + 8)) (ff (ss 2))
  let ss := upd ss 3 (ss 3 ^^^ ss 2)
  let k := upd k (v 48 (6 * i + 9)) (ff (ss 3))
  let ss := upd ss 4 (ss 4 ^^^ ss 3)
  let k := upd k (v 48 (6 * i + 10)) (ff (ss 4))
  let ss := upd ss 5 (ss 5 ^^^ ss 4)
  let k := upd k (v 48 (6 * i + 11)) (ff (ss 5))
  ⟨k, ss⟩

/-- The macro `kd6(k,i)`. -/
def kd6 (i : Nat) (st : KSt) : KSt :=
  let k := st.k
  let ss := st.ss
  let ss := upd ss 6 (ls_box (ss 5) 3 ^^^ t_rc i)
  let ss := upd ss 0 (ss 0 ^^^ ss 6)
  let ss := upd ss 6 (ff (ss 6))
  let ss := upd ss 6 (ss 6 ^^^ k (v 48 (6 * i)))
  let k := upd k (v 48 (6 * i + 6)) (ss 6)
  let ss := upd ss 1 (ss 1 ^^^ ss 0)
  let ss := upd ss 6 (ss 6 ^^^ k (v 48 (6 * i + 1)))
  let k := upd k (v 48 (6 * i + 7)) (ss 6)
  let ss := upd ss 2 (ss 2 ^^^ ss 1)
  let ss := upd ss 6 (ss 6 ^^^ k (v 48 (6 * i + 2)))
  let k := upd k (v 48 (6 * i + 8)) (ss 6)
  let ss := upd ss 3 (ss 3 ^^^ ss 2)
  let ss := upd ss 6 (ss 6 ^^^ k (v 48 (6 * i + 3)))
  let k := upd k (v 48 (6 * i + 9)) (ss 6)
  let ss := upd ss 4 (ss 4 ^^^ ss 3)
  let ss := upd ss 6 (ss 6 ^^^ k (v 48 (6 * i + 4)))
  let k := upd k (v 48 (6 * i + 10)) (ss 6)
  let ss := upd ss 5 (ss 5 ^^^ ss 4)
  let ss := upd ss 6 (ss 6 ^^^ k (v 48 (6 * i + 5)))
  let k := upd k (v 48 (6 * i + 11)) (ss 6)
  ⟨k, ss⟩

/-- The macro `kdl6(k,i)`. -/
def kdl6 (i : Nat) (st : KSt) : KSt :=
  let k := st.k
  let ss := st.ss
  let ss := upd ss 0 (ss 0 ^^^ (ls_box (ss 5) 3 ^^^ t_rc i))
  let k := upd k (v 48 (6 * i + 6)) (ss 0)
  let ss := upd ss 1 (ss 1 ^^^ ss 0)
  let k := upd k (v 48 (6 * i + 7)) (ss 1)
  let ss := upd ss 2 (ss 2 ^^^ ss 1)
  let k := upd k (v 48 (6 * i + 8)) (ss 2)
  let ss := upd ss 3 (ss 3 ^^^ ss 2)
  let k := upd k (v 48 (6 * i + 9)) (ss 3)
  ⟨k, ss⟩

/-- The function `aes_decrypt_key192`. -/
def aes_decrypt_key192 (key : List Nat) (cx : aes_ctx) : aes_ctx :=
  let st := key_in_rev key 48 4 ⟨cx.ks, Arr.zero⟩
  let st := key_in_ff key 48 4 st
  let st := key_in_ff key 48 5 st
  let st := kd6 1 (kdf6 0 st)
  let st := kd6 3 (kd6 2 st)
  let st := kd6 5 (kd6 4 st)
  let st := kdl6 7 (kd6 6 st)
  { cx with ks := st.k, inf_b0 := 12 * 16 }

/-- The macro `kdf8(k,i)`. -/
def kdf8 (i : Nat) (st : KSt) : KSt :=
  let k := st.k
  let ss := st.ss
  let ss := upd ss 0 (ss 0 ^^^ (ls_box (ss 7) 3 ^^^ t_rc i))
  let k := upd k (v 56 (8 * i + 8)) (ff (ss 0))
  let ss := upd ss 1 (ss 1 ^^^ ss 0)
  let k := upd k (v 56 (8 * i + 9)) (ff (ss 1))
  let ss := upd ss 2 (ss 2 ^^^ ss 1)
  let k := upd k (v 56 (8 * i + 10)) (ff (ss 2))
  let ss := upd ss 3 (ss 3 ^^^ ss 2)
  let k := upd k (v 56 (8 * i + 11)) (ff (ss 3))
  let ss := upd ss 4 (ss 4 ^^^ ls_box (ss 3) 0)
  let k := upd k (v 56 (8 * i + 12)) (ff (ss 4))
  let ss := upd ss 5 (ss 5 ^^^ ss 4)
  let k := upd k (v 56 (8 * i + 13)) (ff (ss 5))
  let ss := upd ss 6 (ss 6 ^^^ ss 5)
  let k := upd k (v 56 (8 * i + 14)) (ff (ss 6))
  let ss := upd ss 7 (ss 7 ^^^ ss 6)
  let k := upd k (v 56 (8 * i + 15)) (ff (ss 7))
  ⟨k, ss⟩

/-- The macro `kd8(k,i)`. -/
def kd8 (i : Nat) (st : KSt) : KSt :=
  let k := st.k
  let ss := st.ss
  let ss := upd ss 8 (ls_box (ss 7) 3 ^^^ t_rc i)
  let ss := upd ss 0 (ss 0 ^^^ ss 8)
  let ss := upd ss 8 (ff (ss 8))
  let ss := upd ss 8 (ss 8 ^^^ k (v 56 (8 * i)))
  let k := upd k (v 56 (8 * i + 8)) (ss 8)
  let ss := upd ss 1 (ss 1 ^^^ ss 0)
  let ss := upd ss 8 (ss 8 ^^^ k (v 56 (8 * i + 1)))
  let k := upd k (v 56 (8 * i + 9)) (ss 8)
  let ss := upd ss 2 (ss 2 ^^^ ss 1)
  let ss := upd ss 8 (ss 8 ^^^ k (v 56 (8 * i + 2)))
  let k := upd k (v 56 (8 * i + 10)) (ss 8)
  let ss := upd ss 3 (ss 3 ^^^ ss 2)
  let ss := upd ss 8 (ss 8 ^^^ k (v 56 (8 * i + 3)))
  let k := upd k (v 56 (8 * i + 11)) (ss 8)
  let ss := upd ss 8 (ls_box (ss 3) 0)
  let ss := upd ss 4 (ss 4 ^^^ ss 8)
  let ss := upd ss 8 (ff (ss 8))
  let ss := upd ss 8 (ss 8 ^^^ k (v 56 (8 * i + 4)))
  let k := upd k (v 56 (8 * i + 12)) (ss 8)
  let ss := upd ss 5 (ss 5 ^^^ ss 4)
  let ss := upd ss 8 (ss 8 ^^^ k (v 56 (8 * i + 5)))
  let k := upd k (v 56 (8 * i + 13)) (ss 8)
  let ss := upd ss 6 (ss 6 ^^^ ss 5)
  let ss := upd ss 8 (ss 8 ^^^ k (v 56 (8 * i + 6)))
  let k := upd k (v 56 (8 * i + 14)) (ss 8)
  let ss := upd ss 7 (ss 7 ^^^ ss 6)
  let ss := upd ss 8 (ss 8 ^^^ k (v 56 (8 * i + 7)))
  let k := upd k (v 56 (8 * i + 15)) (ss 8)
  ⟨k, ss⟩

/-- The macro `kdl8(k,i)`. -/
def kdl8 (i : Nat) (st : KSt) : KSt :=
  let k := st.k
  let ss := st.ss
  let ss := upd ss 0 (ss 0 ^^^ (ls_box (ss 7) 3 ^^^ t_rc i))
  let k := upd k (v 56 (8 * i + 8)) (ss 0)
  let ss := upd ss 1 (ss 1 ^^^ ss 0)
  let k := upd k (v 56 (8 * i + 9)) (ss 1)
  let ss := upd ss 2 (ss 2 ^^^ ss 1)
  let k := upd k (v 56 (8 * i + 10)) (ss 2)
  let ss := upd ss 3 (ss 3 ^^^ ss 2)
  let k := upd k (v 56 (8 * i + 11)) (ss 3)
  ⟨k, ss⟩

/-- The function `aes_decrypt_key256`. -/
def aes_decrypt_key256 (key : List Nat) (cx : aes_ctx) : aes_ctx :=
  let st := key_in_rev key 56 4 ⟨cx.ks, Arr.zero⟩
  let st := key_in_ff key 56 4 st
  let st := key_in_ff key 56 5 st
  let st := key_in_ff key 56 6 st
  let st := key_in_ff key 56 7 st
  let st := kd8 1 (kdf8 0 st)
  let st := kd8 3 (kd8 2 st)
  let st := kd8 5 (kd8 4 st)
  let st := kdl8 6 st
  { cx with ks := st.k, inf_b0 := 14 * 16 }

/-- The function `aes_decrypt_key`: dispatch on the key length, given in bytes
or in bits; any other length falls out of the switch and changes nothing. -/
def aes_decrypt_key (key : List Nat) (key_len : Nat) (cx : aes_ctx) : aes_ctx :=
  if key_len = 16 ∨ key_len = 128 then aes_decrypt_key128 key cx
  else if key_len = 24 ∨ key_len = 192 then aes_decrypt_key192 key cx
  else if key_len = 32 ∨ key_len = 256 then aes_decrypt_key256 key cx
  else cx

/-! ## Block decryption -/

/-- The macro `inv_var(x,r,c)`: the state word feeding row `r` of column `c`
of an inverse round. -/
def inv_var (x : Arr) (r c : Nat) : Nat :=
  if r = 0 then (if c = 0 then x 0 else if c = 1 then x 1 else if c = 2 then x 2 else x 3)
  else if r = 1 then (if c = 0 then x 3 else if c = 1 then x 0 else if c = 2 then x 1 else x 2)
  else if r = 2 then (if c = 0 then x 2 else if c = 1 then x 3 else if c = 2 then x 0 else x 1)
  else (if c = 0 then x 1 else if c = 1 then x 2 else if c = 2 then x 3 else x 0)

/-- The macro `inv_rnd(y,x,k,c)`, with the round key at `ks + kp`. -/
def inv_rnd (y x ks : Arr) (kp c : Nat) : Arr :=
  upd y c (ks (kp + c) ^^^ four_tables x t_in inv_var rf1 c)

/-- The macro `inv_lrnd(y,x,k,c)`, with the round key at `ks + kp`. -/
def inv_lrnd (y x ks : Arr) (kp c : Nat) : Arr :=
  upd y c (ks (kp + c) ^^^ four_tables x t_il inv_var rf1 c)

/-- The macro `key_ofs`, which is 0 in aes.c. -/
def key_ofs : Nat := 0

/-- The macro `rnd_key(n)`, `kp + n * N_COLS`, for the round keys at and
below `kp` (`n` is zero or negative in `aes_decrypt`). -/
def rnd_key (kp : Nat) (n : Int) : Nat := ((kp : Int) + n * (N_COLS : Int)).toNat

/-- Two inverse rounds with the round keys `rnd_key(-m)` and `rnd_key(-m+1)`:
the body of `case 14 * 16` (`m = 13`) and of `case 12 * 16` (`m = 11`) in
`aes_decrypt`. -/
def dec_two (ks : Arr) (m : Int) (s : RSt) : RSt :=
  let b1 := round inv_rnd s.b1 s.b0 ks (rnd_key s.kp (-m))
  let b0 := round inv_rnd s.b0 b1 ks (rnd_key s.kp (-m + 1))
  ⟨b0, b1, s.kp⟩

/-- Nine inverse rounds and the last round: the body of `case 10 * 16` in
`aes_decrypt`. -/
def dec_ten (ks : Arr) (s : RSt) : RSt :=
  let b1 := round inv_rnd s.b1 s.b0 ks (rnd_key s.kp (-9))
  let b0 := round inv_rnd s.b0 b1 ks (rnd_key s.kp (-8))
  let b1 := round inv_rnd b1 b0 ks (rnd_key s.kp (-7))
  let b0 := round inv_rnd b0 b1 ks (rnd_key s.kp (-6))
  let b1 := round inv_rnd b1 b0 ks (rnd_key s.kp (-5))
  let b0 := round inv_rnd b0 b1 ks (rnd_key s.kp (-4))
  let b1 := round inv_rnd b1 b0 ks (rnd_key s.kp (-3))
  let b0 := round inv_rnd b0 b1 ks (rnd_key s.kp (-2))
  let b1 := round inv_rnd b1 b0 ks (rnd_key s.kp (-1))
  let b0 := round inv_lrnd b0 b1 ks (rnd_key s.kp 0)
  ⟨b0, b1, s.kp⟩

/-- The function `aes_decrypt`: one block through the decryption schedule of
`cx`.  The block is first added to the words at `ks` (`key_ofs` is 0), then
`kp` is moved to `ks + (inf.b[0] >> 2)` and the switch falls through as in
`aes_encrypt`. -/
def aes_decrypt (inp : List Nat) (cx : aes_ctx) : List Nat :=
  let kp := if key_ofs ≠ 0 then cx.inf_b0 >>> 2 else 0
  let b0 := state_in Arr.zero inp cx.ks kp
  let kp := if key_ofs ≠ 0 then 0 else cx.inf_b0 >>> 2
  let s : RSt := ⟨b0, Arr.zero, kp⟩
  let s :=
    if cx.inf_b0 = 14 * 16 then dec_ten cx.ks (dec_two cx.ks 11 (dec_two cx.ks 13 s))
    else if cx.inf_b0 = 12 * 16 then dec_ten cx.ks (dec_two cx.ks 11 s)
    else if cx.inf_b0 = 10 * 16 then dec_ten cx.ks s
    else s
  state_out s.b0

/-! ## The SILC cipher API for AES -/

/-- The mode `SILC_CIPHER_MODE_ECB` of silccipher.h. -/
def SILC_CIPHER_MODE_ECB : Nat := 1
/-- The mode `SILC_CIPHER_MODE_CBC` of silccipher.h. -/
def SILC_CIPHER_MODE_CBC : Nat := 2
/-- The mode `SILC_CIPHER_MODE_CTR` of silccipher.h. -/
def SILC_CIPHER_MODE_CTR : Nat := 3
/-- The mode `SILC_CIPHER_MODE_CFB` of silccipher.h. -/
def SILC_CIPHER_MODE_CFB : Nat := 4
/-- The mode `SILC_CIPHER_MODE_OFB` of silccipher.h. -/
def SILC_CIPHER_MODE_OFB : Nat := 5

/-- Where a call reads its source bytes: a buffer of its own, or the
destination buffer itself ("source and destination buffers maybe one and
same"). -/
inductive Src where
  | buf (m : List Nat)
  | same

/-- The byte `src[j]`, given the current contents of the destination. -/
def rd (src : Src) (dst : Arr) (j : Nat) : Nat :=
  match src with
  | Src.buf m => m.getD j 0
  | Src.same => dst j

/-- The sixteen bytes at `src + j`. -/
def rd_block (src : Src) (dst : Arr) (j : Nat) : List Nat :=
  (List.range 16).map fun t => rd src dst (j + t)

/-- Storing the sixteen bytes `b` at `dst + j`. -/
def wr_block (dst : Arr) (j : Nat) (b : List Nat) : Arr :=
  ⟨fun i => if j ≤ i ∧ i < j + 16 then b.getD (i - j) 0 else dst i⟩

/-- The XOR of two sixteen-byte buffers, as done through `lp32` on their four
32-bit words. -/
def xor_block (a b : List Nat) : List Nat :=
  (List.range 16).map fun t => a.getD t 0 ^^^ b.getD t 0

/-- What a call of the cipher API can read and change: the `AesContext`, the
`iv` buffer it is given, the keystream buffer `cipher->block` and the memory
at `dst`. -/
structure SilcSt where
  cx : aes_ctx
  iv : List Nat
  block : List Nat
  dst : Arr

/-- The function `silc_aes_set_key` (`SILC_CIPHER_API_SET_KEY(aes)`): the
result and the context after the call. -/
def silc_aes_set_key (mode : Nat) (cx : aes_ctx) (key : List Nat) (keylen : Nat)
    (encryption : Bool) : Bool × aes_ctx :=
  if mode = SILC_CIPHER_MODE_CTR ∨ mode = SILC_CIPHER_MODE_CFB then
    (true, aes_encrypt_key key keylen cx)
  else if mode = SILC_CIPHER_MODE_CBC ∨ mode = SILC_CIPHER_MODE_ECB then
    (true, if encryption then aes_encrypt_key key keylen cx else aes_decrypt_key key keylen cx)
  else (false, cx)

/-- The function `silc_aes_set_iv` (`SILC_CIPHER_API_SET_IV(aes)`): in CTR and
CFB mode the cursor `inf.b[2]` is set to 16, which starts a new block.  The
argument `iv` (`none` for a null pointer) is not looked at. -/
def silc_aes_set_iv (mode : Nat) (cx : aes_ctx) (_iv : Option (List Nat)) : aes_ctx :=
  if mode = SILC_CIPHER_MODE_CTR ∨ mode = SILC_CIPHER_MODE_CFB then { cx with inf_b2 := 16 }
  else cx

/-- The function `silc_aes_init` (`SILC_CIPHER_API_INIT(aes)`): the context
that its body allocates with `silc_calloc` and prepares, `none` when the
allocation fails.  This is the value of the local `aes` at the closing brace;
the body has no `return` statement. -/
def silc_aes_init (alloc_ok : Bool) : Option aes_ctx :=
  if alloc_ok then some { ks := Arr.zero, inf_b0 := 0, inf_b2 := 16 } else none

/-- The counter increment `for (i = 15; i >= 0; i--) if (++iv[i]) break;`,
with `n` the number of bytes still to visit (byte `n - 1` is next). -/
def ctr_inc (iv : List Nat) : Nat → List Nat
  | 0 => iv
  | i + 1 =>
    let b := (iv.getD i 0 + 1) % 256
    if b ≠ 0 then iv.set i b else ctr_inc (iv.set i b) i

/-- Modelled from the spec: the macro `SILC_CTR_MSB_128_8(iv, block, pad, src,
dst, enc)` of the absent silccipher_i.h, with `pad` the cursor `inf.b[2]`:
`while (len-- > 0) { if (pad == 16) { increment iv as an MSB-first counter;
enc; pad = 0; } *dst++ = *src++ ^ block[pad++]; }`.  The index `j` is how far
`src` and `dst` have advanced. -/
def SILC_CTR_MSB_128_8 (src : Src) : Nat → Nat → SilcSt → SilcSt
  | 0, _, s => s
  | len + 1, j, s =>
    let s : SilcSt :=
      if s.cx.inf_b2 = 16 then
        let iv := ctr_inc s.iv 16
        { s with iv := iv, block := aes_encrypt iv s.cx, cx := { s.cx with inf_b2 := 0 } }
      else s
    let s : SilcSt :=
      { s with dst := upd s.dst j (rd src s.dst j ^^^ s.block.getD s.cx.inf_b2 0),
               cx := { s.cx with inf_b2 := (s.cx.inf_b2 + 1) % 256 } }
    SILC_CTR_MSB_128_8 src len (j + 1) s

/-- Modelled from the spec: the macro `SILC_CFB_ENC_MSB_128_8(iv, pad, src,
dst, enc)` of the absent silccipher_i.h: `while (len-- > 0) { if (pad == 16)
{ enc; pad = 0; } iv[pad] = (*dst = *src ^ iv[pad]); dst++; src++; pad++; }`. -/
def SILC_CFB_ENC_MSB_128_8 (src : Src) : Nat → Nat → SilcSt → SilcSt
  | 0, _, s => s
  | len + 1, j, s =>
    let s : SilcSt :=
      if s.cx.inf_b2 = 16 then
        { s with iv := aes_encrypt s.iv s.cx, cx := { s.cx with inf_b2 := 0 } }
      else s
    let c := rd src s.dst j ^^^ s.iv.getD s.cx.inf_b2 0
    let s : SilcSt :=
      { s with dst := upd s.dst j c, iv := s.iv.set s.cx.inf_b2 c,
               cx := { s.cx with inf_b2 := (s.cx.inf_b2 + 1) % 256 } }
    SILC_CFB_ENC_MSB_128_8 src len (j + 1) s

/-- Modelled from the spec: the macro `SILC_CFB_DEC_MSB_128_8(iv, pad, src,
dst, enc)` of the absent silccipher_i.h: `while (len-- > 0) { if (pad == 16)
{ enc; pad = 0; } temp = *src; *dst = temp ^ iv[pad]; iv[pad++] = temp;
dst++; src++; }`. -/
def SILC_CFB_DEC_MSB_128_8 (src : Src) : Nat → Nat → SilcSt → SilcSt
  | 0, _, s => s
  | len + 1, j, s =>
    let s : SilcSt :=
      if s.cx.inf_b2 = 16 then
        { s with iv := aes_encrypt s.iv s.cx, cx := { s.cx with inf_b2 := 0 } }
      else s
    let temp := rd src s.dst j
    let s : SilcSt :=
      { s with dst := upd s.dst j (temp ^^^ s.iv.getD s.cx.inf_b2 0),
               iv := s.iv.set s.cx.inf_b2 temp,
               cx := { s.cx with inf_b2 := (s.cx.inf_b2 + 1) % 256 } }
    SILC_CFB_DEC_MSB_128_8 src len (j + 1) s

/-- The ECB loop of `silc_aes_encrypt`:
`while (nb--) { aes_encrypt(src, dst, ...); src += 16; dst += 16; }`. -/
def ecb_encrypt_loop (src : Src) : Nat → Nat → SilcSt → SilcSt
  | 0, _, s => s
  | nb + 1, j, s =>
    ecb_encrypt_loop src nb (j + 16)
      { s with dst := wr_block s.dst j (aes_encrypt (rd_block src s.dst j) s.cx) }

/-- The CBC loop of `silc_aes_encrypt`: `while (nb--) { iv ^= src block;
aes_encrypt(iv, iv, ...); memcpy(dst, iv, 16); src += 16; dst += 16; }`. -/
def cbc_encrypt_loop (src : Src) : Nat → Nat → SilcSt → SilcSt
  | 0, _, s => s
  | nb + 1, j, s =>
    let iv := xor_block s.iv (rd_block src s.dst j)
    let iv := aes_encrypt iv s.cx
    cbc_encrypt_loop src nb (j + 16) { s with iv := iv, dst := wr_block s.dst j iv }

/-- The function `silc_aes_encrypt` (`SILC_CIPHER_API_ENCRYPT(aes)`): the
result and the state after the call.  Modelled from the spec: `SILC_ASSERT`
(not under src/) does not take control out of the call, failures are reported
through the result. -/
def silc_aes_encrypt (mode : Nat) (s : SilcSt) (src : Src) (len : Nat) : Bool × SilcSt :=
  if mode = SILC_CIPHER_MODE_CTR then
    (true, SILC_CTR_MSB_128_8 src len 0 s)
  else if mode = SILC_CIPHER_MODE_ECB then
    let nb := len >>> 4
    (true, ecb_encrypt_loop src nb 0 s)
  else if mode = SILC_CIPHER_MODE_CBC then
    let nb := len >>> 4
    if len &&& (16 - 1) ≠ 0 then (false, s)
    else (true, cbc_encrypt_loop src nb 0 s)
  else if mode = SILC_CIPHER_MODE_CFB then
    (true, SILC_CFB_ENC_MSB_128_8 src len 0 s)
  else (false, s)

/-- The ECB loop of `silc_aes_decrypt`:
`while (nb--) { aes_decrypt(src, dst, ...); src += 16; dst += 16; }`. -/
def ecb_decrypt_loop (src : Src) : Nat → Nat → SilcSt → SilcSt
  | 0, _, s => s
  | nb + 1, j, s =>
    ecb_decrypt_loop src nb (j + 16)
      { s with dst := wr_block s.dst j (aes_decrypt (rd_block src s.dst j) s.cx) }

/-- The CBC loop of `silc_aes_decrypt`: `while (nb--) { memcpy(tmp, src, 16);
aes_decrypt(src, dst, ...); dst block ^= iv; memcpy(iv, tmp, 16); src += 16;
dst += 16; }`. -/
def cbc_decrypt_loop (src : Src) : Nat → Nat → SilcSt → SilcSt
  | 0, _, s => s
  | nb + 1, j, s =>
    let tmp := rd_block src s.dst j
    let dst := wr_block s.dst j (aes_decrypt (rd_block src s.dst j) s.cx)
    let dst := wr_block dst j (xor_block (rd_block Src.same dst j) s.iv)
    cbc_decrypt_loop src nb (j + 16) { s with iv := tmp, dst := dst }

/-- The function `silc_aes_decrypt` (`SILC_CIPHER_API_DECRYPT(aes)`): the
result and the state after the call. -/
def silc_aes_decrypt (mode : Nat) (s : SilcSt) (src : Src) (len : Nat) : Bool × SilcSt :=
  if mode = SILC_CIPHER_MODE_CTR then
    silc_aes_encrypt mode s src len
  else if mode = SILC_CIPHER_MODE_ECB then
    let nb := len >>> 4
    (true, ecb_decrypt_loop src nb 0 s)
  else if mode = SILC_CIPHER_MODE_CBC then
    let nb := len >>> 4
    if len &&& (16 - 1) ≠ 0 then (false, s)
    else (true, cbc_decrypt_loop src nb 0 s)
  else if mode = SILC_CIPHER_MODE_CFB then
    (true, SILC_CFB_DEC_MSB_128_8 src len 0 s)
  else (false, s)

/-- The first `len` bytes of a buffer. -/
def bytes (a : Arr) (len : Nat) : List Nat := (List.range len).map a.get


/-! ## Reference forms used in the proofs -/

/-- Two state arrays hold the same four words. -/
def Eq4 (x y : Arr) : Prop := ∀ c, c < 4 → x c = y c

/-- Two state arrays hold the same sixteen bytes (the low 32 bits of each of
the four words agree). -/
def Ag (t x : Arr) : Prop := ∀ c, c < 4 → ∀ n, n < 4 → bval (t c) n = bval (x c) n

/-- One table round on a whole state, with the round key at `ks + kp`: what
`round(rm,y,x,k)` leaves in the four words of `y`. -/
def rnd (tab : Nat → Nat → Nat) (vf : Arr → Nat → Nat → Nat) (ks : Arr) (kp : Nat) (x : Arr) :
    Arr :=
  ⟨fun c => ks (kp + c) ^^^ four_tables x tab vf rf1 c⟩

/-- The first `n` table rounds after the state was loaded, with the round
keys at `ks + kp + 4`, `ks + kp + 8`, and so on. -/
def rnds (tab : Nat → Nat → Nat) (vf : Arr → Nat → Nat → Nat) (ks : Arr) (kp : Nat) :
    Nat → Arr → Arr
  | 0, x => x
  | n + 1, x => rnd tab vf ks (kp + 4 * (n + 1)) (rnds tab vf ks kp n x)

/-- SubBytes and ShiftRows of a state: the last-round table probe of
`fwd_lrnd` without its round key. -/
def SR (x : Arr) : Arr := ⟨fun c => four_tables x t_fl fwd_var rf1 c⟩

/-- The schedule `d` is the decryption schedule of the encryption schedule
`e` for `nr` rounds: round key `r` of `e` sits at round `nr - r` of `d`, and
went through the inverse MixColumn unless it is the first or the last. -/
def DecOf (nr : Nat) (d e : Arr) : Prop :=
  ∀ r, r ≤ nr → ∀ c, c < 4 →
    d (4 * (nr - r) + c) = if r = 0 ∨ r = nr then e (4 * r + c) else ff (e (4 * r + c))

/-- Every entry of a byte buffer is a byte. -/
def IsBytes (l : List Nat) : Prop := ∀ b, b ∈ l → b < 256


/-- The expansion step of a 128-bit key at round `i`, as a relation between
the words of a schedule `e`. -/
def Rec4 (e : Arr) (i : Nat) : Prop :=
  e (4 * i + 4) = e (4 * i) ^^^ (ls_box (e (4 * i + 3)) 3 ^^^ t_rc i) ∧
  e (4 * i + 5) = e (4 * i + 1) ^^^ e (4 * i + 4) ∧
  e (4 * i + 6) = e (4 * i + 2) ^^^ e (4 * i + 5) ∧
  e (4 * i + 7) = e (4 * i + 3) ^^^ e (4 * i + 6)

/-- The words that `aes_encrypt_key128` has written after `i` calls of
`ke4`: the key, and one expansion step per call. -/
def Exp4 (key : List Nat) (e : Arr) (i : Nat) : Prop :=
  (∀ c, c < 4 → e c = word_in key c) ∧ ∀ r, r < i → Rec4 e r

/-- What `aes_decrypt_key128` holds after the step for round `i`, relative to
the encryption schedule `e`: rounds 0 to `i` are stored in reverse order, all
but round 0 through the inverse MixColumn, and `ss` holds the four running
XORs of round `i`, rotated by `i`. -/
def Dec4 (e : Arr) (i : Nat) (D : KSt) : Prop :=
  (∀ r, r ≤ i → ∀ c, c < 4 →
    D.k (40 - 4 * r + c) = if r = 0 then e (4 * r + c) else ff (e (4 * r + c))) ∧
  D.ss ((i + 3) % 4) = e (4 * i + 3) ∧
  D.ss (i % 4) = e (4 * i) ^^^ e (4 * i + 1) ^^^ e (4 * i + 2) ^^^ e (4 * i + 3) ∧
  D.ss ((i + 1) % 4) = e (4 * i + 1) ^^^ e (4 * i + 3) ∧
  D.ss ((i + 2) % 4) = e (4 * i + 2) ^^^ e (4 * i + 3)

/-- The first four words of the expansion step of a 192-bit key at step `i`
(what `kef6` writes). -/
def Rec6f (e : Arr) (i : Nat) : Prop :=
  e (6 * i + 6) = e (6 * i) ^^^ (ls_box (e (6 * i + 5)) 3 ^^^ t_rc i) ∧
  e (6 * i + 7) = e (6 * i + 1) ^^^ e (6 * i + 6) ∧
  e (6 * i + 8) = e (6 * i + 2) ^^^ e (6 * i + 7) ∧
  e (6 * i + 9) = e (6 * i + 3) ^^^ e (6 * i + 8)

/-- The expansion step of a 192-bit key at step `i` (what `ke6` writes). -/
def Rec6 (e : Arr) (i : Nat) : Prop :=
  Rec6f e i ∧ e (6 * i + 10) = e (6 * i + 4) ^^^ e (6 * i + 9) ∧
  e (6 * i + 11) = e (6 * i + 5) ^^^ e (6 * i + 10)

/-- The words that `aes_encrypt_key192` has written after `i` calls of
`ke6`. -/
def Exp6 (key : List Nat) (e : Arr) (i : Nat) : Prop :=
  (∀ c, c < 6 → e c = word_in key c) ∧ ∀ r, r < i → Rec6 e r

/-- What `aes_decrypt_key192` holds after `i` steps, relative to the
encryption schedule `e`: the words below `6 * i + 6` are stored where `v`
puts them, all but the first four through the inverse MixColumn, and `ss`
holds the last six words. -/
def Dec6 (e : Arr) (i : Nat) (D : KSt) : Prop :=
  (∀ w, w < 6 * i + 6 → D.k (v 48 w) = if w < 4 then e w else ff (e w)) ∧
  ∀ c, c < 6 → D.ss c = e (6 * i + c)

/-- The first four words of the expansion step of a 256-bit key at step `i`
(what `kef8` writes). -/
def Rec8f (e : Arr) (i : Nat) : Prop :=
  e (8 * i + 8) = e (8 * i) ^^^ (ls_box (e (8 * i + 7)) 3 ^^^ t_rc i) ∧
  e (8 * i + 9) = e (8 * i + 1) ^^^ e (8 * i + 8) ∧
  e (8 * i + 10) = e (8 * i + 2) ^^^ e (8 * i + 9) ∧
  e (8 * i + 11) = e (8 * i + 3) ^^^ e (8 * i + 10)

/-- The expansion step of a 256-bit key at step `i` (what `ke8` writes). -/
def Rec8 (e : Arr) (i : Nat) : Prop :=
  Rec8f e i ∧ e (8 * i + 12) = e (8 * i + 4) ^^^ ls_box (e (8 * i + 11)) 0 ∧
  e (8 * i + 13) = e (8 * i + 5) ^^^ e (8 * i + 12) ∧
  e (8 * i + 14) = e (8 * i + 6) ^^^ e (8 * i + 13) ∧
  e (8 * i + 15) = e (8 * i + 7) ^^^ e (8 * i + 14)

/-- The words that `aes_encrypt_key256` has written after `i` calls of
`ke8`. -/
def Exp8 (key : List Nat) (e : Arr) (i : Nat) : Prop :=
  (∀ c, c < 8 → e c = word_in key c) ∧ ∀ r, r < i → Rec8 e r

/-- What `aes_decrypt_key256` holds after `i` steps, relative to the
encryption schedule `e`. -/
def Dec8 (e : Arr) (i : Nat) (D : KSt) : Prop :=
  (∀ w, w < 8 * i + 8 → D.k (v 56 w) = if w < 4 then e w else ff (e w)) ∧
  ∀ c, c < 8 → D.ss c = e (8 * i + c)

/-! ## Test data -/

/-- The all-zero context, as `silc_calloc` returns it. -/
def ctx0 : aes_ctx := ⟨Arr.zero, 0, 0⟩

/-- The 128-bit example key of FIPS-197, appendix C.1. -/
def fips_key128 : List Nat :=
  [0x00, 0x01, 0x02, 0x03, 0x04, 0x05, 0x06, 0x07, 0x08, 0x09, 0x0a, 0x0b, 0x0c, 0x0d, 0x0e, 0x0f]

/-- The 192-bit example key of FIPS-197, appendix C.2. -/
def fips_key192 : List Nat :=
  [0x00, 0x01, 0x02, 0x03, 0x04, 0x05, 0x06, 0x07, 0x08, 0x09, 0x0a, 0x0b, 0x0c, 0x0d, 0x0e, 0x0f,
   0x10, 0x11, 0x12, 0x13, 0x14, 0x15, 0x16, 0x17]

/-- The 256-bit example key of FIPS-197, appendix C.3. -/
def fips_key256 : List Nat :=
  [0x00, 0x01, 0x02, 0x03, 0x04, 0x05, 0x06, 0x07, 0x08, 0x09, 0x0a, 0x0b, 0x0c, 0x0d, 0x0e, 0x0f,
   0x10, 0x11, 0x12, 0x13, 0x14, 0x15, 0x16, 0x17, 0x18, 0x19, 0x1a, 0x1b, 0x1c, 0x1d, 0x1e, 0x1f]

/-- The example plaintext of FIPS-197, appendix C. -/
def fips_plain : List Nat :=
  [0x00, 0x11, 0x22, 0x33, 0x44, 0x55, 0x66, 0x77, 0x88, 0x99, 0xaa, 0xbb, 0xcc, 0xdd, 0xee, 0xff]

/-- The ciphertext of FIPS-197, appendix C.1 (AES-128). -/
def fips_cipher128 : List Nat :=
  [0x69, 0xc4, 0xe0, 0xd8, 0x6a, 0x7b, 0x04, 0x30, 0xd8, 0xcd, 0xb7, 0x80, 0x70, 0xb4, 0xc5, 0x5a]

/-- The ciphertext of FIPS-197, appendix C.2 (AES-192). -/
def fips_cipher192 : List Nat :=
  [0xdd, 0xa9, 0x7c, 0xa4, 0x86, 0x4c, 0xdf, 0xe0, 0x6e, 0xaf, 0x70, 0xa0, 0xec, 0x0d, 0x71, 0x91]

/-- The ciphertext of FIPS-197, appendix C.3 (AES-256). -/
def fips_cipher256 : List Nat :=
  [0x8e, 0xa2, 0xb7, 0xca, 0x51, 0x67, 0x45, 0xbf, 0xea, 0xfc, 0x49, 0x90, 0x4b, 0x49, 0x60, 0x89]

/-- A key length that `aes_encrypt_key` and `aes_decrypt_key` accept: 16, 24
or 32 bytes, or the same in bits. -/
def KeyLenOk (n : Nat) : Prop := n = 16 ∨ n = 24 ∨ n = 32 ∨ n = 128 ∨ n = 192 ∨ n = 256

/-- The round count that goes with a key length. -/
def rounds_of (key_len : Nat) : Nat :=
  if key_len = 16 ∨ key_len = 128 then 10 else if key_len = 24 ∨ key_len = 192 then 12 else 14

/-! ## Reference forms of the stream modes -/

/-- Storing a list of bytes at `dst + j`, one byte after the other. -/
def wr_list (dst : Arr) (j : Nat) : List Nat → Arr
  | [] => dst
  | b :: bs => wr_list (upd dst j b) (j + 1) bs

/-- What a stream mode carries from one byte to the next: the IV buffer, the
keystream block and the cursor. -/
structure Core where
  iv : List Nat
  block : List Nat
  pad : Nat

/-- The stream state held in a call state. -/
def core (s : SilcSt) : Core := ⟨s.iv, s.block, s.cx.inf_b2⟩

/-- The call state `s` with a new stream state and new destination memory. -/
def uncore (s : SilcSt) (c : Core) (dst : Arr) : SilcSt :=
  ⟨{ s.cx with inf_b2 := c.pad }, c.iv, c.block, dst⟩

/-- One byte of CTR mode over the block function `E`: the output byte and the
next stream state. -/
def ctr_byte (E : List Nat → List Nat) (c : Core) (b : Nat) : Nat × Core :=
  let c : Core := if c.pad = 16 then ⟨ctr_inc c.iv 16, E (ctr_inc c.iv 16), 0⟩ else c
  (b ^^^ c.block.getD c.pad 0, ⟨c.iv, c.block, (c.pad + 1) % 256⟩)

/-- One byte of CFB encryption over the block function `E`. -/
def cfb_enc_byte (E : List Nat → List Nat) (c : Core) (b : Nat) : Nat × Core :=
  let c : Core := if c.pad = 16 then ⟨E c.iv, c.block, 0⟩ else c
  (b ^^^ c.iv.getD c.pad 0, ⟨c.iv.set c.pad (b ^^^ c.iv.getD c.pad 0), c.block, (c.pad + 1) % 256⟩)

/-- One byte of CFB decryption over the block function `E`. -/
def cfb_dec_byte (E : List Nat → List Nat) (c : Core) (b : Nat) : Nat × Core :=
  let c : Core := if c.pad = 16 then ⟨E c.iv, c.block, 0⟩ else c
  (b ^^^ c.iv.getD c.pad 0, ⟨c.iv.set c.pad b, c.block, (c.pad + 1) % 256⟩)

/-- A byte step run over a whole message: the output bytes and the last
stream state. -/
def stream (f : Core → Nat → Nat × Core) : Core → List Nat → List Nat × Core
  | c, [] => ([], c)
  | c, b :: bs => ((f c b).1 :: (stream f (f c b).2 bs).1, (stream f (f c b).2 bs).2)

/-- The block function of a context: `aes_encrypt` with its schedule. -/
def enc_of (cx : aes_ctx) : List Nat → List Nat := fun x => aes_encrypt x cx

/-- The block function of a context for decryption: `aes_decrypt` with its
schedule. -/
def dec_of (cx : aes_ctx) : List Nat → List Nat := fun x => aes_decrypt x cx

/-- Calling `silc_aes_encrypt` once per chunk, in order, on one instance; each
call is handed the chunk as its source, and the bytes it wrote are collected.
The result is the concatenated output and the state after the last call. -/
def encrypt_chunks (mode : Nat) : SilcSt → List (List Nat) → List Nat × SilcSt
  | s, [] => ([], s)
  | s, ch :: rest =>
    (bytes (silc_aes_encrypt mode s (Src.buf ch) ch.length).2.dst ch.length ++
        (encrypt_chunks mode (silc_aes_encrypt mode s (Src.buf ch) ch.length).2 rest).1,
      (encrypt_chunks mode (silc_aes_encrypt mode s (Src.buf ch) ch.length).2 rest).2)

/-- Calling `silc_aes_decrypt` once per chunk, in order, on one instance. -/
def decrypt_chunks (mode : Nat) : SilcSt → List (List Nat) → List Nat × SilcSt
  | s, [] => ([], s)
  | s, ch :: rest =>
    (bytes (silc_aes_decrypt mode s (Src.buf ch) ch.length).2.dst ch.length ++
        (decrypt_chunks mode (silc_aes_decrypt mode s (Src.buf ch) ch.length).2 rest).1,
      (decrypt_chunks mode (silc_aes_decrypt mode s (Src.buf ch) ch.length).2 rest).2)

/-- An instance after `silc_aes_set_key` and `silc_aes_set_iv`: the context
`cx` keyed and reset, with `iv` in the IV buffer. -/
def keyed (mode : Nat) (cx : aes_ctx) (key : List Nat) (keylen : Nat) (encryption : Bool)
    (iv block : List Nat) (dst : Arr) : SilcSt :=
  ⟨silc_aes_set_iv mode (silc_aes_set_key mode cx key keylen encryption).2 (some iv), iv, block,
    dst⟩

/-- The caller puts `iv0` back into the IV buffer of an instance and calls
`silc_aes_set_iv` on it, with the argument `ivarg` (`none` for a null
pointer). -/
def reset_iv (mode : Nat) (s : SilcSt) (iv0 : List Nat) (ivarg : Option (List Nat)) : SilcSt :=
  ⟨silc_aes_set_iv mode s.cx ivarg, iv0, s.block, s.dst⟩

/-- Block `i` of a byte buffer: the sixteen bytes from offset `16 * i` on. -/
def blk (m : List Nat) (i : Nat) : List Nat :=
  (List.range 16).map fun t => m.getD (16 * i + t) 0

/-- The chaining values of CBC encryption over the block function `E`:
the IV, then each ciphertext block. -/
def cbc_chain (E : List Nat → List Nat) (m iv : List Nat) : Nat → List Nat
  | 0 => iv
  | i + 1 => E (xor_block (cbc_chain E m iv i) (blk m i))

/-- The value of a byte string read as an MSB-first integer. -/
def be_val (l : List Nat) : Nat := l.foldl (fun a b => a * 256 + b) 0

/-- The `k` low bytes of `n`, MSB first. -/
def be_bytes : Nat → Nat → List Nat
  | 0, _ => []
  | k + 1, n => be_bytes k (n / 256) ++ [n % 256]

/-- The feedback register of CFB mode for block `b` of a ciphertext stream
`out`: the IV for the first block, ciphertext block `b - 1` after that. -/
def cfb_feedback (iv0 out : List Nat) (b : Nat) : List Nat :=
  if b = 0 then iv0 else blk out (b - 1)

/-- What the CFB stream state `c` holds once the ciphertext bytes `pre` went
through it: at cursor 16 the IV buffer is the feedback register of the next
block; at a cursor below 16 its first bytes are the ciphertext of the current
block and the rest is what is left of the encrypted feedback register. -/
def CfbInv (E : List Nat → List Nat) (iv0 pre : List Nat) (c : Core) : Prop :=
  (c.pad = 16 → pre.length % 16 = 0 ∧ c.iv = cfb_feedback iv0 pre (pre.length / 16)) ∧
  (c.pad ≠ 16 → c.pad = pre.length % 16 ∧ c.iv.length = 16 ∧
    (∀ t, t < c.pad → c.iv.getD t 0 = pre.getD (16 * (pre.length / 16) + t) 0) ∧
    ∀ t, c.pad ≤ t → t < 16 →
      c.iv.getD t 0 = (E (cfb_feedback iv0 pre (pre.length / 16))).getD t 0)

/-! ## The reference cipher of FIPS-197

Definitions that follow the standard, not the code: they are what the table-driven code is
compared with.  A state is a list of sixteen bytes, byte `r + 4 * c` being row `r` of
column `c`; a schedule word holds its four bytes (rows 0 to 3) from the low byte up. -/

/-- Reference: multiplication by `x` in GF(2^8) modulo `x^8 + x^4 + x^3 + x + 1`
(`xtime` of FIPS-197, 4.2.1). -/
def xtime (a : Nat) : Nat := if a < 128 then 2 * a else (2 * a) ^^^ 0x11b

/-- Reference: shift-and-add multiplication in GF(2^8) over the low `n` bits of `a`. -/
def gmul_aux : Nat → Nat → Nat → Nat
  | 0, _, _ => 0
  | n + 1, a, b => (if a % 2 = 1 then b else 0) ^^^ gmul_aux n (a / 2) (xtime b)

/-- Reference: multiplication of two bytes in GF(2^8). -/
def gmul (a b : Nat) : Nat := gmul_aux 8 a b

/-- Reference: the multiplicative inverse in GF(2^8), as the power 254; zero goes to zero. -/
def ginv (a : Nat) : Nat :=
  let a2 := gmul a a
  let a4 := gmul a2 a2
  let a8 := gmul a4 a4
  let a16 := gmul a8 a8
  let a32 := gmul a16 a16
  let a64 := gmul a32 a32
  let a128 := gmul a64 a64
  gmul a2 (gmul a4 (gmul a8 (gmul a16 (gmul a32 (gmul a64 a128)))))

/-- Reference: a byte rotated left by `k` bits. -/
def rotl8 (b k : Nat) : Nat := ((b <<< k) ||| (b >>> (8 - k))) % 256

/-- Reference: the S-box of FIPS-197, 5.1.1: the affine map over GF(2) applied to the
inverse in GF(2^8). -/
def sbox_ref (a : Nat) : Nat :=
  ginv a ^^^ rotl8 (ginv a) 1 ^^^ rotl8 (ginv a) 2 ^^^ rotl8 (ginv a) 3 ^^^ rotl8 (ginv a) 4
    ^^^ 0x63

/-- Reference: byte `r` of a word, counted from the low byte. -/
def word_byte (w r : Nat) : Nat := w / 256 ^ r % 256

/-- Reference: the word with the bytes `b0`, `b1`, `b2`, `b3` from the low byte up. -/
def pack_le (b0 b1 b2 b3 : Nat) : Nat := b0 + 256 * b1 + 65536 * b2 + 16777216 * b3

/-- Reference: `SubBytes`, the S-box on every byte of the state. -/
def SubBytes (s : List Nat) : List Nat :=
  (List.range 16).map fun i => sbox_ref (s.getD i 0)

/-- Reference: `ShiftRows`, row `r` rotated left by `r` columns. -/
def ShiftRows (s : List Nat) : List Nat :=
  (List.range 16).map fun i => s.getD (4 * ((i / 4 + i % 4) % 4) + i % 4) 0

/-- Reference: `MixColumns`, each column multiplied by the matrix with rows
`02 03 01 01` rotated. -/
def MixColumns (s : List Nat) : List Nat :=
  (List.range 16).map fun i =>
    gmul 2 (s.getD (4 * (i / 4) + i % 4) 0) ^^^ gmul 3 (s.getD (4 * (i / 4) + (i % 4 + 1) % 4) 0)
      ^^^ s.getD (4 * (i / 4) + (i % 4 + 2) % 4) 0 ^^^ s.getD (4 * (i / 4) + (i % 4 + 3) % 4) 0

/-- Reference: `AddRoundKey` with the four schedule words of round `round`. -/
def AddRoundKey (w : Arr) (round : Nat) (s : List Nat) : List Nat :=
  (List.range 16).map fun i => s.getD i 0 ^^^ word_byte (w (4 * round + i / 4)) (i % 4)

/-- Reference: `n` full rounds (`SubBytes`, `ShiftRows`, `MixColumns`, `AddRoundKey`),
with round keys 1 to `n`. -/
def cipher_rounds (w : Arr) : Nat → List Nat → List Nat
  | 0, s => s
  | n + 1, s => AddRoundKey w (n + 1) (MixColumns (ShiftRows (SubBytes (cipher_rounds w n s))))

/-- Reference: the cipher of FIPS-197, 5.1 with `nr` rounds: `AddRoundKey` with round key
0, `nr - 1` full rounds, and the last round without `MixColumns`. -/
def Cipher (nr : Nat) (w : Arr) (inp : List Nat) : List Nat :=
  AddRoundKey w nr (ShiftRows (SubBytes (cipher_rounds w (nr - 1) (AddRoundKey w 0 inp))))

/-- Reference: `RotWord` of FIPS-197, 5.2: the bytes `[a0, a1, a2, a3]` of a word become
`[a1, a2, a3, a0]`. -/
def RotWord (w : Nat) : Nat :=
  pack_le (word_byte w 1) (word_byte w 2) (word_byte w 3) (word_byte w 0)

/-- Reference: `SubWord` of FIPS-197, 5.2: the S-box on each byte of a word. -/
def SubWord (w : Nat) : Nat :=
  pack_le (sbox_ref (word_byte w 0)) (sbox_ref (word_byte w 1)) (sbox_ref (word_byte w 2))
    (sbox_ref (word_byte w 3))

/-- Reference: the round constant word with `x^j` in its low byte (`Rcon[j + 1]` in the
numbering of FIPS-197). -/
def Rcon (j : Nat) : Nat := pack_le (xtime^[j] 1) 0 0 0

/-- Reference: the word `t` that the key expansion XORs onto word `i - Nk` to get word
`i`. -/
def expansion_word (Nk : Nat) (ks : Arr) (i : Nat) : Nat :=
  if i % Nk = 0 then SubWord (RotWord (ks (i - 1))) ^^^ Rcon (i / Nk - 1)
  else if Nk = 8 ∧ i % 8 = 4 then SubWord (ks (i - 1))
  else ks (i - 1)

/-- Reference: `InvMixColumns` on one column held in a word: the column multiplied by the
matrix with rows `0e 0b 0d 09` rotated. -/
def InvMixColumn (w : Nat) : Nat :=
  pack_le
    (gmul 14 (word_byte w 0) ^^^ gmul 11 (word_byte w 1) ^^^ gmul 13 (word_byte w 2)
      ^^^ gmul 9 (word_byte w 3))
    (gmul 9 (word_byte w 0) ^^^ gmul 14 (word_byte w 1) ^^^ gmul 11 (word_byte w 2)
      ^^^ gmul 13 (word_byte w 3))
    (gmul 13 (word_byte w 0) ^^^ gmul 9 (word_byte w 1) ^^^ gmul 14 (word_byte w 2)
      ^^^ gmul 11 (word_byte w 3))
    (gmul 11 (word_byte w 0) ^^^ gmul 13 (word_byte w 1) ^^^ gmul 9 (word_byte w 2)
      ^^^ gmul 14 (word_byte w 3))

/-! ## Cursor and call sequences -/

/-- A call of the cipher API on one instance, with the arguments the caller
chooses.  For `set_iv` the caller first puts `iv0` into the IV buffer. -/
inductive Call where
  | set_key (key : List Nat) (keylen : Nat) (encryption : Bool)
  | set_iv (iv0 : List Nat) (ivarg : Option (List Nat))
  | encrypt (src : Src) (len : Nat)
  | decrypt (src : Src) (len : Nat)

/-- The instance after one call of the API in mode `mode`. -/
def call (mode : Nat) (s : SilcSt) : Call → SilcSt
  | Call.set_key key keylen encryption =>
    { s with cx := (silc_aes_set_key mode s.cx key keylen encryption).2 }
  | Call.set_iv iv0 ivarg => reset_iv mode s iv0 ivarg
  | Call.encrypt src len => (silc_aes_encrypt mode s src len).2
  | Call.decrypt src len => (silc_aes_decrypt mode s src len).2

/-- The instance after a sequence of calls, first call first. -/
def calls (mode : Nat) (s : SilcSt) (l : List Call) : SilcSt := l.foldl (call mode) s

/-- The condition of the `SILC_ASSERT` in the CBC branch of
`silc_aes_encrypt`: `(len & (16 - 1)) == 0`. -/
def cbc_length_assert (len : Nat) : Bool := (len &&& (16 - 1)) == 0

/-- Whether a `SILC_ASSERT` reached by `silc_aes_encrypt` holds: the CBC
branch has one, on the length; no other branch has any. -/
def silc_aes_encrypt_asserts (mode : Nat) (len : Nat) : Bool :=
  if mode = SILC_CIPHER_MODE_CBC then cbc_length_assert len else true

/-- Whether a `SILC_ASSERT` reached by `silc_aes_decrypt` holds: its body has
none in any branch (the CTR branch goes through `silc_aes_encrypt`, whose CTR
branch has none either). -/
def silc_aes_decrypt_asserts (_mode : Nat) (_len : Nat) : Bool := true

/-- What the body of `silc_aes_init` hands to its caller through a `return`
statement: it has none on any path, so nothing, whether the allocation
succeeded or not. -/
def silc_aes_init_returned (_alloc_ok : Bool) : Option (Option aes_ctx) := none

/-- The XOR of the table entries of the bits of `p` -/
def bitsum (f : Nat → Nat) (p : Nat) : Nat :=
  (if p.testBit 0 then f 1 else 0) ^^^ (if p.testBit 1 then f 2 else 0) ^^^
  (if p.testBit 2 then f 4 else 0) ^^^ (if p.testBit 3 then f 8 else 0) ^^^
  (if p.testBit 4 then f 16 else 0) ^^^ (if p.testBit 5 then f 32 else 0) ^^^
  (if p.testBit 6 then f 64 else 0) ^^^ (if p.testBit 7 then f 128 else 0)

/-! ## Bytes and words -/

theorem upd_get (a : Arr) (i v j : Nat) : (upd a i v).get j = if j = i then v else a.get j := rfl

theorem bval_testBit (x n i : Nat) :
    (bval x n).testBit i = (decide (i < 8) && x.testBit (8 * n + i)) := by
  unfold bval
  rw [show (256 : Nat) = 2 ^ 8 from rfl, Nat.testBit_mod_two_pow, Nat.testBit_shiftRight]

theorem bval_lt (x n : Nat) : bval x n < 256 := by
  unfold bval; omega

theorem bval_xor (a b n : Nat) : bval (a ^^^ b) n = bval a n ^^^ bval b n := by
  apply Nat.eq_of_testBit_eq
  intro i
  simp only [bval_testBit, Nat.testBit_xor]
  cases decide (i < 8) <;> simp

theorem b2w_testBit (b0 b1 b2 b3 i : Nat) :
    (bytes2word b0 b1 b2 b3).testBit i =
      ((decide (24 ≤ i) && b3.testBit (i - 24)) || (decide (16 ≤ i) && b2.testBit (i - 16))
        || (decide (8 ≤ i) && b1.testBit (i - 8)) || b0.testBit i) := by
  unfold bytes2word
  simp only [Nat.testBit_or, Nat.testBit_shiftLeft, ge_iff_le]

theorem testBit_byte_false {b i : Nat} (h : b < 256) (hi : 8 ≤ i) : b.testBit i = false := by
  apply Nat.testBit_lt_two_pow
  calc b < 2 ^ 8 := h
    _ ≤ 2 ^ i := Nat.pow_le_pow_right (by decide) hi

theorem bval_bytes2word (b0 b1 b2 b3 : Nat) (h0 : b0 < 256) (h1 : b1 < 256) (h2 : b2 < 256)
    (h3 : b3 < 256) :
    bval (bytes2word b0 b1 b2 b3) 0 = b0 ∧ bval (bytes2word b0 b1 b2 b3) 1 = b1 ∧
    bval (bytes2word b0 b1 b2 b3) 2 = b2 ∧ bval (bytes2word b0 b1 b2 b3) 3 = b3 := by
  refine ⟨?_, ?_, ?_, ?_⟩ <;>
  · apply Nat.eq_of_testBit_eq
    intro i
    rw [bval_testBit, b2w_testBit]
    by_cases hi : i < 8
    · have e1 : b0.testBit (8 * 3 + i) = false := testBit_byte_false h0 (by omega)
      have e2 : b0.testBit (8 * 2 + i) = false := testBit_byte_false h0 (by omega)
      have e3 : b0.testBit (8 * 1 + i) = false := testBit_byte_false h0 (by omega)
      have e4 : b1.testBit (8 * 3 + i - 8) = false := testBit_byte_false h1 (by omega)
      have e5 : b1.testBit (8 * 2 + i - 8) = false := testBit_byte_false h1 (by omega)
      have e6 : b2.testBit (8 * 3 + i - 16) = false := testBit_byte_false h2 (by omega)
      simp [hi, e1, e2, e3, e4, e5, e6]
      try omega
    · have e0 : b0.testBit i = false := testBit_byte_false h0 (by omega)
      have e1 : b1.testBit i = false := testBit_byte_false h1 (by omega)
      have e2 : b2.testBit i = false := testBit_byte_false h2 (by omega)
      have e3 : b3.testBit i = false := testBit_byte_false h3 (by omega)
      simp [hi, e0, e1, e2, e3]
set_option maxRecDepth 100000 in
theorem sb_lt_aux : ∀ p, p < 256 → sb p < 256 := by decide!

set_option maxRecDepth 100000 in
theorem isb_sb_aux : ∀ p, p < 256 → isb (sb p) = p := by decide!

set_option maxRecDepth 100000 in
theorem ff_ucol : ∀ p, p < 256 →
    (ff (ucol 0 p) = wcol 0 p ∧ ff (ucol 1 p) = wcol 1 p ∧ ff (ucol 2 p) = wcol 2 p ∧
      ff (ucol 3 p) = wcol 3 p) := by decide!

set_option maxRecDepth 100000 in
theorem t_im_bits : ∀ p, p < 256 →
    (t_im 0 p = bitsum (t_im 0) p ∧ t_im 1 p = bitsum (t_im 1) p ∧
     t_im 2 p = bitsum (t_im 2) p ∧ t_im 3 p = bitsum (t_im 3) p) := by decide!


theorem ite_xor_bits (a b : Bool) (c : Nat) :
    (if (a ^^ b) = true then c else 0) = (if a = true then c else 0) ^^^ (if b = true then c else 0) := by
  cases a <;> cases b <;> simp

theorem bitsum_xor (f : Nat → Nat) (p q : Nat) :
    bitsum f (p ^^^ q) = bitsum f p ^^^ bitsum f q := by
  unfold bitsum
  simp only [Nat.testBit_xor, ite_xor_bits]
  ac_rfl

theorem t_im_xor (r p q : Nat) (hr : r < 4) (hp : p < 256) (hq : q < 256) :
    t_im r (p ^^^ q) = t_im r p ^^^ t_im r q := by
  have hpq : p ^^^ q < 256 := Nat.xor_lt_two_pow (n := 8) hp hq
  have h1 := t_im_bits p hp
  have h2 := t_im_bits q hq
  have h3 := t_im_bits (p ^^^ q) hpq
  have hr' : r = 0 ∨ r = 1 ∨ r = 2 ∨ r = 3 := by omega
  rcases hr' with rfl | rfl | rfl | rfl
  · rw [h3.1, h1.1, h2.1, bitsum_xor]
  · rw [h3.2.1, h1.2.1, h2.2.1, bitsum_xor]
  · rw [h3.2.2.1, h1.2.2.1, h2.2.2.1, bitsum_xor]
  · rw [h3.2.2.2, h1.2.2.2, h2.2.2.2, bitsum_xor]

theorem ff_xor (a b : Nat) : ff (a ^^^ b) = ff a ^^^ ff b := by
  unfold ff four_tables vf1 rf1
  simp only [bval_xor]
  rw [t_im_xor 0 _ _ (by decide) (bval_lt _ _) (bval_lt _ _),
    t_im_xor 1 _ _ (by decide) (bval_lt _ _) (bval_lt _ _),
    t_im_xor 2 _ _ (by decide) (bval_lt _ _) (bval_lt _ _),
    t_im_xor 3 _ _ (by decide) (bval_lt _ _) (bval_lt _ _)]
  ac_rfl



theorem sb_lt (b n : Nat) : sb (bval b n) < 256 := sb_lt_aux _ (bval_lt _ _)

theorem fwd_var_congr {x y : Arr} (h : Eq4 x y) (r c : Nat) : fwd_var x r c = fwd_var y r c := by
  unfold fwd_var
  rw [h 0 (by decide), h 1 (by decide), h 2 (by decide), h 3 (by decide)]

theorem inv_var_congr {x y : Arr} (h : Eq4 x y) (r c : Nat) : inv_var x r c = inv_var y r c := by
  unfold inv_var
  rw [h 0 (by decide), h 1 (by decide), h 2 (by decide), h 3 (by decide)]

theorem rnd_fwd_congr (tab : Nat → Nat → Nat) (ks : Arr) (kp : Nat) {x y : Arr} (h : Eq4 x y) :
    rnd tab fwd_var ks kp x = rnd tab fwd_var ks kp y := by
  unfold rnd four_tables
  simp only [fwd_var_congr h]

theorem rnd_inv_congr (tab : Nat → Nat → Nat) (ks : Arr) (kp : Nat) {x y : Arr} (h : Eq4 x y) :
    rnd tab inv_var ks kp x = rnd tab inv_var ks kp y := by
  unfold rnd four_tables
  simp only [inv_var_congr h]

theorem round_fwd_rnd (y x ks : Arr) (kp : Nat) :
    Eq4 (round fwd_rnd y x ks kp) (rnd t_fn fwd_var ks kp x) := by
  intro c hc
  have hc' : c = 0 ∨ c = 1 ∨ c = 2 ∨ c = 3 := by omega
  rcases hc' with rfl | rfl | rfl | rfl <;> simp [round, fwd_rnd, rnd, upd]

theorem round_fwd_lrnd (y x ks : Arr) (kp : Nat) :
    Eq4 (round fwd_lrnd y x ks kp) (rnd t_fl fwd_var ks kp x) := by
  intro c hc
  have hc' : c = 0 ∨ c = 1 ∨ c = 2 ∨ c = 3 := by omega
  rcases hc' with rfl | rfl | rfl | rfl <;> simp [round, fwd_lrnd, rnd, upd]

theorem round_inv_rnd (y x ks : Arr) (kp : Nat) :
    Eq4 (round inv_rnd y x ks kp) (rnd t_in inv_var ks kp x) := by
  intro c hc
  have hc' : c = 0 ∨ c = 1 ∨ c = 2 ∨ c = 3 := by omega
  rcases hc' with rfl | rfl | rfl | rfl <;> simp [round, inv_rnd, rnd, upd]

theorem round_inv_lrnd (y x ks : Arr) (kp : Nat) :
    Eq4 (round inv_lrnd y x ks kp) (rnd t_il inv_var ks kp x) := by
  intro c hc
  have hc' : c = 0 ∨ c = 1 ∨ c = 2 ∨ c = 3 := by omega
  rcases hc' with rfl | rfl | rfl | rfl <;> simp [round, inv_lrnd, rnd, upd]

theorem state_out_congr {x y : Arr} (h : Eq4 x y) : state_out x = state_out y := by
  unfold state_out
  rw [h 0 (by decide), h 1 (by decide), h 2 (by decide), h 3 (by decide)]


theorem Eq4.rfl4 (x : Arr) : Eq4 x x := fun _ _ => rfl

theorem step_fn {x x1 : Arr} (y ks : Arr) (kp : Nat) (h : Eq4 x x1) :
    Eq4 (round fwd_rnd y x ks kp) (rnd t_fn fwd_var ks kp x1) := by
  rw [← rnd_fwd_congr _ _ _ h]; exact round_fwd_rnd _ _ _ _

theorem step_fl {x x1 : Arr} (y ks : Arr) (kp : Nat) (h : Eq4 x x1) :
    Eq4 (round fwd_lrnd y x ks kp) (rnd t_fl fwd_var ks kp x1) := by
  rw [← rnd_fwd_congr _ _ _ h]; exact round_fwd_lrnd _ _ _ _

theorem step_in {x x1 : Arr} (y ks : Arr) (kp : Nat) (h : Eq4 x x1) :
    Eq4 (round inv_rnd y x ks kp) (rnd t_in inv_var ks kp x1) := by
  rw [← rnd_inv_congr _ _ _ h]; exact round_inv_rnd _ _ _ _

theorem step_il {x x1 : Arr} (y ks : Arr) (kp : Nat) (h : Eq4 x x1) :
    Eq4 (round inv_lrnd y x ks kp) (rnd t_il inv_var ks kp x1) := by
  rw [← rnd_inv_congr _ _ _ h]; exact round_inv_lrnd _ _ _ _

/-- The three supported values of `inf.b[0]` and their round counts. -/
theorem aes_encrypt_rounds (inp : List Nat) (cx : aes_ctx) (nr : Nat)
    (h : (nr = 10 ∨ nr = 12 ∨ nr = 14) ∧ cx.inf_b0 = 16 * nr) :
    aes_encrypt inp cx = state_out (rnd t_fl fwd_var cx.ks (4 * nr)
      (rnds t_fn fwd_var cx.ks 0 (nr - 1) (state_in Arr.zero inp cx.ks 0))) := by
  obtain ⟨hn, hb⟩ := h
  unfold aes_encrypt
  rcases hn with rfl | rfl | rfl
  · simp only [hb, show (16 * 10 = 14 * 16) = False from by decide,
      show (16 * 10 = 12 * 16) = False from by decide,
      show (16 * 10 = 10 * 16) = True from by decide, if_true, if_false]
    apply state_out_congr
    exact step_fl _ _ _ (step_fn _ _ _ (step_fn _ _ _ (step_fn _ _ _ (step_fn _ _ _
      (step_fn _ _ _ (step_fn _ _ _ (step_fn _ _ _ (step_fn _ _ _ (step_fn _ _ _
      (Eq4.rfl4 _))))))))))
  · simp only [hb, show (16 * 12 = 14 * 16) = False from by decide,
      show (16 * 12 = 12 * 16) = True from by decide, if_true, if_false]
    apply state_out_congr
    exact step_fl _ _ _ (step_fn _ _ _ (step_fn _ _ _ (step_fn _ _ _ (step_fn _ _ _
      (step_fn _ _ _ (step_fn _ _ _ (step_fn _ _ _ (step_fn _ _ _ (step_fn _ _ _
      (step_fn _ _ _ (step_fn _ _ _ (Eq4.rfl4 _))))))))))))
  · simp only [hb, show (16 * 14 = 14 * 16) = True from by decide, if_true]
    apply state_out_congr
    exact step_fl _ _ _ (step_fn _ _ _ (step_fn _ _ _ (step_fn _ _ _ (step_fn _ _ _
      (step_fn _ _ _ (step_fn _ _ _ (step_fn _ _ _ (step_fn _ _ _ (step_fn _ _ _
      (step_fn _ _ _ (step_fn _ _ _ (step_fn _ _ _ (step_fn _ _ _ (Eq4.rfl4 _))))))))))))))

theorem aes_decrypt_rounds (inp : List Nat) (cx : aes_ctx) (nr : Nat)
    (h : (nr = 10 ∨ nr = 12 ∨ nr = 14) ∧ cx.inf_b0 = 16 * nr) :
    aes_decrypt inp cx = state_out (rnd t_il inv_var cx.ks (4 * nr)
      (rnds t_in inv_var cx.ks 0 (nr - 1) (state_in Arr.zero inp cx.ks 0))) := by
  obtain ⟨hn, hb⟩ := h
  unfold aes_decrypt
  rcases hn with rfl | rfl | rfl
  · simp only [hb, show (16 * 10 = 14 * 16) = False from by decide,
      show (16 * 10 = 12 * 16) = False from by decide,
      show (16 * 10 = 10 * 16) = True from by decide, if_true, if_false]
    apply state_out_congr
    exact step_il _ _ _ (step_in _ _ _ (step_in _ _ _ (step_in _ _ _ (step_in _ _ _
      (step_in _ _ _ (step_in _ _ _ (step_in _ _ _ (step_in _ _ _ (step_in _ _ _
      (Eq4.rfl4 _))))))))))
  · simp only [hb, show (16 * 12 = 14 * 16) = False from by decide,
      show (16 * 12 = 12 * 16) = True from by decide, if_true, if_false]
    apply state_out_congr
    exact step_il _ _ _ (step_in _ _ _ (step_in _ _ _ (step_in _ _ _ (step_in _ _ _
      (step_in _ _ _ (step_in _ _ _ (step_in _ _ _ (step_in _ _ _ (step_in _ _ _
      (step_in _ _ _ (step_in _ _ _ (Eq4.rfl4 _))))))))))))
  · simp only [hb, show (16 * 14 = 14 * 16) = True from by decide, if_true]
    apply state_out_congr
    exact step_il _ _ _ (step_in _ _ _ (step_in _ _ _ (step_in _ _ _ (step_in _ _ _
      (step_in _ _ _ (step_in _ _ _ (step_in _ _ _ (step_in _ _ _ (step_in _ _ _
      (step_in _ _ _ (step_in _ _ _ (step_in _ _ _ (step_in _ _ _ (Eq4.rfl4 _))))))))))))))

theorem bval_wcol (p : Nat) (hp : p < 256) :
    (bval (wcol 0 p) 0 = p ∧ bval (wcol 0 p) 1 = 0 ∧ bval (wcol 0 p) 2 = 0 ∧ bval (wcol 0 p) 3 = 0) ∧
    (bval (wcol 1 p) 0 = 0 ∧ bval (wcol 1 p) 1 = p ∧ bval (wcol 1 p) 2 = 0 ∧ bval (wcol 1 p) 3 = 0) ∧
    (bval (wcol 2 p) 0 = 0 ∧ bval (wcol 2 p) 1 = 0 ∧ bval (wcol 2 p) 2 = p ∧ bval (wcol 2 p) 3 = 0) ∧
    (bval (wcol 3 p) 0 = 0 ∧ bval (wcol 3 p) 1 = 0 ∧ bval (wcol 3 p) 2 = 0 ∧ bval (wcol 3 p) 3 = p) :=
  ⟨bval_bytes2word p 0 0 0 hp (by decide) (by decide) (by decide),
   bval_bytes2word 0 p 0 0 (by decide) hp (by decide) (by decide),
   bval_bytes2word 0 0 p 0 (by decide) (by decide) hp (by decide),
   bval_bytes2word 0 0 0 p (by decide) (by decide) (by decide) hp⟩

/-- Byte `n` of the XOR of four single-lane words. -/
theorem bval_lanes (p0 p1 p2 p3 : Nat) (h0 : p0 < 256) (h1 : p1 < 256) (h2 : p2 < 256)
    (h3 : p3 < 256) :
    bval (wcol 0 p0 ^^^ wcol 1 p1 ^^^ wcol 2 p2 ^^^ wcol 3 p3) 0 = p0 ∧
    bval (wcol 0 p0 ^^^ wcol 1 p1 ^^^ wcol 2 p2 ^^^ wcol 3 p3) 1 = p1 ∧
    bval (wcol 0 p0 ^^^ wcol 1 p1 ^^^ wcol 2 p2 ^^^ wcol 3 p3) 2 = p2 ∧
    bval (wcol 0 p0 ^^^ wcol 1 p1 ^^^ wcol 2 p2 ^^^ wcol 3 p3) 3 = p3 := by
  obtain ⟨⟨a0, a1, a2, a3⟩, ⟨b0, b1, b2, b3⟩, ⟨c0, c1, c2, c3⟩, ⟨d0, d1, d2, d3⟩⟩ :=
    And.intro (bval_wcol p0 h0).1 (And.intro (bval_wcol p1 h1).2.1
      (And.intro (bval_wcol p2 h2).2.2.1 (bval_wcol p3 h3).2.2.2))
  simp only [bval_xor, a0, a1, a2, a3, b0, b1, b2, b3, c0, c1, c2, c3, d0, d1, d2, d3,
    Nat.xor_zero, Nat.zero_xor, and_self]


theorem fwd_var_eq (x : Arr) :
    (fwd_var x 0 0 = x 0 ∧ fwd_var x 0 1 = x 1 ∧ fwd_var x 0 2 = x 2 ∧ fwd_var x 0 3 = x 3) ∧
    (fwd_var x 1 0 = x 1 ∧ fwd_var x 1 1 = x 2 ∧ fwd_var x 1 2 = x 3 ∧ fwd_var x 1 3 = x 0) ∧
    (fwd_var x 2 0 = x 2 ∧ fwd_var x 2 1 = x 3 ∧ fwd_var x 2 2 = x 0 ∧ fwd_var x 2 3 = x 1) ∧
    (fwd_var x 3 0 = x 3 ∧ fwd_var x 3 1 = x 0 ∧ fwd_var x 3 2 = x 1 ∧ fwd_var x 3 3 = x 2) := by
  simp [fwd_var]

theorem inv_var_eq (x : Arr) :
    (inv_var x 0 0 = x 0 ∧ inv_var x 0 1 = x 1 ∧ inv_var x 0 2 = x 2 ∧ inv_var x 0 3 = x 3) ∧
    (inv_var x 1 0 = x 3 ∧ inv_var x 1 1 = x 0 ∧ inv_var x 1 2 = x 1 ∧ inv_var x 1 3 = x 2) ∧
    (inv_var x 2 0 = x 2 ∧ inv_var x 2 1 = x 3 ∧ inv_var x 2 2 = x 0 ∧ inv_var x 2 3 = x 1) ∧
    (inv_var x 3 0 = x 1 ∧ inv_var x 3 1 = x 2 ∧ inv_var x 3 2 = x 3 ∧ inv_var x 3 3 = x 0) := by
  simp [inv_var]

theorem bval_SR (x : Arr) (c : Nat) :
    bval (SR x c) 0 = sb (bval (fwd_var x 0 c) 0) ∧ bval (SR x c) 1 = sb (bval (fwd_var x 1 c) 1) ∧
    bval (SR x c) 2 = sb (bval (fwd_var x 2 c) 2) ∧ bval (SR x c) 3 = sb (bval (fwd_var x 3 c) 3) :=
  bval_lanes _ _ _ _ (sb_lt _ _) (sb_lt _ _) (sb_lt _ _) (sb_lt _ _)

theorem t_in_sb (r b n : Nat) : t_in r (sb (bval b n)) = t_im r (bval b n) := by
  unfold t_in t_im
  rw [isb_sb_aux _ (bval_lt _ _)]

theorem t_il_sb (r b n : Nat) : t_il r (sb (bval b n)) = wcol r (bval b n) := by
  unfold t_il
  rw [isb_sb_aux _ (bval_lt _ _)]

/-- The bytes that an inverse round reads from a state that agrees with `SR s`. -/
theorem ag_SR_bytes {t s : Arr} (h : Ag t (SR s)) (c : Nat) (hc : c < 4) :
    bval (inv_var t 0 c) 0 = sb (bval (s c) 0) ∧ bval (inv_var t 1 c) 1 = sb (bval (s c) 1) ∧
    bval (inv_var t 2 c) 2 = sb (bval (s c) 2) ∧ bval (inv_var t 3 c) 3 = sb (bval (s c) 3) := by
  have hc' : c = 0 ∨ c = 1 ∨ c = 2 ∨ c = 3 := by omega
  obtain ⟨i0, i1, i2, i3⟩ := inv_var_eq t
  obtain ⟨f0, f1, f2, f3⟩ := fwd_var_eq s
  have b0 := bval_SR s 0
  have b1 := bval_SR s 1
  have b2 := bval_SR s 2
  have b3 := bval_SR s 3
  have a0 := h 0 (by decide)
  have a1 := h 1 (by decide)
  have a2 := h 2 (by decide)
  have a3 := h 3 (by decide)
  rcases hc' with rfl | rfl | rfl | rfl
  · rw [i0.1, i1.1, i2.1, i3.1, a0 0 (by decide), a3 1 (by decide), a2 2 (by decide),
      a1 3 (by decide), b0.1, b3.2.1, b2.2.2.1, b1.2.2.2, f0.1, f1.2.2.2, f2.2.2.1, f3.2.1]
    exact ⟨rfl, rfl, rfl, rfl⟩
  · rw [i0.2.1, i1.2.1, i2.2.1, i3.2.1, a1 0 (by decide), a0 1 (by decide), a3 2 (by decide),
      a2 3 (by decide), b1.1, b0.2.1, b3.2.2.1, b2.2.2.2, f0.2.1, f1.1, f2.2.2.2, f3.2.2.1]
    exact ⟨rfl, rfl, rfl, rfl⟩
  · rw [i0.2.2.1, i1.2.2.1, i2.2.2.1, i3.2.2.1, a2 0 (by decide), a1 1 (by decide),
      a0 2 (by decide), a3 3 (by decide), b2.1, b1.2.1, b0.2.2.1, b3.2.2.2, f0.2.2.1, f1.2.1,
      f2.1, f3.2.2.2]
    exact ⟨rfl, rfl, rfl, rfl⟩
  · rw [i0.2.2.2, i1.2.2.2, i2.2.2.2, i3.2.2.2, a3 0 (by decide), a2 1 (by decide),
      a1 2 (by decide), a0 3 (by decide), b3.1, b2.2.1, b1.2.2.1, b0.2.2.2, f0.2.2.2, f1.2.2.1,
      f2.2.1, f3.1]
    exact ⟨rfl, rfl, rfl, rfl⟩

/-- Inverse table probe after SubBytes and ShiftRows is the inverse MixColumn. -/
theorem in_SR {t s : Arr} (h : Ag t (SR s)) (c : Nat) (hc : c < 4) :
    four_tables t t_in inv_var rf1 c = ff (s c) := by
  obtain ⟨e0, e1, e2, e3⟩ := ag_SR_bytes h c hc
  unfold ff four_tables vf1 rf1
  rw [e0, e1, e2, e3, t_in_sb, t_in_sb, t_in_sb, t_in_sb]

/-- Last inverse table probe after SubBytes and ShiftRows gives back the bytes. -/
theorem il_SR {t s : Arr} (h : Ag t (SR s)) (c : Nat) (hc : c < 4) :
    bval (four_tables t t_il inv_var rf1 c) 0 = bval (s c) 0 ∧
    bval (four_tables t t_il inv_var rf1 c) 1 = bval (s c) 1 ∧
    bval (four_tables t t_il inv_var rf1 c) 2 = bval (s c) 2 ∧
    bval (four_tables t t_il inv_var rf1 c) 3 = bval (s c) 3 := by
  obtain ⟨e0, e1, e2, e3⟩ := ag_SR_bytes h c hc
  unfold four_tables rf1
  rw [e0, e1, e2, e3, t_il_sb, t_il_sb, t_il_sb, t_il_sb]
  exact bval_lanes _ _ _ _ (bval_lt _ _) (bval_lt _ _) (bval_lt _ _) (bval_lt _ _)

/-- Inverse MixColumn undoes the MixColumns folded into the forward table. -/
theorem ff_fn (x : Arr) (c : Nat) :
    ff (four_tables x t_fn fwd_var rf1 c) = four_tables x t_fl fwd_var rf1 c := by
  unfold four_tables rf1 t_fn t_fl
  rw [ff_xor, ff_xor, ff_xor, (ff_ucol _ (sb_lt _ _)).1, (ff_ucol _ (sb_lt _ _)).2.1,
    (ff_ucol _ (sb_lt _ _)).2.2.1, (ff_ucol _ (sb_lt _ _)).2.2.2]

theorem xor_cancel_left (a b : Nat) : a ^^^ (a ^^^ b) = b := by
  rw [← Nat.xor_assoc, Nat.xor_self, Nat.zero_xor]

/-- One inverse round undoes one forward round, given the matching round keys. -/
theorem inv_step {t s x : Arr} {eks dks : Arr} {kpE kpD : Nat} (h : Ag t (SR s))
    (hs : s = rnd t_fn fwd_var eks kpE x)
    (hk : ∀ c, c < 4 → dks (kpD + c) = ff (eks (kpE + c))) :
    Ag (rnd t_in inv_var dks kpD t) (SR x) := by
  intro c hc n _
  have e : (rnd t_in inv_var dks kpD t) c = (SR x) c := by
    show dks (kpD + c) ^^^ four_tables t t_in inv_var rf1 c = four_tables x t_fl fwd_var rf1 c
    rw [in_SR h c hc, hk c hc, ← ff_xor, hs]
    show ff (eks (kpE + c) ^^^ (eks (kpE + c) ^^^ four_tables x t_fn fwd_var rf1 c)) = _
    rw [xor_cancel_left, ff_fn]
  rw [e]


theorem rnds_succ (tab : Nat → Nat → Nat) (vf : Arr → Nat → Nat → Nat) (ks : Arr) (kp n : Nat)
    (x : Arr) :
    rnds tab vf ks kp (n + 1) x = rnd tab vf ks (kp + 4 * (n + 1)) (rnds tab vf ks kp n x) := rfl

/-- The inverse rounds peel the forward rounds off one by one. -/
theorem inv_rounds {eks dks : Arr} {nr : Nat} (hk : DecOf nr dks eks) (x0 t0 : Arr)
    (h0 : Ag t0 (SR (rnds t_fn fwd_var eks 0 (nr - 1) x0))) :
    ∀ m, m ≤ nr - 1 →
      Ag (rnds t_in inv_var dks 0 m t0) (SR (rnds t_fn fwd_var eks 0 (nr - 1 - m) x0)) := by
  intro m
  induction m with
  | zero => intro _; exact h0
  | succ m ih =>
    intro hm
    have ih' := ih (by omega)
    rw [rnds_succ]
    obtain ⟨k, hk1⟩ : ∃ k, nr - 1 - m = k + 1 := ⟨nr - 1 - m - 1, by omega⟩
    have hk2 : nr - 1 - (m + 1) = k := by omega
    rw [hk1, rnds_succ] at ih'
    rw [hk2]
    refine inv_step ih' rfl ?_
    intro c hc
    have := hk (k + 1) (by omega) c hc
    have e1 : 4 * (nr - (k + 1)) + c = 0 + 4 * (m + 1) + c := by omega
    have e2 : 4 * (k + 1) + c = 0 + 4 * (k + 1) + c := by omega
    rw [e1, e2, if_neg (by omega)] at this
    exact this

theorem state_out_eq (x : Arr) (l : List Nat) (hl : l.length = 16)
    (h : ∀ c, c < 4 → ∀ n, n < 4 → bval (x c) n = l.getD (4 * c + n) 0) : state_out x = l := by
  unfold state_out
  rw [h 0 (by decide) 0 (by decide), h 0 (by decide) 1 (by decide), h 0 (by decide) 2 (by decide),
    h 0 (by decide) 3 (by decide), h 1 (by decide) 0 (by decide), h 1 (by decide) 1 (by decide),
    h 1 (by decide) 2 (by decide), h 1 (by decide) 3 (by decide), h 2 (by decide) 0 (by decide),
    h 2 (by decide) 1 (by decide), h 2 (by decide) 2 (by decide), h 2 (by decide) 3 (by decide),
    h 3 (by decide) 0 (by decide), h 3 (by decide) 1 (by decide), h 3 (by decide) 2 (by decide),
    h 3 (by decide) 3 (by decide)]
  apply List.ext_getElem
  · simp [hl]
  · intro n h1 h2
    have h16 : n < 16 := by
      have h3 := h1
      simp only [List.length_cons, List.length_nil] at h3
      omega
    interval_cases n <;> simp [List.getD_eq_getElem?_getD, List.getElem?_eq_getElem, h2]


theorem getD_lt {l : List Nat} (h : IsBytes l) (i : Nat) : l.getD i 0 < 256 := by
  rw [List.getD_eq_getElem?_getD]
  cases hi : l[i]? with
  | none => simp
  | some b => simp; exact h b (List.getElem?_mem hi)

theorem bval_word_in {l : List Nat} (h : IsBytes l) (c n : Nat) (hn : n < 4) :
    bval (word_in l c) n = l.getD (4 * c + n) 0 := by
  obtain ⟨e0, e1, e2, e3⟩ := bval_bytes2word _ _ _ _ (getD_lt h (4 * c)) (getD_lt h (4 * c + 1))
    (getD_lt h (4 * c + 2)) (getD_lt h (4 * c + 3))
  have hn' : n = 0 ∨ n = 1 ∨ n = 2 ∨ n = 3 := by omega
  unfold word_in
  rcases hn' with rfl | rfl | rfl | rfl
  · exact e0
  · exact e1
  · exact e2
  · exact e3

theorem state_out_bytes (x : Arr) : IsBytes (state_out x) := by
  intro b hb
  simp only [state_out, List.mem_cons, List.mem_singleton, List.not_mem_nil, or_false] at hb
  rcases hb with h | h | h | h | h | h | h | h | h | h | h | h | h | h | h | h <;>
    (rw [h]; exact bval_lt _ _)

theorem state_out_getD (x : Arr) (c n : Nat) (hc : c < 4) (hn : n < 4) :
    (state_out x).getD (4 * c + n) 0 = bval (x c) n := by
  have hc' : c = 0 ∨ c = 1 ∨ c = 2 ∨ c = 3 := by omega
  have hn' : n = 0 ∨ n = 1 ∨ n = 2 ∨ n = 3 := by omega
  rcases hc' with rfl | rfl | rfl | rfl <;> rcases hn' with rfl | rfl | rfl | rfl <;> rfl

theorem state_out_length (x : Arr) : (state_out x).length = 16 := rfl

theorem state_in_get (y : Arr) (l : List Nat) (ks : Arr) (kp c : Nat) (hc : c < 4) :
    (state_in y l ks kp) c = word_in l c ^^^ ks (kp + c) := by
  have hc' : c = 0 ∨ c = 1 ∨ c = 2 ∨ c = 3 := by omega
  rcases hc' with rfl | rfl | rfl | rfl <;> simp [state_in, upd]

theorem xor_cancel_right (a b : Nat) : a ^^^ b ^^^ b = a := by
  rw [Nat.xor_assoc, Nat.xor_self, Nat.xor_zero]

/-- Block round trip for any pair of schedules related by `DecOf`. -/
theorem block_roundtrip (cxE cxD : aes_ctx) (nr : Nat) (hn : nr = 10 ∨ nr = 12 ∨ nr = 14)
    (hE : cxE.inf_b0 = 16 * nr) (hD : cxD.inf_b0 = 16 * nr) (hk : DecOf nr cxD.ks cxE.ks)
    (x : List Nat) (hl : x.length = 16) (hb : IsBytes x) :
    aes_decrypt (aes_encrypt x cxE) cxD = x := by
  rw [aes_decrypt_rounds _ _ nr ⟨hn, hD⟩, aes_encrypt_rounds _ _ nr ⟨hn, hE⟩]
  have hnr : 1 ≤ nr := by omega
  -- the state loaded by the decryption agrees with SubBytes/ShiftRows of the last forward state
  have h0 : Ag (state_in Arr.zero (state_out (rnd t_fl fwd_var cxE.ks (4 * nr)
      (rnds t_fn fwd_var cxE.ks 0 (nr - 1) (state_in Arr.zero x cxE.ks 0)))) cxD.ks 0)
      (SR (rnds t_fn fwd_var cxE.ks 0 (nr - 1) (state_in Arr.zero x cxE.ks 0))) := by
    intro c hc n hn4
    rw [state_in_get _ _ _ _ _ hc, bval_xor, bval_word_in (state_out_bytes _) _ _ hn4,
      state_out_getD _ _ _ hc hn4]
    have := hk nr (Nat.le_refl _) c hc
    rw [Nat.sub_self, if_pos (Or.inr rfl)] at this
    have e : 4 * 0 + c = 0 + c := by omega
    rw [e] at this
    rw [this]
    show bval (cxE.ks (4 * nr + c) ^^^ (SR _) c) n ^^^ _ = _
    rw [bval_xor, Nat.xor_comm (bval (cxE.ks (4 * nr + c)) n), xor_cancel_right]
  have h1 := inv_rounds hk _ _ h0 (nr - 1) (Nat.le_refl _)
  rw [Nat.sub_self] at h1
  apply state_out_eq _ _ hl
  intro c hc n hn4
  show bval (cxD.ks (4 * nr + c) ^^^ four_tables _ t_il inv_var rf1 c) n = _
  have h2 := il_SR h1 c hc
  have h3 : bval (four_tables (rnds t_in inv_var cxD.ks 0 (nr - 1)
      (state_in Arr.zero (state_out (rnd t_fl fwd_var cxE.ks (4 * nr)
        (rnds t_fn fwd_var cxE.ks 0 (nr - 1) (state_in Arr.zero x cxE.ks 0)))) cxD.ks 0))
      t_il inv_var rf1 c) n = bval ((state_in Arr.zero x cxE.ks 0) c) n := by
    have hn' : n = 0 ∨ n = 1 ∨ n = 2 ∨ n = 3 := by omega
    rcases hn' with rfl | rfl | rfl | rfl
    · exact h2.1
    · exact h2.2.1
    · exact h2.2.2.1
    · exact h2.2.2.2
  rw [bval_xor, h3, state_in_get _ _ _ _ _ hc, bval_xor, bval_word_in hb _ _ hn4]
  have := hk 0 (Nat.zero_le _) c hc
  rw [if_pos (Or.inl rfl), Nat.sub_zero] at this
  rw [this]
  have e : 4 * 0 + c = 0 + c := by omega
  rw [e, Nat.xor_comm (List.getD x _ 0), xor_cancel_left]

/-! ## Key schedules -/

theorem ke4_k (i : Nat) (E : KSt) :
    (ke4 i E).k =
      upd (upd (upd (upd E.k (4 * i + 4) (E.ss 0 ^^^ (ls_box (E.ss 3) 3 ^^^ t_rc i)))
        (4 * i + 5) (E.ss 1 ^^^ (E.ss 0 ^^^ (ls_box (E.ss 3) 3 ^^^ t_rc i))))
        (4 * i + 6) (E.ss 2 ^^^ (E.ss 1 ^^^ (E.ss 0 ^^^ (ls_box (E.ss 3) 3 ^^^ t_rc i)))))
        (4 * i + 7)
        (E.ss 3 ^^^ (E.ss 2 ^^^ (E.ss 1 ^^^ (E.ss 0 ^^^ (ls_box (E.ss 3) 3 ^^^ t_rc i))))) := rfl

theorem ke4_ss (i : Nat) (E : KSt) :
    (ke4 i E).ss 0 = (ke4 i E).k (4 * i + 4) ∧ (ke4 i E).ss 1 = (ke4 i E).k (4 * i + 5) ∧
    (ke4 i E).ss 2 = (ke4 i E).k (4 * i + 6) ∧ (ke4 i E).ss 3 = (ke4 i E).k (4 * i + 7) := by
  simp [ke4, upd]

/-- Reading an array after four stores at consecutive indices. -/
theorem upd4_get (a : Arr) (b v0 v1 v2 v3 j : Nat) :
    (upd (upd (upd (upd a b v0) (b + 1) v1) (b + 2) v2) (b + 3) v3) j =
      if j = b + 3 then v3 else if j = b + 2 then v2 else if j = b + 1 then v1
      else if j = b then v0 else a j := rfl

theorem upd4_old (a : Arr) (b v0 v1 v2 v3 j : Nat) (h : j < b ∨ b + 4 ≤ j) :
    (upd (upd (upd (upd a b v0) (b + 1) v1) (b + 2) v2) (b + 3) v3) j = a j := by
  rw [upd4_get, if_neg (by omega), if_neg (by omega), if_neg (by omega), if_neg (by omega)]

theorem upd4_new (a : Arr) (b v0 v1 v2 v3 : Nat) :
    (upd (upd (upd (upd a b v0) (b + 1) v1) (b + 2) v2) (b + 3) v3) b = v0 ∧
    (upd (upd (upd (upd a b v0) (b + 1) v1) (b + 2) v2) (b + 3) v3) (b + 1) = v1 ∧
    (upd (upd (upd (upd a b v0) (b + 1) v1) (b + 2) v2) (b + 3) v3) (b + 2) = v2 ∧
    (upd (upd (upd (upd a b v0) (b + 1) v1) (b + 2) v2) (b + 3) v3) (b + 3) = v3 := by
  simp [upd4_get]

theorem ke4_step (key : List Nat) (i : Nat) (E : KSt)
    (h : (∀ c, c < 4 → E.ss c = E.k (4 * i + c)) ∧ Exp4 key E.k i) :
    (∀ c, c < 4 → (ke4 i E).ss c = (ke4 i E).k (4 * (i + 1) + c)) ∧
      Exp4 key (ke4 i E).k (i + 1) := by
  obtain ⟨hss, hkey, hrec⟩ := h
  obtain ⟨s0, s1, s2, s3⟩ := ke4_ss i E
  have old : ∀ j, j < 4 * i + 4 → (ke4 i E).k j = E.k j := by
    intro j hj
    rw [ke4_k]
    exact upd4_old _ _ _ _ _ _ _ (Or.inl hj)
  obtain ⟨n0, n1, n2, n3⟩ : (ke4 i E).k (4 * i + 4) = _ ∧ (ke4 i E).k (4 * i + 4 + 1) = _ ∧
      (ke4 i E).k (4 * i + 4 + 2) = _ ∧ (ke4 i E).k (4 * i + 4 + 3) = _ := by
    rw [ke4_k]; exact upd4_new _ _ _ _ _ _
  refine ⟨?_, ?_, ?_⟩
  · intro c hc
    have hc' : c = 0 ∨ c = 1 ∨ c = 2 ∨ c = 3 := by omega
    rcases hc' with rfl | rfl | rfl | rfl
    · exact s0
    · exact s1
    · exact s2
    · exact s3
  · intro c hc
    rw [old c (by omega)]
    exact hkey c hc
  · intro r hr
    by_cases hri : r < i
    · have := hrec r hri
      unfold Rec4 at this ⊢
      rw [old _ (by omega), old _ (by omega), old _ (by omega), old _ (by omega),
        old _ (by omega), old _ (by omega), old _ (by omega), old _ (by omega)]
      exact this
    · have e : r = i := by omega
      subst e
      unfold Rec4
      rw [old (4 * r) (by omega), old (4 * r + 1) (by omega), old (4 * r + 2) (by omega),
        old (4 * r + 3) (by omega)]
      have h0 := hss 0 (by decide)
      have h1 := hss 1 (by decide)
      have h2 := hss 2 (by decide)
      have h3 := hss 3 (by decide)
      simp only [Nat.add_zero] at h0
      refine ⟨?_, ?_, ?_, ?_⟩
      · rw [n0, h0, h3]
      · rw [show 4 * r + 5 = 4 * r + 4 + 1 from rfl, n1, n0, h1]
      · rw [show 4 * r + 6 = 4 * r + 4 + 2 from rfl, show 4 * r + 5 = 4 * r + 4 + 1 from rfl,
          n2, n1, h2]
      · rw [show 4 * r + 7 = 4 * r + 4 + 3 from rfl, show 4 * r + 6 = 4 * r + 4 + 2 from rfl,
          n3, n2, h3]


theorem xor_cancel_mid (a b : Nat) : a ^^^ (a ^^^ b) = b := by
  rw [← Nat.xor_assoc, Nat.xor_self, Nat.zero_xor]

theorem xor_left_comm (a b c : Nat) : a ^^^ (b ^^^ c) = b ^^^ (a ^^^ c) := by
  rw [← Nat.xor_assoc, ← Nat.xor_assoc, Nat.xor_comm a b]


theorem key_in_4 (key : List Nat) (st : KSt) :
    key_in key 4 st =
      ⟨upd (upd (upd (upd st.k 0 (word_in key 0)) (0 + 1) (word_in key 1)) (0 + 2) (word_in key 2))
        (0 + 3) (word_in key 3),
       upd (upd (upd (upd st.ss 0 (word_in key 0)) (0 + 1) (word_in key 1)) (0 + 2)
        (word_in key 2)) (0 + 3) (word_in key 3)⟩ := rfl

theorem key_in_4_init (key : List Nat) (st : KSt) :
    (∀ c, c < 4 → (key_in key 4 st).ss c = (key_in key 4 st).k (4 * 0 + c)) ∧
      Exp4 key (key_in key 4 st).k 0 := by
  rw [key_in_4]
  refine ⟨?_, ?_, ?_⟩
  · intro c hc
    have hc' : c = 0 ∨ c = 1 ∨ c = 2 ∨ c = 3 := by omega
    rcases hc' with rfl | rfl | rfl | rfl <;> rfl
  · intro c hc
    have hc' : c = 0 ∨ c = 1 ∨ c = 2 ∨ c = 3 := by omega
    rcases hc' with rfl | rfl | rfl | rfl <;> rfl
  · intro r hr
    omega

/-- The schedule written by `aes_encrypt_key128` is the key followed by ten
expansion steps. -/
theorem enc128_exp (key : List Nat) (cx : aes_ctx) :
    Exp4 key (aes_encrypt_key128 key cx).ks 10 :=
  (ke4_step key 9 _ (ke4_step key 8 _ (ke4_step key 7 _ (ke4_step key 6 _ (ke4_step key 5 _
    (ke4_step key 4 _ (ke4_step key 3 _ (ke4_step key 2 _ (ke4_step key 1 _ (ke4_step key 0 _
      (key_in_4_init key ⟨cx.ks, Arr.zero⟩))))))))))).2


theorem kd4_k (i : Nat) (D : KSt) (hi : i ≤ 9) :
    (kd4 i D).k =
      upd (upd (upd (upd D.k (36 - 4 * i)
        (ff (ls_box (D.ss ((i + 3) % 4)) 3 ^^^ t_rc i) ^^^ D.k (40 - 4 * i)))
        (36 - 4 * i + 1)
        (ff (ls_box (D.ss ((i + 3) % 4)) 3 ^^^ t_rc i) ^^^ D.k (40 - 4 * i) ^^^
          D.k (40 - 4 * i + 1)))
        (36 - 4 * i + 2)
        (ff (ls_box (D.ss ((i + 3) % 4)) 3 ^^^ t_rc i) ^^^ D.k (40 - 4 * i) ^^^
          D.k (40 - 4 * i + 1) ^^^ D.k (40 - 4 * i + 2)))
        (36 - 4 * i + 3)
        (ff (ls_box (D.ss ((i + 3) % 4)) 3 ^^^ t_rc i) ^^^ D.k (40 - 4 * i) ^^^
          D.k (40 - 4 * i + 1) ^^^ D.k (40 - 4 * i + 2) ^^^ D.k (40 - 4 * i + 3)) := by
  interval_cases i <;> rfl

theorem kd4_ss (i : Nat) (D : KSt) (j : Nat) (hj : j < 4) :
    (kd4 i D).ss j =
      if j = i % 4 then D.ss j ^^^ (ls_box (D.ss ((i + 3) % 4)) 3 ^^^ t_rc i) else D.ss j := by
  have h4 : j ≠ 4 := by omega
  have h5 : i % 4 ≠ 4 := by omega
  simp only [kd4, upd, h4, h5, if_false, if_true]
  split <;> simp_all

theorem kd4_step (e : Arr) (i : Nat) (D : KSt) (h1 : 1 ≤ i) (h8 : i ≤ 8) (hr : Rec4 e i)
    (h : Dec4 e i D) : Dec4 e (i + 1) (kd4 i D) := by
  obtain ⟨hk, s3, s0, s1, s2⟩ := h
  obtain ⟨r0, r1, r2, r3⟩ := hr
  have old : ∀ j, 40 - 4 * i ≤ j → (kd4 i D).k j = D.k j := by
    intro j hj
    rw [kd4_k i D (by omega)]
    exact upd4_old _ _ _ _ _ _ _ (Or.inr (by omega))
  have k0 := hk i (Nat.le_refl _) 0 (by decide)
  have k1 := hk i (Nat.le_refl _) 1 (by decide)
  have k2 := hk i (Nat.le_refl _) 2 (by decide)
  have k3 := hk i (Nat.le_refl _) 3 (by decide)
  rw [if_neg (by omega)] at k0 k1 k2 k3
  simp only [Nat.add_zero] at k0
  obtain ⟨n0, n1, n2, n3⟩ : (kd4 i D).k (36 - 4 * i) = _ ∧ (kd4 i D).k (36 - 4 * i + 1) = _ ∧
      (kd4 i D).k (36 - 4 * i + 2) = _ ∧ (kd4 i D).k (36 - 4 * i + 3) = _ := by
    rw [kd4_k i D (by omega)]; exact upd4_new _ _ _ _ _ _
  rw [s3, k0, ← ff_xor] at n0
  rw [s3, k0, k1, ← ff_xor, ← ff_xor] at n1
  rw [s3, k0, k1, k2, ← ff_xor, ← ff_xor, ← ff_xor] at n2
  rw [s3, k0, k1, k2, k3, ← ff_xor, ← ff_xor, ← ff_xor, ← ff_xor] at n3
  have e4 : 36 - 4 * i = 40 - 4 * (i + 1) := by omega
  refine ⟨?_, ?_, ?_, ?_, ?_⟩
  · intro r hr c hc
    by_cases hri : r ≤ i
    · rw [old _ (by omega)]
      exact hk r hri c hc
    · have e : r = i + 1 := by omega
      subst e
      rw [if_neg (by omega), ← e4]
      have hc' : c = 0 ∨ c = 1 ∨ c = 2 ∨ c = 3 := by omega
      rcases hc' with rfl | rfl | rfl | rfl
      · rw [Nat.add_zero, n0, Nat.add_zero]
        congr 1
        rw [show 4 * (i + 1) = 4 * i + 4 from by omega, r0]
        simp only [Nat.xor_assoc, Nat.xor_comm, xor_left_comm]
      · rw [n1]
        congr 1
        rw [show 4 * (i + 1) + 1 = 4 * i + 5 from by omega, r1, r0]
        simp only [Nat.xor_assoc, Nat.xor_comm, xor_left_comm]
      · rw [n2]
        congr 1
        rw [show 4 * (i + 1) + 2 = 4 * i + 6 from by omega, r2, r1, r0]
        simp only [Nat.xor_assoc, Nat.xor_comm, xor_left_comm]
      · rw [n3]
        congr 1
        rw [show 4 * (i + 1) + 3 = 4 * i + 7 from by omega, r3, r2, r1, r0]
        simp only [Nat.xor_assoc, Nat.xor_comm, xor_left_comm]
  · rw [show (i + 1 + 3) % 4 = i % 4 from by omega, kd4_ss _ _ _ (by omega), if_pos rfl, s0, s3,
      show 4 * (i + 1) + 3 = 4 * i + 7 from by omega, r3, r2, r1, r0]
    simp only [Nat.xor_assoc, Nat.xor_comm, xor_left_comm]
  · rw [kd4_ss _ _ _ (by omega), if_neg (by omega), s1,
      show 4 * (i + 1) = 4 * i + 4 from by omega,
      show 4 * i + 4 + 1 = 4 * i + 5 from by omega, show 4 * i + 4 + 2 = 4 * i + 6 from by omega,
      show 4 * i + 4 + 3 = 4 * i + 7 from by omega, r3, r2, r1, r0]
    simp only [Nat.xor_assoc, Nat.xor_comm, xor_left_comm, Nat.xor_self, Nat.xor_zero, Nat.zero_xor,
      xor_cancel_mid]
  · rw [show (i + 1 + 1) % 4 = (i + 2) % 4 from by omega, kd4_ss _ _ _ (by omega),
      if_neg (by omega), s2, show 4 * (i + 1) + 1 = 4 * i + 5 from by omega,
      show 4 * (i + 1) + 3 = 4 * i + 7 from by omega, r3, r2, r1, r0]
    simp only [Nat.xor_assoc, Nat.xor_comm, xor_left_comm, Nat.xor_self, Nat.xor_zero, Nat.zero_xor,
      xor_cancel_mid]
  · rw [show (i + 1 + 2) % 4 = (i + 3) % 4 from by omega, kd4_ss _ _ _ (by omega),
      if_neg (by omega), s3, show 4 * (i + 1) + 2 = 4 * i + 6 from by omega,
      show 4 * (i + 1) + 3 = 4 * i + 7 from by omega, r3, r2, r1, r0]
    simp only [Nat.xor_assoc, Nat.xor_comm, xor_left_comm, Nat.xor_self, Nat.xor_zero, Nat.zero_xor,
      xor_cancel_mid]


theorem key_in_rev_40 (key : List Nat) (st : KSt) :
    key_in_rev key 40 4 st =
      ⟨upd (upd (upd (upd st.k 40 (word_in key 0)) (40 + 1) (word_in key 1)) (40 + 2)
        (word_in key 2)) (40 + 3) (word_in key 3),
       upd (upd (upd (upd st.ss 0 (word_in key 0)) (0 + 1) (word_in key 1)) (0 + 2)
        (word_in key 2)) (0 + 3) (word_in key 3)⟩ := rfl

theorem kdf4_k (D : KSt) :
    (kdf4 0 D).k =
      upd (upd (upd (upd D.k 36 (ff (ls_box (D.ss 3) 3 ^^^ t_rc 0 ^^^ D.k 40)))
        (36 + 1) (ff (ls_box (D.ss 3) 3 ^^^ t_rc 0 ^^^ D.k 40 ^^^ D.k 41)))
        (36 + 2) (ff (ls_box (D.ss 3) 3 ^^^ t_rc 0 ^^^ D.k 40 ^^^ D.k 41 ^^^ D.k 42)))
        (36 + 3) (ff (ls_box (D.ss 3) 3 ^^^ t_rc 0 ^^^ D.k 40 ^^^ D.k 41 ^^^ D.k 42 ^^^ D.k 43)) :=
  rfl

theorem kdf4_ss (D : KSt) :
    (kdf4 0 D).ss 0 = D.ss 0 ^^^ D.ss 2 ^^^ D.ss 1 ^^^ D.ss 3 ^^^ (ls_box (D.ss 3) 3 ^^^ t_rc 0) ∧
    (kdf4 0 D).ss 1 = D.ss 1 ^^^ D.ss 3 ∧ (kdf4 0 D).ss 2 = D.ss 2 ^^^ D.ss 3 ∧
    (kdf4 0 D).ss 3 = D.ss 3 := ⟨rfl, rfl, rfl, rfl⟩

theorem kdl4_k (D : KSt) :
    (kdl4 9 D).k =
      upd (upd (upd (upd D.k 0
        (D.ss 0 ^^^ (D.ss 1 ^^^ (ls_box (D.ss 0) 3 ^^^ t_rc 9)) ^^^ D.ss 2 ^^^ D.ss 3))
        (0 + 1) (D.ss 1 ^^^ (ls_box (D.ss 0) 3 ^^^ t_rc 9) ^^^ D.ss 3))
        (0 + 2) (D.ss 0 ^^^ (D.ss 1 ^^^ (ls_box (D.ss 0) 3 ^^^ t_rc 9))))
        (0 + 3) (D.ss 1 ^^^ (ls_box (D.ss 0) 3 ^^^ t_rc 9)) := rfl

theorem kdf4_step (key : List Nat) (e : Arr) (st : KSt) (he : Exp4 key e 1) :
    Dec4 e 1 (kdf4 0 (key_in_rev key 40 4 st)) := by
  obtain ⟨hkey, hrec⟩ := he
  obtain ⟨r0, r1, r2, r3⟩ := hrec 0 (by decide)
  obtain ⟨s0, s1, s2, s3⟩ := kdf4_ss (key_in_rev key 40 4 st)
  have w0 : (key_in_rev key 40 4 st).ss 0 = e 0 := (hkey 0 (by decide)).symm
  have w1 : (key_in_rev key 40 4 st).ss 1 = e 1 := (hkey 1 (by decide)).symm
  have w2 : (key_in_rev key 40 4 st).ss 2 = e 2 := (hkey 2 (by decide)).symm
  have w3 : (key_in_rev key 40 4 st).ss 3 = e 3 := (hkey 3 (by decide)).symm
  have q0 : (key_in_rev key 40 4 st).k 40 = e 0 := (hkey 0 (by decide)).symm
  have q1 : (key_in_rev key 40 4 st).k 41 = e 1 := (hkey 1 (by decide)).symm
  have q2 : (key_in_rev key 40 4 st).k 42 = e 2 := (hkey 2 (by decide)).symm
  have q3 : (key_in_rev key 40 4 st).k 43 = e 3 := (hkey 3 (by decide)).symm
  have old : ∀ j, 40 ≤ j → (kdf4 0 (key_in_rev key 40 4 st)).k j = (key_in_rev key 40 4 st).k j := by
    intro j hj
    rw [kdf4_k]
    exact upd4_old _ _ _ _ _ _ _ (Or.inr (by omega))
  obtain ⟨n0, n1, n2, n3⟩ : (kdf4 0 (key_in_rev key 40 4 st)).k 36 = _ ∧
      (kdf4 0 (key_in_rev key 40 4 st)).k (36 + 1) = _ ∧
      (kdf4 0 (key_in_rev key 40 4 st)).k (36 + 2) = _ ∧
      (kdf4 0 (key_in_rev key 40 4 st)).k (36 + 3) = _ := by
    rw [kdf4_k]; exact upd4_new _ _ _ _ _ _
  rw [w3, q0] at n0
  rw [w3, q0, q1] at n1
  rw [w3, q0, q1, q2] at n2
  rw [w3, q0, q1, q2, q3] at n3
  simp only [Nat.mul_zero, Nat.zero_add] at r0 r1 r2 r3
  refine ⟨?_, ?_, ?_, ?_, ?_⟩
  · intro r hr c hc
    have hc' : c = 0 ∨ c = 1 ∨ c = 2 ∨ c = 3 := by omega
    have hr' : r = 0 ∨ r = 1 := by omega
    rcases hr' with rfl | rfl
    · rw [if_pos rfl, old _ (by omega)]
      rcases hc' with rfl | rfl | rfl | rfl
      · exact q0
      · exact q1
      · exact q2
      · exact q3
    · rw [if_neg (by decide)]
      rcases hc' with rfl | rfl | rfl | rfl
      · show (kdf4 0 (key_in_rev key 40 4 st)).k 36 = ff (e 4)
        rw [n0, r0]
        congr 1
        simp only [Nat.xor_assoc, Nat.xor_comm, xor_left_comm]
      · show (kdf4 0 (key_in_rev key 40 4 st)).k (36 + 1) = ff (e 5)
        rw [n1, r1, r0]
        congr 1
        simp only [Nat.xor_assoc, Nat.xor_comm, xor_left_comm]
      · show (kdf4 0 (key_in_rev key 40 4 st)).k (36 + 2) = ff (e 6)
        rw [n2, r2, r1, r0]
        congr 1
        simp only [Nat.xor_assoc, Nat.xor_comm, xor_left_comm]
      · show (kdf4 0 (key_in_rev key 40 4 st)).k (36 + 3) = ff (e 7)
        rw [n3, r3, r2, r1, r0]
        congr 1
        simp only [Nat.xor_assoc, Nat.xor_comm, xor_left_comm]
  · show (kdf4 0 (key_in_rev key 40 4 st)).ss 0 = e 7
    rw [s0, w0, w1, w2, w3, r3, r2, r1, r0]
    simp only [Nat.xor_assoc, Nat.xor_comm, xor_left_comm]
  · show (kdf4 0 (key_in_rev key 40 4 st)).ss 1 = e 4 ^^^ e 5 ^^^ e 6 ^^^ e 7
    rw [s1, w1, w3, r3, r2, r1, r0]
    simp only [Nat.xor_assoc, Nat.xor_comm, xor_left_comm, Nat.xor_self, Nat.xor_zero,
      Nat.zero_xor, xor_cancel_mid]
  · show (kdf4 0 (key_in_rev key 40 4 st)).ss 2 = e 5 ^^^ e 7
    rw [s2, w2, w3, r3, r2, r1, r0]
    simp only [Nat.xor_assoc, Nat.xor_comm, xor_left_comm, Nat.xor_self, Nat.xor_zero,
      Nat.zero_xor, xor_cancel_mid]
  · show (kdf4 0 (key_in_rev key 40 4 st)).ss 3 = e 6 ^^^ e 7
    rw [s3, w3, r3]
    simp only [Nat.xor_assoc, Nat.xor_comm, xor_left_comm, Nat.xor_self, Nat.xor_zero,
      Nat.zero_xor, xor_cancel_mid]

theorem kdl4_step (e : Arr) (D : KSt) (hr : Rec4 e 9) (h : Dec4 e 9 D) :
    DecOf 10 (kdl4 9 D).k e := by
  obtain ⟨hk, s3, s0, s1, s2⟩ := h
  obtain ⟨r0, r1, r2, r3⟩ := hr
  have t3 : D.ss 0 = e 39 := s3
  have t0 : D.ss 1 = e 36 ^^^ e 37 ^^^ e 38 ^^^ e 39 := s0
  have t1 : D.ss 2 = e 37 ^^^ e 39 := s1
  have t2 : D.ss 3 = e 38 ^^^ e 39 := s2
  have q0 : e 40 = e 36 ^^^ (ls_box (e 39) 3 ^^^ t_rc 9) := r0
  have q1 : e 41 = e 37 ^^^ e 40 := r1
  have q2 : e 42 = e 38 ^^^ e 41 := r2
  have q3 : e 43 = e 39 ^^^ e 42 := r3
  have old : ∀ j, 4 ≤ j → (kdl4 9 D).k j = D.k j := by
    intro j hj
    rw [kdl4_k]
    exact upd4_old _ _ _ _ _ _ _ (Or.inr (by omega))
  obtain ⟨n0, n1, n2, n3⟩ : (kdl4 9 D).k 0 = _ ∧ (kdl4 9 D).k (0 + 1) = _ ∧
      (kdl4 9 D).k (0 + 2) = _ ∧ (kdl4 9 D).k (0 + 3) = _ := by
    rw [kdl4_k]; exact upd4_new _ _ _ _ _ _
  simp only [t3, t0, t1, t2] at n0 n1 n2 n3
  intro r hr c hc
  by_cases hr9 : r ≤ 9
  · rw [old _ (by omega), show 4 * (10 - r) + c = 40 - 4 * r + c from by omega, hk r hr9 c hc]
    by_cases h0 : r = 0
    · rw [if_pos h0, if_pos (Or.inl h0)]
    · rw [if_neg h0, if_neg (by omega)]
  · have e10 : r = 10 := by omega
    subst e10
    rw [if_pos (Or.inr rfl)]
    have hc' : c = 0 ∨ c = 1 ∨ c = 2 ∨ c = 3 := by omega
    rcases hc' with rfl | rfl | rfl | rfl
    · show (kdl4 9 D).k 0 = e 40
      rw [n0, q0]
      simp only [Nat.xor_assoc, Nat.xor_comm, xor_left_comm, Nat.xor_self, Nat.xor_zero,
        Nat.zero_xor, xor_cancel_mid]
    · show (kdl4 9 D).k (0 + 1) = e 41
      rw [n1, q1, q0]
      simp only [Nat.xor_assoc, Nat.xor_comm, xor_left_comm, Nat.xor_self, Nat.xor_zero,
        Nat.zero_xor, xor_cancel_mid]
    · show (kdl4 9 D).k (0 + 2) = e 42
      rw [n2, q2, q1, q0]
      simp only [Nat.xor_assoc, Nat.xor_comm, xor_left_comm, Nat.xor_self, Nat.xor_zero,
        Nat.zero_xor, xor_cancel_mid]
    · show (kdl4 9 D).k (0 + 3) = e 43
      rw [n3, q3, q2, q1, q0]
      simp only [Nat.xor_assoc, Nat.xor_comm, xor_left_comm, Nat.xor_self, Nat.xor_zero,
        Nat.zero_xor, xor_cancel_mid]

/-- The schedule of `aes_decrypt_key128` is the decryption schedule of any
array holding the expanded 128-bit key. -/
theorem dec128_of (key : List Nat) (cx : aes_ctx) (e : Arr) (he : Exp4 key e 10) :
    DecOf 10 (aes_decrypt_key128 key cx).ks e :=
  kdl4_step e _ (he.2 9 (by decide))
    (kd4_step e 8 _ (by decide) (by decide) (he.2 8 (by decide))
    (kd4_step e 7 _ (by decide) (by decide) (he.2 7 (by decide))
    (kd4_step e 6 _ (by decide) (by decide) (he.2 6 (by decide))
    (kd4_step e 5 _ (by decide) (by decide) (he.2 5 (by decide))
    (kd4_step e 4 _ (by decide) (by decide) (he.2 4 (by decide))
    (kd4_step e 3 _ (by decide) (by decide) (he.2 3 (by decide))
    (kd4_step e 2 _ (by decide) (by decide) (he.2 2 (by decide))
    (kd4_step e 1 _ (by decide) (by decide) (he.2 1 (by decide))
    (kdf4_step key e ⟨cx.ks, Arr.zero⟩ ⟨he.1, fun r hr => he.2 r (by omega)⟩)))))))))


theorem kef6_k (i : Nat) (E : KSt) :
    (kef6 i E).k =
      upd (upd (upd (upd E.k (6 * i + 6) (E.ss 0 ^^^ (ls_box (E.ss 5) 3 ^^^ t_rc i)))
        (6 * i + 6 + 1) (E.ss 1 ^^^ (E.ss 0 ^^^ (ls_box (E.ss 5) 3 ^^^ t_rc i))))
        (6 * i + 6 + 2) (E.ss 2 ^^^ (E.ss 1 ^^^ (E.ss 0 ^^^ (ls_box (E.ss 5) 3 ^^^ t_rc i)))))
        (6 * i + 6 + 3)
        (E.ss 3 ^^^ (E.ss 2 ^^^ (E.ss 1 ^^^ (E.ss 0 ^^^ (ls_box (E.ss 5) 3 ^^^ t_rc i))))) := rfl

theorem kef6_ss (i : Nat) (E : KSt) :
    ((kef6 i E).ss 0 = (kef6 i E).k (6 * i + 6) ∧ (kef6 i E).ss 1 = (kef6 i E).k (6 * i + 6 + 1) ∧
    (kef6 i E).ss 2 = (kef6 i E).k (6 * i + 6 + 2) ∧
    (kef6 i E).ss 3 = (kef6 i E).k (6 * i + 6 + 3)) ∧
    (kef6 i E).ss 4 = E.ss 4 ∧ (kef6 i E).ss 5 = E.ss 5 := by
  simp [kef6, upd]

theorem ke6_k (i : Nat) (E : KSt) :
    (ke6 i E).k =
      upd (upd (kef6 i E).k (6 * i + 10) (E.ss 4 ^^^ (kef6 i E).k (6 * i + 6 + 3)))
        (6 * i + 11) (E.ss 5 ^^^ (E.ss 4 ^^^ (kef6 i E).k (6 * i + 6 + 3))) := by
  obtain ⟨⟨_, _, _, s3⟩, s4, s5⟩ := kef6_ss i E
  simp only [ke6, upd_get, s3, s4, s5]
  simp

theorem ke6_ss (i : Nat) (E : KSt) (c : Nat) (hc : c < 6) :
    (ke6 i E).ss c = (ke6 i E).k (6 * i + 6 + c) := by
  obtain ⟨⟨s0, s1, s2, s3⟩, s4, s5⟩ := kef6_ss i E
  have hc' : c = 0 ∨ c = 1 ∨ c = 2 ∨ c = 3 ∨ c = 4 ∨ c = 5 := by omega
  rw [ke6_k]
  rcases hc' with rfl | rfl | rfl | rfl | rfl | rfl <;>
    simp [ke6, upd_get, s0, s1, s2, s3, s4, s5]


theorem kef6_old (i : Nat) (E : KSt) (j : Nat) (h : j < 6 * i + 6 ∨ 6 * i + 10 ≤ j) :
    (kef6 i E).k j = E.k j := by
  rw [kef6_k]
  exact upd4_old _ _ _ _ _ _ _ (by omega)

theorem kef6_new (i : Nat) (E : KSt) :
    (kef6 i E).k (6 * i + 6) = E.ss 0 ^^^ (ls_box (E.ss 5) 3 ^^^ t_rc i) ∧
    (kef6 i E).k (6 * i + 7) = E.ss 1 ^^^ (kef6 i E).k (6 * i + 6) ∧
    (kef6 i E).k (6 * i + 8) = E.ss 2 ^^^ (kef6 i E).k (6 * i + 7) ∧
    (kef6 i E).k (6 * i + 9) = E.ss 3 ^^^ (kef6 i E).k (6 * i + 8) := by
  obtain ⟨n0, n1, n2, n3⟩ := upd4_new E.k (6 * i + 6)
    (E.ss 0 ^^^ (ls_box (E.ss 5) 3 ^^^ t_rc i))
    (E.ss 1 ^^^ (E.ss 0 ^^^ (ls_box (E.ss 5) 3 ^^^ t_rc i)))
    (E.ss 2 ^^^ (E.ss 1 ^^^ (E.ss 0 ^^^ (ls_box (E.ss 5) 3 ^^^ t_rc i))))
    (E.ss 3 ^^^ (E.ss 2 ^^^ (E.ss 1 ^^^ (E.ss 0 ^^^ (ls_box (E.ss 5) 3 ^^^ t_rc i)))))
  rw [← kef6_k] at n0 n1 n2 n3
  refine ⟨n0, ?_, ?_, ?_⟩
  · rw [n0]; exact n1
  · rw [show 6 * i + 7 = 6 * i + 6 + 1 from rfl, n1]; exact n2
  · rw [show 6 * i + 8 = 6 * i + 6 + 2 from rfl, n2]; exact n3

theorem ke6_old (i : Nat) (E : KSt) (j : Nat) (h : j < 6 * i + 6) : (ke6 i E).k j = E.k j := by
  rw [ke6_k, upd_get, if_neg (by omega), upd_get, if_neg (by omega)]
  exact kef6_old i E j (Or.inl h)

theorem ke6_new (i : Nat) (E : KSt) :
    ((ke6 i E).k (6 * i + 6) = E.ss 0 ^^^ (ls_box (E.ss 5) 3 ^^^ t_rc i) ∧
    (ke6 i E).k (6 * i + 7) = E.ss 1 ^^^ (ke6 i E).k (6 * i + 6) ∧
    (ke6 i E).k (6 * i + 8) = E.ss 2 ^^^ (ke6 i E).k (6 * i + 7) ∧
    (ke6 i E).k (6 * i + 9) = E.ss 3 ^^^ (ke6 i E).k (6 * i + 8)) ∧
    (ke6 i E).k (6 * i + 10) = E.ss 4 ^^^ (ke6 i E).k (6 * i + 9) ∧
    (ke6 i E).k (6 * i + 11) = E.ss 5 ^^^ (ke6 i E).k (6 * i + 10) := by
  obtain ⟨n0, n1, n2, n3⟩ := kef6_new i E
  have low : ∀ j, j < 6 * i + 10 → (ke6 i E).k j = (kef6 i E).k j := by
    intro j hj
    rw [ke6_k, upd_get, if_neg (by omega), upd_get, if_neg (by omega)]
  have a10 : (ke6 i E).k (6 * i + 10) = E.ss 4 ^^^ (kef6 i E).k (6 * i + 9) := by
    rw [ke6_k, upd_get, if_neg (by omega), upd_get, if_pos rfl]
  have a11 : (ke6 i E).k (6 * i + 11) = E.ss 5 ^^^ (E.ss 4 ^^^ (kef6 i E).k (6 * i + 9)) := by
    rw [ke6_k, upd_get, if_pos rfl]
  rw [low _ (by omega), low _ (by omega), low _ (by omega), low _ (by omega), a10, a11]
  exact ⟨⟨n0, n1, n2, n3⟩, rfl, rfl⟩

theorem ke6_step (key : List Nat) (i : Nat) (E : KSt)
    (h : (∀ c, c < 6 → E.ss c = E.k (6 * i + c)) ∧ Exp6 key E.k i) :
    (∀ c, c < 6 → (ke6 i E).ss c = (ke6 i E).k (6 * (i + 1) + c)) ∧
      Exp6 key (ke6 i E).k (i + 1) := by
  obtain ⟨hss, hkey, hrec⟩ := h
  obtain ⟨⟨n0, n1, n2, n3⟩, n4, n5⟩ := ke6_new i E
  have old := ke6_old i E
  refine ⟨?_, ?_, ?_⟩
  · intro c hc
    rw [ke6_ss i E c hc, show 6 * (i + 1) + c = 6 * i + 6 + c from by omega]
  · intro c hc
    rw [old c (by omega)]
    exact hkey c hc
  · intro r hr
    by_cases hri : r < i
    · have := hrec r hri
      unfold Rec6 Rec6f at this ⊢
      rw [old _ (by omega), old _ (by omega), old _ (by omega), old _ (by omega),
        old _ (by omega), old _ (by omega), old _ (by omega), old _ (by omega),
        old _ (by omega), old _ (by omega), old _ (by omega), old _ (by omega)]
      exact this
    · have e : r = i := by omega
      subst e
      unfold Rec6 Rec6f
      rw [old (6 * r) (by omega), old (6 * r + 1) (by omega), old (6 * r + 2) (by omega),
        old (6 * r + 3) (by omega), old (6 * r + 4) (by omega), old (6 * r + 5) (by omega)]
      have h0 := hss 0 (by decide)
      have h1 := hss 1 (by decide)
      have h2 := hss 2 (by decide)
      have h3 := hss 3 (by decide)
      have h4 := hss 4 (by decide)
      have h5 := hss 5 (by decide)
      simp only [Nat.add_zero] at h0
      rw [← h0, ← h1, ← h2, ← h3, ← h4, ← h5]
      exact ⟨⟨n0, n1, n2, n3⟩, n4, n5⟩

theorem kef6_step (key : List Nat) (i : Nat) (E : KSt)
    (h : (∀ c, c < 6 → E.ss c = E.k (6 * i + c)) ∧ Exp6 key E.k i) :
    Exp6 key (kef6 i E).k i ∧ Rec6f (kef6 i E).k i := by
  obtain ⟨hss, hkey, hrec⟩ := h
  obtain ⟨n0, n1, n2, n3⟩ := kef6_new i E
  have old : ∀ j, j < 6 * i + 6 → (kef6 i E).k j = E.k j := fun j hj => kef6_old i E j (Or.inl hj)
  refine ⟨⟨?_, ?_⟩, ?_⟩
  · intro c hc
    rw [old c (by omega)]
    exact hkey c hc
  · intro r hri
    have := hrec r hri
    unfold Rec6 Rec6f at this ⊢
    rw [old _ (by omega), old _ (by omega), old _ (by omega), old _ (by omega),
      old _ (by omega), old _ (by omega), old _ (by omega), old _ (by omega),
      old _ (by omega), old _ (by omega), old _ (by omega), old _ (by omega)]
    exact this
  · unfold Rec6f
    rw [old (6 * i) (by omega), old (6 * i + 1) (by omega), old (6 * i + 2) (by omega),
      old (6 * i + 3) (by omega), old (6 * i + 5) (by omega)]
    have h0 := hss 0 (by decide)
    have h1 := hss 1 (by decide)
    have h2 := hss 2 (by decide)
    have h3 := hss 3 (by decide)
    have h5 := hss 5 (by decide)
    simp only [Nat.add_zero] at h0
    rw [← h0, ← h1, ← h2, ← h3, ← h5]
    exact ⟨n0, n1, n2, n3⟩

theorem key_in_6 (key : List Nat) (st : KSt) :
    (∀ c, c < 6 → (key_in key 6 st).ss c = (key_in key 6 st).k (6 * 0 + c)) ∧
      Exp6 key (key_in key 6 st).k 0 := by
  refine ⟨?_, ?_, ?_⟩
  · intro c hc
    have hc' : c = 0 ∨ c = 1 ∨ c = 2 ∨ c = 3 ∨ c = 4 ∨ c = 5 := by omega
    rcases hc' with rfl | rfl | rfl | rfl | rfl | rfl <;> rfl
  · intro c hc
    have hc' : c = 0 ∨ c = 1 ∨ c = 2 ∨ c = 3 ∨ c = 4 ∨ c = 5 := by omega
    rcases hc' with rfl | rfl | rfl | rfl | rfl | rfl <;> rfl
  · intro r hr
    omega

/-- The schedule written by `aes_encrypt_key192` is the key followed by seven
whole expansion steps and the first four words of an eighth. -/
theorem enc192_exp (key : List Nat) (cx : aes_ctx) :
    Exp6 key (aes_encrypt_key192 key cx).ks 7 ∧ Rec6f (aes_encrypt_key192 key cx).ks 7 :=
  kef6_step key 7 _ (ke6_step key 6 _ (ke6_step key 5 _ (ke6_step key 4 _ (ke6_step key 3 _
    (ke6_step key 2 _ (ke6_step key 1 _ (ke6_step key 0 _
      (key_in_6 key ⟨cx.ks, Arr.zero⟩))))))))

theorem v_nat (n w : Nat) (h : w ≤ n + 2 * (w % 4)) : v n w = n + 2 * (w % 4) - w := by
  unfold v
  have e : w &&& 3 = w % 4 := Nat.and_pow_two_sub_one_eq_mod w 2
  rw [e]
  omega

/-- Where the macro `v` puts word `4 * q + c`, for a schedule of `n / 4` rounds. -/
theorem v_eq (n q c : Nat) (hc : c < 4) (hq : 4 * q ≤ n) : v n (4 * q + c) = n - 4 * q + c := by
  rw [v_nat n (4 * q + c) (by omega)]
  omega

/-- The macro `v` is one-to-one on the words of a schedule. -/
theorem v_inj (n w x : Nat) (hn : n % 4 = 0) (hw : w ≤ n + 3) (hx : x ≤ n + 3) :
    (v n w = v n x) = (w = x) := by
  rw [v_nat n w (by omega), v_nat n x (by omega)]
  apply propext
  constructor
  · intro h; omega
  · intro h; subst h; rfl

theorem upd6_v (n : Nat) (hn : n % 4 = 0) (a : Arr) (b x0 x1 x2 x3 x4 x5 w : Nat)
    (hb : b + 5 ≤ n + 3) (hw : w ≤ n + 3) :
    (upd (upd (upd (upd (upd (upd a (v n b) x0) (v n (b + 1)) x1) (v n (b + 2)) x2)
      (v n (b + 3)) x3) (v n (b + 4)) x4) (v n (b + 5)) x5) (v n w) =
    if w = b + 5 then x5 else if w = b + 4 then x4 else if w = b + 3 then x3
    else if w = b + 2 then x2 else if w = b + 1 then x1 else if w = b then x0 else a (v n w) := by
  simp only [upd_get, v_inj n w _ hn hw (show b ≤ n + 3 by omega),
    v_inj n w _ hn hw (show b + 1 ≤ n + 3 by omega),
    v_inj n w _ hn hw (show b + 2 ≤ n + 3 by omega),
    v_inj n w _ hn hw (show b + 3 ≤ n + 3 by omega),
    v_inj n w _ hn hw (show b + 4 ≤ n + 3 by omega),
    v_inj n w _ hn hw (show b + 5 ≤ n + 3 by omega)]

theorem upd4_v (n : Nat) (hn : n % 4 = 0) (a : Arr) (b x0 x1 x2 x3 w : Nat)
    (hb : b + 3 ≤ n + 3) (hw : w ≤ n + 3) :
    (upd (upd (upd (upd a (v n b) x0) (v n (b + 1)) x1) (v n (b + 2)) x2)
      (v n (b + 3)) x3) (v n w) =
    if w = b + 3 then x3 else if w = b + 2 then x2 else if w = b + 1 then x1
    else if w = b then x0 else a (v n w) := by
  simp only [upd_get, v_inj n w _ hn hw (show b ≤ n + 3 by omega),
    v_inj n w _ hn hw (show b + 1 ≤ n + 3 by omega),
    v_inj n w _ hn hw (show b + 2 ≤ n + 3 by omega),
    v_inj n w _ hn hw (show b + 3 ≤ n + 3 by omega)]

theorem kdf6_k (D : KSt) :
    (kdf6 0 D).k =
      upd (upd (upd (upd (upd (upd D.k (v 48 6) (ff (D.ss 0 ^^^ (ls_box (D.ss 5) 3 ^^^ t_rc 0))))
        (v 48 (6 + 1)) (ff (D.ss 1 ^^^ (D.ss 0 ^^^ (ls_box (D.ss 5) 3 ^^^ t_rc 0)))))
        (v 48 (6 + 2))
        (ff (D.ss 2 ^^^ (D.ss 1 ^^^ (D.ss 0 ^^^ (ls_box (D.ss 5) 3 ^^^ t_rc 0))))))
        (v 48 (6 + 3))
        (ff (D.ss 3 ^^^ (D.ss 2 ^^^ (D.ss 1 ^^^ (D.ss 0 ^^^ (ls_box (D.ss 5) 3 ^^^ t_rc 0)))))))
        (v 48 (6 + 4))
        (ff (D.ss 4 ^^^ (D.ss 3 ^^^ (D.ss 2 ^^^ (D.ss 1 ^^^ (D.ss 0 ^^^
          (ls_box (D.ss 5) 3 ^^^ t_rc 0))))))))
        (v 48 (6 + 5))
        (ff (D.ss 5 ^^^ (D.ss 4 ^^^ (D.ss 3 ^^^ (D.ss 2 ^^^ (D.ss 1 ^^^ (D.ss 0 ^^^
          (ls_box (D.ss 5) 3 ^^^ t_rc 0)))))))) := rfl

theorem kdf6_ss (D : KSt) :
    (kdf6 0 D).ss 0 = D.ss 0 ^^^ (ls_box (D.ss 5) 3 ^^^ t_rc 0) ∧
    (kdf6 0 D).ss 1 = D.ss 1 ^^^ (D.ss 0 ^^^ (ls_box (D.ss 5) 3 ^^^ t_rc 0)) ∧
    (kdf6 0 D).ss 2 = D.ss 2 ^^^ (D.ss 1 ^^^ (D.ss 0 ^^^ (ls_box (D.ss 5) 3 ^^^ t_rc 0))) ∧
    (kdf6 0 D).ss 3 =
      D.ss 3 ^^^ (D.ss 2 ^^^ (D.ss 1 ^^^ (D.ss 0 ^^^ (ls_box (D.ss 5) 3 ^^^ t_rc 0)))) ∧
    (kdf6 0 D).ss 4 =
      D.ss 4 ^^^ (D.ss 3 ^^^ (D.ss 2 ^^^ (D.ss 1 ^^^ (D.ss 0 ^^^
        (ls_box (D.ss 5) 3 ^^^ t_rc 0))))) ∧
    (kdf6 0 D).ss 5 =
      D.ss 5 ^^^ (D.ss 4 ^^^ (D.ss 3 ^^^ (D.ss 2 ^^^ (D.ss 1 ^^^ (D.ss 0 ^^^
        (ls_box (D.ss 5) 3 ^^^ t_rc 0)))))) := ⟨rfl, rfl, rfl, rfl, rfl, rfl⟩

theorem kd6_k (i : Nat) (D : KSt) (h1 : 1 ≤ i) (h6 : i ≤ 6) :
    (kd6 i D).k =
      upd (upd (upd (upd (upd (upd D.k (v 48 (6 * i + 6))
        (ff (ls_box (D.ss 5) 3 ^^^ t_rc i) ^^^ D.k (v 48 (6 * i))))
        (v 48 (6 * i + 6 + 1))
        (ff (ls_box (D.ss 5) 3 ^^^ t_rc i) ^^^ D.k (v 48 (6 * i)) ^^^ D.k (v 48 (6 * i + 1))))
        (v 48 (6 * i + 6 + 2))
        (ff (ls_box (D.ss 5) 3 ^^^ t_rc i) ^^^ D.k (v 48 (6 * i)) ^^^ D.k (v 48 (6 * i + 1)) ^^^
          D.k (v 48 (6 * i + 2))))
        (v 48 (6 * i + 6 + 3))
        (ff (ls_box (D.ss 5) 3 ^^^ t_rc i) ^^^ D.k (v 48 (6 * i)) ^^^ D.k (v 48 (6 * i + 1)) ^^^
          D.k (v 48 (6 * i + 2)) ^^^ D.k (v 48 (6 * i + 3))))
        (v 48 (6 * i + 6 + 4))
        (ff (ls_box (D.ss 5) 3 ^^^ t_rc i) ^^^ D.k (v 48 (6 * i)) ^^^ D.k (v 48 (6 * i + 1)) ^^^
          D.k (v 48 (6 * i + 2)) ^^^ D.k (v 48 (6 * i + 3)) ^^^ D.k (v 48 (6 * i + 4))))
        (v 48 (6 * i + 6 + 5))
        (ff (ls_box (D.ss 5) 3 ^^^ t_rc i) ^^^ D.k (v 48 (6 * i)) ^^^ D.k (v 48 (6 * i + 1)) ^^^
          D.k (v 48 (6 * i + 2)) ^^^ D.k (v 48 (6 * i + 3)) ^^^ D.k (v 48 (6 * i + 4)) ^^^
          D.k (v 48 (6 * i + 5))) := by
  interval_cases i <;> rfl

theorem kd6_ss (i : Nat) (D : KSt) :
    (kd6 i D).ss 0 = D.ss 0 ^^^ (ls_box (D.ss 5) 3 ^^^ t_rc i) ∧
    (kd6 i D).ss 1 = D.ss 1 ^^^ (D.ss 0 ^^^ (ls_box (D.ss 5) 3 ^^^ t_rc i)) ∧
    (kd6 i D).ss 2 = D.ss 2 ^^^ (D.ss 1 ^^^ (D.ss 0 ^^^ (ls_box (D.ss 5) 3 ^^^ t_rc i))) ∧
    (kd6 i D).ss 3 =
      D.ss 3 ^^^ (D.ss 2 ^^^ (D.ss 1 ^^^ (D.ss 0 ^^^ (ls_box (D.ss 5) 3 ^^^ t_rc i)))) ∧
    (kd6 i D).ss 4 =
      D.ss 4 ^^^ (D.ss 3 ^^^ (D.ss 2 ^^^ (D.ss 1 ^^^ (D.ss 0 ^^^
        (ls_box (D.ss 5) 3 ^^^ t_rc i))))) ∧
    (kd6 i D).ss 5 =
      D.ss 5 ^^^ (D.ss 4 ^^^ (D.ss 3 ^^^ (D.ss 2 ^^^ (D.ss 1 ^^^ (D.ss 0 ^^^
        (ls_box (D.ss 5) 3 ^^^ t_rc i)))))) := ⟨rfl, rfl, rfl, rfl, rfl, rfl⟩

theorem kdl6_k (D : KSt) :
    (kdl6 7 D).k =
      upd (upd (upd (upd D.k (v 48 48) (D.ss 0 ^^^ (ls_box (D.ss 5) 3 ^^^ t_rc 7)))
        (v 48 (48 + 1)) (D.ss 1 ^^^ (D.ss 0 ^^^ (ls_box (D.ss 5) 3 ^^^ t_rc 7))))
        (v 48 (48 + 2)) (D.ss 2 ^^^ (D.ss 1 ^^^ (D.ss 0 ^^^ (ls_box (D.ss 5) 3 ^^^ t_rc 7)))))
        (v 48 (48 + 3))
        (D.ss 3 ^^^ (D.ss 2 ^^^ (D.ss 1 ^^^ (D.ss 0 ^^^ (ls_box (D.ss 5) 3 ^^^ t_rc 7))))) := rfl


theorem kdf6_step (e : Arr) (D : KSt) (hr : Rec6 e 0) (h : Dec6 e 0 D) :
    Dec6 e 1 (kdf6 0 D) := by
  obtain ⟨hk, hss⟩ := h
  obtain ⟨⟨r0, r1, r2, r3⟩, r4, r5⟩ := hr
  obtain ⟨s0, s1, s2, s3, s4, s5⟩ := kdf6_ss D
  have h0 := hss 0 (by decide)
  have h1 := hss 1 (by decide)
  have h2 := hss 2 (by decide)
  have h3 := hss 3 (by decide)
  have h4 := hss 4 (by decide)
  have h5 := hss 5 (by decide)
  simp only [Nat.mul_zero, Nat.zero_add] at h0 h1 h2 h3 h4 h5 r0 r1 r2 r3 r4 r5
  have a0 : D.ss 0 ^^^ (ls_box (D.ss 5) 3 ^^^ t_rc 0) = e 6 := by rw [h0, h5, r0]
  have a1 : D.ss 1 ^^^ e 6 = e 7 := by rw [h1, r1]
  have a2 : D.ss 2 ^^^ e 7 = e 8 := by rw [h2, r2]
  have a3 : D.ss 3 ^^^ e 8 = e 9 := by rw [h3, r3]
  have a4 : D.ss 4 ^^^ e 9 = e 10 := by rw [h4, r4]
  have a5 : D.ss 5 ^^^ e 10 = e 11 := by rw [h5, r5]
  simp only [a0, a1, a2, a3, a4, a5] at s0 s1 s2 s3 s4 s5
  refine ⟨?_, ?_⟩
  · intro w hw
    rw [kdf6_k, upd6_v 48 (by decide) _ _ _ _ _ _ _ _ _ (by decide) (by omega)]
    simp only [a0, a1, a2, a3, a4, a5]
    by_cases h6 : w < 6
    · repeat rw [if_neg (by omega)]
      exact hk w (by omega)
    · have hw' : w = 6 ∨ w = 7 ∨ w = 8 ∨ w = 9 ∨ w = 10 ∨ w = 11 := by omega
      rcases hw' with rfl | rfl | rfl | rfl | rfl | rfl <;> simp
  · intro c hc
    have hc' : c = 0 ∨ c = 1 ∨ c = 2 ∨ c = 3 ∨ c = 4 ∨ c = 5 := by omega
    rcases hc' with rfl | rfl | rfl | rfl | rfl | rfl
    · exact s0
    · exact s1
    · exact s2
    · exact s3
    · exact s4
    · exact s5

theorem kd6_step (e : Arr) (i : Nat) (D : KSt) (h1 : 1 ≤ i) (h6 : i ≤ 6) (hr : Rec6 e i)
    (h : Dec6 e i D) : Dec6 e (i + 1) (kd6 i D) := by
  obtain ⟨hk, hss⟩ := h
  obtain ⟨⟨r0, r1, r2, r3⟩, r4, r5⟩ := hr
  obtain ⟨s0, s1, s2, s3, s4, s5⟩ := kd6_ss i D
  have g0 := hss 0 (by decide)
  have g1 := hss 1 (by decide)
  have g2 := hss 2 (by decide)
  have g3 := hss 3 (by decide)
  have g4 := hss 4 (by decide)
  have g5 := hss 5 (by decide)
  simp only [Nat.add_zero] at g0
  have a0 : D.ss 0 ^^^ (ls_box (D.ss 5) 3 ^^^ t_rc i) = e (6 * i + 6) := by rw [g0, g5, r0]
  have a1 : D.ss 1 ^^^ e (6 * i + 6) = e (6 * i + 7) := by rw [g1, r1]
  have a2 : D.ss 2 ^^^ e (6 * i + 7) = e (6 * i + 8) := by rw [g2, r2]
  have a3 : D.ss 3 ^^^ e (6 * i + 8) = e (6 * i + 9) := by rw [g3, r3]
  have a4 : D.ss 4 ^^^ e (6 * i + 9) = e (6 * i + 10) := by rw [g4, r4]
  have a5 : D.ss 5 ^^^ e (6 * i + 10) = e (6 * i + 11) := by rw [g5, r5]
  simp only [a0, a1, a2, a3, a4, a5] at s0 s1 s2 s3 s4 s5
  have k0 := hk (6 * i) (by omega)
  have k1 := hk (6 * i + 1) (by omega)
  have k2 := hk (6 * i + 2) (by omega)
  have k3 := hk (6 * i + 3) (by omega)
  have k4 := hk (6 * i + 4) (by omega)
  have k5 := hk (6 * i + 5) (by omega)
  rw [if_neg (by omega)] at k0 k1 k2 k3 k4 k5
  have b0 : ls_box (D.ss 5) 3 ^^^ t_rc i ^^^ e (6 * i) = e (6 * i + 6) := by
    rw [g5, r0, Nat.xor_comm]
  have b1 : e (6 * i + 6) ^^^ e (6 * i + 1) = e (6 * i + 7) := by rw [r1, Nat.xor_comm]
  have b2 : e (6 * i + 7) ^^^ e (6 * i + 2) = e (6 * i + 8) := by rw [r2, Nat.xor_comm]
  have b3 : e (6 * i + 8) ^^^ e (6 * i + 3) = e (6 * i + 9) := by rw [r3, Nat.xor_comm]
  have b4 : e (6 * i + 9) ^^^ e (6 * i + 4) = e (6 * i + 10) := by rw [r4, Nat.xor_comm]
  have b5 : e (6 * i + 10) ^^^ e (6 * i + 5) = e (6 * i + 11) := by rw [r5, Nat.xor_comm]
  refine ⟨?_, ?_⟩
  · intro w hw
    rw [kd6_k i D h1 h6, upd6_v 48 (by decide) _ _ _ _ _ _ _ _ _ (by omega) (by omega)]
    simp only [k0, k1, k2, k3, k4, k5, ← ff_xor, b0, b1, b2, b3, b4, b5]
    by_cases hlt : w < 6 * i + 6
    · repeat rw [if_neg (by omega)]
      exact hk w hlt
    · have hw' : w = 6 * i + 6 ∨ w = 6 * i + 6 + 1 ∨ w = 6 * i + 6 + 2 ∨ w = 6 * i + 6 + 3 ∨
          w = 6 * i + 6 + 4 ∨ w = 6 * i + 6 + 5 := by omega
      rcases hw' with rfl | rfl | rfl | rfl | rfl | rfl
      · repeat rw [if_neg (by omega)]
        rw [if_pos rfl, if_neg (by omega)]
      · repeat rw [if_neg (by omega)]
        rw [if_pos rfl, if_neg (by omega)]
      · repeat rw [if_neg (by omega)]
        rw [if_pos rfl,
          if_neg (by omega)]
      · rw [if_neg (by omega), if_neg (by omega), if_pos rfl, if_neg (by omega)]
      · rw [if_neg (by omega), if_pos rfl, if_neg (by omega)]
      · rw [if_pos rfl, if_neg (by omega)]
  · intro c hc
    have hc' : c = 0 ∨ c = 1 ∨ c = 2 ∨ c = 3 ∨ c = 4 ∨ c = 5 := by omega
    rw [show 6 * (i + 1) + c = 6 * i + 6 + c from by omega]
    rcases hc' with rfl | rfl | rfl | rfl | rfl | rfl
    · exact s0
    · exact s1
    · exact s2
    · exact s3
    · exact s4
    · exact s5

theorem kdl6_step (e : Arr) (D : KSt) (hr : Rec6f e 7) (h : Dec6 e 7 D) :
    DecOf 12 (kdl6 7 D).k e := by
  obtain ⟨hk, hss⟩ := h
  obtain ⟨r0, r1, r2, r3⟩ := hr
  have g0 := hss 0 (by decide)
  have g1 := hss 1 (by decide)
  have g2 := hss 2 (by decide)
  have g3 := hss 3 (by decide)
  have g5 := hss 5 (by decide)
  have a0 : D.ss 0 ^^^ (ls_box (D.ss 5) 3 ^^^ t_rc 7) = e 48 := by rw [g0, g5]; exact r0.symm
  have a1 : D.ss 1 ^^^ e 48 = e 49 := by rw [g1]; exact r1.symm
  have a2 : D.ss 2 ^^^ e 49 = e 50 := by rw [g2]; exact r2.symm
  have a3 : D.ss 3 ^^^ e 50 = e 51 := by rw [g3]; exact r3.symm
  intro r hr c hc
  rw [show 4 * (12 - r) + c = 48 - 4 * r + c from by omega, ← v_eq 48 r c hc (by omega), kdl6_k,
    upd4_v 48 (by decide) _ _ _ _ _ _ _ (by decide) (by omega)]
  simp only [a0, a1, a2, a3]
  by_cases h12 : r = 12
  · subst h12
    rw [if_pos (Or.inr rfl)]
    have hc' : c = 0 ∨ c = 1 ∨ c = 2 ∨ c = 3 := by omega
    rcases hc' with rfl | rfl | rfl | rfl <;> simp
  · repeat rw [if_neg (by omega)]
    rw [hk _ (by omega)]
    by_cases h0 : r = 0
    · subst h0
      rw [if_pos (by omega), if_pos (Or.inl rfl)]
    · rw [if_neg (by omega), if_neg (by omega)]


theorem key_in_192 (key : List Nat) (e : Arr) (st : KSt) (he : ∀ c, c < 6 → e c = word_in key c) :
    Dec6 e 0 (key_in_ff key 48 5 (key_in_ff key 48 4 (key_in_rev key 48 4 st))) := by
  refine ⟨?_, ?_⟩
  · intro w hw
    have hw' : w = 0 ∨ w = 1 ∨ w = 2 ∨ w = 3 ∨ w = 4 ∨ w = 5 := by omega
    rcases hw' with rfl | rfl | rfl | rfl | rfl | rfl
    · rw [if_pos (by decide), he 0 (by decide)]; rfl
    · rw [if_pos (by decide), he 1 (by decide)]; rfl
    · rw [if_pos (by decide), he 2 (by decide)]; rfl
    · rw [if_pos (by decide), he 3 (by decide)]; rfl
    · rw [if_neg (by decide), he 4 (by decide)]; rfl
    · rw [if_neg (by decide), he 5 (by decide)]; rfl
  · intro c hc
    have hc' : c = 0 ∨ c = 1 ∨ c = 2 ∨ c = 3 ∨ c = 4 ∨ c = 5 := by omega
    rcases hc' with rfl | rfl | rfl | rfl | rfl | rfl
    · rw [he 0 (by decide)]; rfl
    · rw [he 1 (by decide)]; rfl
    · rw [he 2 (by decide)]; rfl
    · rw [he 3 (by decide)]; rfl
    · rw [he 4 (by decide)]; rfl
    · rw [he 5 (by decide)]; rfl

/-- The schedule of `aes_decrypt_key192` is the decryption schedule of any
array holding the expanded 192-bit key. -/
theorem dec192_of (key : List Nat) (cx : aes_ctx) (e : Arr)
    (he : Exp6 key e 7 ∧ Rec6f e 7) : DecOf 12 (aes_decrypt_key192 key cx).ks e :=
  kdl6_step e _ he.2
    (kd6_step e 6 _ (by decide) (by decide) (he.1.2 6 (by decide))
    (kd6_step e 5 _ (by decide) (by decide) (he.1.2 5 (by decide))
    (kd6_step e 4 _ (by decide) (by decide) (he.1.2 4 (by decide))
    (kd6_step e 3 _ (by decide) (by decide) (he.1.2 3 (by decide))
    (kd6_step e 2 _ (by decide) (by decide) (he.1.2 2 (by decide))
    (kd6_step e 1 _ (by decide) (by decide) (he.1.2 1 (by decide))
    (kdf6_step e _ (he.1.2 0 (by decide))
      (key_in_192 key e ⟨cx.ks, Arr.zero⟩ he.1.1))))))))


theorem kef8_k (i : Nat) (E : KSt) :
    (kef8 i E).k =
      upd (upd (upd (upd E.k (8 * i + 8) (E.ss 0 ^^^ (ls_box (E.ss 7) 3 ^^^ t_rc i)))
        (8 * i + 8 + 1) (E.ss 1 ^^^ (E.ss 0 ^^^ (ls_box (E.ss 7) 3 ^^^ t_rc i))))
        (8 * i + 8 + 2) (E.ss 2 ^^^ (E.ss 1 ^^^ (E.ss 0 ^^^ (ls_box (E.ss 7) 3 ^^^ t_rc i)))))
        (8 * i + 8 + 3)
        (E.ss 3 ^^^ (E.ss 2 ^^^ (E.ss 1 ^^^ (E.ss 0 ^^^ (ls_box (E.ss 7) 3 ^^^ t_rc i))))) := rfl

theorem kef8_ss (i : Nat) (E : KSt) :
    ((kef8 i E).ss 0 = (kef8 i E).k (8 * i + 8) ∧ (kef8 i E).ss 1 = (kef8 i E).k (8 * i + 8 + 1) ∧
    (kef8 i E).ss 2 = (kef8 i E).k (8 * i + 8 + 2) ∧
    (kef8 i E).ss 3 = (kef8 i E).k (8 * i + 8 + 3)) ∧
    (kef8 i E).ss 4 = E.ss 4 ∧ (kef8 i E).ss 5 = E.ss 5 ∧ (kef8 i E).ss 6 = E.ss 6 ∧
    (kef8 i E).ss 7 = E.ss 7 := by
  simp [kef8, upd]

theorem kef8_old (i : Nat) (E : KSt) (j : Nat) (h : j < 8 * i + 8 ∨ 8 * i + 12 ≤ j) :
    (kef8 i E).k j = E.k j := by
  rw [kef8_k]
  exact upd4_old _ _ _ _ _ _ _ (by omega)

theorem kef8_new (i : Nat) (E : KSt) :
    (kef8 i E).k (8 * i + 8) = E.ss 0 ^^^ (ls_box (E.ss 7) 3 ^^^ t_rc i) ∧
    (kef8 i E).k (8 * i + 9) = E.ss 1 ^^^ (kef8 i E).k (8 * i + 8) ∧
    (kef8 i E).k (8 * i + 10) = E.ss 2 ^^^ (kef8 i E).k (8 * i + 9) ∧
    (kef8 i E).k (8 * i + 11) = E.ss 3 ^^^ (kef8 i E).k (8 * i + 10) := by
  obtain ⟨n0, n1, n2, n3⟩ := upd4_new E.k (8 * i + 8)
    (E.ss 0 ^^^ (ls_box (E.ss 7) 3 ^^^ t_rc i))
    (E.ss 1 ^^^ (E.ss 0 ^^^ (ls_box (E.ss 7) 3 ^^^ t_rc i)))
    (E.ss 2 ^^^ (E.ss 1 ^^^ (E.ss 0 ^^^ (ls_box (E.ss 7) 3 ^^^ t_rc i))))
    (E.ss 3 ^^^ (E.ss 2 ^^^ (E.ss 1 ^^^ (E.ss 0 ^^^ (ls_box (E.ss 7) 3 ^^^ t_rc i)))))
  rw [← kef8_k] at n0 n1 n2 n3
  refine ⟨n0, ?_, ?_, ?_⟩
  · rw [n0]; exact n1
  · rw [show 8 * i + 9 = 8 * i + 8 + 1 from rfl, n1]; exact n2
  · rw [show 8 * i + 10 = 8 * i + 8 + 2 from rfl, n2]; exact n3

theorem ke8_k (i : Nat) (E : KSt) :
    (ke8 i E).k =
      upd (upd (upd (upd (kef8 i E).k (8 * i + 12)
        (E.ss 4 ^^^ ls_box ((kef8 i E).k (8 * i + 8 + 3)) 0))
        (8 * i + 12 + 1) (E.ss 5 ^^^ (E.ss 4 ^^^ ls_box ((kef8 i E).k (8 * i + 8 + 3)) 0)))
        (8 * i + 12 + 2)
        (E.ss 6 ^^^ (E.ss 5 ^^^ (E.ss 4 ^^^ ls_box ((kef8 i E).k (8 * i + 8 + 3)) 0))))
        (8 * i + 12 + 3)
        (E.ss 7 ^^^ (E.ss 6 ^^^ (E.ss 5 ^^^ (E.ss 4 ^^^
          ls_box ((kef8 i E).k (8 * i + 8 + 3)) 0)))) := by
  obtain ⟨⟨_, _, _, s3⟩, s4, s5, s6, s7⟩ := kef8_ss i E
  simp only [ke8, upd_get, s3, s4, s5, s6, s7]
  simp

theorem ke8_ss (i : Nat) (E : KSt) (c : Nat) (hc : c < 8) :
    (ke8 i E).ss c = (ke8 i E).k (8 * i + 8 + c) := by
  obtain ⟨⟨s0, s1, s2, s3⟩, s4, s5, s6, s7⟩ := kef8_ss i E
  have hc' : c = 0 ∨ c = 1 ∨ c = 2 ∨ c = 3 ∨ c = 4 ∨ c = 5 ∨ c = 6 ∨ c = 7 := by omega
  rw [ke8_k]
  rcases hc' with rfl | rfl | rfl | rfl | rfl | rfl | rfl | rfl <;>
    simp [ke8, upd_get, s0, s1, s2, s3, s4, s5, s6, s7]

theorem ke8_old (i : Nat) (E : KSt) (j : Nat) (h : j < 8 * i + 8) : (ke8 i E).k j = E.k j := by
  rw [ke8_k, upd4_old _ _ _ _ _ _ _ (by omega)]
  exact kef8_old i E j (Or.inl h)

theorem ke8_new (i : Nat) (E : KSt) :
    ((ke8 i E).k (8 * i + 8) = E.ss 0 ^^^ (ls_box (E.ss 7) 3 ^^^ t_rc i) ∧
    (ke8 i E).k (8 * i + 9) = E.ss 1 ^^^ (ke8 i E).k (8 * i + 8) ∧
    (ke8 i E).k (8 * i + 10) = E.ss 2 ^^^ (ke8 i E).k (8 * i + 9) ∧
    (ke8 i E).k (8 * i + 11) = E.ss 3 ^^^ (ke8 i E).k (8 * i + 10)) ∧
    (ke8 i E).k (8 * i + 12) = E.ss 4 ^^^ ls_box ((ke8 i E).k (8 * i + 11)) 0 ∧
    (ke8 i E).k (8 * i + 13) = E.ss 5 ^^^ (ke8 i E).k (8 * i + 12) ∧
    (ke8 i E).k (8 * i + 14) = E.ss 6 ^^^ (ke8 i E).k (8 * i + 13) ∧
    (ke8 i E).k (8 * i + 15) = E.ss 7 ^^^ (ke8 i E).k (8 * i + 14) := by
  obtain ⟨n0, n1, n2, n3⟩ := kef8_new i E
  have low : ∀ j, j < 8 * i + 12 → (ke8 i E).k j = (kef8 i E).k j := by
    intro j hj
    rw [ke8_k, upd4_old _ _ _ _ _ _ _ (by omega)]
  obtain ⟨m0, m1, m2, m3⟩ := upd4_new (kef8 i E).k (8 * i + 12)
    (E.ss 4 ^^^ ls_box ((kef8 i E).k (8 * i + 8 + 3)) 0)
    (E.ss 5 ^^^ (E.ss 4 ^^^ ls_box ((kef8 i E).k (8 * i + 8 + 3)) 0))
    (E.ss 6 ^^^ (E.ss 5 ^^^ (E.ss 4 ^^^ ls_box ((kef8 i E).k (8 * i + 8 + 3)) 0)))
    (E.ss 7 ^^^ (E.ss 6 ^^^ (E.ss 5 ^^^ (E.ss 4 ^^^ ls_box ((kef8 i E).k (8 * i + 8 + 3)) 0))))
  rw [← ke8_k] at m0 m1 m2 m3
  rw [low _ (by omega), low _ (by omega), low _ (by omega), low _ (by omega)]
  refine ⟨⟨n0, n1, n2, n3⟩, m0, ?_, ?_, ?_⟩
  · rw [m0]; exact m1
  · rw [show 8 * i + 13 = 8 * i + 12 + 1 from rfl, m1]; exact m2
  · rw [show 8 * i + 14 = 8 * i + 12 + 2 from rfl, m2]; exact m3

theorem ke8_step (key : List Nat) (i : Nat) (E : KSt)
    (h : (∀ c, c < 8 → E.ss c = E.k (8 * i + c)) ∧ Exp8 key E.k i) :
    (∀ c, c < 8 → (ke8 i E).ss c = (ke8 i E).k (8 * (i + 1) + c)) ∧
      Exp8 key (ke8 i E).k (i + 1) := by
  obtain ⟨hss, hkey, hrec⟩ := h
  obtain ⟨⟨n0, n1, n2, n3⟩, n4, n5, n6, n7⟩ := ke8_new i E
  have old := ke8_old i E
  refine ⟨?_, ?_, ?_⟩
  · intro c hc
    rw [ke8_ss i E c hc, show 8 * (i + 1) + c = 8 * i + 8 + c from by omega]
  · intro c hc
    rw [old c (by omega)]
    exact hkey c hc
  · intro r hr
    by_cases hri : r < i
    · have := hrec r hri
      unfold Rec8 Rec8f at this ⊢
      rw [old _ (by omega), old _ (by omega), old _ (by omega), old _ (by omega),
        old _ (by omega), old _ (by omega), old _ (by omega), old _ (by omega),
        old _ (by omega), old _ (by omega), old _ (by omega), old _ (by omega),
        old _ (by omega), old _ (by omega), old _ (by omega), old _ (by omega)]
      exact this
    · have e : r = i := by omega
      subst e
      unfold Rec8 Rec8f
      rw [old (8 * r) (by omega), old (8 * r + 1) (by omega), old (8 * r + 2) (by omega),
        old (8 * r + 3) (by omega), old (8 * r + 4) (by omega), old (8 * r + 5) (by omega),
        old (8 * r + 6) (by omega), old (8 * r + 7) (by omega)]
      have h0 := hss 0 (by decide)
      have h1 := hss 1 (by decide)
      have h2 := hss 2 (by decide)
      have h3 := hss 3 (by decide)
      have h4 := hss 4 (by decide)
      have h5 := hss 5 (by decide)
      have h6 := hss 6 (by decide)
      have h7 := hss 7 (by decide)
      simp only [Nat.add_zero] at h0
      rw [← h0, ← h1, ← h2, ← h3, ← h4, ← h5, ← h6, ← h7]
      exact ⟨⟨n0, n1, n2, n3⟩, n4, n5, n6, n7⟩

theorem kef8_step (key : List Nat) (i : Nat) (E : KSt)
    (h : (∀ c, c < 8 → E.ss c = E.k (8 * i + c)) ∧ Exp8 key E.k i) :
    Exp8 key (kef8 i E).k i ∧ Rec8f (kef8 i E).k i := by
  obtain ⟨hss, hkey, hrec⟩ := h
  obtain ⟨n0, n1, n2, n3⟩ := kef8_new i E
  have old : ∀ j, j < 8 * i + 8 → (kef8 i E).k j = E.k j := fun j hj => kef8_old i E j (Or.inl hj)
  refine ⟨⟨?_, ?_⟩, ?_⟩
  · intro c hc
    rw [old c (by omega)]
    exact hkey c hc
  · intro r hri
    have := hrec r hri
    unfold Rec8 Rec8f at this ⊢
    rw [old _ (by omega), old _ (by omega), old _ (by omega), old _ (by omega),
      old _ (by omega), old _ (by omega), old _ (by omega), old _ (by omega),
      old _ (by omega), old _ (by omega), old _ (by omega), old _ (by omega),
      old _ (by omega), old _ (by omega), old _ (by omega), old _ (by omega)]
    exact this
  · unfold Rec8f
    rw [old (8 * i) (by omega), old (8 * i + 1) (by omega), old (8 * i + 2) (by omega),
      old (8 * i + 3) (by omega), old (8 * i + 7) (by omega)]
    have h0 := hss 0 (by decide)
    have h1 := hss 1 (by decide)
    have h2 := hss 2 (by decide)
    have h3 := hss 3 (by decide)
    have h7 := hss 7 (by decide)
    simp only [Nat.add_zero] at h0
    rw [← h0, ← h1, ← h2, ← h3, ← h7]
    exact ⟨n0, n1, n2, n3⟩

theorem key_in_8 (key : List Nat) (st : KSt) :
    (∀ c, c < 8 → (key_in key 8 st).ss c = (key_in key 8 st).k (8 * 0 + c)) ∧
      Exp8 key (key_in key 8 st).k 0 := by
  refine ⟨?_, ?_, ?_⟩
  · intro c hc
    have hc' : c = 0 ∨ c = 1 ∨ c = 2 ∨ c = 3 ∨ c = 4 ∨ c = 5 ∨ c = 6 ∨ c = 7 := by omega
    rcases hc' with rfl | rfl | rfl | rfl | rfl | rfl | rfl | rfl <;> rfl
  · intro c hc
    have hc' : c = 0 ∨ c = 1 ∨ c = 2 ∨ c = 3 ∨ c = 4 ∨ c = 5 ∨ c = 6 ∨ c = 7 := by omega
    rcases hc' with rfl | rfl | rfl | rfl | rfl | rfl | rfl | rfl <;> rfl
  · intro r hr
    omega

/-- The schedule written by `aes_encrypt_key256` is the key followed by six
whole expansion steps and the first four words of a seventh. -/
theorem enc256_exp (key : List Nat) (cx : aes_ctx) :
    Exp8 key (aes_encrypt_key256 key cx).ks 6 ∧ Rec8f (aes_encrypt_key256 key cx).ks 6 :=
  kef8_step key 6 _ (ke8_step key 5 _ (ke8_step key 4 _ (ke8_step key 3 _
    (ke8_step key 2 _ (ke8_step key 1 _ (ke8_step key 0 _
      (key_in_8 key ⟨cx.ks, Arr.zero⟩)))))))


theorem upd8_v (n : Nat) (hn : n % 4 = 0) (a : Arr) (b x0 x1 x2 x3 x4 x5 x6 x7 w : Nat)
    (hb : b + 7 ≤ n + 3) (hw : w ≤ n + 3) :
    (upd (upd (upd (upd (upd (upd (upd (upd a (v n b) x0) (v n (b + 1)) x1) (v n (b + 2)) x2)
      (v n (b + 3)) x3) (v n (b + 4)) x4) (v n (b + 5)) x5) (v n (b + 6)) x6)
      (v n (b + 7)) x7) (v n w) =
    if w = b + 7 then x7 else if w = b + 6 then x6 else if w = b + 5 then x5
    else if w = b + 4 then x4 else if w = b + 3 then x3
    else if w = b + 2 then x2 else if w = b + 1 then x1 else if w = b then x0 else a (v n w) := by
  simp only [upd_get, v_inj n w _ hn hw (show b ≤ n + 3 by omega),
    v_inj n w _ hn hw (show b + 1 ≤ n + 3 by omega),
    v_inj n w _ hn hw (show b + 2 ≤ n + 3 by omega),
    v_inj n w _ hn hw (show b + 3 ≤ n + 3 by omega),
    v_inj n w _ hn hw (show b + 4 ≤ n + 3 by omega),
    v_inj n w _ hn hw (show b + 5 ≤ n + 3 by omega),
    v_inj n w _ hn hw (show b + 6 ≤ n + 3 by omega),
    v_inj n w _ hn hw (show b + 7 ≤ n + 3 by omega)]

theorem kdf8_k (D : KSt) :
    (kdf8 0 D).k =
      upd (upd (upd (upd (upd (upd (upd (upd (D.k) (v 56 8)
        (ff (D.ss 0 ^^^ (ls_box (D.ss 7) 3 ^^^ t_rc 0)))) (v 56 (8 + 1))
        (ff (D.ss 1 ^^^ (D.ss 0 ^^^ (ls_box (D.ss 7) 3 ^^^ t_rc 0))))) (v 56 (8 + 2))
        (ff (D.ss 2 ^^^ (D.ss 1 ^^^ (D.ss 0 ^^^ (ls_box (D.ss 7) 3 ^^^ t_rc 0)))))) (v 56 (8 + 3))
        (ff (D.ss 3 ^^^ (D.ss 2 ^^^ (D.ss 1 ^^^ (D.ss 0 ^^^ (ls_box (D.ss 7) 3 ^^^ t_rc 0))))))) (v 56 (8 + 4))
        (ff (D.ss 4 ^^^ ls_box (D.ss 3 ^^^ (D.ss 2 ^^^ (D.ss 1 ^^^ (D.ss 0 ^^^ (ls_box (D.ss 7)
         3 ^^^ t_rc 0))))) 0))) (v 56 (8 + 5))
        (ff (D.ss 5 ^^^ (D.ss 4 ^^^ ls_box (D.ss 3 ^^^ (D.ss 2 ^^^ (D.ss 1 ^^^ (D.ss 0 ^^^
         (ls_box (D.ss 7) 3 ^^^ t_rc 0))))) 0)))) (v 56 (8 + 6))
        (ff (D.ss 6 ^^^ (D.ss 5 ^^^ (D.ss 4 ^^^ ls_box (D.ss 3 ^^^ (D.ss 2 ^^^ (D.ss 1 ^^^ (D.ss
         0 ^^^ (ls_box (D.ss 7) 3 ^^^ t_rc 0))))) 0))))) (v 56 (8 + 7))
        (ff (D.ss 7 ^^^ (D.ss 6 ^^^ (D.ss 5 ^^^ (D.ss 4 ^^^ ls_box (D.ss 3 ^^^ (D.ss 2 ^^^ (D.ss
         1 ^^^ (D.ss 0 ^^^ (ls_box (D.ss 7) 3 ^^^ t_rc 0))))) 0))))) := rfl

theorem kdf8_ss (D : KSt) :
    (kdf8 0 D).ss 0 =
      D.ss 0 ^^^ (ls_box (D.ss 7) 3 ^^^ t_rc 0) ∧
    (kdf8 0 D).ss 1 =
      D.ss 1 ^^^ (D.ss 0 ^^^ (ls_box (D.ss 7) 3 ^^^ t_rc 0)) ∧
    (kdf8 0 D).ss 2 =
      D.ss 2 ^^^ (D.ss 1 ^^^ (D.ss 0 ^^^ (ls_box (D.ss 7) 3 ^^^ t_rc 0))) ∧
    (kdf8 0 D).ss 3 =
      D.ss 3 ^^^ (D.ss 2 ^^^ (D.ss 1 ^^^ (D.ss 0 ^^^ (ls_box (D.ss 7) 3 ^^^ t_rc 0)))) ∧
    (kdf8 0 D).ss 4 =
      D.ss 4 ^^^ ls_box (D.ss 3 ^^^ (D.ss 2 ^^^ (D.ss 1 ^^^ (D.ss 0 ^^^ (ls_box (D.ss 7) 3 ^^^
        t_rc 0))))) 0 ∧
    (kdf8 0 D).ss 5 =
      D.ss 5 ^^^ (D.ss 4 ^^^ ls_box (D.ss 3 ^^^ (D.ss 2 ^^^ (D.ss 1 ^^^ (D.ss 0 ^^^ (ls_box
        (D.ss 7) 3 ^^^ t_rc 0))))) 0) ∧
    (kdf8 0 D).ss 6 =
      D.ss 6 ^^^ (D.ss 5 ^^^ (D.ss 4 ^^^ ls_box (D.ss 3 ^^^ (D.ss 2 ^^^ (D.ss 1 ^^^ (D.ss 0
        ^^^ (ls_box (D.ss 7) 3 ^^^ t_rc 0))))) 0)) ∧
    (kdf8 0 D).ss 7 =
      D.ss 7 ^^^ (D.ss 6 ^^^ (D.ss 5 ^^^ (D.ss 4 ^^^ ls_box (D.ss 3 ^^^ (D.ss 2 ^^^ (D.ss 1
        ^^^ (D.ss 0 ^^^ (ls_box (D.ss 7) 3 ^^^ t_rc 0))))) 0))) :=
  ⟨rfl, rfl, rfl, rfl, rfl, rfl, rfl, rfl⟩

theorem kd8_k (i : Nat) (D : KSt) (h1 : 1 ≤ i) (h5 : i ≤ 5) :
    (kd8 i D).k =
      upd (upd (upd (upd (upd (upd (upd (upd (D.k) (v 56 (8 * i + 8))
        (ff (ls_box (D.ss 7) 3 ^^^ t_rc i) ^^^ D.k (v 56 (8 * i)))) (v 56 (8 * i + 8 + 1))
        (ff (ls_box (D.ss 7) 3 ^^^ t_rc i) ^^^ D.k (v 56 (8 * i)) ^^^ D.k (v 56 (8 * i + 1)))) (v 56 (8 * i + 8 + 2))
        (ff (ls_box (D.ss 7) 3 ^^^ t_rc i) ^^^ D.k (v 56 (8 * i)) ^^^ D.k (v 56 (8 * i + 1)) ^^^
         D.k (v 56 (8 * i + 2)))) (v 56 (8 * i + 8 + 3))
        (ff (ls_box (D.ss 7) 3 ^^^ t_rc i) ^^^ D.k (v 56 (8 * i)) ^^^ D.k (v 56 (8 * i + 1)) ^^^
         D.k (v 56 (8 * i + 2)) ^^^ D.k (v 56 (8 * i + 3)))) (v 56 (8 * i + 8 + 4))
        (ff (ls_box (D.ss 3 ^^^ (D.ss 2 ^^^ (D.ss 1 ^^^ (D.ss 0 ^^^ (ls_box (D.ss 7) 3 ^^^ t_rc
         i))))) 0) ^^^ D.k (v 56 (8 * i + 4)))) (v 56 (8 * i + 8 + 5))
        (ff (ls_box (D.ss 3 ^^^ (D.ss 2 ^^^ (D.ss 1 ^^^ (D.ss 0 ^^^ (ls_box (D.ss 7) 3 ^^^ t_rc
         i))))) 0) ^^^ D.k (v 56 (8 * i + 4)) ^^^ D.k (v 56 (8 * i + 5)))) (v 56 (8 * i + 8 + 6))
        (ff (ls_box (D.ss 3 ^^^ (D.ss 2 ^^^ (D.ss 1 ^^^ (D.ss 0 ^^^ (ls_box (D.ss 7) 3 ^^^ t_rc
         i))))) 0) ^^^ D.k (v 56 (8 * i + 4)) ^^^ D.k (v 56 (8 * i + 5)) ^^^ D.k (v 56 (8 * i +
         6)))) (v 56 (8 * i + 8 + 7))
        (ff (ls_box (D.ss 3 ^^^ (D.ss 2 ^^^ (D.ss 1 ^^^ (D.ss 0 ^^^ (ls_box (D.ss 7) 3 ^^^ t_rc
         i))))) 0) ^^^ D.k (v 56 (8 * i + 4)) ^^^ D.k (v 56 (8 * i + 5)) ^^^ D.k (v 56 (8 * i +
         6)) ^^^ D.k (v 56 (8 * i + 7))) := by
  interval_cases i <;> rfl

theorem kd8_ss (i : Nat) (D : KSt) :
    (kd8 i D).ss 0 =
      D.ss 0 ^^^ (ls_box (D.ss 7) 3 ^^^ t_rc i) ∧
    (kd8 i D).ss 1 =
      D.ss 1 ^^^ (D.ss 0 ^^^ (ls_box (D.ss 7) 3 ^^^ t_rc i)) ∧
    (kd8 i D).ss 2 =
      D.ss 2 ^^^ (D.ss 1 ^^^ (D.ss 0 ^^^ (ls_box (D.ss 7) 3 ^^^ t_rc i))) ∧
    (kd8 i D).ss 3 =
      D.ss 3 ^^^ (D.ss 2 ^^^ (D.ss 1 ^^^ (D.ss 0 ^^^ (ls_box (D.ss 7) 3 ^^^ t_rc i)))) ∧
    (kd8 i D).ss 4 =
      D.ss 4 ^^^ ls_box (D.ss 3 ^^^ (D.ss 2 ^^^ (D.ss 1 ^^^ (D.ss 0 ^^^ (ls_box (D.ss 7) 3 ^^^
        t_rc i))))) 0 ∧
    (kd8 i D).ss 5 =
      D.ss 5 ^^^ (D.ss 4 ^^^ ls_box (D.ss 3 ^^^ (D.ss 2 ^^^ (D.ss 1 ^^^ (D.ss 0 ^^^ (ls_box
        (D.ss 7) 3 ^^^ t_rc i))))) 0) ∧
    (kd8 i D).ss 6 =
      D.ss 6 ^^^ (D.ss 5 ^^^ (D.ss 4 ^^^ ls_box (D.ss 3 ^^^ (D.ss 2 ^^^ (D.ss 1 ^^^ (D.ss 0
        ^^^ (ls_box (D.ss 7) 3 ^^^ t_rc i))))) 0)) ∧
    (kd8 i D).ss 7 =
      D.ss 7 ^^^ (D.ss 6 ^^^ (D.ss 5 ^^^ (D.ss 4 ^^^ ls_box (D.ss 3 ^^^ (D.ss 2 ^^^ (D.ss 1
        ^^^ (D.ss 0 ^^^ (ls_box (D.ss 7) 3 ^^^ t_rc i))))) 0))) :=
  ⟨rfl, rfl, rfl, rfl, rfl, rfl, rfl, rfl⟩

theorem kdl8_k (D : KSt) :
    (kdl8 6 D).k =
      upd (upd (upd (upd (D.k) (v 56 56)
        (D.ss 0 ^^^ (ls_box (D.ss 7) 3 ^^^ t_rc 6))) (v 56 (56 + 1))
        (D.ss 1 ^^^ (D.ss 0 ^^^ (ls_box (D.ss 7) 3 ^^^ t_rc 6)))) (v 56 (56 + 2))
        (D.ss 2 ^^^ (D.ss 1 ^^^ (D.ss 0 ^^^ (ls_box (D.ss 7) 3 ^^^ t_rc 6))))) (v 56 (56 + 3))
        (D.ss 3 ^^^ (D.ss 2 ^^^ (D.ss 1 ^^^ (D.ss 0 ^^^ (ls_box (D.ss 7) 3 ^^^ t_rc 6))))) := rfl


theorem kdf8_step (e : Arr) (D : KSt) (hr : Rec8 e 0) (h : Dec8 e 0 D) :
    Dec8 e 1 (kdf8 0 D) := by
  obtain ⟨hk, hss⟩ := h
  obtain ⟨⟨r0, r1, r2, r3⟩, r4, r5, r6, r7⟩ := hr
  obtain ⟨s0, s1, s2, s3, s4, s5, s6, s7⟩ := kdf8_ss D
  have h0 := hss 0 (by decide)
  have h1 := hss 1 (by decide)
  have h2 := hss 2 (by decide)
  have h3 := hss 3 (by decide)
  have h4 := hss 4 (by decide)
  have h5 := hss 5 (by decide)
  have h6 := hss 6 (by decide)
  have h7 := hss 7 (by decide)
  simp only [Nat.mul_zero, Nat.zero_add] at h0 h1 h2 h3 h4 h5 h6 h7 r0 r1 r2 r3 r4 r5 r6 r7
  have a0 : D.ss 0 ^^^ (ls_box (D.ss 7) 3 ^^^ t_rc 0) = e 8 := by rw [h0, h7, r0]
  have a1 : D.ss 1 ^^^ e 8 = e 9 := by rw [h1, r1]
  have a2 : D.ss 2 ^^^ e 9 = e 10 := by rw [h2, r2]
  have a3 : D.ss 3 ^^^ e 10 = e 11 := by rw [h3, r3]
  have a4 : D.ss 4 ^^^ ls_box (e 11) 0 = e 12 := by rw [h4, r4]
  have a5 : D.ss 5 ^^^ e 12 = e 13 := by rw [h5, r5]
  have a6 : D.ss 6 ^^^ e 13 = e 14 := by rw [h6, r6]
  have a7 : D.ss 7 ^^^ e 14 = e 15 := by rw [h7, r7]
  simp only [a0, a1, a2, a3, a4, a5, a6, a7] at s0 s1 s2 s3 s4 s5 s6 s7
  refine ⟨?_, ?_⟩
  · intro w hw
    rw [kdf8_k, upd8_v 56 (by decide) _ _ _ _ _ _ _ _ _ _ _ (by decide) (by omega)]
    simp only [a0, a1, a2, a3, a4, a5, a6, a7]
    by_cases h8 : w < 8
    · repeat rw [if_neg (by omega)]
      exact hk w (by omega)
    · have hw' : w = 8 ∨ w = 9 ∨ w = 10 ∨ w = 11 ∨ w = 12 ∨ w = 13 ∨ w = 14 ∨ w = 15 := by
        omega
      rcases hw' with rfl | rfl | rfl | rfl | rfl | rfl | rfl | rfl <;> simp
  · intro c hc
    have hc' : c = 0 ∨ c = 1 ∨ c = 2 ∨ c = 3 ∨ c = 4 ∨ c = 5 ∨ c = 6 ∨ c = 7 := by omega
    rcases hc' with rfl | rfl | rfl | rfl | rfl | rfl | rfl | rfl
    · exact s0
    · exact s1
    · exact s2
    · exact s3
    · exact s4
    · exact s5
    · exact s6
    · exact s7

theorem kd8_step (e : Arr) (i : Nat) (D : KSt) (h1 : 1 ≤ i) (h5 : i ≤ 5) (hr : Rec8 e i)
    (h : Dec8 e i D) : Dec8 e (i + 1) (kd8 i D) := by
  obtain ⟨hk, hss⟩ := h
  obtain ⟨⟨r0, r1, r2, r3⟩, r4, r5, r6, r7⟩ := hr
  obtain ⟨s0, s1, s2, s3, s4, s5, s6, s7⟩ := kd8_ss i D
  have g0 := hss 0 (by decide)
  have g1 := hss 1 (by decide)
  have g2 := hss 2 (by decide)
  have g3 := hss 3 (by decide)
  have g4 := hss 4 (by decide)
  have g5 := hss 5 (by decide)
  have g6 := hss 6 (by decide)
  have g7 := hss 7 (by decide)
  simp only [Nat.add_zero] at g0
  have a0 : D.ss 0 ^^^ (ls_box (D.ss 7) 3 ^^^ t_rc i) = e (8 * i + 8) := by rw [g0, g7, r0]
  have a1 : D.ss 1 ^^^ e (8 * i + 8) = e (8 * i + 9) := by rw [g1, r1]
  have a2 : D.ss 2 ^^^ e (8 * i + 9) = e (8 * i + 10) := by rw [g2, r2]
  have a3 : D.ss 3 ^^^ e (8 * i + 10) = e (8 * i + 11) := by rw [g3, r3]
  have a4 : D.ss 4 ^^^ ls_box (e (8 * i + 11)) 0 = e (8 * i + 12) := by rw [g4, r4]
  have a5 : D.ss 5 ^^^ e (8 * i + 12) = e (8 * i + 13) := by rw [g5, r5]
  have a6 : D.ss 6 ^^^ e (8 * i + 13) = e (8 * i + 14) := by rw [g6, r6]
  have a7 : D.ss 7 ^^^ e (8 * i + 14) = e (8 * i + 15) := by rw [g7, r7]
  simp only [a0, a1, a2, a3, a4, a5, a6, a7] at s0 s1 s2 s3 s4 s5 s6 s7
  have k0 := hk (8 * i) (by omega)
  have k1 := hk (8 * i + 1) (by omega)
  have k2 := hk (8 * i + 2) (by omega)
  have k3 := hk (8 * i + 3) (by omega)
  have k4 := hk (8 * i + 4) (by omega)
  have k5 := hk (8 * i + 5) (by omega)
  have k6 := hk (8 * i + 6) (by omega)
  have k7 := hk (8 * i + 7) (by omega)
  rw [if_neg (by omega)] at k0 k1 k2 k3 k4 k5 k6 k7
  have b0 : ls_box (D.ss 7) 3 ^^^ t_rc i ^^^ e (8 * i) = e (8 * i + 8) := by
    rw [g7, r0, Nat.xor_comm]
  have b1 : e (8 * i + 8) ^^^ e (8 * i + 1) = e (8 * i + 9) := by rw [r1, Nat.xor_comm]
  have b2 : e (8 * i + 9) ^^^ e (8 * i + 2) = e (8 * i + 10) := by rw [r2, Nat.xor_comm]
  have b3 : e (8 * i + 10) ^^^ e (8 * i + 3) = e (8 * i + 11) := by rw [r3, Nat.xor_comm]
  have b4 : ls_box (e (8 * i + 11)) 0 ^^^ e (8 * i + 4) = e (8 * i + 12) := by
    rw [r4, Nat.xor_comm]
  have b5 : e (8 * i + 12) ^^^ e (8 * i + 5) = e (8 * i + 13) := by rw [r5, Nat.xor_comm]
  have b6 : e (8 * i + 13) ^^^ e (8 * i + 6) = e (8 * i + 14) := by rw [r6, Nat.xor_comm]
  have b7 : e (8 * i + 14) ^^^ e (8 * i + 7) = e (8 * i + 15) := by rw [r7, Nat.xor_comm]
  refine ⟨?_, ?_⟩
  · intro w hw
    rw [kd8_k i D h1 h5, upd8_v 56 (by decide) _ _ _ _ _ _ _ _ _ _ _ (by omega) (by omega)]
    simp only [a0, a1, a2, a3, k0, k1, k2, k3, k4, k5, k6, k7, ← ff_xor, b0, b1, b2, b3, b4, b5,
      b6, b7]
    by_cases hlt : w < 8 * i + 8
    · repeat rw [if_neg (by omega)]
      exact hk w hlt
    · have hw' : w = 8 * i + 8 ∨ w = 8 * i + 8 + 1 ∨ w = 8 * i + 8 + 2 ∨ w = 8 * i + 8 + 3 ∨
          w = 8 * i + 8 + 4 ∨ w = 8 * i + 8 + 5 ∨ w = 8 * i + 8 + 6 ∨ w = 8 * i + 8 + 7 := by
        omega
      rcases hw' with rfl | rfl | rfl | rfl | rfl | rfl | rfl | rfl
      · repeat rw [if_neg (by omega)]
        rw [if_pos rfl, if_neg (by omega)]
      · repeat rw [if_neg (by omega)]
        rw [if_pos rfl, if_neg (by omega)]
      · repeat rw [if_neg (by omega)]
        rw [if_pos rfl, if_neg (by omega)]
      · repeat rw [if_neg (by omega)]
        rw [if_pos rfl, if_neg (by omega)]
      · repeat rw [if_neg (by omega)]
        rw [if_pos rfl,
          if_neg (by omega)]
      · rw [if_neg (by omega), if_neg (by omega), if_pos rfl, if_neg (by omega)]
      · rw [if_neg (by omega), if_pos rfl, if_neg (by omega)]
      · rw [if_pos rfl, if_neg (by omega)]
  · intro c hc
    have hc' : c = 0 ∨ c = 1 ∨ c = 2 ∨ c = 3 ∨ c = 4 ∨ c = 5 ∨ c = 6 ∨ c = 7 := by omega
    rw [show 8 * (i + 1) + c = 8 * i + 8 + c from by omega]
    rcases hc' with rfl | rfl | rfl | rfl | rfl | rfl | rfl | rfl
    · exact s0
    · exact s1
    · exact s2
    · exact s3
    · exact s4
    · exact s5
    · exact s6
    · exact s7

theorem kdl8_step (e : Arr) (D : KSt) (hr : Rec8f e 6) (h : Dec8 e 6 D) :
    DecOf 14 (kdl8 6 D).k e := by
  obtain ⟨hk, hss⟩ := h
  obtain ⟨r0, r1, r2, r3⟩ := hr
  have g0 := hss 0 (by decide)
  have g1 := hss 1 (by decide)
  have g2 := hss 2 (by decide)
  have g3 := hss 3 (by decide)
  have g7 := hss 7 (by decide)
  have a0 : D.ss 0 ^^^ (ls_box (D.ss 7) 3 ^^^ t_rc 6) = e 56 := by rw [g0, g7]; exact r0.symm
  have a1 : D.ss 1 ^^^ e 56 = e 57 := by rw [g1]; exact r1.symm
  have a2 : D.ss 2 ^^^ e 57 = e 58 := by rw [g2]; exact r2.symm
  have a3 : D.ss 3 ^^^ e 58 = e 59 := by rw [g3]; exact r3.symm
  intro r hr c hc
  rw [show 4 * (14 - r) + c = 56 - 4 * r + c from by omega, ← v_eq 56 r c hc (by omega), kdl8_k,
    upd4_v 56 (by decide) _ _ _ _ _ _ _ (by decide) (by omega)]
  simp only [a0, a1, a2, a3]
  by_cases h14 : r = 14
  · subst h14
    rw [if_pos (Or.inr rfl)]
    have hc' : c = 0 ∨ c = 1 ∨ c = 2 ∨ c = 3 := by omega
    rcases hc' with rfl | rfl | rfl | rfl <;> simp
  · repeat rw [if_neg (by omega)]
    rw [hk _ (by omega)]
    by_cases h0 : r = 0
    · subst h0
      rw [if_pos (by omega), if_pos (Or.inl rfl)]
    · rw [if_neg (by omega), if_neg (by omega)]

theorem key_in_256 (key : List Nat) (e : Arr) (st : KSt) (he : ∀ c, c < 8 → e c = word_in key c) :
    Dec8 e 0 (key_in_ff key 56 7 (key_in_ff key 56 6 (key_in_ff key 56 5 (key_in_ff key 56 4
      (key_in_rev key 56 4 st))))) := by
  refine ⟨?_, ?_⟩
  · intro w hw
    have hw' : w = 0 ∨ w = 1 ∨ w = 2 ∨ w = 3 ∨ w = 4 ∨ w = 5 ∨ w = 6 ∨ w = 7 := by omega
    rcases hw' with rfl | rfl | rfl | rfl | rfl | rfl | rfl | rfl
    · rw [if_pos (by decide), he 0 (by decide)]; rfl
    · rw [if_pos (by decide), he 1 (by decide)]; rfl
    · rw [if_pos (by decide), he 2 (by decide)]; rfl
    · rw [if_pos (by decide), he 3 (by decide)]; rfl
    · rw [if_neg (by decide), he 4 (by decide)]; rfl
    · rw [if_neg (by decide), he 5 (by decide)]; rfl
    · rw [if_neg (by decide), he 6 (by decide)]; rfl
    · rw [if_neg (by decide), he 7 (by decide)]; rfl
  · intro c hc
    have hc' : c = 0 ∨ c = 1 ∨ c = 2 ∨ c = 3 ∨ c = 4 ∨ c = 5 ∨ c = 6 ∨ c = 7 := by omega
    rcases hc' with rfl | rfl | rfl | rfl | rfl | rfl | rfl | rfl
    · rw [he 0 (by decide)]; rfl
    · rw [he 1 (by decide)]; rfl
    · rw [he 2 (by decide)]; rfl
    · rw [he 3 (by decide)]; rfl
    · rw [he 4 (by decide)]; rfl
    · rw [he 5 (by decide)]; rfl
    · rw [he 6 (by decide)]; rfl
    · rw [he 7 (by decide)]; rfl

/-- The schedule of `aes_decrypt_key256` is the decryption schedule of any
array holding the expanded 256-bit key. -/
theorem dec256_of (key : List Nat) (cx : aes_ctx) (e : Arr)
    (he : Exp8 key e 6 ∧ Rec8f e 6) : DecOf 14 (aes_decrypt_key256 key cx).ks e :=
  kdl8_step e _ he.2
    (kd8_step e 5 _ (by decide) (by decide) (he.1.2 5 (by decide))
    (kd8_step e 4 _ (by decide) (by decide) (he.1.2 4 (by decide))
    (kd8_step e 3 _ (by decide) (by decide) (he.1.2 3 (by decide))
    (kd8_step e 2 _ (by decide) (by decide) (he.1.2 2 (by decide))
    (kd8_step e 1 _ (by decide) (by decide) (he.1.2 1 (by decide))
    (kdf8_step e _ (he.1.2 0 (by decide))
      (key_in_256 key e ⟨cx.ks, Arr.zero⟩ he.1.1)))))))


theorem uniq4 (key : List Nat) (e f : Arr) (n : Nat) (he : Exp4 key e n) (hf : Exp4 key f n) :
    ∀ i, i ≤ n → ∀ c, c < 4 → e (4 * i + c) = f (4 * i + c) := by
  intro i
  induction i with
  | zero =>
    intro _ c hc
    rw [Nat.mul_zero, Nat.zero_add, he.1 c hc, hf.1 c hc]
  | succ i ih =>
    intro hi c hc
    have ih' := ih (by omega)
    obtain ⟨a0, a1, a2, a3⟩ := he.2 i (by omega)
    obtain ⟨b0, b1, b2, b3⟩ := hf.2 i (by omega)
    have i0 := ih' 0 (by decide)
    have i1 := ih' 1 (by decide)
    have i2 := ih' 2 (by decide)
    have i3 := ih' 3 (by decide)
    simp only [Nat.add_zero] at i0
    have e4 : e (4 * i + 4) = f (4 * i + 4) := by rw [a0, b0, i0, i3]
    have e5 : e (4 * i + 5) = f (4 * i + 5) := by rw [a1, b1, i1, e4]
    have e6 : e (4 * i + 6) = f (4 * i + 6) := by rw [a2, b2, i2, e5]
    have e7 : e (4 * i + 7) = f (4 * i + 7) := by rw [a3, b3, i3, e6]
    have hc' : c = 0 ∨ c = 1 ∨ c = 2 ∨ c = 3 := by omega
    rcases hc' with rfl | rfl | rfl | rfl
    · exact e4
    · exact e5
    · exact e6
    · exact e7

theorem uniq6 (key : List Nat) (e f : Arr) (n : Nat) (he : Exp6 key e n) (hf : Exp6 key f n) :
    ∀ i, i ≤ n → ∀ c, c < 6 → e (6 * i + c) = f (6 * i + c) := by
  intro i
  induction i with
  | zero =>
    intro _ c hc
    rw [Nat.mul_zero, Nat.zero_add, he.1 c hc, hf.1 c hc]
  | succ i ih =>
    intro hi c hc
    have ih' := ih (by omega)
    obtain ⟨⟨a0, a1, a2, a3⟩, a4, a5⟩ := he.2 i (by omega)
    obtain ⟨⟨b0, b1, b2, b3⟩, b4, b5⟩ := hf.2 i (by omega)
    have i0 := ih' 0 (by decide)
    have i1 := ih' 1 (by decide)
    have i2 := ih' 2 (by decide)
    have i3 := ih' 3 (by decide)
    have i4 := ih' 4 (by decide)
    have i5 := ih' 5 (by decide)
    simp only [Nat.add_zero] at i0
    have e6 : e (6 * i + 6) = f (6 * i + 6) := by rw [a0, b0, i0, i5]
    have e7 : e (6 * i + 7) = f (6 * i + 7) := by rw [a1, b1, i1, e6]
    have e8 : e (6 * i + 8) = f (6 * i + 8) := by rw [a2, b2, i2, e7]
    have e9 : e (6 * i + 9) = f (6 * i + 9) := by rw [a3, b3, i3, e8]
    have e10 : e (6 * i + 10) = f (6 * i + 10) := by rw [a4, b4, i4, e9]
    have e11 : e (6 * i + 11) = f (6 * i + 11) := by rw [a5, b5, i5, e10]
    have hc' : c = 0 ∨ c = 1 ∨ c = 2 ∨ c = 3 ∨ c = 4 ∨ c = 5 := by omega
    rcases hc' with rfl | rfl | rfl | rfl | rfl | rfl
    · exact e6
    · exact e7
    · exact e8
    · exact e9
    · exact e10
    · exact e11

theorem uniq8 (key : List Nat) (e f : Arr) (n : Nat) (he : Exp8 key e n) (hf : Exp8 key f n) :
    ∀ i, i ≤ n → ∀ c, c < 8 → e (8 * i + c) = f (8 * i + c) := by
  intro i
  induction i with
  | zero =>
    intro _ c hc
    rw [Nat.mul_zero, Nat.zero_add, he.1 c hc, hf.1 c hc]
  | succ i ih =>
    intro hi c hc
    have ih' := ih (by omega)
    obtain ⟨⟨a0, a1, a2, a3⟩, a4, a5, a6, a7⟩ := he.2 i (by omega)
    obtain ⟨⟨b0, b1, b2, b3⟩, b4, b5, b6, b7⟩ := hf.2 i (by omega)
    have i0 := ih' 0 (by decide)
    have i1 := ih' 1 (by decide)
    have i2 := ih' 2 (by decide)
    have i3 := ih' 3 (by decide)
    have i4 := ih' 4 (by decide)
    have i5 := ih' 5 (by decide)
    have i6 := ih' 6 (by decide)
    have i7 := ih' 7 (by decide)
    simp only [Nat.add_zero] at i0
    have e8 : e (8 * i + 8) = f (8 * i + 8) := by rw [a0, b0, i0, i7]
    have e9 : e (8 * i + 9) = f (8 * i + 9) := by rw [a1, b1, i1, e8]
    have e10 : e (8 * i + 10) = f (8 * i + 10) := by rw [a2, b2, i2, e9]
    have e11 : e (8 * i + 11) = f (8 * i + 11) := by rw [a3, b3, i3, e10]
    have e12 : e (8 * i + 12) = f (8 * i + 12) := by rw [a4, b4, i4, e11]
    have e13 : e (8 * i + 13) = f (8 * i + 13) := by rw [a5, b5, i5, e12]
    have e14 : e (8 * i + 14) = f (8 * i + 14) := by rw [a6, b6, i6, e13]
    have e15 : e (8 * i + 15) = f (8 * i + 15) := by rw [a7, b7, i7, e14]
    have hc' : c = 0 ∨ c = 1 ∨ c = 2 ∨ c = 3 ∨ c = 4 ∨ c = 5 ∨ c = 6 ∨ c = 7 := by omega
    rcases hc' with rfl | rfl | rfl | rfl | rfl | rfl | rfl | rfl
    · exact e8
    · exact e9
    · exact e10
    · exact e11
    · exact e12
    · exact e13
    · exact e14
    · exact e15

/-- The encryption schedule does not depend on what the context held before. -/
theorem enc_key_indep (key : List Nat) (cx1 cx2 : aes_ctx) :
    (∀ j, j < 44 → (aes_encrypt_key128 key cx1).ks j = (aes_encrypt_key128 key cx2).ks j) ∧
    (∀ j, j < 52 → (aes_encrypt_key192 key cx1).ks j = (aes_encrypt_key192 key cx2).ks j) ∧
    (∀ j, j < 60 → (aes_encrypt_key256 key cx1).ks j = (aes_encrypt_key256 key cx2).ks j) := by
  refine ⟨?_, ?_, ?_⟩
  · intro j hj
    have := uniq4 key _ _ 10 (enc128_exp key cx1) (enc128_exp key cx2) (j / 4) (by omega)
      (j % 4) (by omega)
    rw [show 4 * (j / 4) + j % 4 = j from by omega] at this
    exact this
  · intro j hj
    obtain ⟨h1, a0, a1, a2, a3⟩ := enc192_exp key cx1
    obtain ⟨h2, b0, b1, b2, b3⟩ := enc192_exp key cx2
    have u := uniq6 key _ _ 7 h1 h2
    by_cases h48 : j < 48
    · have := u (j / 6) (by omega) (j % 6) (by omega)
      rw [show 6 * (j / 6) + j % 6 = j from by omega] at this
      exact this
    · have i0 := u 7 (by decide) 0 (by decide)
      have i1 := u 7 (by decide) 1 (by decide)
      have i2 := u 7 (by decide) 2 (by decide)
      have i3 := u 7 (by decide) 3 (by decide)
      have i5 := u 7 (by decide) 5 (by decide)
      simp only [Nat.add_zero] at i0
      have e0 := a0.trans (by rw [i0, i5, ← b0])
      have e1 := a1.trans (by rw [i1, e0, ← b1])
      have e2 := a2.trans (by rw [i2, e1, ← b2])
      have e3 := a3.trans (by rw [i3, e2, ← b3])
      have hj' : j = 48 ∨ j = 49 ∨ j = 50 ∨ j = 51 := by omega
      rcases hj' with rfl | rfl | rfl | rfl
      · exact e0
      · exact e1
      · exact e2
      · exact e3
  · intro j hj
    obtain ⟨h1, a0, a1, a2, a3⟩ := enc256_exp key cx1
    obtain ⟨h2, b0, b1, b2, b3⟩ := enc256_exp key cx2
    have u := uniq8 key _ _ 6 h1 h2
    by_cases h56 : j < 56
    · have := u (j / 8) (by omega) (j % 8) (by omega)
      rw [show 8 * (j / 8) + j % 8 = j from by omega] at this
      exact this
    · have i0 := u 6 (by decide) 0 (by decide)
      have i1 := u 6 (by decide) 1 (by decide)
      have i2 := u 6 (by decide) 2 (by decide)
      have i3 := u 6 (by decide) 3 (by decide)
      have i7 := u 6 (by decide) 7 (by decide)
      simp only [Nat.add_zero] at i0
      have e0 := a0.trans (by rw [i0, i7, ← b0])
      have e1 := a1.trans (by rw [i1, e0, ← b1])
      have e2 := a2.trans (by rw [i2, e1, ← b2])
      have e3 := a3.trans (by rw [i3, e2, ← b3])
      have hj' : j = 56 ∨ j = 57 ∨ j = 58 ∨ j = 59 := by omega
      rcases hj' with rfl | rfl | rfl | rfl
      · exact e0
      · exact e1
      · exact e2
      · exact e3


/-- The decryption schedule does not depend on what the context held before. -/
theorem dec_key_indep (key : List Nat) (cx1 cx2 : aes_ctx) :
    (∀ j, j < 44 → (aes_decrypt_key128 key cx1).ks j = (aes_decrypt_key128 key cx2).ks j) ∧
    (∀ j, j < 52 → (aes_decrypt_key192 key cx1).ks j = (aes_decrypt_key192 key cx2).ks j) ∧
    (∀ j, j < 60 → (aes_decrypt_key256 key cx1).ks j = (aes_decrypt_key256 key cx2).ks j) := by
  refine ⟨?_, ?_, ?_⟩
  · intro j hj
    have h1 := dec128_of key cx1 _ (enc128_exp key cx1) (10 - j / 4) (by omega) (j % 4) (by omega)
    have h2 := dec128_of key cx2 _ (enc128_exp key cx1) (10 - j / 4) (by omega) (j % 4) (by omega)
    rw [show 4 * (10 - (10 - j / 4)) + j % 4 = j from by omega] at h1 h2
    rw [h1, h2]
  · intro j hj
    have h1 := dec192_of key cx1 _ (enc192_exp key cx1) (12 - j / 4) (by omega) (j % 4) (by omega)
    have h2 := dec192_of key cx2 _ (enc192_exp key cx1) (12 - j / 4) (by omega) (j % 4) (by omega)
    rw [show 4 * (12 - (12 - j / 4)) + j % 4 = j from by omega] at h1 h2
    rw [h1, h2]
  · intro j hj
    have h1 := dec256_of key cx1 _ (enc256_exp key cx1) (14 - j / 4) (by omega) (j % 4) (by omega)
    have h2 := dec256_of key cx2 _ (enc256_exp key cx1) (14 - j / 4) (by omega) (j % 4) (by omega)
    rw [show 4 * (14 - (14 - j / 4)) + j % 4 = j from by omega] at h1 h2
    rw [h1, h2]

theorem four_tables_congr (tab : Nat → Nat → Nat) (vf : Arr → Nat → Nat → Nat)
    (hvf : ∀ x y, Eq4 x y → ∀ r c, vf x r c = vf y r c) {x y : Arr} (h : Eq4 x y) (c : Nat) :
    four_tables x tab vf rf1 c = four_tables y tab vf rf1 c := by
  unfold four_tables
  rw [hvf x y h 0 c, hvf x y h 1 c, hvf x y h 2 c, hvf x y h 3 c]

theorem rnd_congr (tab : Nat → Nat → Nat) (vf : Arr → Nat → Nat → Nat)
    (hvf : ∀ x y, Eq4 x y → ∀ r c, vf x r c = vf y r c) (ks1 ks2 : Arr) (kp : Nat) {x y : Arr}
    (hk : ∀ c, c < 4 → ks1 (kp + c) = ks2 (kp + c)) (h : Eq4 x y) :
    Eq4 (rnd tab vf ks1 kp x) (rnd tab vf ks2 kp y) := by
  intro c hc
  show ks1 (kp + c) ^^^ four_tables x tab vf rf1 c = ks2 (kp + c) ^^^ four_tables y tab vf rf1 c
  rw [hk c hc, four_tables_congr tab vf hvf h c]

theorem rnds_congr (tab : Nat → Nat → Nat) (vf : Arr → Nat → Nat → Nat)
    (hvf : ∀ x y, Eq4 x y → ∀ r c, vf x r c = vf y r c) (ks1 ks2 : Arr) {x y : Arr}
    (h : Eq4 x y) (n : Nat) (hk : ∀ j, j < 4 * n + 4 → ks1 j = ks2 j) :
    Eq4 (rnds tab vf ks1 0 n x) (rnds tab vf ks2 0 n y) := by
  induction n with
  | zero => exact h
  | succ n ih =>
    rw [rnds_succ, rnds_succ]
    exact rnd_congr tab vf hvf ks1 ks2 _ (fun c hc => hk _ (by omega))
      (ih (fun j hj => hk j (by omega)))

theorem state_in_congr (y : Arr) (l : List Nat) (ks1 ks2 : Arr)
    (hk : ∀ j, j < 4 → ks1 j = ks2 j) : Eq4 (state_in y l ks1 0) (state_in y l ks2 0) := by
  intro c hc
  rw [state_in_get _ _ _ _ _ hc, state_in_get _ _ _ _ _ hc, Nat.zero_add, hk c hc]

/-- The function `aes_encrypt` reads the context only through `inf.b[0]` and the schedule words in use. -/
theorem aes_encrypt_congr (inp : List Nat) (cx1 cx2 : aes_ctx) (nr : Nat)
    (hn : nr = 10 ∨ nr = 12 ∨ nr = 14) (h1 : cx1.inf_b0 = 16 * nr) (h2 : cx2.inf_b0 = 16 * nr)
    (hk : ∀ j, j < 4 * nr + 4 → cx1.ks j = cx2.ks j) :
    aes_encrypt inp cx1 = aes_encrypt inp cx2 := by
  rw [aes_encrypt_rounds _ _ nr ⟨hn, h1⟩, aes_encrypt_rounds _ _ nr ⟨hn, h2⟩]
  apply state_out_congr
  refine rnd_congr _ _ (fun x y h r c => fwd_var_congr h r c) _ _ _ (fun c hc => hk _ (by omega)) ?_
  exact rnds_congr _ _ (fun x y h r c => fwd_var_congr h r c) _ _
    (state_in_congr _ _ _ _ (fun j hj => hk j (by omega))) _ (fun j hj => hk j (by omega))

/-- The function `aes_decrypt` reads the context only through `inf.b[0]` and the schedule words in use. -/
theorem aes_decrypt_congr (inp : List Nat) (cx1 cx2 : aes_ctx) (nr : Nat)
    (hn : nr = 10 ∨ nr = 12 ∨ nr = 14) (h1 : cx1.inf_b0 = 16 * nr) (h2 : cx2.inf_b0 = 16 * nr)
    (hk : ∀ j, j < 4 * nr + 4 → cx1.ks j = cx2.ks j) :
    aes_decrypt inp cx1 = aes_decrypt inp cx2 := by
  rw [aes_decrypt_rounds _ _ nr ⟨hn, h1⟩, aes_decrypt_rounds _ _ nr ⟨hn, h2⟩]
  apply state_out_congr
  refine rnd_congr _ _ (fun x y h r c => inv_var_congr h r c) _ _ _ (fun c hc => hk _ (by omega)) ?_
  exact rnds_congr _ _ (fun x y h r c => inv_var_congr h r c) _ _
    (state_in_congr _ _ _ _ (fun j hj => hk j (by omega))) _ (fun j hj => hk j (by omega))

/-! ## The block cipher -/

theorem kat_enc_zero :
    aes_encrypt fips_plain (aes_encrypt_key fips_key128 16 ctx0) = fips_cipher128 ∧
    aes_encrypt fips_plain (aes_encrypt_key fips_key192 24 ctx0) = fips_cipher192 ∧
    aes_encrypt fips_plain (aes_encrypt_key fips_key256 32 ctx0) = fips_cipher256 := by
  decide!

theorem kat_dec_zero :
    aes_decrypt fips_cipher128 (aes_decrypt_key fips_key128 16 ctx0) = fips_plain ∧
    aes_decrypt fips_cipher192 (aes_decrypt_key fips_key192 24 ctx0) = fips_plain ∧
    aes_decrypt fips_cipher256 (aes_decrypt_key fips_key256 32 ctx0) = fips_plain := by
  decide!

/-- For a supported key length the two schedules have the same round count and
are related by `DecOf`, whatever the contexts held before. -/
theorem key_pair (key : List Nat) (key_len : Nat) (hk : KeyLenOk key_len) (cxe cxd : aes_ctx) :
    (rounds_of key_len = 10 ∨ rounds_of key_len = 12 ∨ rounds_of key_len = 14) ∧
    (aes_encrypt_key key key_len cxe).inf_b0 = 16 * rounds_of key_len ∧
    (aes_decrypt_key key key_len cxd).inf_b0 = 16 * rounds_of key_len ∧
    DecOf (rounds_of key_len) (aes_decrypt_key key key_len cxd).ks
      (aes_encrypt_key key key_len cxe).ks := by
  rcases hk with rfl | rfl | rfl | rfl | rfl | rfl
  · exact ⟨Or.inl rfl, rfl, rfl, dec128_of key cxd _ (enc128_exp key cxe)⟩
  · exact ⟨Or.inr (Or.inl rfl), rfl, rfl, dec192_of key cxd _ (enc192_exp key cxe)⟩
  · exact ⟨Or.inr (Or.inr rfl), rfl, rfl, dec256_of key cxd _ (enc256_exp key cxe)⟩
  · exact ⟨Or.inl rfl, rfl, rfl, dec128_of key cxd _ (enc128_exp key cxe)⟩
  · exact ⟨Or.inr (Or.inl rfl), rfl, rfl, dec192_of key cxd _ (enc192_exp key cxe)⟩
  · exact ⟨Or.inr (Or.inr rfl), rfl, rfl, dec256_of key cxd _ (enc256_exp key cxe)⟩

/-- For a supported key length, block decryption inverts block encryption. -/
theorem aes_block_inverse (key : List Nat) (key_len : Nat) (hk : KeyLenOk key_len)
    (cxe cxd : aes_ctx) (x : List Nat) (hl : x.length = 16) (hb : IsBytes x) :
    aes_decrypt (aes_encrypt x (aes_encrypt_key key key_len cxe))
      (aes_decrypt_key key key_len cxd) = x := by
  obtain ⟨hn, he, hd, hdec⟩ := key_pair key key_len hk cxe cxd
  exact block_roundtrip _ _ _ hn he hd hdec x hl hb

/-- Encryption under a key does not depend on what the context held before. -/
theorem aes_encrypt_key_indep (key : List Nat) (key_len : Nat) (hk : KeyLenOk key_len)
    (cx1 cx2 : aes_ctx) (x : List Nat) :
    aes_encrypt x (aes_encrypt_key key key_len cx1) =
      aes_encrypt x (aes_encrypt_key key key_len cx2) := by
  obtain ⟨h1, h2, h3⟩ := enc_key_indep key cx1 cx2
  rcases hk with rfl | rfl | rfl | rfl | rfl | rfl
  · exact aes_encrypt_congr x _ _ 10 (Or.inl rfl) rfl rfl h1
  · exact aes_encrypt_congr x _ _ 12 (Or.inr (Or.inl rfl)) rfl rfl h2
  · exact aes_encrypt_congr x _ _ 14 (Or.inr (Or.inr rfl)) rfl rfl h3
  · exact aes_encrypt_congr x _ _ 10 (Or.inl rfl) rfl rfl h1
  · exact aes_encrypt_congr x _ _ 12 (Or.inr (Or.inl rfl)) rfl rfl h2
  · exact aes_encrypt_congr x _ _ 14 (Or.inr (Or.inr rfl)) rfl rfl h3

/-- Decryption under a key does not depend on what the context held before. -/
theorem aes_decrypt_key_indep (key : List Nat) (key_len : Nat) (hk : KeyLenOk key_len)
    (cx1 cx2 : aes_ctx) (x : List Nat) :
    aes_decrypt x (aes_decrypt_key key key_len cx1) =
      aes_decrypt x (aes_decrypt_key key key_len cx2) := by
  obtain ⟨h1, h2, h3⟩ := dec_key_indep key cx1 cx2
  rcases hk with rfl | rfl | rfl | rfl | rfl | rfl
  · exact aes_decrypt_congr x _ _ 10 (Or.inl rfl) rfl rfl h1
  · exact aes_decrypt_congr x _ _ 12 (Or.inr (Or.inl rfl)) rfl rfl h2
  · exact aes_decrypt_congr x _ _ 14 (Or.inr (Or.inr rfl)) rfl rfl h3
  · exact aes_decrypt_congr x _ _ 10 (Or.inl rfl) rfl rfl h1
  · exact aes_decrypt_congr x _ _ 12 (Or.inr (Or.inl rfl)) rfl rfl h2
  · exact aes_decrypt_congr x _ _ 14 (Or.inr (Or.inr rfl)) rfl rfl h3

/-- C1. Known-answer encryption: for the FIPS-197 example keys of 128, 192 and 256 bits,
`aes_encrypt` on the schedule built by `aes_encrypt_key` (in any context) maps the plaintext
00112233445566778899aabbccddeeff to 69c4e0d8..., dda97ca4... and 8ea2b7ca... respectively. -/
theorem C1_known_answer_encrypt (cx : aes_ctx) :
    aes_encrypt fips_plain (aes_encrypt_key fips_key128 16 cx) = fips_cipher128 ∧
    aes_encrypt fips_plain (aes_encrypt_key fips_key192 24 cx) = fips_cipher192 ∧
    aes_encrypt fips_plain (aes_encrypt_key fips_key256 32 cx) = fips_cipher256 := by
  rw [aes_encrypt_key_indep fips_key128 16 (Or.inl rfl) cx ctx0,
    aes_encrypt_key_indep fips_key192 24 (Or.inr (Or.inl rfl)) cx ctx0,
    aes_encrypt_key_indep fips_key256 32 (Or.inr (Or.inr (Or.inl rfl))) cx ctx0]
  exact kat_enc_zero

/-- C2. Block round trip: for every key and supported key length, and every 16-byte block
`x`, `aes_decrypt` with the schedule of `aes_decrypt_key` applied to `aes_encrypt` with the
schedule of `aes_encrypt_key` applied to `x` returns `x`. -/
theorem C2_block_round_trip (key : List Nat) (key_len : Nat) (cxe cxd : aes_ctx) (x : List Nat)
    (hk : key_len = 16 ∨ key_len = 24 ∨ key_len = 32) (hl : x.length = 16) (hb : IsBytes x) :
    aes_decrypt (aes_encrypt x (aes_encrypt_key key key_len cxe))
      (aes_decrypt_key key key_len cxd) = x := by
  apply aes_block_inverse key key_len _ cxe cxd x hl hb
  rcases hk with h | h | h
  · exact Or.inl h
  · exact Or.inr (Or.inl h)
  · exact Or.inr (Or.inr (Or.inl h))

theorem fips_plain_bytes : IsBytes fips_plain := by
  intro b hb
  simp only [fips_plain, List.mem_cons, List.mem_singleton, List.not_mem_nil, or_false] at hb
  omega

/-- Witness of C2 at the FIPS-197 AES-192 key and plaintext. -/
theorem C2_block_round_trip_witness :
    ((24 : Nat) = 16 ∨ (24 : Nat) = 24 ∨ (24 : Nat) = 32) ∧ fips_plain.length = 16 ∧
    IsBytes fips_plain ∧
    aes_decrypt (aes_encrypt fips_plain (aes_encrypt_key fips_key192 24 ctx0))
      (aes_decrypt_key fips_key192 24 ctx0) = fips_plain :=
  ⟨Or.inr (Or.inl rfl), rfl, fips_plain_bytes,
    C2_block_round_trip fips_key192 24 ctx0 ctx0 fips_plain (Or.inr (Or.inl rfl)) rfl
      fips_plain_bytes⟩

/-- C3. Known-answer decryption: for the three FIPS-197 example keys, `aes_decrypt` on the
schedule built by `aes_decrypt_key` (in any context) maps the ciphertexts 69c4e0d8...,
dda97ca4... and 8ea2b7ca... back to the plaintext 00112233445566778899aabbccddeeff. -/
theorem C3_known_answer_decrypt (cx : aes_ctx) :
    aes_decrypt fips_cipher128 (aes_decrypt_key fips_key128 16 cx) = fips_plain ∧
    aes_decrypt fips_cipher192 (aes_decrypt_key fips_key192 24 cx) = fips_plain ∧
    aes_decrypt fips_cipher256 (aes_decrypt_key fips_key256 32 cx) = fips_plain := by
  rw [aes_decrypt_key_indep fips_key128 16 (Or.inl rfl) cx ctx0,
    aes_decrypt_key_indep fips_key192 24 (Or.inr (Or.inl rfl)) cx ctx0,
    aes_decrypt_key_indep fips_key256 32 (Or.inr (Or.inr (Or.inl rfl))) cx ctx0]
  exact kat_dec_zero

/-! ## The stream modes -/

theorem enc_of_b2 (cx : aes_ctx) (p : Nat) :
    enc_of { ks := cx.ks, inf_b0 := cx.inf_b0, inf_b2 := p } = enc_of cx := rfl

theorem rd_buf (pre rest : List Nat) (b : Nat) (dst : Arr) :
    rd (Src.buf (pre ++ b :: rest)) dst pre.length = b := by
  show (pre ++ b :: rest).getD pre.length 0 = b
  rw [List.getD_eq_getElem?_getD, List.getElem?_append_right (Nat.le_refl _)]
  simp

theorem uncore_core (s : SilcSt) : uncore s (core s) s.dst = s := rfl

/-- The CTR macro on a source of its own is the CTR byte step run over the
source. -/
theorem ctr_loop_eq (rest : List Nat) :
    ∀ (pre : List Nat) (s : SilcSt),
      SILC_CTR_MSB_128_8 (Src.buf (pre ++ rest)) rest.length pre.length s =
        uncore s (stream (ctr_byte (enc_of s.cx)) (core s) rest).2
          (wr_list s.dst pre.length (stream (ctr_byte (enc_of s.cx)) (core s) rest).1) := by
  induction rest with
  | nil => intro pre s; rfl
  | cons b bs ih =>
    intro pre s
    have ih' := fun s2 => ih (pre ++ [b]) s2
    rw [List.length_append, List.length_singleton, List.append_assoc, List.singleton_append]
      at ih'
    rw [List.length_cons, SILC_CTR_MSB_128_8, rd_buf, ih']
    by_cases h : s.cx.inf_b2 = 16
    · simp only [h, if_true, stream, ctr_byte, core, uncore, wr_list, enc_of_b2]
      rfl
    · simp only [h, if_false, stream, ctr_byte, core, uncore, wr_list, enc_of_b2]


/-- The CFB encryption macro on a source of its own is the CFB encryption
byte step run over the source. -/
theorem cfb_enc_loop_eq (rest : List Nat) :
    ∀ (pre : List Nat) (s : SilcSt),
      SILC_CFB_ENC_MSB_128_8 (Src.buf (pre ++ rest)) rest.length pre.length s =
        uncore s (stream (cfb_enc_byte (enc_of s.cx)) (core s) rest).2
          (wr_list s.dst pre.length (stream (cfb_enc_byte (enc_of s.cx)) (core s) rest).1) := by
  induction rest with
  | nil => intro pre s; rfl
  | cons b bs ih =>
    intro pre s
    have ih' := fun s2 => ih (pre ++ [b]) s2
    rw [List.length_append, List.length_singleton, List.append_assoc, List.singleton_append]
      at ih'
    rw [List.length_cons, SILC_CFB_ENC_MSB_128_8, rd_buf, ih']
    by_cases h : s.cx.inf_b2 = 16
    · simp only [h, if_true, stream, cfb_enc_byte, core, uncore, wr_list, enc_of_b2]
      rfl
    · simp only [h, if_false, stream, cfb_enc_byte, core, uncore, wr_list, enc_of_b2]

/-- The CFB decryption macro on a source of its own is the CFB decryption
byte step run over the source. -/
theorem cfb_dec_loop_eq (rest : List Nat) :
    ∀ (pre : List Nat) (s : SilcSt),
      SILC_CFB_DEC_MSB_128_8 (Src.buf (pre ++ rest)) rest.length pre.length s =
        uncore s (stream (cfb_dec_byte (enc_of s.cx)) (core s) rest).2
          (wr_list s.dst pre.length (stream (cfb_dec_byte (enc_of s.cx)) (core s) rest).1) := by
  induction rest with
  | nil => intro pre s; rfl
  | cons b bs ih =>
    intro pre s
    have ih' := fun s2 => ih (pre ++ [b]) s2
    rw [List.length_append, List.length_singleton, List.append_assoc, List.singleton_append]
      at ih'
    rw [List.length_cons, SILC_CFB_DEC_MSB_128_8, rd_buf, ih']
    by_cases h : s.cx.inf_b2 = 16
    · simp only [h, if_true, stream, cfb_dec_byte, core, uncore, wr_list, enc_of_b2]
      rfl
    · simp only [h, if_false, stream, cfb_dec_byte, core, uncore, wr_list, enc_of_b2]

theorem wr_list_get (l : List Nat) :
    ∀ (dst : Arr) (j i : Nat),
      (wr_list dst j l) i = if j ≤ i ∧ i < j + l.length then l.getD (i - j) 0 else dst i := by
  induction l with
  | nil =>
    intro dst j i
    rw [if_neg (by simp)]
    rfl
  | cons b bs ih =>
    intro dst j i
    rw [wr_list, ih, List.length_cons]
    by_cases h1 : i = j
    · subst h1
      rw [if_neg (by omega), if_pos (by omega), upd_get, if_pos rfl, Nat.sub_self]
      rfl
    · by_cases h2 : j + 1 ≤ i ∧ i < j + 1 + bs.length
      · rw [if_pos h2, if_pos (by omega), show i - j = (i - (j + 1)) + 1 from by omega]
        rfl
      · rw [if_neg h2, if_neg (by omega), upd_get, if_neg h1]

theorem bytes_wr_list (dst : Arr) (l : List Nat) : bytes (wr_list dst 0 l) l.length = l := by
  apply List.ext_getElem
  · simp [bytes]
  · intro n h1 h2
    simp only [bytes, List.getElem_map, List.getElem_range]
    show (wr_list dst 0 l) n = l[n]
    rw [wr_list_get, if_pos (by omega), Nat.sub_zero, List.getD_eq_getElem _ _ h2]

theorem stream_length (f : Core → Nat → Nat × Core) (m : List Nat) :
    ∀ c, (stream f c m).1.length = m.length := by
  induction m with
  | nil => intro c; rfl
  | cons b bs ih => intro c; simp [stream, ih]

theorem stream_append (f : Core → Nat → Nat × Core) (m1 m2 : List Nat) :
    ∀ c, stream f c (m1 ++ m2) =
      ((stream f c m1).1 ++ (stream f (stream f c m1).2 m2).1,
        (stream f (stream f c m1).2 m2).2) := by
  induction m1 with
  | nil => intro c; rfl
  | cons b bs ih => intro c; simp [stream, ih]

/-- When the second byte step undoes the first and moves the state alike, the
second stream gives back the message of the first. -/
theorem stream_inverse (fe fd : Core → Nat → Nat × Core)
    (h : ∀ c b, fd c (fe c b).1 = (b, (fe c b).2)) (m : List Nat) :
    ∀ c, stream fd c (stream fe c m).1 = (m, (stream fe c m).2) := by
  induction m with
  | nil => intro c; rfl
  | cons b bs ih => intro c; simp [stream, ih, h]

theorem ctr_byte_inv (E : List Nat → List Nat) (c : Core) (b : Nat) :
    ctr_byte E c (ctr_byte E c b).1 = (b, (ctr_byte E c b).2) := by
  simp only [ctr_byte, xor_cancel_right]

theorem cfb_byte_inv (E : List Nat → List Nat) (c : Core) (b : Nat) :
    cfb_dec_byte E c (cfb_enc_byte E c b).1 = (b, (cfb_enc_byte E c b).2) := by
  simp only [cfb_dec_byte, cfb_enc_byte, xor_cancel_right]

theorem ctr_block_dead (E : List Nat → List Nat) (iv b1 b2 : List Nat) (m : List Nat) :
    (stream (ctr_byte E) ⟨iv, b1, 16⟩ m).1 = (stream (ctr_byte E) ⟨iv, b2, 16⟩ m).1 := by
  cases m with
  | nil => rfl
  | cons b bs => simp [stream, ctr_byte]

theorem ctr_block_dead_state (E : List Nat → List Nat) (iv b1 b2 : List Nat) (m : List Nat)
    (hm : m ≠ []) :
    stream (ctr_byte E) ⟨iv, b1, 16⟩ m = stream (ctr_byte E) ⟨iv, b2, 16⟩ m := by
  cases m with
  | nil => exact absurd rfl hm
  | cons b bs => simp [stream, ctr_byte]

theorem cfb_enc_block_dead (E : List Nat → List Nat) (b2 : List Nat) (m : List Nat) :
    ∀ c : Core, stream (cfb_enc_byte E) ⟨c.iv, b2, c.pad⟩ m =
      ((stream (cfb_enc_byte E) c m).1,
        ⟨(stream (cfb_enc_byte E) c m).2.iv, b2, (stream (cfb_enc_byte E) c m).2.pad⟩) := by
  induction m with
  | nil => intro c; rfl
  | cons b bs ih =>
    intro c
    have := ih (cfb_enc_byte E c b).2
    by_cases h : c.pad = 16
    · simp only [stream, cfb_enc_byte, h, if_true] at this ⊢
      rw [this]
    · simp only [stream, cfb_enc_byte, h, if_false] at this ⊢
      rw [this]

theorem cfb_dec_block_dead (E : List Nat → List Nat) (b2 : List Nat) (m : List Nat) :
    ∀ c : Core, stream (cfb_dec_byte E) ⟨c.iv, b2, c.pad⟩ m =
      ((stream (cfb_dec_byte E) c m).1,
        ⟨(stream (cfb_dec_byte E) c m).2.iv, b2, (stream (cfb_dec_byte E) c m).2.pad⟩) := by
  induction m with
  | nil => intro c; rfl
  | cons b bs ih =>
    intro c
    have := ih (cfb_dec_byte E c b).2
    by_cases h : c.pad = 16
    · simp only [stream, cfb_dec_byte, h, if_true] at this ⊢
      rw [this]
    · simp only [stream, cfb_dec_byte, h, if_false] at this ⊢
      rw [this]

/-- A call of `silc_aes_encrypt` in CTR mode on a source of its own. -/
theorem ctr_encrypt_eq (s : SilcSt) (m : List Nat) :
    silc_aes_encrypt SILC_CIPHER_MODE_CTR s (Src.buf m) m.length =
      (true, uncore s (stream (ctr_byte (enc_of s.cx)) (core s) m).2
        (wr_list s.dst 0 (stream (ctr_byte (enc_of s.cx)) (core s) m).1)) := by
  have := ctr_loop_eq m [] s
  simp only [List.nil_append, List.length_nil] at this
  simp only [silc_aes_encrypt, if_true, this]

/-- A call of `silc_aes_decrypt` in CTR mode on a source of its own. -/
theorem ctr_decrypt_eq (s : SilcSt) (m : List Nat) :
    silc_aes_decrypt SILC_CIPHER_MODE_CTR s (Src.buf m) m.length =
      (true, uncore s (stream (ctr_byte (enc_of s.cx)) (core s) m).2
        (wr_list s.dst 0 (stream (ctr_byte (enc_of s.cx)) (core s) m).1)) := by
  rw [← ctr_encrypt_eq]
  rfl

/-- A call of `silc_aes_encrypt` in CFB mode on a source of its own. -/
theorem cfb_encrypt_eq (s : SilcSt) (m : List Nat) :
    silc_aes_encrypt SILC_CIPHER_MODE_CFB s (Src.buf m) m.length =
      (true, uncore s (stream (cfb_enc_byte (enc_of s.cx)) (core s) m).2
        (wr_list s.dst 0 (stream (cfb_enc_byte (enc_of s.cx)) (core s) m).1)) := by
  have := cfb_enc_loop_eq m [] s
  simp only [List.nil_append, List.length_nil] at this
  rw [← this]
  rfl

/-- A call of `silc_aes_decrypt` in CFB mode on a source of its own. -/
theorem cfb_decrypt_eq (s : SilcSt) (m : List Nat) :
    silc_aes_decrypt SILC_CIPHER_MODE_CFB s (Src.buf m) m.length =
      (true, uncore s (stream (cfb_dec_byte (enc_of s.cx)) (core s) m).2
        (wr_list s.dst 0 (stream (cfb_dec_byte (enc_of s.cx)) (core s) m).1)) := by
  have := cfb_dec_loop_eq m [] s
  simp only [List.nil_append, List.length_nil] at this
  rw [← this]
  rfl

theorem bytes_uncore (s : SilcSt) (c : Core) (dst : Arr) (l : List Nat) (n : Nat)
    (h : l.length = n) : bytes (uncore s c (wr_list dst 0 l)).dst n = l := by
  subst h
  exact bytes_wr_list dst l

/-- The block function of an instance keyed in CTR or CFB mode depends on the
key alone. -/
theorem keyed_stream_enc (mode : Nat) (hm : mode = SILC_CIPHER_MODE_CTR ∨ mode = SILC_CIPHER_MODE_CFB)
    (key : List Nat) (keylen : Nat) (hk : KeyLenOk keylen) (cx1 cx2 : aes_ctx) (e1 e2 : Bool)
    (iv1 iv2 b1 b2 : List Nat) (d1 d2 : Arr) :
    enc_of (keyed mode cx1 key keylen e1 iv1 b1 d1).cx =
      enc_of (keyed mode cx2 key keylen e2 iv2 b2 d2).cx := by
  funext x
  have := aes_encrypt_key_indep key keylen hk cx1 cx2 x
  rcases hm with rfl | rfl
  · exact this
  · exact this

theorem keyed_core (mode : Nat) (hm : mode = SILC_CIPHER_MODE_CTR ∨ mode = SILC_CIPHER_MODE_CFB)
    (key : List Nat) (keylen : Nat) (cx : aes_ctx) (e : Bool) (iv b : List Nat) (d : Arr) :
    core (keyed mode cx key keylen e iv b d) = ⟨iv, b, 16⟩ := by
  rcases hm with rfl | rfl <;> rfl

theorem core_uncore (s : SilcSt) (c : Core) (d : Arr) : core (uncore s c d) = c := rfl

theorem enc_of_uncore (s : SilcSt) (c : Core) (d : Arr) :
    enc_of (uncore s c d).cx = enc_of s.cx := rfl

theorem uncore_uncore (s : SilcSt) (c c2 : Core) (d d2 : Arr) :
    uncore (uncore s c d) c2 d2 = uncore s c2 d2 := rfl

/-- Calls of `silc_aes_encrypt` chunk by chunk, for a mode whose call is a
byte stream: the collected output is the stream over the joined chunks. -/
theorem encrypt_chunks_stream (mode : Nat) (f : (List Nat → List Nat) → Core → Nat → Nat × Core)
    (h : ∀ (s : SilcSt) (m : List Nat), silc_aes_encrypt mode s (Src.buf m) m.length =
      (true, uncore s (stream (f (enc_of s.cx)) (core s) m).2
        (wr_list s.dst 0 (stream (f (enc_of s.cx)) (core s) m).1)))
    (chunks : List (List Nat)) :
    ∀ s : SilcSt, (encrypt_chunks mode s chunks).1 = (stream (f (enc_of s.cx)) (core s) chunks.flatten).1 ∧
      ∃ d, (encrypt_chunks mode s chunks).2 =
        uncore s (stream (f (enc_of s.cx)) (core s) chunks.flatten).2 d := by
  induction chunks with
  | nil => intro s; exact ⟨rfl, s.dst, rfl⟩
  | cons ch rest ih =>
    intro s
    obtain ⟨ih1, d, ih2⟩ := ih (silc_aes_encrypt mode s (Src.buf ch) ch.length).2
    rw [h s ch] at ih1 ih2
    simp only [enc_of_uncore, core_uncore, uncore_uncore] at ih1 ih2
    simp only [encrypt_chunks, List.flatten_cons, stream_append]
    rw [h s ch]
    refine ⟨?_, d, ih2⟩
    rw [ih1, bytes_uncore s _ _ _ _ (stream_length _ _ _)]

/-- Calls of `silc_aes_decrypt` chunk by chunk, for a mode whose call is a
byte stream. -/
theorem decrypt_chunks_stream (mode : Nat) (f : (List Nat → List Nat) → Core → Nat → Nat × Core)
    (h : ∀ (s : SilcSt) (m : List Nat), silc_aes_decrypt mode s (Src.buf m) m.length =
      (true, uncore s (stream (f (enc_of s.cx)) (core s) m).2
        (wr_list s.dst 0 (stream (f (enc_of s.cx)) (core s) m).1)))
    (chunks : List (List Nat)) :
    ∀ s : SilcSt, (decrypt_chunks mode s chunks).1 = (stream (f (enc_of s.cx)) (core s) chunks.flatten).1 ∧
      ∃ d, (decrypt_chunks mode s chunks).2 =
        uncore s (stream (f (enc_of s.cx)) (core s) chunks.flatten).2 d := by
  induction chunks with
  | nil => intro s; exact ⟨rfl, s.dst, rfl⟩
  | cons ch rest ih =>
    intro s
    obtain ⟨ih1, d, ih2⟩ := ih (silc_aes_decrypt mode s (Src.buf ch) ch.length).2
    rw [h s ch] at ih1 ih2
    simp only [enc_of_uncore, core_uncore, uncore_uncore] at ih1 ih2
    simp only [decrypt_chunks, List.flatten_cons, stream_append]
    rw [h s ch]
    refine ⟨?_, d, ih2⟩
    rw [ih1, bytes_uncore s _ _ _ _ (stream_length _ _ _)]

/-- C4. CTR round trip: for every key of 16, 24 or 32 bytes, every IV and every message
`m` of any length, `silc_aes_encrypt` in CTR mode on a keyed, freshly IV-reset instance
followed by `silc_aes_decrypt` in CTR mode on an instance with the same key, freshly
reset to the same IV, returns TRUE twice and gives back `m`. -/
theorem C4_ctr_round_trip (key : List Nat) (keylen : Nat)
    (hk : keylen = 16 ∨ keylen = 24 ∨ keylen = 32) (iv m : List Nat) (cx1 cx2 : aes_ctx)
    (e1 e2 : Bool) (b1 b2 : List Nat) (d1 d2 : Arr) :
    (silc_aes_encrypt SILC_CIPHER_MODE_CTR
        (keyed SILC_CIPHER_MODE_CTR cx1 key keylen e1 iv b1 d1) (Src.buf m) m.length).1 = true ∧
    (silc_aes_decrypt SILC_CIPHER_MODE_CTR
        (keyed SILC_CIPHER_MODE_CTR cx2 key keylen e2 iv b2 d2)
        (Src.buf (bytes (silc_aes_encrypt SILC_CIPHER_MODE_CTR
          (keyed SILC_CIPHER_MODE_CTR cx1 key keylen e1 iv b1 d1) (Src.buf m) m.length).2.dst
          m.length)) m.length).1 = true ∧
    bytes (silc_aes_decrypt SILC_CIPHER_MODE_CTR
        (keyed SILC_CIPHER_MODE_CTR cx2 key keylen e2 iv b2 d2)
        (Src.buf (bytes (silc_aes_encrypt SILC_CIPHER_MODE_CTR
          (keyed SILC_CIPHER_MODE_CTR cx1 key keylen e1 iv b1 d1) (Src.buf m) m.length).2.dst
          m.length)) m.length).2.dst m.length = m := by
  have hk' : KeyLenOk keylen := by
    rcases hk with h | h | h
    · exact Or.inl h
    · exact Or.inr (Or.inl h)
    · exact Or.inr (Or.inr (Or.inl h))
  have hE := keyed_stream_enc SILC_CIPHER_MODE_CTR (Or.inl rfl) key keylen hk' cx2 cx1 e2 e1
    iv iv b2 b1 d2 d1
  have hc1 := keyed_core SILC_CIPHER_MODE_CTR (Or.inl rfl) key keylen cx1 e1 iv b1 d1
  have hc2 := keyed_core SILC_CIPHER_MODE_CTR (Or.inl rfl) key keylen cx2 e2 iv b2 d2
  rw [ctr_encrypt_eq, bytes_uncore _ _ _ _ _ (stream_length _ _ _)]
  have hl := stream_length (ctr_byte (enc_of (keyed SILC_CIPHER_MODE_CTR cx1 key keylen e1 iv b1 d1).cx))
    m (core (keyed SILC_CIPHER_MODE_CTR cx1 key keylen e1 iv b1 d1))
  refine ⟨rfl, ?_, ?_⟩
  · rw [← hl, ctr_decrypt_eq]
  · rw [← hl, ctr_decrypt_eq, bytes_uncore _ _ _ _ _ (stream_length _ _ _), hE, hc1, hc2,
      ctr_block_dead _ iv b2 b1, stream_inverse _ _ (ctr_byte_inv _)]

/-- Witness of C4: a 24-byte key and a five-byte message. -/
theorem C4_ctr_round_trip_witness :
    ((24 : Nat) = 16 ∨ (24 : Nat) = 24 ∨ (24 : Nat) = 32) ∧
    bytes (silc_aes_decrypt SILC_CIPHER_MODE_CTR
        (keyed SILC_CIPHER_MODE_CTR ctx0 fips_key192 24 false fips_plain [] Arr.zero)
        (Src.buf (bytes (silc_aes_encrypt SILC_CIPHER_MODE_CTR
          (keyed SILC_CIPHER_MODE_CTR ctx0 fips_key192 24 true fips_plain [] Arr.zero)
          (Src.buf [1, 2, 3, 4, 5]) [1, 2, 3, 4, 5].length).2.dst
          [1, 2, 3, 4, 5].length)) [1, 2, 3, 4, 5].length).2.dst [1, 2, 3, 4, 5].length =
      [1, 2, 3, 4, 5] :=
  ⟨Or.inr (Or.inl rfl),
    (C4_ctr_round_trip fips_key192 24 (Or.inr (Or.inl rfl)) fips_plain [1, 2, 3, 4, 5] ctx0 ctx0
      true false [] [] Arr.zero Arr.zero).2.2⟩

/-- C5. CFB round trip: for every key of 16, 24 or 32 bytes, every IV and every message
`m` of any length, `silc_aes_encrypt` in CFB mode on a keyed, freshly IV-reset instance
followed by `silc_aes_decrypt` in CFB mode on an instance with the same key, freshly
reset to the same IV, returns TRUE twice and gives back `m`. -/
theorem C5_cfb_round_trip (key : List Nat) (keylen : Nat)
    (hk : keylen = 16 ∨ keylen = 24 ∨ keylen = 32) (iv m : List Nat) (cx1 cx2 : aes_ctx)
    (e1 e2 : Bool) (b1 b2 : List Nat) (d1 d2 : Arr) :
    (silc_aes_encrypt SILC_CIPHER_MODE_CFB
        (keyed SILC_CIPHER_MODE_CFB cx1 key keylen e1 iv b1 d1) (Src.buf m) m.length).1 = true ∧
    (silc_aes_decrypt SILC_CIPHER_MODE_CFB
        (keyed SILC_CIPHER_MODE_CFB cx2 key keylen e2 iv b2 d2)
        (Src.buf (bytes (silc_aes_encrypt SILC_CIPHER_MODE_CFB
          (keyed SILC_CIPHER_MODE_CFB cx1 key keylen e1 iv b1 d1) (Src.buf m) m.length).2.dst
          m.length)) m.length).1 = true ∧
    bytes (silc_aes_decrypt SILC_CIPHER_MODE_CFB
        (keyed SILC_CIPHER_MODE_CFB cx2 key keylen e2 iv b2 d2)
        (Src.buf (bytes (silc_aes_encrypt SILC_CIPHER_MODE_CFB
          (keyed SILC_CIPHER_MODE_CFB cx1 key keylen e1 iv b1 d1) (Src.buf m) m.length).2.dst
          m.length)) m.length).2.dst m.length = m := by
  have hk' : KeyLenOk keylen := by
    rcases hk with h | h | h
    · exact Or.inl h
    · exact Or.inr (Or.inl h)
    · exact Or.inr (Or.inr (Or.inl h))
  have hE := keyed_stream_enc SILC_CIPHER_MODE_CFB (Or.inr rfl) key keylen hk' cx2 cx1 e2 e1
    iv iv b2 b1 d2 d1
  have hc1 := keyed_core SILC_CIPHER_MODE_CFB (Or.inr rfl) key keylen cx1 e1 iv b1 d1
  have hc2 := keyed_core SILC_CIPHER_MODE_CFB (Or.inr rfl) key keylen cx2 e2 iv b2 d2
  rw [cfb_encrypt_eq, bytes_uncore _ _ _ _ _ (stream_length _ _ _)]
  have hl := stream_length (cfb_enc_byte (enc_of (keyed SILC_CIPHER_MODE_CFB cx1 key keylen e1 iv b1 d1).cx))
    m (core (keyed SILC_CIPHER_MODE_CFB cx1 key keylen e1 iv b1 d1))
  refine ⟨rfl, ?_, ?_⟩
  · rw [← hl, cfb_decrypt_eq]
  · rw [← hl, cfb_decrypt_eq, bytes_uncore _ _ _ _ _ (stream_length _ _ _), hE, hc1, hc2]
    have := cfb_dec_block_dead (enc_of (keyed SILC_CIPHER_MODE_CFB cx1 key keylen e1 iv b1 d1).cx) b2
      (stream (cfb_enc_byte (enc_of (keyed SILC_CIPHER_MODE_CFB cx1 key keylen e1 iv b1 d1).cx))
        ⟨iv, b1, 16⟩ m).1 ⟨iv, b1, 16⟩
    rw [this, stream_inverse _ _ (cfb_byte_inv _)]

/-- Witness of C5: a 32-byte key and a three-byte message. -/
theorem C5_cfb_round_trip_witness :
    ((32 : Nat) = 16 ∨ (32 : Nat) = 24 ∨ (32 : Nat) = 32) ∧
    bytes (silc_aes_decrypt SILC_CIPHER_MODE_CFB
        (keyed SILC_CIPHER_MODE_CFB ctx0 fips_key256 32 false fips_plain [] Arr.zero)
        (Src.buf (bytes (silc_aes_encrypt SILC_CIPHER_MODE_CFB
          (keyed SILC_CIPHER_MODE_CFB ctx0 fips_key256 32 true fips_plain [] Arr.zero)
          (Src.buf [7, 8, 9]) [7, 8, 9].length).2.dst
          [7, 8, 9].length)) [7, 8, 9].length).2.dst [7, 8, 9].length = [7, 8, 9] :=
  ⟨Or.inr (Or.inr rfl),
    (C5_cfb_round_trip fips_key256 32 (Or.inr (Or.inr rfl)) fips_plain [7, 8, 9] ctx0 ctx0
      true false [] [] Arr.zero Arr.zero).2.2⟩

/-- C7. CTR streaming equivalence: for every starting state (any key, counter, keystream
block and cursor) and every list of chunks, empty and one-byte chunks included, one call of
`silc_aes_encrypt` in CTR mode per chunk gives the same concatenated output, and leaves the
same context (with its cursor), counter and keystream block, as one call on the joined
chunks. -/
theorem C7_ctr_streaming (s : SilcSt) (chunks : List (List Nat)) :
    (encrypt_chunks SILC_CIPHER_MODE_CTR s chunks).1 =
      bytes (silc_aes_encrypt SILC_CIPHER_MODE_CTR s (Src.buf chunks.flatten)
        chunks.flatten.length).2.dst chunks.flatten.length ∧
    (encrypt_chunks SILC_CIPHER_MODE_CTR s chunks).2.iv =
      (silc_aes_encrypt SILC_CIPHER_MODE_CTR s (Src.buf chunks.flatten) chunks.flatten.length).2.iv ∧
    (encrypt_chunks SILC_CIPHER_MODE_CTR s chunks).2.block =
      (silc_aes_encrypt SILC_CIPHER_MODE_CTR s (Src.buf chunks.flatten) chunks.flatten.length).2.block ∧
    (encrypt_chunks SILC_CIPHER_MODE_CTR s chunks).2.cx =
      (silc_aes_encrypt SILC_CIPHER_MODE_CTR s (Src.buf chunks.flatten) chunks.flatten.length).2.cx := by
  obtain ⟨h1, d, h2⟩ := encrypt_chunks_stream SILC_CIPHER_MODE_CTR ctr_byte ctr_encrypt_eq chunks s
  rw [ctr_encrypt_eq, bytes_uncore _ _ _ _ _ (stream_length _ _ _), h1, h2]
  exact ⟨rfl, rfl, rfl, rfl⟩

/-- C8. CFB streaming equivalence: for every starting state and every list of chunks, one
call of `silc_aes_encrypt` (and likewise of `silc_aes_decrypt`) in CFB mode per chunk gives
the same concatenated output, and leaves the same feedback buffer and the same context
(with its cursor), as one call on the joined chunks. -/
theorem C8_cfb_streaming (s : SilcSt) (chunks : List (List Nat)) :
    ((encrypt_chunks SILC_CIPHER_MODE_CFB s chunks).1 =
      bytes (silc_aes_encrypt SILC_CIPHER_MODE_CFB s (Src.buf chunks.flatten)
        chunks.flatten.length).2.dst chunks.flatten.length ∧
    (encrypt_chunks SILC_CIPHER_MODE_CFB s chunks).2.iv =
      (silc_aes_encrypt SILC_CIPHER_MODE_CFB s (Src.buf chunks.flatten) chunks.flatten.length).2.iv ∧
    (encrypt_chunks SILC_CIPHER_MODE_CFB s chunks).2.cx =
      (silc_aes_encrypt SILC_CIPHER_MODE_CFB s (Src.buf chunks.flatten) chunks.flatten.length).2.cx) ∧
    ((decrypt_chunks SILC_CIPHER_MODE_CFB s chunks).1 =
      bytes (silc_aes_decrypt SILC_CIPHER_MODE_CFB s (Src.buf chunks.flatten)
        chunks.flatten.length).2.dst chunks.flatten.length ∧
    (decrypt_chunks SILC_CIPHER_MODE_CFB s chunks).2.iv =
      (silc_aes_decrypt SILC_CIPHER_MODE_CFB s (Src.buf chunks.flatten) chunks.flatten.length).2.iv ∧
    (decrypt_chunks SILC_CIPHER_MODE_CFB s chunks).2.cx =
      (silc_aes_decrypt SILC_CIPHER_MODE_CFB s (Src.buf chunks.flatten) chunks.flatten.length).2.cx) := by
  obtain ⟨h1, d, h2⟩ := encrypt_chunks_stream SILC_CIPHER_MODE_CFB cfb_enc_byte cfb_encrypt_eq chunks s
  obtain ⟨h3, d2, h4⟩ := decrypt_chunks_stream SILC_CIPHER_MODE_CFB cfb_dec_byte cfb_decrypt_eq chunks s
  rw [cfb_encrypt_eq, cfb_decrypt_eq, bytes_uncore _ _ _ _ _ (stream_length _ _ _),
    bytes_uncore _ _ _ _ _ (stream_length _ _ _), h1, h2, h3, h4]
  exact ⟨⟨rfl, rfl, rfl⟩, rfl, rfl, rfl⟩

theorem cfb_enc_block_dead_fst (E : List Nat → List Nat) (iv b1 b2 : List Nat) (pad : Nat)
    (m : List Nat) :
    (stream (cfb_enc_byte E) ⟨iv, b1, pad⟩ m).1 = (stream (cfb_enc_byte E) ⟨iv, b2, pad⟩ m).1 := by
  have h := congrArg Prod.fst (cfb_enc_block_dead E b1 m ⟨iv, b2, pad⟩)
  exact h

/-- The block function of the context is the same after a call in CTR or CFB
mode. -/
theorem enc_of_after (mode : Nat) (hm : mode = SILC_CIPHER_MODE_CTR ∨ mode = SILC_CIPHER_MODE_CFB)
    (s : SilcSt) (p : List Nat) :
    enc_of (silc_aes_encrypt mode s (Src.buf p) p.length).2.cx = enc_of s.cx := by
  rcases hm with rfl | rfl
  · rw [ctr_encrypt_eq]; rfl
  · rw [cfb_encrypt_eq]; rfl

/-- An instance whose IV buffer was restored to `iv0` and that went through
`silc_aes_set_iv` encrypts like any instance with the same block function that
starts a new block at `iv0`. -/
theorem reset_fresh (mode : Nat) (hm : mode = SILC_CIPHER_MODE_CTR ∨ mode = SILC_CIPHER_MODE_CFB)
    (s1 s2 : SilcSt) (iv0 b2 : List Nat) (ivarg : Option (List Nat)) (m : List Nat)
    (hE : enc_of s1.cx = enc_of s2.cx) (hc : core s2 = ⟨iv0, b2, 16⟩) :
    bytes (silc_aes_encrypt mode (reset_iv mode s1 iv0 ivarg) (Src.buf m) m.length).2.dst
        m.length =
      bytes (silc_aes_encrypt mode s2 (Src.buf m) m.length).2.dst m.length := by
  rcases hm with rfl | rfl
  · rw [ctr_encrypt_eq, ctr_encrypt_eq, bytes_uncore _ _ _ _ _ (stream_length _ _ _),
      bytes_uncore _ _ _ _ _ (stream_length _ _ _), hc, ← hE]
    exact ctr_block_dead _ iv0 _ _ m
  · rw [cfb_encrypt_eq, cfb_encrypt_eq, bytes_uncore _ _ _ _ _ (stream_length _ _ _),
      bytes_uncore _ _ _ _ _ (stream_length _ _ _), hc, ← hE]
    exact cfb_enc_block_dead_fst _ iv0 _ _ 16 m

/-- In CTR and CFB mode `silc_aes_set_key` runs `aes_encrypt_key`, whatever
the flag `encryption` is. -/
theorem set_key_stream (mode : Nat)
    (hm : mode = SILC_CIPHER_MODE_CTR ∨ mode = SILC_CIPHER_MODE_CFB) (cx : aes_ctx)
    (key : List Nat) (keylen : Nat) (e : Bool) :
    silc_aes_set_key mode cx key keylen e = (true, aes_encrypt_key key keylen cx) := by
  unfold silc_aes_set_key
  rw [if_pos hm]

theorem keyed_flag (mode : Nat) (hm : mode = SILC_CIPHER_MODE_CTR ∨ mode = SILC_CIPHER_MODE_CFB)
    (cx : aes_ctx) (key : List Nat) (keylen : Nat) (e e2 : Bool) (iv b b2 : List Nat)
    (d d2 : Arr) :
    (keyed mode cx key keylen e iv b d).cx = (keyed mode cx key keylen e2 iv b2 d2).cx := by
  unfold keyed
  rw [set_key_stream mode hm, set_key_stream mode hm]

theorem reset_cursor (mode : Nat) (hm : mode = SILC_CIPHER_MODE_CTR ∨ mode = SILC_CIPHER_MODE_CFB)
    (cx : aes_ctx) (ivarg : Option (List Nat)) : (silc_aes_set_iv mode cx ivarg).inf_b2 = 16 := by
  rcases hm with rfl | rfl <;> rfl

/-- C11. IV reset: in CTR and CFB mode, for every key, IV `iv0` and messages `p` and `m`,
after encrypting `p`, restoring the IV buffer to `iv0` and calling `silc_aes_set_iv` (with an
IV or with none), encrypting `m` gives exactly the bytes that a freshly keyed and
reset instance with the same key and `iv0` gives for `m`; and `silc_aes_set_iv` leaves the
cursor at 16 (start of a new block) whatever its IV argument is. -/
theorem C11_iv_reset (mode : Nat)
    (hm : mode = SILC_CIPHER_MODE_CTR ∨ mode = SILC_CIPHER_MODE_CFB) (cx : aes_ctx)
    (key : List Nat) (keylen : Nat) (e e2 : Bool) (iv0 p m b b2 : List Nat) (d d2 : Arr)
    (ivarg : Option (List Nat)) :
    bytes (silc_aes_encrypt mode
        (reset_iv mode
          (silc_aes_encrypt mode (keyed mode cx key keylen e iv0 b d) (Src.buf p) p.length).2
          iv0 ivarg)
        (Src.buf m) m.length).2.dst m.length =
      bytes (silc_aes_encrypt mode (keyed mode cx key keylen e2 iv0 b2 d2) (Src.buf m)
        m.length).2.dst m.length ∧
    (reset_iv mode
      (silc_aes_encrypt mode (keyed mode cx key keylen e iv0 b d) (Src.buf p) p.length).2
      iv0 ivarg).cx.inf_b2 = 16 := by
  refine ⟨?_, reset_cursor mode hm _ ivarg⟩
  apply reset_fresh mode hm _ _ iv0 b2 ivarg m
  · rw [enc_of_after mode hm, keyed_flag mode hm cx key keylen e e2 iv0 b b2 d d2]
  · exact keyed_core mode hm key keylen cx e2 iv0 b2 d2

/-- C15. CTR decrypt is encrypt: for every state (context, counter, keystream block,
cursor, destination), source and length, `silc_aes_decrypt` in CTR mode returns the same
result and leaves the same state as `silc_aes_encrypt` in CTR mode. -/
theorem C15_ctr_decrypt_is_encrypt (s : SilcSt) (src : Src) (len : Nat) :
    silc_aes_decrypt SILC_CIPHER_MODE_CTR s src len =
      silc_aes_encrypt SILC_CIPHER_MODE_CTR s src len := rfl

/-- C16. In CTR and CFB mode `silc_aes_set_key` gives, for every key and key length, the
same result and context with `encryption` TRUE and FALSE, namely the context of
`aes_encrypt_key`; and `silc_aes_encrypt` and `silc_aes_decrypt` in these modes are byte
streams over the forward block transform `aes_encrypt` of the context alone. -/
theorem C16_stream_modes_forward_only (cx : aes_ctx) (key : List Nat) (keylen : Nat)
    (s : SilcSt) (m : List Nat) :
    (silc_aes_set_key SILC_CIPHER_MODE_CTR cx key keylen true =
        silc_aes_set_key SILC_CIPHER_MODE_CTR cx key keylen false ∧
      silc_aes_set_key SILC_CIPHER_MODE_CTR cx key keylen false =
        (true, aes_encrypt_key key keylen cx) ∧
      silc_aes_set_key SILC_CIPHER_MODE_CFB cx key keylen true =
        silc_aes_set_key SILC_CIPHER_MODE_CFB cx key keylen false ∧
      silc_aes_set_key SILC_CIPHER_MODE_CFB cx key keylen false =
        (true, aes_encrypt_key key keylen cx)) ∧
    silc_aes_encrypt SILC_CIPHER_MODE_CTR s (Src.buf m) m.length =
      (true, uncore s (stream (ctr_byte fun x => aes_encrypt x s.cx) (core s) m).2
        (wr_list s.dst 0 (stream (ctr_byte fun x => aes_encrypt x s.cx) (core s) m).1)) ∧
    silc_aes_decrypt SILC_CIPHER_MODE_CTR s (Src.buf m) m.length =
      (true, uncore s (stream (ctr_byte fun x => aes_encrypt x s.cx) (core s) m).2
        (wr_list s.dst 0 (stream (ctr_byte fun x => aes_encrypt x s.cx) (core s) m).1)) ∧
    silc_aes_encrypt SILC_CIPHER_MODE_CFB s (Src.buf m) m.length =
      (true, uncore s (stream (cfb_enc_byte fun x => aes_encrypt x s.cx) (core s) m).2
        (wr_list s.dst 0 (stream (cfb_enc_byte fun x => aes_encrypt x s.cx) (core s) m).1)) ∧
    silc_aes_decrypt SILC_CIPHER_MODE_CFB s (Src.buf m) m.length =
      (true, uncore s (stream (cfb_dec_byte fun x => aes_encrypt x s.cx) (core s) m).2
        (wr_list s.dst 0 (stream (cfb_dec_byte fun x => aes_encrypt x s.cx) (core s) m).1)) :=
  ⟨⟨(set_key_stream _ (Or.inl rfl) cx key keylen true).trans
        (set_key_stream _ (Or.inl rfl) cx key keylen false).symm,
      set_key_stream _ (Or.inl rfl) cx key keylen false,
      (set_key_stream _ (Or.inr rfl) cx key keylen true).trans
        (set_key_stream _ (Or.inr rfl) cx key keylen false).symm,
      set_key_stream _ (Or.inr rfl) cx key keylen false⟩,
    ctr_encrypt_eq s m, ctr_decrypt_eq s m, cfb_encrypt_eq s m, cfb_decrypt_eq s m⟩

/-- Witness of C11: CTR mode, five bytes encrypted before the reset, no IV handed to
`silc_aes_set_iv`. -/
theorem C11_iv_reset_witness :
    (SILC_CIPHER_MODE_CTR = SILC_CIPHER_MODE_CTR ∨ SILC_CIPHER_MODE_CTR = SILC_CIPHER_MODE_CFB) ∧
    bytes (silc_aes_encrypt SILC_CIPHER_MODE_CTR
        (reset_iv SILC_CIPHER_MODE_CTR
          (silc_aes_encrypt SILC_CIPHER_MODE_CTR
            (keyed SILC_CIPHER_MODE_CTR ctx0 fips_key128 16 true fips_plain [] Arr.zero)
            (Src.buf [1, 2, 3, 4, 5]) [1, 2, 3, 4, 5].length).2
          fips_plain none)
        (Src.buf [6, 7]) [6, 7].length).2.dst [6, 7].length =
      bytes (silc_aes_encrypt SILC_CIPHER_MODE_CTR
        (keyed SILC_CIPHER_MODE_CTR ctx0 fips_key128 16 true fips_plain [] Arr.zero)
        (Src.buf [6, 7]) [6, 7].length).2.dst [6, 7].length :=
  ⟨Or.inl rfl,
    (C11_iv_reset SILC_CIPHER_MODE_CTR (Or.inl rfl) ctx0 fips_key128 16 true true fips_plain
      [1, 2, 3, 4, 5] [6, 7] [] [] Arr.zero Arr.zero none).1⟩

/-! ## ECB and CBC -/

theorem blk_length (m : List Nat) (i : Nat) : (blk m i).length = 16 := by
  simp [blk]

theorem xor_block_length (a b : List Nat) : (xor_block a b).length = 16 := by
  simp [xor_block]

theorem map16_getD (f : Nat → Nat) (t : Nat) (ht : t < 16) :
    ((List.range 16).map f).getD t 0 = f t := by
  rw [List.getD_eq_getElem?_getD, List.getElem?_map, List.getElem?_range ht]
  rfl

theorem blk_getD (m : List Nat) (i t : Nat) (ht : t < 16) :
    (blk m i).getD t 0 = m.getD (16 * i + t) 0 := map16_getD _ t ht

theorem xor_block_getD (a b : List Nat) (t : Nat) (ht : t < 16) :
    (xor_block a b).getD t 0 = a.getD t 0 ^^^ b.getD t 0 := map16_getD _ t ht

theorem rd_block_buf (m : List Nat) (dst : Arr) (k : Nat) :
    rd_block (Src.buf m) dst (16 * k) = blk m k := rfl

theorem rd_block_getD (src : Src) (dst : Arr) (j t : Nat) (ht : t < 16) :
    (rd_block src dst j).getD t 0 = rd src dst (j + t) := map16_getD _ t ht

/-- Two sixteen-byte lists with the same entries are equal. -/
theorem ext16 (a b : List Nat) (ha : a.length = 16) (hb : b.length = 16)
    (h : ∀ t, t < 16 → a.getD t 0 = b.getD t 0) : a = b := by
  apply List.ext_getElem (ha.trans hb.symm)
  intro t h1 h2
  have := h t (ha ▸ h1)
  rw [List.getD_eq_getElem _ _ h1, List.getD_eq_getElem _ _ h2] at this
  exact this

theorem map16_congr (f g : Nat → Nat) (h : ∀ t, t < 16 → f t = g t) :
    (List.range 16).map f = (List.range 16).map g := by
  apply List.map_congr_left
  intro t ht
  exact h t (List.mem_range.mp ht)

theorem bytes_getD (a : Arr) (len x : Nat) (hx : x < len) : (bytes a len).getD x 0 = a x := by
  unfold bytes
  rw [List.getD_eq_getElem?_getD, List.getElem?_map, List.getElem?_range hx]
  rfl

theorem bytes_length (a : Arr) (len : Nat) : (bytes a len).length = len := by
  simp [bytes]

theorem wr_block_get (dst : Arr) (j : Nat) (b : List Nat) (x : Nat) :
    (wr_block dst j b) x = if j ≤ x ∧ x < j + 16 then b.getD (x - j) 0 else dst x := rfl

theorem enc_of_length (cx : aes_ctx) (x : List Nat) : (enc_of cx x).length = 16 :=
  state_out_length _

theorem enc_of_bytes (cx : aes_ctx) (x : List Nat) : IsBytes (enc_of cx x) :=
  state_out_bytes _

theorem dec_of_length (cx : aes_ctx) (x : List Nat) : (dec_of cx x).length = 16 :=
  state_out_length _

/-- The bytes of a buffer are its blocks: a buffer of whole blocks is determined by
them. -/
theorem bytes_eq_of_blocks (a : Arr) (m : List Nat) (n : Nat) (hm : m.length = 16 * n)
    (h : ∀ x, x < 16 * n → a x = m.getD x 0) : bytes a (16 * n) = m := by
  apply List.ext_getElem
  · rw [bytes_length, hm]
  · intro x h1 h2
    rw [bytes_length] at h1
    have := h x h1
    rw [List.getD_eq_getElem _ _ h2] at this
    rw [← this]
    have h3 := bytes_getD a (16 * n) x h1
    rw [List.getD_eq_getElem _ _ (by rw [bytes_length]; exact h1)] at h3
    exact h3

/-! ### ECB -/

/-- What the ECB loop of `silc_aes_encrypt` leaves, for a source of its own. -/
theorem ecb_encrypt_loop_eq (m : List Nat) :
    ∀ (nb k : Nat) (s : SilcSt),
      (ecb_encrypt_loop (Src.buf m) nb (16 * k) s).cx = s.cx ∧
      (ecb_encrypt_loop (Src.buf m) nb (16 * k) s).iv = s.iv ∧
      (ecb_encrypt_loop (Src.buf m) nb (16 * k) s).block = s.block ∧
      ∀ x, (ecb_encrypt_loop (Src.buf m) nb (16 * k) s).dst x =
        if 16 * k ≤ x ∧ x < 16 * (k + nb) then (enc_of s.cx (blk m (x / 16))).getD (x % 16) 0
        else s.dst x := by
  intro nb
  induction nb with
  | zero =>
    intro k s
    refine ⟨rfl, rfl, rfl, fun x => ?_⟩
    rw [if_neg (by omega)]
    rfl
  | succ nb ih =>
    intro k s
    obtain ⟨h1, h2, h3, h4⟩ := ih (k + 1)
      { s with dst := wr_block s.dst (16 * k) (aes_encrypt (rd_block (Src.buf m) s.dst (16 * k)) s.cx) }
    have hstep : ecb_encrypt_loop (Src.buf m) (nb + 1) (16 * k) s =
        ecb_encrypt_loop (Src.buf m) nb (16 * (k + 1))
          { s with dst := wr_block s.dst (16 * k) (aes_encrypt (rd_block (Src.buf m) s.dst (16 * k)) s.cx) } :=
      rfl
    rw [hstep]
    refine ⟨h1, h2, h3, fun x => ?_⟩
    rw [h4 x]
    by_cases hx : 16 * (k + 1) ≤ x ∧ x < 16 * (k + 1 + nb)
    · rw [if_pos hx, if_pos (by omega)]
    · rw [if_neg hx, wr_block_get]
      by_cases hy : 16 * k ≤ x ∧ x < 16 * k + 16
      · rw [if_pos hy, if_pos (by omega)]
        have e1 : x / 16 = k := by omega
        have e2 : x - 16 * k = x % 16 := by omega
        rw [e1, e2]
        rfl
      · rw [if_neg hy, if_neg (by omega)]

/-- What the ECB loop of `silc_aes_decrypt` leaves, for a source of its own. -/
theorem ecb_decrypt_loop_eq (m : List Nat) :
    ∀ (nb k : Nat) (s : SilcSt),
      (ecb_decrypt_loop (Src.buf m) nb (16 * k) s).cx = s.cx ∧
      (ecb_decrypt_loop (Src.buf m) nb (16 * k) s).iv = s.iv ∧
      (ecb_decrypt_loop (Src.buf m) nb (16 * k) s).block = s.block ∧
      ∀ x, (ecb_decrypt_loop (Src.buf m) nb (16 * k) s).dst x =
        if 16 * k ≤ x ∧ x < 16 * (k + nb) then (dec_of s.cx (blk m (x / 16))).getD (x % 16) 0
        else s.dst x := by
  intro nb
  induction nb with
  | zero =>
    intro k s
    refine ⟨rfl, rfl, rfl, fun x => ?_⟩
    rw [if_neg (by omega)]
    rfl
  | succ nb ih =>
    intro k s
    obtain ⟨h1, h2, h3, h4⟩ := ih (k + 1)
      { s with dst := wr_block s.dst (16 * k) (aes_decrypt (rd_block (Src.buf m) s.dst (16 * k)) s.cx) }
    have hstep : ecb_decrypt_loop (Src.buf m) (nb + 1) (16 * k) s =
        ecb_decrypt_loop (Src.buf m) nb (16 * (k + 1))
          { s with dst := wr_block s.dst (16 * k) (aes_decrypt (rd_block (Src.buf m) s.dst (16 * k)) s.cx) } :=
      rfl
    rw [hstep]
    refine ⟨h1, h2, h3, fun x => ?_⟩
    rw [h4 x]
    by_cases hx : 16 * (k + 1) ≤ x ∧ x < 16 * (k + 1 + nb)
    · rw [if_pos hx, if_pos (by omega)]
    · rw [if_neg hx, wr_block_get]
      by_cases hy : 16 * k ≤ x ∧ x < 16 * k + 16
      · rw [if_pos hy, if_pos (by omega)]
        have e1 : x / 16 = k := by omega
        have e2 : x - 16 * k = x % 16 := by omega
        rw [e1, e2]
        rfl
      · rw [if_neg hy, if_neg (by omega)]

/-! ### CBC -/

/-- What the CBC loop of `silc_aes_encrypt` leaves, for a source of its own, when it
starts at block `k` with chaining value `cbc_chain ... k`. -/
theorem cbc_encrypt_loop_eq (m iv : List Nat) :
    ∀ (nb k : Nat) (s : SilcSt), s.iv = cbc_chain (enc_of s.cx) m iv k →
      (cbc_encrypt_loop (Src.buf m) nb (16 * k) s).cx = s.cx ∧
      (cbc_encrypt_loop (Src.buf m) nb (16 * k) s).iv = cbc_chain (enc_of s.cx) m iv (k + nb) ∧
      (cbc_encrypt_loop (Src.buf m) nb (16 * k) s).block = s.block ∧
      ∀ x, (cbc_encrypt_loop (Src.buf m) nb (16 * k) s).dst x =
        if 16 * k ≤ x ∧ x < 16 * (k + nb) then
          (cbc_chain (enc_of s.cx) m iv (x / 16 + 1)).getD (x % 16) 0
        else s.dst x := by
  intro nb
  induction nb with
  | zero =>
    intro k s hs
    refine ⟨rfl, hs, rfl, fun x => ?_⟩
    rw [if_neg (by omega)]
    rfl
  | succ nb ih =>
    intro k s hs
    have hc : aes_encrypt (xor_block s.iv (rd_block (Src.buf m) s.dst (16 * k))) s.cx =
        cbc_chain (enc_of s.cx) m iv (k + 1) := by
      rw [hs]
      rfl
    have hstep : cbc_encrypt_loop (Src.buf m) (nb + 1) (16 * k) s =
        cbc_encrypt_loop (Src.buf m) nb (16 * (k + 1))
          { s with iv := aes_encrypt (xor_block s.iv (rd_block (Src.buf m) s.dst (16 * k))) s.cx,
                   dst := wr_block s.dst (16 * k)
                     (aes_encrypt (xor_block s.iv (rd_block (Src.buf m) s.dst (16 * k))) s.cx) } :=
      rfl
    rw [hstep, hc]
    obtain ⟨h1, h2, h3, h4⟩ := ih (k + 1)
      { s with iv := cbc_chain (enc_of s.cx) m iv (k + 1),
               dst := wr_block s.dst (16 * k) (cbc_chain (enc_of s.cx) m iv (k + 1)) } rfl
    refine ⟨h1, ?_, h3, fun x => ?_⟩
    · rw [h2]
      have e : k + 1 + nb = k + (nb + 1) := by omega
      rw [e]
    · rw [h4 x]
      by_cases hx : 16 * (k + 1) ≤ x ∧ x < 16 * (k + 1 + nb)
      · rw [if_pos hx, if_pos (by omega)]
      · rw [if_neg hx, wr_block_get]
        by_cases hy : 16 * k ≤ x ∧ x < 16 * k + 16
        · rw [if_pos hy, if_pos (by omega)]
          have e1 : x / 16 = k := by omega
          have e2 : x - 16 * k = x % 16 := by omega
          rw [e1, e2]
        · rw [if_neg hy, if_neg (by omega)]

/-- The XOR through `lp32` on a block just stored in the destination. -/
theorem xor_block_stored (dst : Arr) (j : Nat) (b iv : List Nat) :
    xor_block (rd_block Src.same (wr_block dst j b) j) iv = xor_block b iv := by
  apply map16_congr
  intro t ht
  rw [rd_block_getD _ _ _ _ ht]
  show (wr_block dst j b) (j + t) ^^^ _ = _
  rw [wr_block_get, if_pos (by omega)]
  have e : j + t - j = t := by omega
  rw [e]

theorem wr_block_twice (dst : Arr) (j : Nat) (a b : List Nat) (x : Nat) :
    (wr_block (wr_block dst j a) j b) x = (wr_block dst j b) x := by
  rw [wr_block_get, wr_block_get, wr_block_get]
  by_cases h : j ≤ x ∧ x < j + 16
  · rw [if_pos h, if_pos h]
  · rw [if_neg h, if_neg h, if_neg h]

/-- What the CBC loop of `silc_aes_decrypt` leaves, for a source of its own. -/
theorem cbc_decrypt_loop_eq (m : List Nat) :
    ∀ (nb k : Nat) (s : SilcSt),
      (cbc_decrypt_loop (Src.buf m) nb (16 * k) s).cx = s.cx ∧
      (cbc_decrypt_loop (Src.buf m) nb (16 * k) s).iv =
        (if nb = 0 then s.iv else blk m (k + nb - 1)) ∧
      (cbc_decrypt_loop (Src.buf m) nb (16 * k) s).block = s.block ∧
      ∀ x, (cbc_decrypt_loop (Src.buf m) nb (16 * k) s).dst x =
        if 16 * k ≤ x ∧ x < 16 * (k + nb) then
          (xor_block (dec_of s.cx (blk m (x / 16)))
            (if x / 16 = k then s.iv else blk m (x / 16 - 1))).getD (x % 16) 0
        else s.dst x := by
  intro nb
  induction nb with
  | zero =>
    intro k s
    refine ⟨rfl, rfl, rfl, fun x => ?_⟩
    rw [if_neg (by omega)]
    rfl
  | succ nb ih =>
    intro k s
    have hstep : cbc_decrypt_loop (Src.buf m) (nb + 1) (16 * k) s =
        cbc_decrypt_loop (Src.buf m) nb (16 * (k + 1))
          { s with iv := blk m k,
                   dst := wr_block (wr_block s.dst (16 * k) (dec_of s.cx (blk m k))) (16 * k)
                     (xor_block (rd_block Src.same
                       (wr_block s.dst (16 * k) (dec_of s.cx (blk m k))) (16 * k)) s.iv) } :=
      rfl
    rw [hstep, xor_block_stored]
    obtain ⟨h1, h2, h3, h4⟩ := ih (k + 1)
      { s with iv := blk m k,
               dst := wr_block (wr_block s.dst (16 * k) (dec_of s.cx (blk m k))) (16 * k)
                 (xor_block (dec_of s.cx (blk m k)) s.iv) }
    refine ⟨h1, ?_, h3, fun x => ?_⟩
    · rw [h2, if_neg (Nat.succ_ne_zero nb)]
      by_cases hn : nb = 0
      · rw [if_pos hn, hn]
        rfl
      · rw [if_neg hn]
        have e : k + 1 + nb - 1 = k + (nb + 1) - 1 := by omega
        rw [e]
    · rw [h4 x]
      by_cases hx : 16 * (k + 1) ≤ x ∧ x < 16 * (k + 1 + nb)
      · rw [if_pos hx, if_pos (show 16 * k ≤ x ∧ x < 16 * (k + (nb + 1)) by omega)]
        by_cases hk : x / 16 = k + 1
        · rw [if_pos hk, if_neg (show ¬x / 16 = k by omega)]
          have e : x / 16 - 1 = k := by omega
          rw [e]
        · rw [if_neg hk, if_neg (show ¬x / 16 = k by omega)]
      · rw [if_neg hx]
        show (wr_block (wr_block s.dst (16 * k) (dec_of s.cx (blk m k))) (16 * k)
          (xor_block (dec_of s.cx (blk m k)) s.iv)) x = _
        rw [wr_block_twice, wr_block_get]
        by_cases hy : 16 * k ≤ x ∧ x < 16 * k + 16
        · rw [if_pos hy, if_pos (show 16 * k ≤ x ∧ x < 16 * (k + (nb + 1)) by omega)]
          have e1 : x / 16 = k := by omega
          have e2 : x - 16 * k = x % 16 := by omega
          rw [e1, e2, if_pos rfl]
        · rw [if_neg hy, if_neg (by omega)]

theorem and15 (len : Nat) : len &&& (16 - 1) = len % 16 :=
  Nat.and_pow_two_sub_one_eq_mod len 4

theorem shr4 (len : Nat) : len >>> 4 = len / 16 := Nat.shiftRight_eq_div_pow len 4

/-- A call of `silc_aes_encrypt` in CBC mode with a ragged length. -/
theorem cbc_encrypt_ragged (s : SilcSt) (src : Src) (len : Nat) (h : len % 16 ≠ 0) :
    silc_aes_encrypt SILC_CIPHER_MODE_CBC s src len = (false, s) := by
  have h2 : len &&& (16 - 1) ≠ 0 := by rw [and15]; exact h
  unfold silc_aes_encrypt
  rw [if_neg (by decide), if_neg (by decide), if_pos rfl]
  exact if_pos h2

/-- A call of `silc_aes_decrypt` in CBC mode with a ragged length. -/
theorem cbc_decrypt_ragged (s : SilcSt) (src : Src) (len : Nat) (h : len % 16 ≠ 0) :
    silc_aes_decrypt SILC_CIPHER_MODE_CBC s src len = (false, s) := by
  have h2 : len &&& (16 - 1) ≠ 0 := by rw [and15]; exact h
  unfold silc_aes_decrypt
  rw [if_neg (by decide), if_neg (by decide), if_pos rfl]
  exact if_pos h2

/-- A call of `silc_aes_encrypt` in CBC mode on whole blocks. -/
theorem cbc_encrypt_call (s : SilcSt) (src : Src) (n : Nat) :
    silc_aes_encrypt SILC_CIPHER_MODE_CBC s src (16 * n) = (true, cbc_encrypt_loop src n 0 s) := by
  have h2 : ¬(16 * n) &&& (16 - 1) ≠ 0 := by rw [and15]; omega
  have h3 : (16 * n) >>> 4 = n := by rw [shr4]; omega
  unfold silc_aes_encrypt
  rw [if_neg (by decide), if_neg (by decide), if_pos rfl]
  show (if (16 * n) &&& (16 - 1) ≠ 0 then _ else (true, cbc_encrypt_loop src ((16 * n) >>> 4) 0 s)) = _
  rw [if_neg h2, h3]

/-- A call of `silc_aes_decrypt` in CBC mode on whole blocks. -/
theorem cbc_decrypt_call (s : SilcSt) (src : Src) (n : Nat) :
    silc_aes_decrypt SILC_CIPHER_MODE_CBC s src (16 * n) = (true, cbc_decrypt_loop src n 0 s) := by
  have h2 : ¬(16 * n) &&& (16 - 1) ≠ 0 := by rw [and15]; omega
  have h3 : (16 * n) >>> 4 = n := by rw [shr4]; omega
  unfold silc_aes_decrypt
  rw [if_neg (by decide), if_neg (by decide), if_pos rfl]
  show (if (16 * n) &&& (16 - 1) ≠ 0 then _ else (true, cbc_decrypt_loop src ((16 * n) >>> 4) 0 s)) = _
  rw [if_neg h2, h3]

/-- A call of `silc_aes_encrypt` in ECB mode: `len >> 4` blocks, whatever `len` is. -/
theorem ecb_encrypt_call (s : SilcSt) (src : Src) (len : Nat) :
    silc_aes_encrypt SILC_CIPHER_MODE_ECB s src len = (true, ecb_encrypt_loop src (len / 16) 0 s) := by
  unfold silc_aes_encrypt
  rw [if_neg (by decide), if_pos rfl]
  show (true, ecb_encrypt_loop src (len >>> 4) 0 s) = _
  rw [shr4]

/-- A call of `silc_aes_decrypt` in ECB mode: `len >> 4` blocks, whatever `len` is. -/
theorem ecb_decrypt_call (s : SilcSt) (src : Src) (len : Nat) :
    silc_aes_decrypt SILC_CIPHER_MODE_ECB s src len = (true, ecb_decrypt_loop src (len / 16) 0 s) := by
  unfold silc_aes_decrypt
  rw [if_neg (by decide), if_pos rfl]
  show (true, ecb_decrypt_loop src (len >>> 4) 0 s) = _
  rw [shr4]

theorem xor_block_bytes (a b : List Nat) (ha : IsBytes a) (hb : IsBytes b) :
    IsBytes (xor_block a b) := by
  intro x hx
  obtain ⟨t, _, rfl⟩ := List.mem_map.mp hx
  exact Nat.xor_lt_two_pow (n := 8) (getD_lt ha t) (getD_lt hb t)

theorem blk_bytes (m : List Nat) (hm : IsBytes m) (i : Nat) : IsBytes (blk m i) := by
  intro x hx
  obtain ⟨t, _, rfl⟩ := List.mem_map.mp hx
  exact getD_lt hm _

theorem cbc_chain_bytes (cx : aes_ctx) (m iv : List Nat) (hiv : IsBytes iv) (i : Nat) :
    IsBytes (cbc_chain (enc_of cx) m iv i) := by
  cases i with
  | zero => exact hiv
  | succ i => exact enc_of_bytes _ _

theorem xor_block_undo (c p : List Nat) (hp : p.length = 16) :
    xor_block (xor_block c p) c = p := by
  apply ext16 _ _ (xor_block_length _ _) hp
  intro t ht
  rw [xor_block_getD _ _ _ ht, xor_block_getD _ _ _ ht, Nat.xor_comm (c.getD t 0), xor_cancel_right]

/-- The ciphertext blocks that the CBC loop of `silc_aes_encrypt` stored. -/
theorem cbc_encrypt_blocks (m : List Nat) (n : Nat) (s : SilcSt) (i : Nat) (hi : i < n) :
    blk (bytes (cbc_encrypt_loop (Src.buf m) n 0 s).dst (16 * n)) i =
      cbc_chain (enc_of s.cx) m s.iv (i + 1) := by
  obtain ⟨_, _, _, h4⟩ := cbc_encrypt_loop_eq m s.iv n 0 s rfl
  apply ext16 _ _ (blk_length _ _) (enc_of_length _ _)
  intro t ht
  rw [blk_getD _ _ _ ht, bytes_getD _ _ _ (by omega)]
  have := h4 (16 * i + t)
  rw [if_pos (by omega)] at this
  have e1 : (16 * i + t) / 16 = i := by omega
  have e2 : (16 * i + t) % 16 = t := by omega
  rw [e1, e2] at this
  exact this

/-- CBC decryption undoes CBC encryption when the block function of the one
undoes that of the other. -/
theorem cbc_inverse (s1 s2 : SilcSt) (m : List Nat) (n : Nat) (hm : m.length = 16 * n)
    (hb : IsBytes m) (hiv : IsBytes s1.iv) (h2 : s2.iv = s1.iv)
    (hDE : ∀ x : List Nat, x.length = 16 → IsBytes x → dec_of s2.cx (enc_of s1.cx x) = x) :
    bytes (cbc_decrypt_loop (Src.buf (bytes (cbc_encrypt_loop (Src.buf m) n 0 s1).dst (16 * n)))
      n 0 s2).dst (16 * n) = m := by
  apply bytes_eq_of_blocks _ _ _ hm
  intro x hx
  obtain ⟨_, _, _, h4⟩ := cbc_decrypt_loop_eq
    (bytes (cbc_encrypt_loop (Src.buf m) n 0 s1).dst (16 * n)) n 0 s2
  have := h4 x
  rw [if_pos (by omega)] at this
  rw [show (cbc_decrypt_loop (Src.buf (bytes (cbc_encrypt_loop (Src.buf m) n 0 s1).dst (16 * n)))
      n 0 s2).dst x = _ from this]
  have hi : x / 16 < n := by omega
  have hprev : (if x / 16 = 0 then s2.iv
      else blk (bytes (cbc_encrypt_loop (Src.buf m) n 0 s1).dst (16 * n)) (x / 16 - 1)) =
      cbc_chain (enc_of s1.cx) m s1.iv (x / 16) := by
    by_cases h0 : x / 16 = 0
    · rw [if_pos h0, h0, h2]
      rfl
    · rw [if_neg h0, cbc_encrypt_blocks m n s1 _ (by omega)]
      have e : x / 16 - 1 + 1 = x / 16 := by omega
      rw [e]
  rw [hprev, cbc_encrypt_blocks m n s1 _ hi]
  show (xor_block (dec_of s2.cx (enc_of s1.cx
    (xor_block (cbc_chain (enc_of s1.cx) m s1.iv (x / 16)) (blk m (x / 16)))))
    (cbc_chain (enc_of s1.cx) m s1.iv (x / 16))).getD (x % 16) 0 = _
  rw [hDE _ (xor_block_length _ _)
    (xor_block_bytes _ _ (cbc_chain_bytes _ _ _ hiv _) (blk_bytes _ hb _)),
    xor_block_undo _ _ (blk_length _ _), blk_getD _ _ _ (by omega)]
  have e : 16 * (x / 16) + x % 16 = x := by omega
  rw [e]

/-- ECB decryption undoes ECB encryption when the block function of the one
undoes that of the other. -/
theorem ecb_inverse (s1 s2 : SilcSt) (m : List Nat) (n : Nat) (hm : m.length = 16 * n)
    (hb : IsBytes m)
    (hDE : ∀ x : List Nat, x.length = 16 → IsBytes x → dec_of s2.cx (enc_of s1.cx x) = x) :
    bytes (ecb_decrypt_loop (Src.buf (bytes (ecb_encrypt_loop (Src.buf m) n 0 s1).dst (16 * n)))
      n 0 s2).dst (16 * n) = m := by
  apply bytes_eq_of_blocks _ _ _ hm
  intro x hx
  obtain ⟨_, _, _, h4⟩ := ecb_decrypt_loop_eq
    (bytes (ecb_encrypt_loop (Src.buf m) n 0 s1).dst (16 * n)) n 0 s2
  obtain ⟨_, _, _, h5⟩ := ecb_encrypt_loop_eq m n 0 s1
  have := h4 x
  rw [if_pos (by omega)] at this
  rw [show (ecb_decrypt_loop (Src.buf (bytes (ecb_encrypt_loop (Src.buf m) n 0 s1).dst (16 * n)))
      n 0 s2).dst x = _ from this]
  have hblk : blk (bytes (ecb_encrypt_loop (Src.buf m) n 0 s1).dst (16 * n)) (x / 16) =
      enc_of s1.cx (blk m (x / 16)) := by
    apply ext16 _ _ (blk_length _ _) (enc_of_length _ _)
    intro t ht
    rw [blk_getD _ _ _ ht, bytes_getD _ _ _ (by omega)]
    have := h5 (16 * (x / 16) + t)
    rw [if_pos (by omega)] at this
    have e1 : (16 * (x / 16) + t) / 16 = x / 16 := by omega
    have e2 : (16 * (x / 16) + t) % 16 = t := by omega
    rw [e1, e2] at this
    exact this
  rw [hblk, hDE _ (blk_length _ _) (blk_bytes _ hb _), blk_getD _ _ _ (by omega)]
  have e : 16 * (x / 16) + x % 16 = x := by omega
  rw [e]

/-- The block functions of an instance keyed for encryption and one keyed for
decryption, in ECB or CBC mode, undo each other. -/
theorem keyed_block_inverse (mode : Nat)
    (hm : mode = SILC_CIPHER_MODE_ECB ∨ mode = SILC_CIPHER_MODE_CBC) (key : List Nat)
    (keylen : Nat) (hk : keylen = 16 ∨ keylen = 24 ∨ keylen = 32) (cx1 cx2 : aes_ctx)
    (iv1 iv2 b1 b2 : List Nat) (d1 d2 : Arr) (x : List Nat) (hl : x.length = 16)
    (hb : IsBytes x) :
    dec_of (keyed mode cx2 key keylen false iv2 b2 d2).cx
      (enc_of (keyed mode cx1 key keylen true iv1 b1 d1).cx x) = x := by
  have hk2 : KeyLenOk keylen := by
    rcases hk with h | h | h
    · exact Or.inl h
    · exact Or.inr (Or.inl h)
    · exact Or.inr (Or.inr (Or.inl h))
  have := aes_block_inverse key keylen hk2 cx1 cx2 x hl hb
  rcases hm with rfl | rfl
  · exact this
  · exact this

theorem len_blocks (m : List Nat) (h : m.length % 16 = 0) : m.length = 16 * (m.length / 16) := by
  omega

theorem keyed_iv (mode : Nat) (cx : aes_ctx) (key : List Nat) (keylen : Nat) (e : Bool)
    (iv b : List Nat) (d : Arr) : (keyed mode cx key keylen e iv b d).iv = iv := rfl

/-- C6. CBC round trip: for every key of 16, 24 or 32 bytes, every IV and every message `m`
(of bytes) whose length is a multiple of 16, `silc_aes_encrypt` in CBC mode on an instance
keyed with `encryption` TRUE returns TRUE, and `silc_aes_decrypt` in CBC mode on an instance
keyed with the same key and `encryption` FALSE, started from the same IV and applied to the
ciphertext, returns TRUE and gives back `m`. -/
theorem C6_cbc_round_trip (key : List Nat) (keylen : Nat)
    (hk : keylen = 16 ∨ keylen = 24 ∨ keylen = 32) (iv m : List Nat)
    (hlen : m.length % 16 = 0) (hb : IsBytes m) (hiv : IsBytes iv) (cx1 cx2 : aes_ctx)
    (b1 b2 : List Nat) (d1 d2 : Arr) :
    (silc_aes_encrypt SILC_CIPHER_MODE_CBC
        (keyed SILC_CIPHER_MODE_CBC cx1 key keylen true iv b1 d1) (Src.buf m) m.length).1 = true ∧
    (silc_aes_decrypt SILC_CIPHER_MODE_CBC
        (keyed SILC_CIPHER_MODE_CBC cx2 key keylen false iv b2 d2)
        (Src.buf (bytes (silc_aes_encrypt SILC_CIPHER_MODE_CBC
          (keyed SILC_CIPHER_MODE_CBC cx1 key keylen true iv b1 d1) (Src.buf m) m.length).2.dst
          m.length)) m.length).1 = true ∧
    bytes (silc_aes_decrypt SILC_CIPHER_MODE_CBC
        (keyed SILC_CIPHER_MODE_CBC cx2 key keylen false iv b2 d2)
        (Src.buf (bytes (silc_aes_encrypt SILC_CIPHER_MODE_CBC
          (keyed SILC_CIPHER_MODE_CBC cx1 key keylen true iv b1 d1) (Src.buf m) m.length).2.dst
          m.length)) m.length).2.dst m.length = m := by
  have hm := len_blocks m hlen
  generalize m.length / 16 = n at hm
  rw [hm, cbc_encrypt_call, cbc_decrypt_call]
  exact ⟨rfl, rfl, cbc_inverse _ _ m n hm hb hiv rfl
    (keyed_block_inverse _ (Or.inr rfl) key keylen hk cx1 cx2 iv iv b1 b2 d1 d2)⟩

theorem bytes32 : IsBytes (fips_plain ++ fips_plain) := by
  intro b hb
  rcases List.mem_append.mp hb with h | h <;> exact fips_plain_bytes b h

/-- Witness of C6: a 16-byte key and a message of two blocks. -/
theorem C6_cbc_round_trip_witness :
    ((16 : Nat) = 16 ∨ (16 : Nat) = 24 ∨ (16 : Nat) = 32) ∧
    (fips_plain ++ fips_plain).length % 16 = 0 ∧ IsBytes (fips_plain ++ fips_plain) ∧
    IsBytes fips_plain ∧
    bytes (silc_aes_decrypt SILC_CIPHER_MODE_CBC
        (keyed SILC_CIPHER_MODE_CBC ctx0 fips_key128 16 false fips_plain [] Arr.zero)
        (Src.buf (bytes (silc_aes_encrypt SILC_CIPHER_MODE_CBC
          (keyed SILC_CIPHER_MODE_CBC ctx0 fips_key128 16 true fips_plain [] Arr.zero)
          (Src.buf (fips_plain ++ fips_plain)) (fips_plain ++ fips_plain).length).2.dst
          (fips_plain ++ fips_plain).length)) (fips_plain ++ fips_plain).length).2.dst
        (fips_plain ++ fips_plain).length = fips_plain ++ fips_plain :=
  ⟨Or.inl rfl, rfl, bytes32, fips_plain_bytes,
    (C6_cbc_round_trip fips_key128 16 (Or.inl rfl) fips_plain (fips_plain ++ fips_plain) rfl
      bytes32 fips_plain_bytes ctx0 ctx0 [] [] Arr.zero Arr.zero).2.2⟩

/-- C9. ECB length validation fails on the code at length 17: `silc_aes_encrypt` and
`silc_aes_decrypt` in ECB mode return TRUE, and the encryption has written the ciphertext
of the first block (FIPS-197 C.1) over the zero bytes of the destination. -/
theorem C9_ecb_ragged_accepted :
    (silc_aes_encrypt SILC_CIPHER_MODE_ECB
      (keyed SILC_CIPHER_MODE_ECB ctx0 fips_key128 16 true [] [] Arr.zero)
      (Src.buf (fips_plain ++ [0])) 17).1 = true ∧
    bytes (silc_aes_encrypt SILC_CIPHER_MODE_ECB
      (keyed SILC_CIPHER_MODE_ECB ctx0 fips_key128 16 true [] [] Arr.zero)
      (Src.buf (fips_plain ++ [0])) 17).2.dst 17 = fips_cipher128 ++ [0] ∧
    (silc_aes_decrypt SILC_CIPHER_MODE_ECB
      (keyed SILC_CIPHER_MODE_ECB ctx0 fips_key128 16 false [] [] Arr.zero)
      (Src.buf (fips_cipher128 ++ [0])) 17).1 = true ∧
    bytes (silc_aes_decrypt SILC_CIPHER_MODE_ECB
      (keyed SILC_CIPHER_MODE_ECB ctx0 fips_key128 16 false [] [] Arr.zero)
      (Src.buf (fips_cipher128 ++ [0])) 17).2.dst 17 = fips_plain ++ [0] := by
  decide!

/-- C10. CBC length validation: for every length that is not a multiple of 16,
`silc_aes_encrypt` and `silc_aes_decrypt` in CBC mode return FALSE and leave the whole
state (destination, IV buffer, keystream block and context) as it was. -/
theorem C10_cbc_length_check (s : SilcSt) (src : Src) (len : Nat) (h : len % 16 ≠ 0) :
    silc_aes_encrypt SILC_CIPHER_MODE_CBC s src len = (false, s) ∧
    silc_aes_decrypt SILC_CIPHER_MODE_CBC s src len = (false, s) :=
  ⟨cbc_encrypt_ragged s src len h, cbc_decrypt_ragged s src len h⟩

/-- Witness of C10: seventeen bytes. -/
theorem C10_cbc_length_check_witness :
    (17 % 16 ≠ 0) ∧
    silc_aes_encrypt SILC_CIPHER_MODE_CBC
      (keyed SILC_CIPHER_MODE_CBC ctx0 fips_key128 16 true fips_plain [] Arr.zero)
      (Src.buf (fips_plain ++ [0])) 17 =
      (false, keyed SILC_CIPHER_MODE_CBC ctx0 fips_key128 16 true fips_plain [] Arr.zero) ∧
    silc_aes_decrypt SILC_CIPHER_MODE_CBC
      (keyed SILC_CIPHER_MODE_CBC ctx0 fips_key128 16 true fips_plain [] Arr.zero)
      (Src.buf (fips_plain ++ [0])) 17 =
      (false, keyed SILC_CIPHER_MODE_CBC ctx0 fips_key128 16 true fips_plain [] Arr.zero) :=
  ⟨by decide, C10_cbc_length_check _ (Src.buf (fips_plain ++ [0])) 17 (by decide)⟩

/-- C17, as stated, fails: with the FIPS-197 C.1 key in ECB mode, `silc_aes_decrypt` on
the instance keyed with `encryption` TRUE, applied to what `silc_aes_encrypt` made of the
FIPS-197 plaintext on the instance keyed with `encryption` FALSE, does not give the
plaintext back. -/
theorem C17_reversed_roles_fail :
    bytes (silc_aes_decrypt SILC_CIPHER_MODE_ECB
        (keyed SILC_CIPHER_MODE_ECB ctx0 fips_key128 16 true [] [] Arr.zero)
        (Src.buf (bytes (silc_aes_encrypt SILC_CIPHER_MODE_ECB
          (keyed SILC_CIPHER_MODE_ECB ctx0 fips_key128 16 false [] [] Arr.zero)
          (Src.buf fips_plain) 16).2.dst 16)) 16).2.dst 16 ≠ fips_plain := by
  decide!

/-- C17, amended. Key-schedule direction: in ECB and CBC mode, for every key of 16, 24 or 32
bytes and every block-aligned message `m` (of bytes), `silc_aes_decrypt` on an instance
keyed with `encryption` FALSE returns TRUE and recovers `m` from the ciphertext that
`silc_aes_encrypt` produced on an instance keyed with `encryption` TRUE and the same key
(and, for CBC, the same IV). -/
theorem C17_key_direction (mode : Nat)
    (hmode : mode = SILC_CIPHER_MODE_ECB ∨ mode = SILC_CIPHER_MODE_CBC) (key : List Nat)
    (keylen : Nat) (hk : keylen = 16 ∨ keylen = 24 ∨ keylen = 32) (iv m : List Nat)
    (hlen : m.length % 16 = 0) (hb : IsBytes m) (hiv : IsBytes iv) (cx1 cx2 : aes_ctx)
    (b1 b2 : List Nat) (d1 d2 : Arr) :
    (silc_aes_encrypt mode (keyed mode cx1 key keylen true iv b1 d1) (Src.buf m) m.length).1 =
      true ∧
    (silc_aes_decrypt mode (keyed mode cx2 key keylen false iv b2 d2)
        (Src.buf (bytes (silc_aes_encrypt mode (keyed mode cx1 key keylen true iv b1 d1)
          (Src.buf m) m.length).2.dst m.length)) m.length).1 = true ∧
    bytes (silc_aes_decrypt mode (keyed mode cx2 key keylen false iv b2 d2)
        (Src.buf (bytes (silc_aes_encrypt mode (keyed mode cx1 key keylen true iv b1 d1)
          (Src.buf m) m.length).2.dst m.length)) m.length).2.dst m.length = m := by
  have hm := len_blocks m hlen
  generalize m.length / 16 = n at hm
  have hDE := keyed_block_inverse mode hmode key keylen hk cx1 cx2 iv iv b1 b2 d1 d2
  rcases hmode with rfl | rfl
  · rw [ecb_encrypt_call, ecb_decrypt_call, hm]
    have e : 16 * n / 16 = n := by omega
    rw [e]
    exact ⟨rfl, rfl, ecb_inverse _ _ m n hm hb hDE⟩
  · rw [hm, cbc_encrypt_call, cbc_decrypt_call]
    exact ⟨rfl, rfl, cbc_inverse _ _ m n hm hb hiv rfl hDE⟩

/-- Witness of the amended C17: ECB mode, the FIPS-197 C.3 key, one block. -/
theorem C17_key_direction_witness :
    (SILC_CIPHER_MODE_ECB = SILC_CIPHER_MODE_ECB ∨ SILC_CIPHER_MODE_ECB = SILC_CIPHER_MODE_CBC) ∧
    ((32 : Nat) = 16 ∨ (32 : Nat) = 24 ∨ (32 : Nat) = 32) ∧ fips_plain.length % 16 = 0 ∧
    IsBytes fips_plain ∧
    bytes (silc_aes_decrypt SILC_CIPHER_MODE_ECB
        (keyed SILC_CIPHER_MODE_ECB ctx0 fips_key256 32 false fips_plain [] Arr.zero)
        (Src.buf (bytes (silc_aes_encrypt SILC_CIPHER_MODE_ECB
          (keyed SILC_CIPHER_MODE_ECB ctx0 fips_key256 32 true fips_plain [] Arr.zero)
          (Src.buf fips_plain) fips_plain.length).2.dst fips_plain.length))
        fips_plain.length).2.dst fips_plain.length = fips_plain :=
  ⟨Or.inl rfl, Or.inr (Or.inr rfl), rfl, fips_plain_bytes,
    (C17_key_direction SILC_CIPHER_MODE_ECB (Or.inl rfl) fips_key256 32 (Or.inr (Or.inr rfl))
      fips_plain fips_plain rfl fips_plain_bytes fips_plain_bytes ctx0 ctx0 [] [] Arr.zero
      Arr.zero).2.2⟩

/-- The plaintext blocks that the CBC loop of `silc_aes_decrypt` stored. -/
theorem cbc_decrypt_blocks (m : List Nat) (n : Nat) (s : SilcSt) (i : Nat) (hi : i < n) :
    blk (bytes (cbc_decrypt_loop (Src.buf m) n 0 s).dst (16 * n)) i =
      xor_block (aes_decrypt (blk m i) s.cx) (if i = 0 then s.iv else blk m (i - 1)) := by
  obtain ⟨_, _, _, h4⟩ := cbc_decrypt_loop_eq m n 0 s
  apply ext16 _ _ (blk_length _ _) (xor_block_length _ _)
  intro t ht
  rw [blk_getD _ _ _ ht, bytes_getD _ _ _ (by omega)]
  have := h4 (16 * i + t)
  rw [if_pos (by omega)] at this
  have e1 : (16 * i + t) / 16 = i := by omega
  have e2 : (16 * i + t) % 16 = t := by omega
  rw [e1, e2] at this
  exact this

/-- C19. CBC chaining: for every state (key and IV) and every message of `n ≥ 1` whole
blocks, `silc_aes_encrypt` in CBC mode returns TRUE, stores
`C_i = aes_encrypt (C_(i-1) XOR P_i)` with the IV buffer in the place of `C_(-1)`, and leaves
the last ciphertext block in the IV buffer; `silc_aes_decrypt` in CBC mode returns TRUE,
stores `P_i = aes_decrypt (C_i) XOR C_(i-1)` and leaves the last block of its input in the IV
buffer. -/
theorem C19_cbc_chaining (s : SilcSt) (m : List Nat) (n : Nat) (hn : 1 ≤ n)
    (hm : m.length = 16 * n) :
    ((silc_aes_encrypt SILC_CIPHER_MODE_CBC s (Src.buf m) m.length).1 = true ∧
      (∀ i, i < n →
        blk (bytes (silc_aes_encrypt SILC_CIPHER_MODE_CBC s (Src.buf m) m.length).2.dst
            m.length) i =
          aes_encrypt (xor_block
            (if i = 0 then s.iv
              else blk (bytes (silc_aes_encrypt SILC_CIPHER_MODE_CBC s (Src.buf m)
                m.length).2.dst m.length) (i - 1))
            (blk m i)) s.cx) ∧
      (silc_aes_encrypt SILC_CIPHER_MODE_CBC s (Src.buf m) m.length).2.iv =
        blk (bytes (silc_aes_encrypt SILC_CIPHER_MODE_CBC s (Src.buf m) m.length).2.dst
          m.length) (n - 1)) ∧
    ((silc_aes_decrypt SILC_CIPHER_MODE_CBC s (Src.buf m) m.length).1 = true ∧
      (∀ i, i < n →
        blk (bytes (silc_aes_decrypt SILC_CIPHER_MODE_CBC s (Src.buf m) m.length).2.dst
            m.length) i =
          xor_block (aes_decrypt (blk m i) s.cx) (if i = 0 then s.iv else blk m (i - 1))) ∧
      (silc_aes_decrypt SILC_CIPHER_MODE_CBC s (Src.buf m) m.length).2.iv = blk m (n - 1)) := by
  rw [hm, cbc_encrypt_call, cbc_decrypt_call]
  obtain ⟨_, e2, _, _⟩ := cbc_encrypt_loop_eq m s.iv n 0 s rfl
  obtain ⟨_, d2, _, _⟩ := cbc_decrypt_loop_eq m n 0 s
  refine ⟨⟨rfl, fun i hi => ?_, ?_⟩, rfl, fun i hi => cbc_decrypt_blocks m n s i hi, ?_⟩
  · rw [cbc_encrypt_blocks m n s i hi]
    by_cases h0 : i = 0
    · rw [if_pos h0, h0]
      rfl
    · rw [if_neg h0, cbc_encrypt_blocks m n s _ (by omega)]
      have e : i - 1 + 1 = i := by omega
      rw [e]
      rfl
  · rw [cbc_encrypt_blocks m n s _ (by omega)]
    have e : n - 1 + 1 = 0 + n := by omega
    rw [e]
    exact e2
  · have e : 0 + n - 1 = n - 1 := by omega
    rw [if_neg (show ¬n = 0 by omega), e] at d2
    exact d2

/-- Witness of C19: a message of two blocks. -/
theorem C19_cbc_chaining_witness :
    (1 ≤ 2) ∧ (fips_plain ++ fips_plain).length = 16 * 2 ∧
    (silc_aes_encrypt SILC_CIPHER_MODE_CBC
        (keyed SILC_CIPHER_MODE_CBC ctx0 fips_key128 16 true fips_plain [] Arr.zero)
        (Src.buf (fips_plain ++ fips_plain)) (fips_plain ++ fips_plain).length).2.iv =
      blk (bytes (silc_aes_encrypt SILC_CIPHER_MODE_CBC
        (keyed SILC_CIPHER_MODE_CBC ctx0 fips_key128 16 true fips_plain [] Arr.zero)
        (Src.buf (fips_plain ++ fips_plain)) (fips_plain ++ fips_plain).length).2.dst
        (fips_plain ++ fips_plain).length) (2 - 1) :=
  ⟨by decide, rfl,
    (C19_cbc_chaining (keyed SILC_CIPHER_MODE_CBC ctx0 fips_key128 16 true fips_plain [] Arr.zero)
      (fips_plain ++ fips_plain) 2 (by decide) rfl).1.2.2⟩

/-! ## Key setting and unkeyed instances -/

/-- When `silc_aes_encrypt` returns TRUE: the mode and, for CBC, the length decide;
the context is not looked at. -/
theorem encrypt_result (mode : Nat) (s : SilcSt) (src : Src) (len : Nat) :
    (silc_aes_encrypt mode s src len).1 = true ↔
      (mode = SILC_CIPHER_MODE_CTR ∨ mode = SILC_CIPHER_MODE_ECB ∨ mode = SILC_CIPHER_MODE_CFB ∨
        (mode = SILC_CIPHER_MODE_CBC ∧ len % 16 = 0)) := by
  unfold silc_aes_encrypt
  rw [and15]
  simp only [SILC_CIPHER_MODE_CTR, SILC_CIPHER_MODE_ECB, SILC_CIPHER_MODE_CFB,
    SILC_CIPHER_MODE_CBC]
  split_ifs <;> simp <;> omega

/-- When `silc_aes_decrypt` returns TRUE. -/
theorem decrypt_result (mode : Nat) (s : SilcSt) (src : Src) (len : Nat) :
    (silc_aes_decrypt mode s src len).1 = true ↔
      (mode = SILC_CIPHER_MODE_CTR ∨ mode = SILC_CIPHER_MODE_ECB ∨ mode = SILC_CIPHER_MODE_CFB ∨
        (mode = SILC_CIPHER_MODE_CBC ∧ len % 16 = 0)) := by
  by_cases h : mode = SILC_CIPHER_MODE_CTR
  · subst h
    exact encrypt_result _ s src len
  · unfold silc_aes_decrypt
    rw [and15, if_neg h]
    simp only [SILC_CIPHER_MODE_CTR, SILC_CIPHER_MODE_ECB, SILC_CIPHER_MODE_CFB,
      SILC_CIPHER_MODE_CBC] at h ⊢
    split_ifs <;> simp <;> omega

/-- C12, as stated, fails: in CBC mode `silc_aes_set_key` returns TRUE for the key length
40, which is no supported size in bytes or in bits. -/
theorem C12_bad_key_length_accepted :
    (silc_aes_set_key SILC_CIPHER_MODE_CBC ctx0 fips_key128 40 true).1 = true := by
  decide

/-- C12, amended. The result of `silc_aes_set_key` does not depend on the key length: for
every key and key length it is TRUE in the modes CTR, CFB, CBC and ECB and FALSE in every
other mode. -/
theorem C12_set_key_result (mode : Nat) (cx : aes_ctx) (key : List Nat) (keylen : Nat)
    (encryption : Bool) :
    (silc_aes_set_key mode cx key keylen encryption).1 = true ↔
      (mode = SILC_CIPHER_MODE_CTR ∨ mode = SILC_CIPHER_MODE_CFB ∨ mode = SILC_CIPHER_MODE_CBC ∨
        mode = SILC_CIPHER_MODE_ECB) := by
  unfold silc_aes_set_key
  by_cases h1 : mode = SILC_CIPHER_MODE_CTR ∨ mode = SILC_CIPHER_MODE_CFB
  · rw [if_pos h1]
    refine ⟨fun _ => ?_, fun _ => rfl⟩
    rcases h1 with h | h
    · exact Or.inl h
    · exact Or.inr (Or.inl h)
  · rw [if_neg h1]
    by_cases h2 : mode = SILC_CIPHER_MODE_CBC ∨ mode = SILC_CIPHER_MODE_ECB
    · rw [if_pos h2]
      exact ⟨fun _ => Or.inr (Or.inr h2), fun _ => rfl⟩
    · rw [if_neg h2]
      refine ⟨fun h => absurd h Bool.false_ne_true, fun h => ?_⟩
      rcases h with h | h | h | h
      · exact absurd (Or.inl h) h1
      · exact absurd (Or.inr h) h1
      · exact absurd (Or.inl h) h2
      · exact absurd (Or.inr h) h2

/-- C13, as stated, fails: on the instance that `silc_aes_init` prepares, with no key set,
`silc_aes_encrypt` in ECB mode returns TRUE; with the zeroed schedule and no rounds the
sixteen bytes it writes are the input itself. -/
theorem C13_unkeyed_accepted :
    (silc_aes_init true).map (fun cx =>
      ((silc_aes_encrypt SILC_CIPHER_MODE_ECB ⟨cx, [], [], Arr.zero⟩ (Src.buf fips_plain) 16).1,
        bytes (silc_aes_encrypt SILC_CIPHER_MODE_ECB ⟨cx, [], [], Arr.zero⟩
          (Src.buf fips_plain) 16).2.dst 16)) = some (true, fips_plain) := by
  decide!

/-- C13, amended. On the instance that `silc_aes_init` prepares, with no key set,
`silc_aes_encrypt` and `silc_aes_decrypt` are not rejected on the input that a keyed
instance takes: for every length in CTR and CFB mode and every length that is a multiple
of 16 in ECB and CBC mode they return TRUE, and they return FALSE for another mode or a
CBC length that is not a multiple of 16.  Nothing is said of an ECB length that is not a
multiple of 16 (the hypothesis `hlen` leaves it out). -/
theorem C13_unkeyed_result (alloc_ok : Bool) (cx : aes_ctx) (h : silc_aes_init alloc_ok = some cx)
    (iv block : List Nat) (dst : Arr) (mode : Nat) (src : Src) (len : Nat)
    (hlen : mode = SILC_CIPHER_MODE_ECB → len % 16 = 0) :
    cx = ⟨Arr.zero, 0, 16⟩ ∧
    ((silc_aes_encrypt mode ⟨cx, iv, block, dst⟩ src len).1 = true ↔
      (mode = SILC_CIPHER_MODE_CTR ∨ mode = SILC_CIPHER_MODE_CFB ∨
        ((mode = SILC_CIPHER_MODE_ECB ∨ mode = SILC_CIPHER_MODE_CBC) ∧ len % 16 = 0))) ∧
    ((silc_aes_decrypt mode ⟨cx, iv, block, dst⟩ src len).1 = true ↔
      (mode = SILC_CIPHER_MODE_CTR ∨ mode = SILC_CIPHER_MODE_CFB ∨
        ((mode = SILC_CIPHER_MODE_ECB ∨ mode = SILC_CIPHER_MODE_CBC) ∧ len % 16 = 0))) := by
  have key : (mode = SILC_CIPHER_MODE_CTR ∨ mode = SILC_CIPHER_MODE_ECB ∨
      mode = SILC_CIPHER_MODE_CFB ∨ (mode = SILC_CIPHER_MODE_CBC ∧ len % 16 = 0)) ↔
      (mode = SILC_CIPHER_MODE_CTR ∨ mode = SILC_CIPHER_MODE_CFB ∨
        ((mode = SILC_CIPHER_MODE_ECB ∨ mode = SILC_CIPHER_MODE_CBC) ∧ len % 16 = 0)) := by
    constructor
    · rintro (a | b | c | ⟨d, p⟩)
      · exact Or.inl a
      · exact Or.inr (Or.inr ⟨Or.inl b, hlen b⟩)
      · exact Or.inr (Or.inl c)
      · exact Or.inr (Or.inr ⟨Or.inr d, p⟩)
    · rintro (a | c | ⟨b | d, p⟩)
      · exact Or.inl a
      · exact Or.inr (Or.inr (Or.inl c))
      · exact Or.inr (Or.inl b)
      · exact Or.inr (Or.inr (Or.inr ⟨d, p⟩))
  refine ⟨?_, (encrypt_result _ _ _ _).trans key, (decrypt_result _ _ _ _).trans key⟩
  cases alloc_ok with
  | false => exact absurd h (by simp [silc_aes_init])
  | true => exact (Option.some.inj h).symm

/-- Witness of the amended C13: ECB mode, two whole blocks, encryption and decryption. -/
theorem C13_unkeyed_result_witness :
    silc_aes_init true = some ⟨Arr.zero, 0, 16⟩ ∧
    (SILC_CIPHER_MODE_ECB = SILC_CIPHER_MODE_ECB → 32 % 16 = 0) ∧
    (silc_aes_encrypt SILC_CIPHER_MODE_ECB ⟨⟨Arr.zero, 0, 16⟩, fips_plain, [], Arr.zero⟩
      (Src.buf (fips_plain ++ fips_plain)) 32).1 = true ∧
    (silc_aes_decrypt SILC_CIPHER_MODE_ECB ⟨⟨Arr.zero, 0, 16⟩, fips_plain, [], Arr.zero⟩
      (Src.buf (fips_plain ++ fips_plain)) 32).1 = true :=
  ⟨rfl, fun _ => rfl,
    (C13_unkeyed_result true ⟨Arr.zero, 0, 16⟩ rfl fips_plain [] Arr.zero SILC_CIPHER_MODE_ECB
      (Src.buf (fips_plain ++ fips_plain)) 32 (fun _ => rfl)).2.1.mpr
      (Or.inr (Or.inr ⟨Or.inl rfl, rfl⟩)),
    (C13_unkeyed_result true ⟨Arr.zero, 0, 16⟩ rfl fips_plain [] Arr.zero SILC_CIPHER_MODE_ECB
      (Src.buf (fips_plain ++ fips_plain)) 32 (fun _ => rfl)).2.2.mpr
      (Or.inr (Or.inr ⟨Or.inl rfl, rfl⟩))⟩

/-- C14. Bad key length leaves the state unmodified: for every key length outside
16, 24, 32, 128, 192 and 256, `aes_encrypt_key` and `aes_decrypt_key` return the context as
it was (key schedule, round-count byte and cursor), and so does `silc_aes_set_key` in every
mode. -/
theorem C14_bad_key_length_frame (key : List Nat) (key_len : Nat)
    (h : ¬(key_len = 16 ∨ key_len = 24 ∨ key_len = 32 ∨ key_len = 128 ∨ key_len = 192 ∨
      key_len = 256)) (cx : aes_ctx) (mode : Nat) (encryption : Bool) :
    aes_encrypt_key key key_len cx = cx ∧ aes_decrypt_key key key_len cx = cx ∧
    (silc_aes_set_key mode cx key key_len encryption).2 = cx := by
  have e : aes_encrypt_key key key_len cx = cx := by
    unfold aes_encrypt_key
    rw [if_neg (by omega), if_neg (by omega), if_neg (by omega)]
  have d : aes_decrypt_key key key_len cx = cx := by
    unfold aes_decrypt_key
    rw [if_neg (by omega), if_neg (by omega), if_neg (by omega)]
  refine ⟨e, d, ?_⟩
  unfold silc_aes_set_key
  rw [e, d]
  split_ifs <;> rfl

/-- Witness of C14: the key length 40. -/
theorem C14_bad_key_length_frame_witness :
    ¬((40 : Nat) = 16 ∨ (40 : Nat) = 24 ∨ (40 : Nat) = 32 ∨ (40 : Nat) = 128 ∨ (40 : Nat) = 192 ∨
      (40 : Nat) = 256) ∧
    aes_encrypt_key fips_key256 40 ctx0 = ctx0 ∧ aes_decrypt_key fips_key256 40 ctx0 = ctx0 ∧
    (silc_aes_set_key SILC_CIPHER_MODE_CBC ctx0 fips_key256 40 false).2 = ctx0 :=
  ⟨by decide, C14_bad_key_length_frame fips_key256 40 (by decide) ctx0 SILC_CIPHER_MODE_CBC false⟩

/-! ## The CTR keystream -/

theorem be_val_snoc (l : List Nat) (x : Nat) : be_val (l ++ [x]) = be_val l * 256 + x := by
  simp [be_val, List.foldl_append]

theorem isBytes_snoc (l : List Nat) (x : Nat) (h : IsBytes (l ++ [x])) : IsBytes l ∧ x < 256 :=
  ⟨fun b hb => h b (List.mem_append_left _ hb), h x (by simp)⟩

theorem isBytes_snoc_mk (l : List Nat) (x : Nat) (h : IsBytes l) (hx : x < 256) :
    IsBytes (l ++ [x]) := by
  intro b hb
  rcases List.mem_append.mp hb with h1 | h1
  · exact h b h1
  · rw [List.mem_singleton.mp h1]
    exact hx

theorem be_val_lt (l : List Nat) : IsBytes l → be_val l < 256 ^ l.length := by
  induction l using List.reverseRecOn with
  | nil => intro _; simp [be_val]
  | append_singleton l x ih =>
    intro h
    obtain ⟨h1, h2⟩ := isBytes_snoc l x h
    have := ih h1
    rw [be_val_snoc, List.length_append, List.length_singleton, pow_succ]
    omega

/-- Writing the value of a byte string back as bytes gives the string. -/
theorem be_bytes_be_val (l : List Nat) : IsBytes l → be_bytes l.length (be_val l) = l := by
  induction l using List.reverseRecOn with
  | nil => intro _; rfl
  | append_singleton l x ih =>
    intro h
    obtain ⟨h1, h2⟩ := isBytes_snoc l x h
    rw [be_val_snoc, List.length_append, List.length_singleton, be_bytes]
    have e1 : (be_val l * 256 + x) / 256 = be_val l := by omega
    have e2 : (be_val l * 256 + x) % 256 = x := by omega
    rw [e1, e2, ih h1]

theorem set_mid (pre suf : List Nat) (x b : Nat) :
    (pre ++ x :: suf).set pre.length b = pre ++ b :: suf := by
  induction pre with
  | nil => rfl
  | cons a pre ih => simp [ih]

theorem getD_mid (pre suf : List Nat) (x : Nat) : (pre ++ x :: suf).getD pre.length 0 = x := by
  rw [List.getD_eq_getElem?_getD, List.getElem?_append_right (Nat.le_refl _)]
  simp

/-- The counter increment of `SILC_CTR_MSB_128_8` on the first `pre.length` bytes: they are
replaced by the bytes of their MSB-first value plus one. -/
theorem ctr_inc_carry (pre : List Nat) :
    ∀ suf : List Nat, IsBytes pre →
      ∃ p2 : List Nat, ctr_inc (pre ++ suf) pre.length = p2 ++ suf ∧ p2.length = pre.length ∧
        IsBytes p2 ∧ be_val p2 = (be_val pre + 1) % 256 ^ pre.length := by
  induction pre using List.reverseRecOn with
  | nil =>
    intro suf _
    exact ⟨[], rfl, rfl, fun b hb => absurd hb (List.not_mem_nil b), by simp [be_val]⟩
  | append_singleton p x ih =>
    intro suf h
    obtain ⟨h1, h2⟩ := isBytes_snoc p x h
    have hlt := be_val_lt p h1
    rw [List.length_append, List.length_singleton, List.append_assoc, List.singleton_append,
      ctr_inc, getD_mid, set_mid, be_val_snoc, pow_succ]
    by_cases hx : (x + 1) % 256 ≠ 0
    · refine ⟨p ++ [(x + 1) % 256], ?_, ?_, ?_, ?_⟩
      · simp only [hx, ne_eq, not_false_eq_true, if_true, List.append_assoc, List.singleton_append]
      · simp
      · exact isBytes_snoc_mk _ _ h1 (Nat.mod_lt _ (by decide))
      · rw [be_val_snoc, Nat.mod_eq_of_lt (a := be_val p * 256 + x + 1) (by omega)]
        omega
    · have hx0 : (x + 1) % 256 = 0 := by omega
      obtain ⟨p2, e1, e2, e3, e4⟩ := ih (0 :: suf) h1
      refine ⟨p2 ++ [0], ?_, ?_, ?_, ?_⟩
      · simp only [hx0, ne_eq, not_true_eq_false, if_false, List.append_assoc,
          List.singleton_append]
        exact e1
      · simp [e2]
      · exact isBytes_snoc_mk _ _ e3 (by decide)
      · rw [be_val_snoc, e4]
        have e5 : be_val p * 256 + x + 1 = (be_val p + 1) * 256 := by omega
        rw [e5, Nat.mul_mod_mul_right]
        omega

/-- The counter increment on a 16-byte counter adds one to its MSB-first value,
modulo `2 ^ 128`. -/
theorem ctr_inc_val (iv : List Nat) (hl : iv.length = 16) (hb : IsBytes iv) :
    (ctr_inc iv 16).length = 16 ∧ IsBytes (ctr_inc iv 16) ∧
      be_val (ctr_inc iv 16) = (be_val iv + 1) % 2 ^ 128 := by
  obtain ⟨p2, e1, e2, e3, e4⟩ := ctr_inc_carry iv [] hb
  rw [List.append_nil, List.append_nil, hl] at e1
  rw [hl] at e2 e4
  rw [e1]
  exact ⟨e2, e3, e4⟩

/-- The counter after `k` increments. -/
theorem ctr_iterate (iv : List Nat) (hl : iv.length = 16) (hb : IsBytes iv) (k : Nat) :
    ((fun c => ctr_inc c 16)^[k] iv).length = 16 ∧ IsBytes ((fun c => ctr_inc c 16)^[k] iv) ∧
      be_val ((fun c => ctr_inc c 16)^[k] iv) = (be_val iv + k) % 2 ^ 128 := by
  induction k with
  | zero =>
    refine ⟨hl, hb, ?_⟩
    have := be_val_lt iv hb
    rw [hl] at this
    exact (Nat.mod_eq_of_lt this).symm
  | succ k ih =>
    obtain ⟨h1, h2, h3⟩ := ih
    rw [Function.iterate_succ_apply']
    obtain ⟨g1, g2, g3⟩ := ctr_inc_val _ h1 h2
    refine ⟨g1, g2, ?_⟩
    rw [g3, h3, Nat.add_mod, Nat.mod_mod, ← Nat.add_mod]
    rfl

theorem ctr_iterate_bytes (iv : List Nat) (hl : iv.length = 16) (hb : IsBytes iv) (k : Nat) :
    (fun c => ctr_inc c 16)^[k] iv = be_bytes 16 ((be_val iv + k) % 2 ^ 128) := by
  obtain ⟨h1, h2, h3⟩ := ctr_iterate iv hl hb k
  have := be_bytes_be_val _ h2
  rw [h1, h3] at this
  exact this.symm

theorem ctr_byte_new (E : List Nat → List Nat) (c : Core) (b : Nat) (h : c.pad = 16) :
    ctr_byte E c b =
      (b ^^^ (E (ctr_inc c.iv 16)).getD 0 0, ⟨ctr_inc c.iv 16, E (ctr_inc c.iv 16), 1⟩) := by
  simp [ctr_byte, h]

theorem ctr_byte_old (E : List Nat → List Nat) (c : Core) (b : Nat) (h : c.pad ≠ 16) :
    ctr_byte E c b = (b ^^^ c.block.getD c.pad 0, ⟨c.iv, c.block, (c.pad + 1) % 256⟩) := by
  simp [ctr_byte, h]

theorem stream_cons (f : Core → Nat → Nat × Core) (c : Core) (b : Nat) (bs : List Nat) :
    (stream f c (b :: bs)).1 = (f c b).1 :: (stream f (f c b).2 bs).1 := rfl

/-- Output byte `j + i` of a CTR stream that has produced `j` bytes since the counter was
`iv0`: the source byte XOR byte `(j + i) % 16` of the encryption of the counter after
`(j + i) / 16 + 1` increments. -/
theorem ctr_stream_byte (E : List Nat → List Nat) (iv0 : List Nat) (m : List Nat) :
    ∀ (c : Core) (j : Nat),
      (c.pad = 16 → j % 16 = 0 ∧ c.iv = (fun x => ctr_inc x 16)^[j / 16] iv0) →
      (c.pad ≠ 16 → c.pad = j % 16 ∧ c.iv = (fun x => ctr_inc x 16)^[j / 16 + 1] iv0 ∧
        c.block = E c.iv) →
      ∀ i, i < m.length →
        (stream (ctr_byte E) c m).1.getD i 0 =
          m.getD i 0 ^^^ (E ((fun x => ctr_inc x 16)^[(j + i) / 16 + 1] iv0)).getD ((j + i) % 16) 0 := by
  induction m with
  | nil => intro c j _ _ i hi; exact absurd hi (Nat.not_lt_zero _)
  | cons b bs ih =>
    intro c j h1 h2 i hi
    rw [stream_cons]
    by_cases hp : c.pad = 16
    · obtain ⟨g1, g2⟩ := h1 hp
      have hnext : ctr_inc c.iv 16 = (fun x => ctr_inc x 16)^[j / 16 + 1] iv0 := by
        rw [Function.iterate_succ_apply', g2]
      rw [ctr_byte_new E c b hp, hnext]
      cases i with
      | zero =>
        rw [List.getD_cons_zero, List.getD_cons_zero]
        simp only [Nat.add_zero, g1]
      | succ i =>
        have e1 : (j + 1) / 16 = j / 16 := by omega
        have := ih ⟨(fun x => ctr_inc x 16)^[j / 16 + 1] iv0,
            E ((fun x => ctr_inc x 16)^[j / 16 + 1] iv0), 1⟩ (j + 1)
          (fun h => absurd (show (1 : Nat) = 16 from h) (by decide))
          (fun _ => ⟨by show 1 = (j + 1) % 16; omega, by rw [e1], rfl⟩)
          i (Nat.lt_of_succ_lt_succ hi)
        have e : j + 1 + i = j + (i + 1) := by omega
        rw [e] at this
        rw [List.getD_cons_succ, List.getD_cons_succ]
        exact this
    · obtain ⟨g1, g2, g3⟩ := h2 hp
      have hlt : c.pad < 16 := by omega
      rw [ctr_byte_old E c b hp]
      cases i with
      | zero =>
        rw [List.getD_cons_zero, List.getD_cons_zero, g3, g2, g1]
        simp only [Nat.add_zero]
      | succ i =>
        have := ih ⟨c.iv, c.block, (c.pad + 1) % 256⟩ (j + 1)
          (fun h => by
            have h3 : c.pad = 15 := by
              have h4 : (c.pad + 1) % 256 = 16 := h
              omega
            have e : (j + 1) / 16 = j / 16 + 1 := by omega
            rw [e]
            exact ⟨by omega, g2⟩)
          (fun h => by
            have h4 : (c.pad + 1) % 256 ≠ 16 := h
            have e : (j + 1) / 16 = j / 16 := by omega
            rw [e]
            exact ⟨by show (c.pad + 1) % 256 = (j + 1) % 16; omega, g2, g3⟩)
          i (Nat.lt_of_succ_lt_succ hi)
        have e : j + 1 + i = j + (i + 1) := by omega
        rw [e] at this
        rw [List.getD_cons_succ, List.getD_cons_succ]
        exact this

/-- C18. CTR keystream: on an instance whose IV buffer holds the 16-byte counter `iv` and
that was freshly reset by `silc_aes_set_iv`, for every message `m` and every `j` below its
length, output byte `j` of `silc_aes_encrypt` in CTR mode is `m[j]` XOR byte `j % 16` of
`aes_encrypt` of the counter block with MSB-first value
`(iv + 1 + j / 16) mod 2 ^ 128`: the counter is incremented before the first block is
encrypted. -/
theorem C18_ctr_keystream (s0 : SilcSt) (iv : List Nat) (ivarg : Option (List Nat))
    (hl : iv.length = 16) (hb : IsBytes iv) (m : List Nat) (j : Nat) (hj : j < m.length) :
    (bytes (silc_aes_encrypt SILC_CIPHER_MODE_CTR (reset_iv SILC_CIPHER_MODE_CTR s0 iv ivarg)
        (Src.buf m) m.length).2.dst m.length).getD j 0 =
      m.getD j 0 ^^^
        (aes_encrypt (be_bytes 16 ((be_val iv + 1 + j / 16) % 2 ^ 128)) s0.cx).getD (j % 16) 0 := by
  rw [ctr_encrypt_eq, bytes_uncore _ _ _ _ _ (stream_length _ _ _)]
  have := ctr_stream_byte (enc_of s0.cx) iv m ⟨iv, s0.block, 16⟩ 0
    (fun _ => ⟨rfl, rfl⟩) (fun h => absurd rfl h) j hj
  rw [Nat.zero_add, ctr_iterate_bytes iv hl hb] at this
  have e : be_val iv + (j / 16 + 1) = be_val iv + 1 + j / 16 := by omega
  rw [e] at this
  exact this

/-- Witness of C18: the counter 00112233445566778899aabbccddeeff, byte 17 of a message of
eighteen bytes. -/
theorem C18_ctr_keystream_witness :
    fips_plain.length = 16 ∧ IsBytes fips_plain ∧ 17 < (fips_plain ++ [1, 2]).length ∧
    (bytes (silc_aes_encrypt SILC_CIPHER_MODE_CTR
        (reset_iv SILC_CIPHER_MODE_CTR
          (keyed SILC_CIPHER_MODE_CTR ctx0 fips_key128 16 true [] [] Arr.zero) fips_plain none)
        (Src.buf (fips_plain ++ [1, 2])) (fips_plain ++ [1, 2]).length).2.dst
        (fips_plain ++ [1, 2]).length).getD 17 0 =
      (fips_plain ++ [1, 2]).getD 17 0 ^^^
        (aes_encrypt (be_bytes 16 ((be_val fips_plain + 1 + 17 / 16) % 2 ^ 128))
          (keyed SILC_CIPHER_MODE_CTR ctx0 fips_key128 16 true [] [] Arr.zero).cx).getD
          (17 % 16) 0 :=
  ⟨rfl, fips_plain_bytes, by decide,
    C18_ctr_keystream (keyed SILC_CIPHER_MODE_CTR ctx0 fips_key128 16 true [] [] Arr.zero)
      fips_plain none rfl fips_plain_bytes (fips_plain ++ [1, 2]) 17 (by decide)⟩

/-! ## The CFB feedback -/

theorem cfb_enc_new (E : List Nat → List Nat) (c : Core) (b : Nat) (h : c.pad = 16) :
    cfb_enc_byte E c b =
      (b ^^^ (E c.iv).getD 0 0, ⟨(E c.iv).set 0 (b ^^^ (E c.iv).getD 0 0), c.block, 1⟩) := by
  simp [cfb_enc_byte, h]

theorem cfb_enc_old (E : List Nat → List Nat) (c : Core) (b : Nat) (h : c.pad ≠ 16) :
    cfb_enc_byte E c b =
      (b ^^^ c.iv.getD c.pad 0, ⟨c.iv.set c.pad (b ^^^ c.iv.getD c.pad 0), c.block,
        (c.pad + 1) % 256⟩) := by
  simp [cfb_enc_byte, h]

theorem getD_set (l : List Nat) (i v t : Nat) :
    (l.set i v).getD t 0 = if t = i ∧ i < l.length then v else l.getD t 0 := by
  rw [List.getD_eq_getElem?_getD, List.getD_eq_getElem?_getD, List.getElem?_set]
  by_cases h : i = t
  · subst h
    by_cases h2 : i < l.length
    · simp [h2]
    · simp [h2]
      rw [List.getElem?_eq_none (by omega)]
      rfl
  · have h3 : ¬t = i := fun e => h e.symm
    simp [h, h3]

theorem getD_append_left (a b : List Nat) (x : Nat) (h : x < a.length) :
    (a ++ b).getD x 0 = a.getD x 0 := by
  rw [List.getD_eq_getElem?_getD, List.getD_eq_getElem?_getD, List.getElem?_append_left h]

/-- A block that lies inside `pre` is the same block of every extension of `pre`. -/
theorem blk_append (pre more : List Nat) (i : Nat) (h : 16 * (i + 1) ≤ pre.length) :
    blk (pre ++ more) i = blk pre i := by
  apply map16_congr
  intro t ht
  exact getD_append_left _ _ _ (by omega)

/-- The feedback register for block `b`: the IV for the first block, the ciphertext block
before it otherwise. -/
theorem fb_append (iv0 pre more : List Nat) (b : Nat) (h : 16 * b ≤ pre.length) :
    (if b = 0 then iv0 else blk (pre ++ more) (b - 1)) =
      (if b = 0 then iv0 else blk pre (b - 1)) := by
  by_cases h0 : b = 0
  · rw [if_pos h0, if_pos h0]
  · rw [if_neg h0, if_neg h0, blk_append _ _ _ (by omega)]

theorem cfb_feedback_append (iv0 pre more : List Nat) (b : Nat) (h : 16 * b ≤ pre.length) :
    cfb_feedback iv0 (pre ++ more) b = cfb_feedback iv0 pre b :=
  fb_append iv0 pre more b h

theorem getD_snoc_last (pre : List Nat) (o : Nat) : (pre ++ [o]).getD pre.length 0 = o :=
  getD_mid pre [] o

/-- One byte of CFB encryption: the output byte, and the invariant afterwards. -/
theorem cfb_enc_step (E : List Nat → List Nat) (hE : ∀ x, (E x).length = 16) (iv0 pre : List Nat)
    (c : Core) (b : Nat) (h : CfbInv E iv0 pre c) :
    (cfb_enc_byte E c b).1 =
        b ^^^ (E (cfb_feedback iv0 pre (pre.length / 16))).getD (pre.length % 16) 0 ∧
      CfbInv E iv0 (pre ++ [(cfb_enc_byte E c b).1]) (cfb_enc_byte E c b).2 := by
  obtain ⟨h1, h2⟩ := h
  by_cases hp : c.pad = 16
  · obtain ⟨g1, g2⟩ := h1 hp
    rw [cfb_enc_new E c b hp, g2]
    refine ⟨by rw [g1], fun h => absurd (show (1 : Nat) = 16 from h) (by decide), fun _ => ?_⟩
    have e1 : (pre ++ [b ^^^ (E (cfb_feedback iv0 pre (pre.length / 16))).getD 0 0]).length =
        pre.length + 1 := by simp
    have e2 : (pre.length + 1) / 16 = pre.length / 16 := by omega
    have e3 : 16 * (pre.length / 16) = pre.length := by omega
    rw [e1, e2, cfb_feedback_append _ _ _ _ (by omega)]
    refine ⟨by show 1 = (pre.length + 1) % 16; omega, by rw [List.length_set]; exact hE _, ?_, ?_⟩
    · intro t ht
      have ht0 : t = 0 := by
        have : t < 1 := ht
        omega
      rw [ht0, getD_set, if_pos ⟨rfl, by rw [hE]; decide⟩, Nat.add_zero, e3, getD_snoc_last]
    · intro t ht1 ht2
      have : 1 ≤ t := ht1
      rw [getD_set, if_neg (by omega)]
  · obtain ⟨g1, g2, g3, g4⟩ := h2 hp
    have hlt : c.pad < 16 := by omega
    rw [cfb_enc_old E c b hp]
    refine ⟨by rw [g4 c.pad (Nat.le_refl _) hlt, g1], ?_, ?_⟩
    · intro h
      have h3 : c.pad = 15 := by
        have h4 : (c.pad + 1) % 256 = 16 := h
        omega
      have e1 : (pre ++ [b ^^^ c.iv.getD c.pad 0]).length = pre.length + 1 := by simp
      rw [e1]
      refine ⟨by omega, ?_⟩
      have e2 : (pre.length + 1) / 16 = pre.length / 16 + 1 := by omega
      rw [e2]
      show c.iv.set c.pad (b ^^^ c.iv.getD c.pad 0) = blk _ (pre.length / 16 + 1 - 1)
      rw [Nat.add_sub_cancel]
      apply ext16 _ _ (by rw [List.length_set]; exact g2) (blk_length _ _)
      intro t ht
      rw [getD_set, blk_getD _ _ _ ht]
      by_cases hc : t = c.pad
      · rw [if_pos ⟨hc, by omega⟩]
        have e3 : 16 * (pre.length / 16) + t = pre.length := by omega
        rw [e3, getD_snoc_last]
      · rw [if_neg (fun hh => hc hh.1), g3 t (by omega), getD_append_left _ _ _ (by omega)]
    · intro h
      have h4 : (c.pad + 1) % 256 ≠ 16 := h
      have e1 : (pre ++ [b ^^^ c.iv.getD c.pad 0]).length = pre.length + 1 := by simp
      have e2 : (pre.length + 1) / 16 = pre.length / 16 := by omega
      rw [e1, e2, cfb_feedback_append _ _ _ _ (by omega)]
      refine ⟨by show (c.pad + 1) % 256 = (pre.length + 1) % 16; omega,
        by rw [List.length_set]; exact g2, ?_, ?_⟩
      · intro t ht
        have ht2 : t < (c.pad + 1) % 256 := ht
        rw [getD_set]
        by_cases hc : t = c.pad
        · rw [if_pos ⟨hc, by omega⟩]
          have e3 : 16 * (pre.length / 16) + t = pre.length := by omega
          rw [e3, getD_snoc_last]
        · rw [if_neg (fun hh => hc hh.1), g3 t (by omega), getD_append_left _ _ _ (by omega)]
      · intro t ht1 ht2
        have ht3 : (c.pad + 1) % 256 ≤ t := ht1
        rw [getD_set, if_neg (by omega), g4 t (by omega) ht2]

/-- Output byte `i` of a CFB encryption stream that starts after the ciphertext bytes
`pre`: the source byte XOR a byte of the encrypted feedback register of its block. -/
theorem cfb_enc_stream (E : List Nat → List Nat) (hE : ∀ x, (E x).length = 16) (iv0 : List Nat)
    (rest : List Nat) :
    ∀ (pre : List Nat) (c : Core), CfbInv E iv0 pre c → ∀ i, i < rest.length →
      (stream (cfb_enc_byte E) c rest).1.getD i 0 =
        rest.getD i 0 ^^^
          (E (cfb_feedback iv0 (pre ++ (stream (cfb_enc_byte E) c rest).1)
            ((pre.length + i) / 16))).getD ((pre.length + i) % 16) 0 := by
  induction rest with
  | nil => intro pre c _ i hi; exact absurd hi (Nat.not_lt_zero _)
  | cons b bs ih =>
    intro pre c h i hi
    obtain ⟨s1, s2⟩ := cfb_enc_step E hE iv0 pre c b h
    rw [stream_cons]
    cases i with
    | zero =>
      rw [List.getD_cons_zero, List.getD_cons_zero, s1, Nat.add_zero,
        cfb_feedback_append _ _ _ _ (by omega)]
    | succ i =>
      have := ih (pre ++ [(cfb_enc_byte E c b).1]) (cfb_enc_byte E c b).2 s2 i
        (Nat.lt_of_succ_lt_succ hi)
      rw [List.length_append, List.length_singleton, List.append_assoc, List.singleton_append]
        at this
      have e : pre.length + 1 + i = pre.length + (i + 1) := by omega
      rw [e] at this
      rw [List.getD_cons_succ, List.getD_cons_succ]
      exact this

theorem cfb_byte_inv2 (E : List Nat → List Nat) (c : Core) (b : Nat) :
    cfb_enc_byte E c (cfb_dec_byte E c b).1 = (b, (cfb_dec_byte E c b).2) := by
  simp only [cfb_dec_byte, cfb_enc_byte, xor_cancel_right]

theorem cfb_inv_fresh (E : List Nat → List Nat) (iv b : List Nat) : CfbInv E iv [] ⟨iv, b, 16⟩ :=
  ⟨fun _ => ⟨rfl, rfl⟩, fun h => absurd rfl h⟩

/-- C20. CFB definition: on an instance whose IV buffer holds `iv` and that was freshly
reset by `silc_aes_set_iv`, for every message `m` and every `j` below its length,
`silc_aes_encrypt` in CFB mode outputs `C_j = m[j]` XOR byte `j % 16` of `aes_encrypt` of
the feedback register of block `j / 16`, which is `iv` for block 0 and the ciphertext block
before it otherwise; `silc_aes_decrypt` in CFB mode outputs `m[j]` XOR the same keystream
byte, with the feedback register taken from its input `m`, the ciphertext. -/
theorem C20_cfb_definition (s0 : SilcSt) (iv : List Nat) (ivarg : Option (List Nat))
    (m : List Nat) (j : Nat) (hj : j < m.length) :
    (bytes (silc_aes_encrypt SILC_CIPHER_MODE_CFB (reset_iv SILC_CIPHER_MODE_CFB s0 iv ivarg)
        (Src.buf m) m.length).2.dst m.length).getD j 0 =
      m.getD j 0 ^^^
        (aes_encrypt (cfb_feedback iv
          (bytes (silc_aes_encrypt SILC_CIPHER_MODE_CFB
            (reset_iv SILC_CIPHER_MODE_CFB s0 iv ivarg) (Src.buf m) m.length).2.dst m.length)
          (j / 16)) s0.cx).getD (j % 16) 0 ∧
    (bytes (silc_aes_decrypt SILC_CIPHER_MODE_CFB (reset_iv SILC_CIPHER_MODE_CFB s0 iv ivarg)
        (Src.buf m) m.length).2.dst m.length).getD j 0 =
      m.getD j 0 ^^^ (aes_encrypt (cfb_feedback iv m (j / 16)) s0.cx).getD (j % 16) 0 := by
  rw [cfb_encrypt_eq, cfb_decrypt_eq, bytes_uncore _ _ _ _ _ (stream_length _ _ _),
    bytes_uncore _ _ _ _ _ (stream_length _ _ _)]
  constructor
  · have := cfb_enc_stream (enc_of s0.cx) (enc_of_length _) iv m [] ⟨iv, s0.block, 16⟩
      (cfb_inv_fresh _ _ _) j hj
    rw [List.nil_append, List.length_nil, Nat.zero_add] at this
    exact this
  · have hinv := stream_inverse (cfb_dec_byte (enc_of s0.cx)) (cfb_enc_byte (enc_of s0.cx))
      (cfb_byte_inv2 _) m ⟨iv, s0.block, 16⟩
    have := cfb_enc_stream (enc_of s0.cx) (enc_of_length _) iv
      (stream (cfb_dec_byte (enc_of s0.cx)) ⟨iv, s0.block, 16⟩ m).1 [] ⟨iv, s0.block, 16⟩
      (cfb_inv_fresh _ _ _) j (by rw [stream_length]; exact hj)
    rw [hinv, List.nil_append, List.length_nil, Nat.zero_add] at this
    show (stream (cfb_dec_byte (enc_of s0.cx)) ⟨iv, s0.block, 16⟩ m).1.getD j 0 =
      m.getD j 0 ^^^ (enc_of s0.cx (cfb_feedback iv m (j / 16))).getD (j % 16) 0
    have this2 : m.getD j 0 = (stream (cfb_dec_byte (enc_of s0.cx)) ⟨iv, s0.block, 16⟩ m).1.getD j 0 ^^^
        (enc_of s0.cx (cfb_feedback iv m (j / 16))).getD (j % 16) 0 := this
    rw [this2, xor_cancel_right]

/-- Witness of C20: byte 17 of a message of eighteen bytes. -/
theorem C20_cfb_definition_witness :
    17 < (fips_plain ++ [1, 2]).length ∧
    (bytes (silc_aes_decrypt SILC_CIPHER_MODE_CFB
        (reset_iv SILC_CIPHER_MODE_CFB
          (keyed SILC_CIPHER_MODE_CFB ctx0 fips_key128 16 true [] [] Arr.zero) fips_plain none)
        (Src.buf (fips_plain ++ [1, 2])) (fips_plain ++ [1, 2]).length).2.dst
        (fips_plain ++ [1, 2]).length).getD 17 0 =
      (fips_plain ++ [1, 2]).getD 17 0 ^^^
        (aes_encrypt (cfb_feedback fips_plain (fips_plain ++ [1, 2]) (17 / 16))
          (keyed SILC_CIPHER_MODE_CFB ctx0 fips_key128 16 true [] [] Arr.zero).cx).getD
          (17 % 16) 0 :=
  ⟨by decide,
    (C20_cfb_definition (keyed SILC_CIPHER_MODE_CFB ctx0 fips_key128 16 true [] [] Arr.zero)
      fips_plain none (fips_plain ++ [1, 2]) 17 (by decide)).2⟩

/-! ## Lengths, modes and chunks -/

/-- The CTR loop writes no byte outside `dst[j .. j + len)`. -/
theorem ctr_loop_frame (src : Src) :
    ∀ (len j : Nat) (s : SilcSt) (x : Nat), (x < j ∨ j + len ≤ x) →
      (SILC_CTR_MSB_128_8 src len j s).dst x = s.dst x := by
  intro len
  induction len with
  | zero => intro j s x _; rfl
  | succ len ih =>
    intro j s x hx
    rw [SILC_CTR_MSB_128_8, ih _ _ _ (by omega)]
    have hne : ¬x = j := by omega
    by_cases h : s.cx.inf_b2 = 16 <;> simp [h, upd, hne]

/-- The CFB encryption loop writes no byte outside `dst[j .. j + len)`. -/
theorem cfb_enc_loop_frame (src : Src) :
    ∀ (len j : Nat) (s : SilcSt) (x : Nat), (x < j ∨ j + len ≤ x) →
      (SILC_CFB_ENC_MSB_128_8 src len j s).dst x = s.dst x := by
  intro len
  induction len with
  | zero => intro j s x _; rfl
  | succ len ih =>
    intro j s x hx
    rw [SILC_CFB_ENC_MSB_128_8, ih _ _ _ (by omega)]
    have hne : ¬x = j := by omega
    by_cases h : s.cx.inf_b2 = 16 <;> simp [h, upd, hne]

/-- The CFB decryption loop writes no byte outside `dst[j .. j + len)`. -/
theorem cfb_dec_loop_frame (src : Src) :
    ∀ (len j : Nat) (s : SilcSt) (x : Nat), (x < j ∨ j + len ≤ x) →
      (SILC_CFB_DEC_MSB_128_8 src len j s).dst x = s.dst x := by
  intro len
  induction len with
  | zero => intro j s x _; rfl
  | succ len ih =>
    intro j s x hx
    rw [SILC_CFB_DEC_MSB_128_8, ih _ _ _ (by omega)]
    have hne : ¬x = j := by omega
    by_cases h : s.cx.inf_b2 = 16 <;> simp [h, upd, hne]

/-- The CTR loop keeps the cursor at most 16. -/
theorem ctr_loop_cursor (src : Src) :
    ∀ (len j : Nat) (s : SilcSt), s.cx.inf_b2 ≤ 16 →
      (SILC_CTR_MSB_128_8 src len j s).cx.inf_b2 ≤ 16 := by
  intro len
  induction len with
  | zero => intro j s h; exact h
  | succ len ih =>
    intro j s h
    rw [SILC_CTR_MSB_128_8]
    apply ih
    by_cases h2 : s.cx.inf_b2 = 16
    · simp [h2]
    · simp only [h2, if_false]
      omega

/-- The CFB encryption loop keeps the cursor at most 16. -/
theorem cfb_enc_loop_cursor (src : Src) :
    ∀ (len j : Nat) (s : SilcSt), s.cx.inf_b2 ≤ 16 →
      (SILC_CFB_ENC_MSB_128_8 src len j s).cx.inf_b2 ≤ 16 := by
  intro len
  induction len with
  | zero => intro j s h; exact h
  | succ len ih =>
    intro j s h
    rw [SILC_CFB_ENC_MSB_128_8]
    apply ih
    by_cases h2 : s.cx.inf_b2 = 16
    · simp [h2]
    · simp only [h2, if_false]
      omega

/-- The CFB decryption loop keeps the cursor at most 16. -/
theorem cfb_dec_loop_cursor (src : Src) :
    ∀ (len j : Nat) (s : SilcSt), s.cx.inf_b2 ≤ 16 →
      (SILC_CFB_DEC_MSB_128_8 src len j s).cx.inf_b2 ≤ 16 := by
  intro len
  induction len with
  | zero => intro j s h; exact h
  | succ len ih =>
    intro j s h
    rw [SILC_CFB_DEC_MSB_128_8]
    apply ih
    by_cases h2 : s.cx.inf_b2 = 16
    · simp [h2]
    · simp only [h2, if_false]
      omega

/-- C21. CTR and CFB never reject a length: for every state with cursor at most 16, every
source (a buffer of its own or the destination itself) and every length `len`,
`silc_aes_encrypt` and `silc_aes_decrypt` in CTR and CFB mode (total functions, so they
terminate) return TRUE, leave every destination byte from `len` on as it was and leave the
cursor at most 16; and for a source `m` of `len` bytes of its own, the `len` bytes they
wrote are the output bytes of the byte stream over `m`. -/
theorem C21_stream_modes_accept_every_length (s : SilcSt) (hc : s.cx.inf_b2 ≤ 16) (src : Src)
    (len : Nat) (m : List Nat) (hm : m.length = len) :
    ((silc_aes_encrypt SILC_CIPHER_MODE_CTR s src len).1 = true ∧
      (silc_aes_decrypt SILC_CIPHER_MODE_CTR s src len).1 = true ∧
      (silc_aes_encrypt SILC_CIPHER_MODE_CFB s src len).1 = true ∧
      (silc_aes_decrypt SILC_CIPHER_MODE_CFB s src len).1 = true) ∧
    (∀ x, len ≤ x →
      (silc_aes_encrypt SILC_CIPHER_MODE_CTR s src len).2.dst x = s.dst x ∧
      (silc_aes_decrypt SILC_CIPHER_MODE_CTR s src len).2.dst x = s.dst x ∧
      (silc_aes_encrypt SILC_CIPHER_MODE_CFB s src len).2.dst x = s.dst x ∧
      (silc_aes_decrypt SILC_CIPHER_MODE_CFB s src len).2.dst x = s.dst x) ∧
    ((silc_aes_encrypt SILC_CIPHER_MODE_CTR s src len).2.cx.inf_b2 ≤ 16 ∧
      (silc_aes_decrypt SILC_CIPHER_MODE_CTR s src len).2.cx.inf_b2 ≤ 16 ∧
      (silc_aes_encrypt SILC_CIPHER_MODE_CFB s src len).2.cx.inf_b2 ≤ 16 ∧
      (silc_aes_decrypt SILC_CIPHER_MODE_CFB s src len).2.cx.inf_b2 ≤ 16) ∧
    (bytes (silc_aes_encrypt SILC_CIPHER_MODE_CTR s (Src.buf m) len).2.dst len =
        (stream (ctr_byte (enc_of s.cx)) (core s) m).1 ∧
      bytes (silc_aes_decrypt SILC_CIPHER_MODE_CTR s (Src.buf m) len).2.dst len =
        (stream (ctr_byte (enc_of s.cx)) (core s) m).1 ∧
      bytes (silc_aes_encrypt SILC_CIPHER_MODE_CFB s (Src.buf m) len).2.dst len =
        (stream (cfb_enc_byte (enc_of s.cx)) (core s) m).1 ∧
      bytes (silc_aes_decrypt SILC_CIPHER_MODE_CFB s (Src.buf m) len).2.dst len =
        (stream (cfb_dec_byte (enc_of s.cx)) (core s) m).1) := by
  refine ⟨⟨rfl, rfl, rfl, rfl⟩, fun x hx => ⟨?_, ?_, ?_, ?_⟩,
    ⟨ctr_loop_cursor src len 0 s hc, ctr_loop_cursor src len 0 s hc,
      cfb_enc_loop_cursor src len 0 s hc, cfb_dec_loop_cursor src len 0 s hc⟩, ?_⟩
  · exact ctr_loop_frame src len 0 s x (Or.inr (by omega))
  · exact ctr_loop_frame src len 0 s x (Or.inr (by omega))
  · exact cfb_enc_loop_frame src len 0 s x (Or.inr (by omega))
  · exact cfb_dec_loop_frame src len 0 s x (Or.inr (by omega))
  · subst hm
    rw [ctr_encrypt_eq, ctr_decrypt_eq, cfb_encrypt_eq, cfb_decrypt_eq]
    exact ⟨bytes_uncore _ _ _ _ _ (stream_length _ _ _), bytes_uncore _ _ _ _ _ (stream_length _ _ _),
      bytes_uncore _ _ _ _ _ (stream_length _ _ _), bytes_uncore _ _ _ _ _ (stream_length _ _ _)⟩

/-- Witness of C21: a fresh cursor, three bytes, the destination as the source. -/
theorem C21_stream_modes_accept_every_length_witness :
    (keyed SILC_CIPHER_MODE_CFB ctx0 fips_key128 16 true fips_plain [] Arr.zero).cx.inf_b2 ≤ 16 ∧
    [1, 2, 3].length = 3 ∧
    ((silc_aes_encrypt SILC_CIPHER_MODE_CTR
        (keyed SILC_CIPHER_MODE_CFB ctx0 fips_key128 16 true fips_plain [] Arr.zero) Src.same 3).1 =
        true ∧
      (silc_aes_decrypt SILC_CIPHER_MODE_CTR
        (keyed SILC_CIPHER_MODE_CFB ctx0 fips_key128 16 true fips_plain [] Arr.zero) Src.same 3).1 =
        true ∧
      (silc_aes_encrypt SILC_CIPHER_MODE_CFB
        (keyed SILC_CIPHER_MODE_CFB ctx0 fips_key128 16 true fips_plain [] Arr.zero) Src.same 3).1 =
        true ∧
      (silc_aes_decrypt SILC_CIPHER_MODE_CFB
        (keyed SILC_CIPHER_MODE_CFB ctx0 fips_key128 16 true fips_plain [] Arr.zero) Src.same 3).1 =
        true) :=
  ⟨Nat.le_refl 16, rfl,
    (C21_stream_modes_accept_every_length
      (keyed SILC_CIPHER_MODE_CFB ctx0 fips_key128 16 true fips_plain [] Arr.zero)
      (Nat.le_refl 16) Src.same 3 [1, 2, 3] rfl).1⟩

/-- C22. Unsupported mode: for every mode that is none of ECB, CBC, CTR and CFB,
`silc_aes_set_key`, `silc_aes_encrypt` and `silc_aes_decrypt` return FALSE and leave the
context, the IV buffer, the keystream block and the destination as they were. -/
theorem C22_unsupported_mode (mode : Nat)
    (h : mode ≠ SILC_CIPHER_MODE_ECB ∧ mode ≠ SILC_CIPHER_MODE_CBC ∧
      mode ≠ SILC_CIPHER_MODE_CTR ∧ mode ≠ SILC_CIPHER_MODE_CFB)
    (cx : aes_ctx) (key : List Nat) (keylen : Nat) (encryption : Bool) (s : SilcSt) (src : Src)
    (len : Nat) :
    silc_aes_set_key mode cx key keylen encryption = (false, cx) ∧
    silc_aes_encrypt mode s src len = (false, s) ∧
    silc_aes_decrypt mode s src len = (false, s) := by
  obtain ⟨h1, h2, h3, h4⟩ := h
  refine ⟨?_, ?_, ?_⟩
  · unfold silc_aes_set_key
    rw [if_neg (fun h => h.elim h3 h4), if_neg (fun h => h.elim h2 h1)]
  · unfold silc_aes_encrypt
    rw [if_neg h3, if_neg h1, if_neg h2, if_neg h4]
  · unfold silc_aes_decrypt
    rw [if_neg h3, if_neg h1, if_neg h2, if_neg h4]

/-- Witness of C22: the mode OFB. -/
theorem C22_unsupported_mode_witness :
    (SILC_CIPHER_MODE_OFB ≠ SILC_CIPHER_MODE_ECB ∧ SILC_CIPHER_MODE_OFB ≠ SILC_CIPHER_MODE_CBC ∧
      SILC_CIPHER_MODE_OFB ≠ SILC_CIPHER_MODE_CTR ∧ SILC_CIPHER_MODE_OFB ≠ SILC_CIPHER_MODE_CFB) ∧
    silc_aes_set_key SILC_CIPHER_MODE_OFB ctx0 fips_key128 16 true = (false, ctx0) ∧
    silc_aes_encrypt SILC_CIPHER_MODE_OFB ⟨ctx0, fips_plain, [], Arr.zero⟩ (Src.buf fips_plain) 16 =
      (false, ⟨ctx0, fips_plain, [], Arr.zero⟩) ∧
    silc_aes_decrypt SILC_CIPHER_MODE_OFB ⟨ctx0, fips_plain, [], Arr.zero⟩ (Src.buf fips_plain) 16 =
      (false, ⟨ctx0, fips_plain, [], Arr.zero⟩) :=
  ⟨by decide,
    C22_unsupported_mode SILC_CIPHER_MODE_OFB (by decide) ctx0 fips_key128 16 true
      ⟨ctx0, fips_plain, [], Arr.zero⟩ (Src.buf fips_plain) 16⟩

/-- C30. ECB is block-independent and stateless: for every state and every input `m` of `n`
whole blocks, `silc_aes_encrypt` in ECB mode returns TRUE and stores
`aes_encrypt (block i of m)` as block `i` of the destination for every `i < n`,
`silc_aes_decrypt` stores `aes_decrypt (block i of m)`; the IV buffer, the keystream block
and the context are as before the call, and with any other IV buffer `iv2` the same bytes
are written. -/
theorem C30_ecb_blocks (s : SilcSt) (m : List Nat) (n : Nat) (hm : m.length = 16 * n)
    (iv2 : List Nat) :
    ((silc_aes_encrypt SILC_CIPHER_MODE_ECB s (Src.buf m) m.length).1 = true ∧
      (∀ i, i < n →
        blk (bytes (silc_aes_encrypt SILC_CIPHER_MODE_ECB s (Src.buf m) m.length).2.dst
          m.length) i = aes_encrypt (blk m i) s.cx) ∧
      (silc_aes_encrypt SILC_CIPHER_MODE_ECB s (Src.buf m) m.length).2.iv = s.iv ∧
      (silc_aes_encrypt SILC_CIPHER_MODE_ECB s (Src.buf m) m.length).2.block = s.block ∧
      (silc_aes_encrypt SILC_CIPHER_MODE_ECB s (Src.buf m) m.length).2.cx = s.cx ∧
      bytes (silc_aes_encrypt SILC_CIPHER_MODE_ECB { s with iv := iv2 } (Src.buf m)
          m.length).2.dst m.length =
        bytes (silc_aes_encrypt SILC_CIPHER_MODE_ECB s (Src.buf m) m.length).2.dst m.length) ∧
    ((silc_aes_decrypt SILC_CIPHER_MODE_ECB s (Src.buf m) m.length).1 = true ∧
      (∀ i, i < n →
        blk (bytes (silc_aes_decrypt SILC_CIPHER_MODE_ECB s (Src.buf m) m.length).2.dst
          m.length) i = aes_decrypt (blk m i) s.cx) ∧
      (silc_aes_decrypt SILC_CIPHER_MODE_ECB s (Src.buf m) m.length).2.iv = s.iv ∧
      (silc_aes_decrypt SILC_CIPHER_MODE_ECB s (Src.buf m) m.length).2.block = s.block ∧
      (silc_aes_decrypt SILC_CIPHER_MODE_ECB s (Src.buf m) m.length).2.cx = s.cx ∧
      bytes (silc_aes_decrypt SILC_CIPHER_MODE_ECB { s with iv := iv2 } (Src.buf m)
          m.length).2.dst m.length =
        bytes (silc_aes_decrypt SILC_CIPHER_MODE_ECB s (Src.buf m) m.length).2.dst m.length) := by
  have e : 16 * n / 16 = n := by omega
  rw [hm, ecb_encrypt_call, ecb_decrypt_call, ecb_encrypt_call, ecb_decrypt_call, e]
  obtain ⟨e1, e2, e3, e4⟩ := ecb_encrypt_loop_eq m n 0 s
  obtain ⟨d1, d2, d3, d4⟩ := ecb_decrypt_loop_eq m n 0 s
  obtain ⟨_, _, _, e5⟩ := ecb_encrypt_loop_eq m n 0 { s with iv := iv2 }
  obtain ⟨_, _, _, d5⟩ := ecb_decrypt_loop_eq m n 0 { s with iv := iv2 }
  refine ⟨⟨rfl, fun i hi => ?_, e2, e3, e1, ?_⟩, rfl, fun i hi => ?_, d2, d3, d1, ?_⟩
  · apply ext16 _ _ (blk_length _ _) (enc_of_length _ _)
    intro t ht
    rw [blk_getD _ _ _ ht, bytes_getD _ _ _ (by omega)]
    have := e4 (16 * i + t)
    rw [if_pos (by omega)] at this
    have a1 : (16 * i + t) / 16 = i := by omega
    have a2 : (16 * i + t) % 16 = t := by omega
    rw [a1, a2] at this
    exact this
  · apply List.map_congr_left
    intro x hx
    have hx2 := List.mem_range.mp hx
    have h1 := e4 x
    have h2 := e5 x
    rw [if_pos (by omega)] at h1 h2
    exact h2.trans h1.symm
  · apply ext16 _ _ (blk_length _ _) (dec_of_length _ _)
    intro t ht
    rw [blk_getD _ _ _ ht, bytes_getD _ _ _ (by omega)]
    have := d4 (16 * i + t)
    rw [if_pos (by omega)] at this
    have a1 : (16 * i + t) / 16 = i := by omega
    have a2 : (16 * i + t) % 16 = t := by omega
    rw [a1, a2] at this
    exact this
  · apply List.map_congr_left
    intro x hx
    have hx2 := List.mem_range.mp hx
    have h1 := d4 x
    have h2 := d5 x
    rw [if_pos (by omega)] at h1 h2
    exact h2.trans h1.symm

/-- Witness of C30: two blocks. -/
theorem C30_ecb_blocks_witness :
    (fips_plain ++ fips_cipher128).length = 16 * 2 ∧
    (silc_aes_encrypt SILC_CIPHER_MODE_ECB
        (keyed SILC_CIPHER_MODE_ECB ctx0 fips_key128 16 true fips_plain [] Arr.zero)
        (Src.buf (fips_plain ++ fips_cipher128)) (fips_plain ++ fips_cipher128).length).2.iv =
      (keyed SILC_CIPHER_MODE_ECB ctx0 fips_key128 16 true fips_plain [] Arr.zero).iv :=
  ⟨rfl,
    (C30_ecb_blocks (keyed SILC_CIPHER_MODE_ECB ctx0 fips_key128 16 true fips_plain [] Arr.zero)
      (fips_plain ++ fips_cipher128) 2 rfl []).1.2.2.1⟩

theorem getD_append_right16 (a b : List Nat) (n y : Nat) (ha : a.length = 16 * n) :
    (a ++ b).getD (16 * n + y) 0 = b.getD y 0 := by
  rw [List.getD_eq_getElem?_getD, List.getD_eq_getElem?_getD,
    List.getElem?_append_right (by omega)]
  have e : 16 * n + y - a.length = y := by omega
  rw [e]

/-- A block of the first message is the same block of the concatenation. -/
theorem blk_append_left (m1 m2 : List Nat) (n1 i : Nat) (h1 : m1.length = 16 * n1)
    (hi : i < n1) : blk (m1 ++ m2) i = blk m1 i :=
  blk_append m1 m2 i (by omega)

/-- Block `n1 + i` of the concatenation is block `i` of the second message. -/
theorem blk_append_right (m1 m2 : List Nat) (n1 i : Nat) (h1 : m1.length = 16 * n1) :
    blk (m1 ++ m2) (n1 + i) = blk m2 i := by
  apply map16_congr
  intro t ht
  have e : 16 * (n1 + i) + t = 16 * n1 + (16 * i + t) := by omega
  rw [e, getD_append_right16 _ _ _ _ h1]

theorem cbc_chain_append_left (E : List Nat → List Nat) (m1 m2 iv : List Nat) (n1 : Nat)
    (h1 : m1.length = 16 * n1) :
    ∀ i, i ≤ n1 → cbc_chain E (m1 ++ m2) iv i = cbc_chain E m1 iv i := by
  intro i
  induction i with
  | zero => intro _; rfl
  | succ i ih =>
    intro hi
    rw [cbc_chain, cbc_chain, ih (by omega), blk_append_left m1 m2 n1 i h1 (by omega)]

theorem cbc_chain_append_right (E : List Nat → List Nat) (m1 m2 iv : List Nat) (n1 : Nat)
    (h1 : m1.length = 16 * n1) :
    ∀ k, cbc_chain E (m1 ++ m2) iv (n1 + k) = cbc_chain E m2 (cbc_chain E m1 iv n1) k := by
  intro k
  induction k with
  | zero => exact cbc_chain_append_left E m1 m2 iv n1 h1 n1 (Nat.le_refl _)
  | succ k ih =>
    have e : n1 + (k + 1) = (n1 + k) + 1 := by omega
    rw [e, cbc_chain, cbc_chain, ih, blk_append_right m1 m2 n1 k h1]

/-- The bytes of the concatenation, position by position. -/
theorem bytes_append_of (a1 a2 a : Arr) (l1 l2 : Nat)
    (h1 : ∀ x, x < l1 → a x = a1 x) (h2 : ∀ y, y < l2 → a (l1 + y) = a2 y) :
    bytes a1 l1 ++ bytes a2 l2 = bytes a (l1 + l2) := by
  apply List.ext_getElem
  · simp [bytes_length]
  · intro x hx1 hx2
    rw [bytes_length] at hx2
    have g : ∀ (l : List Nat) (hl : x < l.length), l[x] = l.getD x 0 := by
      intro l hl
      rw [List.getD_eq_getElem _ _ hl]
    rw [g _ hx1, g _ (by rw [bytes_length]; exact hx2), bytes_getD _ _ _ hx2]
    by_cases hx : x < l1
    · rw [getD_append_left _ _ _ (by rw [bytes_length]; exact hx), bytes_getD _ _ _ hx, h1 x hx]
    · rw [List.getD_eq_getElem?_getD, List.getElem?_append_right (by rw [bytes_length]; omega),
        bytes_length, ← List.getD_eq_getElem?_getD, bytes_getD _ _ _ (by omega)]
      have := h2 (x - l1) (by omega)
      have e : l1 + (x - l1) = x := by omega
      rw [e] at this
      exact this.symm

/-- Two CBC encryption loops in a row, the second on the state the first left, against one
loop over the concatenation. -/
theorem cbc_encrypt_split (m1 m2 : List Nat) (n1 n2 : Nat) (h1 : m1.length = 16 * n1)
    (s : SilcSt) :
    bytes (cbc_encrypt_loop (Src.buf m1) n1 0 s).dst (16 * n1) ++
        bytes (cbc_encrypt_loop (Src.buf m2) n2 0
          (cbc_encrypt_loop (Src.buf m1) n1 0 s)).dst (16 * n2) =
      bytes (cbc_encrypt_loop (Src.buf (m1 ++ m2)) (n1 + n2) 0 s).dst (16 * n1 + 16 * n2) ∧
    (cbc_encrypt_loop (Src.buf m2) n2 0 (cbc_encrypt_loop (Src.buf m1) n1 0 s)).iv =
      (cbc_encrypt_loop (Src.buf (m1 ++ m2)) (n1 + n2) 0 s).iv := by
  obtain ⟨a1, a2, _, a4⟩ := cbc_encrypt_loop_eq m1 s.iv n1 0 s rfl
  obtain ⟨_, b2, _, b4⟩ := cbc_encrypt_loop_eq m2 (cbc_encrypt_loop (Src.buf m1) n1 0 s).iv n2 0
    (cbc_encrypt_loop (Src.buf m1) n1 0 s) rfl
  obtain ⟨_, c2, _, c4⟩ := cbc_encrypt_loop_eq (m1 ++ m2) s.iv (n1 + n2) 0 s rfl
  rw [a1] at b2 b4
  rw [Nat.zero_add] at a2 b2 c2
  rw [a2] at b2 b4
  constructor
  · apply bytes_append_of
    · intro x hx
      have e1 := a4 x
      have e2 := c4 x
      rw [if_pos (by omega)] at e1 e2
      rw [show (cbc_encrypt_loop (Src.buf (m1 ++ m2)) (n1 + n2) 0 s).dst x = _ from e2,
        show (cbc_encrypt_loop (Src.buf m1) n1 0 s).dst x = _ from e1,
        cbc_chain_append_left _ m1 m2 s.iv n1 h1 _ (by omega)]
    · intro y hy
      have e1 := b4 y
      have e2 := c4 (16 * n1 + y)
      rw [if_pos (by omega)] at e1 e2
      rw [show (cbc_encrypt_loop (Src.buf (m1 ++ m2)) (n1 + n2) 0 s).dst (16 * n1 + y) = _ from e2,
        show (cbc_encrypt_loop (Src.buf m2) n2 0 (cbc_encrypt_loop (Src.buf m1) n1 0 s)).dst y = _
          from e1]
      have g1 : (16 * n1 + y) / 16 + 1 = n1 + (y / 16 + 1) := by omega
      have g2 : (16 * n1 + y) % 16 = y % 16 := by omega
      rw [g1, g2, cbc_chain_append_right _ m1 m2 s.iv n1 h1]
  · rw [b2, c2, cbc_chain_append_right _ m1 m2 s.iv n1 h1]

/-- Two CBC decryption loops in a row against one loop over the concatenation. -/
theorem cbc_decrypt_split (m1 m2 : List Nat) (n1 n2 : Nat) (h1 : m1.length = 16 * n1)
    (s : SilcSt) :
    bytes (cbc_decrypt_loop (Src.buf m1) n1 0 s).dst (16 * n1) ++
        bytes (cbc_decrypt_loop (Src.buf m2) n2 0
          (cbc_decrypt_loop (Src.buf m1) n1 0 s)).dst (16 * n2) =
      bytes (cbc_decrypt_loop (Src.buf (m1 ++ m2)) (n1 + n2) 0 s).dst (16 * n1 + 16 * n2) ∧
    (cbc_decrypt_loop (Src.buf m2) n2 0 (cbc_decrypt_loop (Src.buf m1) n1 0 s)).iv =
      (cbc_decrypt_loop (Src.buf (m1 ++ m2)) (n1 + n2) 0 s).iv := by
  obtain ⟨a1, a2, _, a4⟩ := cbc_decrypt_loop_eq m1 n1 0 s
  obtain ⟨_, b2, _, b4⟩ := cbc_decrypt_loop_eq m2 n2 0 (cbc_decrypt_loop (Src.buf m1) n1 0 s)
  obtain ⟨_, c2, _, c4⟩ := cbc_decrypt_loop_eq (m1 ++ m2) (n1 + n2) 0 s
  rw [a1] at b4
  rw [Nat.zero_add] at a2 b2 c2
  rw [a2] at b2 b4
  constructor
  · apply bytes_append_of
    · intro x hx
      have e1 := a4 x
      have e2 := c4 x
      rw [if_pos (by omega)] at e1 e2
      rw [show (cbc_decrypt_loop (Src.buf (m1 ++ m2)) (n1 + n2) 0 s).dst x = _ from e2,
        show (cbc_decrypt_loop (Src.buf m1) n1 0 s).dst x = _ from e1,
        blk_append_left m1 m2 n1 _ h1 (by omega)]
      by_cases h0 : x / 16 = 0
      · rw [if_pos h0, if_pos h0]
      · rw [if_neg h0, if_neg h0, blk_append_left m1 m2 n1 _ h1 (by omega)]
    · intro y hy
      have e1 := b4 y
      have e2 := c4 (16 * n1 + y)
      rw [if_pos (by omega)] at e1 e2
      rw [show (cbc_decrypt_loop (Src.buf (m1 ++ m2)) (n1 + n2) 0 s).dst (16 * n1 + y) = _ from e2,
        show (cbc_decrypt_loop (Src.buf m2) n2 0 (cbc_decrypt_loop (Src.buf m1) n1 0 s)).dst y = _
          from e1]
      have g1 : (16 * n1 + y) / 16 = n1 + y / 16 := by omega
      have g2 : (16 * n1 + y) % 16 = y % 16 := by omega
      rw [g1, g2, blk_append_right m1 m2 n1 _ h1]
      by_cases hy0 : y / 16 = 0
      · rw [if_pos hy0, hy0, Nat.add_zero]
        by_cases hn : n1 = 0
        · rw [if_pos hn, if_pos hn]
        · rw [if_neg hn, if_neg hn, blk_append_left m1 m2 n1 _ h1 (by omega)]
      · rw [if_neg hy0, if_neg (show ¬n1 + y / 16 = 0 by omega)]
        have g3 : n1 + y / 16 - 1 = n1 + (y / 16 - 1) := by omega
        rw [g3, blk_append_right m1 m2 n1 _ h1]
  · rw [b2, c2]
    by_cases hn2 : n2 = 0
    · rw [if_pos hn2, hn2, Nat.add_zero]
      by_cases hn : n1 = 0
      · rw [if_pos hn, if_pos hn]
      · rw [if_neg hn, if_neg hn, blk_append_left m1 m2 n1 _ h1 (by omega)]
    · rw [if_neg hn2, if_neg (show ¬n1 + n2 = 0 by omega)]
      have g3 : n1 + n2 - 1 = n1 + (n2 - 1) := by omega
      rw [g3, blk_append_right m1 m2 n1 _ h1]

/-- C23. CBC whole-block chunking: for every state (key and IV) and messages `m1`, `m2`
whose lengths are multiples of 16, `silc_aes_encrypt` in CBC mode on `m1` and then on `m2`,
with the IV buffer as the first call left it, gives the same concatenated output and the same
final IV buffer as one call on `m1 ++ m2`; and likewise `silc_aes_decrypt`. -/
theorem C23_cbc_chunking (s : SilcSt) (m1 m2 : List Nat) (h1 : m1.length % 16 = 0)
    (h2 : m2.length % 16 = 0) :
    ((encrypt_chunks SILC_CIPHER_MODE_CBC s [m1, m2]).1 =
        bytes (silc_aes_encrypt SILC_CIPHER_MODE_CBC s (Src.buf (m1 ++ m2))
          (m1 ++ m2).length).2.dst (m1 ++ m2).length ∧
      (encrypt_chunks SILC_CIPHER_MODE_CBC s [m1, m2]).2.iv =
        (silc_aes_encrypt SILC_CIPHER_MODE_CBC s (Src.buf (m1 ++ m2)) (m1 ++ m2).length).2.iv) ∧
    ((decrypt_chunks SILC_CIPHER_MODE_CBC s [m1, m2]).1 =
        bytes (silc_aes_decrypt SILC_CIPHER_MODE_CBC s (Src.buf (m1 ++ m2))
          (m1 ++ m2).length).2.dst (m1 ++ m2).length ∧
      (decrypt_chunks SILC_CIPHER_MODE_CBC s [m1, m2]).2.iv =
        (silc_aes_decrypt SILC_CIPHER_MODE_CBC s (Src.buf (m1 ++ m2)) (m1 ++ m2).length).2.iv) := by
  have e1 := len_blocks m1 h1
  have e2 := len_blocks m2 h2
  generalize m1.length / 16 = n1 at e1
  generalize m2.length / 16 = n2 at e2
  have e3 : (m1 ++ m2).length = 16 * (n1 + n2) := by
    rw [List.length_append, e1, e2]
    omega
  have e4 : 16 * (n1 + n2) = 16 * n1 + 16 * n2 := by omega
  obtain ⟨a1, a2⟩ := cbc_encrypt_split m1 m2 n1 n2 e1 s
  obtain ⟨b1, b2⟩ := cbc_decrypt_split m1 m2 n1 n2 e1 s
  simp only [encrypt_chunks, decrypt_chunks, List.append_nil]
  rw [e3, e1, e2, cbc_encrypt_call, cbc_decrypt_call, cbc_encrypt_call, cbc_decrypt_call,
    cbc_encrypt_call, cbc_decrypt_call, e4]
  exact ⟨⟨a1, a2⟩, b1, b2⟩

/-- Witness of C23: one block, then two blocks. -/
theorem C23_cbc_chunking_witness :
    fips_plain.length % 16 = 0 ∧ (fips_plain ++ fips_cipher128).length % 16 = 0 ∧
    (encrypt_chunks SILC_CIPHER_MODE_CBC
        (keyed SILC_CIPHER_MODE_CBC ctx0 fips_key128 16 true fips_plain [] Arr.zero)
        [fips_plain, fips_plain ++ fips_cipher128]).1 =
      bytes (silc_aes_encrypt SILC_CIPHER_MODE_CBC
        (keyed SILC_CIPHER_MODE_CBC ctx0 fips_key128 16 true fips_plain [] Arr.zero)
        (Src.buf (fips_plain ++ (fips_plain ++ fips_cipher128)))
        (fips_plain ++ (fips_plain ++ fips_cipher128)).length).2.dst
        (fips_plain ++ (fips_plain ++ fips_cipher128)).length :=
  ⟨rfl, rfl,
    (C23_cbc_chunking (keyed SILC_CIPHER_MODE_CBC ctx0 fips_key128 16 true fips_plain [] Arr.zero)
      fips_plain (fips_plain ++ fips_cipher128) rfl rfl).1.1⟩

/-- C25. Round count follows key length: for every key and every supported key length (16,
24, 32 bytes, or 128, 192, 256 bits), `aes_encrypt_key` and `aes_decrypt_key` store 16 times
the round count in `inf.b[0]`, the round count being 10, 12 and 14; and `aes_encrypt` and
`aes_decrypt` then run, on the loaded state, that many table rounds less one followed by one
last round, with the round keys from word 4 on up to word `4 * rounds`. -/
theorem C25_round_count (key : List Nat) (key_len : Nat)
    (hk : key_len = 16 ∨ key_len = 24 ∨ key_len = 32 ∨ key_len = 128 ∨ key_len = 192 ∨
      key_len = 256) (cx : aes_ctx) (x : List Nat) :
    (rounds_of 16 = 10 ∧ rounds_of 128 = 10 ∧ rounds_of 24 = 12 ∧ rounds_of 192 = 12 ∧
      rounds_of 32 = 14 ∧ rounds_of 256 = 14) ∧
    (aes_encrypt_key key key_len cx).inf_b0 = 16 * rounds_of key_len ∧
    (aes_decrypt_key key key_len cx).inf_b0 = 16 * rounds_of key_len ∧
    aes_encrypt x (aes_encrypt_key key key_len cx) =
      state_out (rnd t_fl fwd_var (aes_encrypt_key key key_len cx).ks (4 * rounds_of key_len)
        (rnds t_fn fwd_var (aes_encrypt_key key key_len cx).ks 0 (rounds_of key_len - 1)
          (state_in Arr.zero x (aes_encrypt_key key key_len cx).ks 0))) ∧
    aes_decrypt x (aes_decrypt_key key key_len cx) =
      state_out (rnd t_il inv_var (aes_decrypt_key key key_len cx).ks (4 * rounds_of key_len)
        (rnds t_in inv_var (aes_decrypt_key key key_len cx).ks 0 (rounds_of key_len - 1)
          (state_in Arr.zero x (aes_decrypt_key key key_len cx).ks 0))) := by
  obtain ⟨h1, h2, h3, _⟩ := key_pair key key_len hk cx cx
  exact ⟨by decide, h2, h3, aes_encrypt_rounds x _ _ ⟨h1, h2⟩, aes_decrypt_rounds x _ _ ⟨h1, h3⟩⟩

/-- Witness of C25: a 192-bit key, its length given in bits. -/
theorem C25_round_count_witness :
    ((192 : Nat) = 16 ∨ (192 : Nat) = 24 ∨ (192 : Nat) = 32 ∨ (192 : Nat) = 128 ∨
      (192 : Nat) = 192 ∨ (192 : Nat) = 256) ∧
    (aes_encrypt_key fips_key192 192 ctx0).inf_b0 = 16 * rounds_of 192 ∧
    (aes_decrypt_key fips_key192 192 ctx0).inf_b0 = 16 * rounds_of 192 :=
  ⟨by decide,
    (C25_round_count fips_key192 192 (by decide) ctx0 fips_plain).2.1,
    (C25_round_count fips_key192 192 (by decide) ctx0 fips_plain).2.2.1⟩

/-- The counter held by a CTR stream that has produced `j` bytes since the counter was
`iv0`: one increment per block of sixteen keystream bytes started. -/
theorem ctr_stream_state (E : List Nat → List Nat) (iv0 : List Nat) (m : List Nat) :
    ∀ (c : Core) (j : Nat),
      (c.pad = 16 → j % 16 = 0 ∧ c.iv = (fun x => ctr_inc x 16)^[j / 16] iv0) →
      (c.pad ≠ 16 → c.pad = j % 16 ∧ j % 16 ≠ 0 ∧
        c.iv = (fun x => ctr_inc x 16)^[j / 16 + 1] iv0) →
      (stream (ctr_byte E) c m).2.iv =
        (fun x => ctr_inc x 16)^[(j + m.length + 15) / 16] iv0 := by
  induction m with
  | nil =>
    intro c j h1 h2
    show c.iv = _
    by_cases hp : c.pad = 16
    · obtain ⟨g1, g2⟩ := h1 hp
      have e : (j + ([] : List Nat).length + 15) / 16 = j / 16 := by
        simp only [List.length_nil]
        omega
      rw [e, g2]
    · obtain ⟨g1, g2, g3⟩ := h2 hp
      have e : (j + ([] : List Nat).length + 15) / 16 = j / 16 + 1 := by
        simp only [List.length_nil]
        omega
      rw [e, g3]
  | cons b bs ih =>
    intro c j h1 h2
    have e : j + (b :: bs).length + 15 = j + 1 + bs.length + 15 := by
      simp only [List.length_cons]
      omega
    rw [e]
    show (stream (ctr_byte E) (ctr_byte E c b).2 bs).2.iv = _
    by_cases hp : c.pad = 16
    · obtain ⟨g1, g2⟩ := h1 hp
      have hnext : ctr_inc c.iv 16 = (fun x => ctr_inc x 16)^[j / 16 + 1] iv0 := by
        rw [Function.iterate_succ_apply', g2]
      rw [ctr_byte_new E c b hp, hnext]
      have e1 : (j + 1) / 16 = j / 16 := by omega
      exact ih ⟨(fun x => ctr_inc x 16)^[j / 16 + 1] iv0,
          E ((fun x => ctr_inc x 16)^[j / 16 + 1] iv0), 1⟩ (j + 1)
        (fun h => absurd (show (1 : Nat) = 16 from h) (by decide))
        (fun _ => ⟨by show 1 = (j + 1) % 16; omega, by omega, by rw [e1]⟩)
    · obtain ⟨g1, g2, g3⟩ := h2 hp
      rw [ctr_byte_old E c b hp]
      exact ih ⟨c.iv, c.block, (c.pad + 1) % 256⟩ (j + 1)
        (fun h => by
          have h4 : (c.pad + 1) % 256 = 16 := h
          have e : (j + 1) / 16 = j / 16 + 1 := by omega
          rw [e]
          exact ⟨by omega, g3⟩)
        (fun h => by
          have h4 : (c.pad + 1) % 256 ≠ 16 := h
          have e : (j + 1) / 16 = j / 16 := by omega
          rw [e]
          exact ⟨by show (c.pad + 1) % 256 = (j + 1) % 16; omega, by omega, g3⟩)

/-- C29. CTR counter arithmetic: on an instance whose IV buffer holds the 16-byte counter
`iv` and that was freshly reset by `silc_aes_set_iv`, after `silc_aes_encrypt` in CTR mode
has processed a message of `len` bytes (`len > 0`, and `len = 0` as well) the counter buffer
is the 16-byte MSB-first encoding of `(iv + ceil(len / 16)) mod 2 ^ 128`, `iv` being read as
an MSB-first integer: one increment per sixteen keystream bytes started, with carry towards
byte 0 and wrap-around at `2 ^ 128`. -/
theorem C29_ctr_counter (s0 : SilcSt) (iv : List Nat) (ivarg : Option (List Nat))
    (hl : iv.length = 16) (hb : IsBytes iv) (m : List Nat) :
    (silc_aes_encrypt SILC_CIPHER_MODE_CTR (reset_iv SILC_CIPHER_MODE_CTR s0 iv ivarg)
        (Src.buf m) m.length).2.iv =
      be_bytes 16 ((be_val iv + (m.length + 15) / 16) % 2 ^ 128) ∧
    be_val (silc_aes_encrypt SILC_CIPHER_MODE_CTR (reset_iv SILC_CIPHER_MODE_CTR s0 iv ivarg)
        (Src.buf m) m.length).2.iv = (be_val iv + (m.length + 15) / 16) % 2 ^ 128 := by
  have h := ctr_stream_state (enc_of s0.cx) iv m ⟨iv, s0.block, 16⟩ 0
    (fun _ => ⟨rfl, rfl⟩) (fun h => absurd rfl h)
  rw [Nat.zero_add] at h
  rw [ctr_encrypt_eq]
  show (stream (ctr_byte (enc_of s0.cx)) ⟨iv, s0.block, 16⟩ m).2.iv = _ ∧
    be_val (stream (ctr_byte (enc_of s0.cx)) ⟨iv, s0.block, 16⟩ m).2.iv = _
  rw [h]
  exact ⟨ctr_iterate_bytes iv hl hb _, (ctr_iterate iv hl hb _).2.2⟩

theorem bytes_ff : IsBytes (List.replicate 16 255) := by
  intro b hb
  rw [(List.mem_replicate.mp hb).2]
  decide

/-- Witness of C29: the all-0xff counter wraps to all zero with the first byte. -/
theorem C29_ctr_counter_witness :
    (List.replicate 16 255).length = 16 ∧ IsBytes (List.replicate 16 255) ∧
    (silc_aes_encrypt SILC_CIPHER_MODE_CTR
        (reset_iv SILC_CIPHER_MODE_CTR
          (keyed SILC_CIPHER_MODE_CTR ctx0 fips_key128 16 true [] [] Arr.zero)
          (List.replicate 16 255) none)
        (Src.buf [7]) [7].length).2.iv = List.replicate 16 0 :=
  ⟨rfl, bytes_ff,
    (C29_ctr_counter (keyed SILC_CIPHER_MODE_CTR ctx0 fips_key128 16 true [] [] Arr.zero)
      (List.replicate 16 255) none rfl bytes_ff [7]).1.trans (by decide)⟩

/-! ## In-place operation -/

/-- The CTR loop run in place is the loop run on a copy `m` of the source bytes. -/
theorem ctr_loop_same (m : List Nat) :
    ∀ (len j : Nat) (s : SilcSt), (∀ x, j ≤ x → x < j + len → m.getD x 0 = s.dst x) →
      SILC_CTR_MSB_128_8 Src.same len j s = SILC_CTR_MSB_128_8 (Src.buf m) len j s := by
  intro len
  induction len with
  | zero => intro j s _; rfl
  | succ len ih =>
    intro j s h
    have hj := h j (Nat.le_refl _) (by omega)
    rw [SILC_CTR_MSB_128_8, SILC_CTR_MSB_128_8]
    by_cases hp : s.cx.inf_b2 = 16
    · simp only [hp, if_true, rd, hj]
      apply ih
      intro x h1 h2
      rw [h x (by omega) (by omega)]
      simp [upd, show ¬x = j by omega]
    · simp only [hp, if_false, rd, hj]
      apply ih
      intro x h1 h2
      rw [h x (by omega) (by omega)]
      simp [upd, show ¬x = j by omega]

/-- The CFB encryption loop run in place is the loop run on a copy of the source bytes. -/
theorem cfb_enc_loop_same (m : List Nat) :
    ∀ (len j : Nat) (s : SilcSt), (∀ x, j ≤ x → x < j + len → m.getD x 0 = s.dst x) →
      SILC_CFB_ENC_MSB_128_8 Src.same len j s = SILC_CFB_ENC_MSB_128_8 (Src.buf m) len j s := by
  intro len
  induction len with
  | zero => intro j s _; rfl
  | succ len ih =>
    intro j s h
    have hj := h j (Nat.le_refl _) (by omega)
    rw [SILC_CFB_ENC_MSB_128_8, SILC_CFB_ENC_MSB_128_8]
    by_cases hp : s.cx.inf_b2 = 16
    · simp only [hp, if_true, rd, hj]
      apply ih
      intro x h1 h2
      rw [h x (by omega) (by omega)]
      simp [upd, show ¬x = j by omega]
    · simp only [hp, if_false, rd, hj]
      apply ih
      intro x h1 h2
      rw [h x (by omega) (by omega)]
      simp [upd, show ¬x = j by omega]

/-- The CFB decryption loop run in place is the loop run on a copy of the source bytes. -/
theorem cfb_dec_loop_same (m : List Nat) :
    ∀ (len j : Nat) (s : SilcSt), (∀ x, j ≤ x → x < j + len → m.getD x 0 = s.dst x) →
      SILC_CFB_DEC_MSB_128_8 Src.same len j s = SILC_CFB_DEC_MSB_128_8 (Src.buf m) len j s := by
  intro len
  induction len with
  | zero => intro j s _; rfl
  | succ len ih =>
    intro j s h
    have hj := h j (Nat.le_refl _) (by omega)
    rw [SILC_CFB_DEC_MSB_128_8, SILC_CFB_DEC_MSB_128_8]
    by_cases hp : s.cx.inf_b2 = 16
    · simp only [hp, if_true, rd, hj]
      apply ih
      intro x h1 h2
      rw [h x (by omega) (by omega)]
      simp [upd, show ¬x = j by omega]
    · simp only [hp, if_false, rd, hj]
      apply ih
      intro x h1 h2
      rw [h x (by omega) (by omega)]
      simp [upd, show ¬x = j by omega]

/-- The block at `dst + j` read in place is the block of a copy of the source bytes. -/
theorem rd_block_same (m : List Nat) (dst : Arr) (j : Nat)
    (h : ∀ x, j ≤ x → x < j + 16 → m.getD x 0 = dst x) :
    rd_block Src.same dst j = rd_block (Src.buf m) dst j := by
  apply map16_congr
  intro t ht
  exact (h (j + t) (by omega) (by omega)).symm

/-- The ECB encryption loop run in place is the loop run on a copy of the source bytes. -/
theorem ecb_encrypt_loop_same (m : List Nat) :
    ∀ (nb j : Nat) (s : SilcSt), (∀ x, j ≤ x → x < j + 16 * nb → m.getD x 0 = s.dst x) →
      ecb_encrypt_loop Src.same nb j s = ecb_encrypt_loop (Src.buf m) nb j s := by
  intro nb
  induction nb with
  | zero => intro j s _; rfl
  | succ nb ih =>
    intro j s h
    rw [ecb_encrypt_loop, ecb_encrypt_loop,
      rd_block_same m s.dst j (fun x h1 h2 => h x h1 (by omega))]
    apply ih
    intro x h1 h2
    rw [h x (by omega) (by omega)]
    show _ = (wr_block s.dst j _) x
    rw [wr_block_get, if_neg (by omega)]

/-- The ECB decryption loop run in place is the loop run on a copy of the source bytes. -/
theorem ecb_decrypt_loop_same (m : List Nat) :
    ∀ (nb j : Nat) (s : SilcSt), (∀ x, j ≤ x → x < j + 16 * nb → m.getD x 0 = s.dst x) →
      ecb_decrypt_loop Src.same nb j s = ecb_decrypt_loop (Src.buf m) nb j s := by
  intro nb
  induction nb with
  | zero => intro j s _; rfl
  | succ nb ih =>
    intro j s h
    rw [ecb_decrypt_loop, ecb_decrypt_loop,
      rd_block_same m s.dst j (fun x h1 h2 => h x h1 (by omega))]
    apply ih
    intro x h1 h2
    rw [h x (by omega) (by omega)]
    show _ = (wr_block s.dst j _) x
    rw [wr_block_get, if_neg (by omega)]

/-- The CBC encryption loop run in place is the loop run on a copy of the source bytes. -/
theorem cbc_encrypt_loop_same (m : List Nat) :
    ∀ (nb j : Nat) (s : SilcSt), (∀ x, j ≤ x → x < j + 16 * nb → m.getD x 0 = s.dst x) →
      cbc_encrypt_loop Src.same nb j s = cbc_encrypt_loop (Src.buf m) nb j s := by
  intro nb
  induction nb with
  | zero => intro j s _; rfl
  | succ nb ih =>
    intro j s h
    rw [cbc_encrypt_loop, cbc_encrypt_loop,
      rd_block_same m s.dst j (fun x h1 h2 => h x h1 (by omega))]
    apply ih
    intro x h1 h2
    rw [h x (by omega) (by omega)]
    show _ = (wr_block s.dst j _) x
    rw [wr_block_get, if_neg (by omega)]

/-- The CBC decryption loop run in place is the loop run on a copy of the source bytes:
the ciphertext block is saved in `tmp` before the destination is written. -/
theorem cbc_decrypt_loop_same (m : List Nat) :
    ∀ (nb j : Nat) (s : SilcSt), (∀ x, j ≤ x → x < j + 16 * nb → m.getD x 0 = s.dst x) →
      cbc_decrypt_loop Src.same nb j s = cbc_decrypt_loop (Src.buf m) nb j s := by
  intro nb
  induction nb with
  | zero => intro j s _; rfl
  | succ nb ih =>
    intro j s h
    rw [cbc_decrypt_loop, cbc_decrypt_loop,
      rd_block_same m s.dst j (fun x h1 h2 => h x h1 (by omega))]
    apply ih
    intro x h1 h2
    rw [h x (by omega) (by omega)]
    show _ = (wr_block (wr_block s.dst j _) j _) x
    rw [wr_block_get, if_neg (by omega), wr_block_get, if_neg (by omega)]

/-- A call of `silc_aes_encrypt` in place is the call on a copy of the `len` source bytes,
in every mode and for every length. -/
theorem encrypt_same (mode : Nat) (s : SilcSt) (len : Nat) :
    silc_aes_encrypt mode s Src.same len =
      silc_aes_encrypt mode s (Src.buf (bytes s.dst len)) len := by
  have h : ∀ nb, 16 * nb ≤ len → ∀ x, 0 ≤ x → x < 0 + 16 * nb →
      (bytes s.dst len).getD x 0 = s.dst x :=
    fun nb hnb x _ hx => bytes_getD _ _ _ (by omega)
  have hb : len >>> 4 = len / 16 := shr4 len
  have hle : 16 * (len / 16) ≤ len := by omega
  have g1 := ctr_loop_same (bytes s.dst len) len 0 s (fun x _ hx => bytes_getD _ _ _ (by omega))
  have g2 := cfb_enc_loop_same (bytes s.dst len) len 0 s
    (fun x _ hx => bytes_getD _ _ _ (by omega))
  have g3 := ecb_encrypt_loop_same (bytes s.dst len) (len / 16) 0 s (h _ hle)
  have g4 := cbc_encrypt_loop_same (bytes s.dst len) (len / 16) 0 s (h _ hle)
  simp only [silc_aes_encrypt, hb, g1, g2, g3, g4]

/-- A call of `silc_aes_decrypt` in place is the call on a copy of the `len` source bytes,
in every mode and for every length. -/
theorem decrypt_same (mode : Nat) (s : SilcSt) (len : Nat) :
    silc_aes_decrypt mode s Src.same len =
      silc_aes_decrypt mode s (Src.buf (bytes s.dst len)) len := by
  have h : ∀ nb, 16 * nb ≤ len → ∀ x, 0 ≤ x → x < 0 + 16 * nb →
      (bytes s.dst len).getD x 0 = s.dst x :=
    fun nb hnb x _ hx => bytes_getD _ _ _ (by omega)
  have hb : len >>> 4 = len / 16 := shr4 len
  have hle : 16 * (len / 16) ≤ len := by omega
  have g1 := encrypt_same mode s len
  have g2 := cfb_dec_loop_same (bytes s.dst len) len 0 s
    (fun x _ hx => bytes_getD _ _ _ (by omega))
  have g3 := ecb_decrypt_loop_same (bytes s.dst len) (len / 16) 0 s (h _ hle)
  have g4 := cbc_decrypt_loop_same (bytes s.dst len) (len / 16) 0 s (h _ hle)
  simp only [silc_aes_decrypt, hb, g1, g2, g3, g4]

theorem bytes_congr (a b : Arr) (len : Nat) (h : ∀ x, x < len → a x = b x) :
    bytes a len = bytes b len := by
  apply List.map_congr_left
  intro x hx
  exact h x (List.mem_range.mp hx)

/-- With a source of its own, what `silc_aes_encrypt` returns and writes does not depend on
what the destination held. -/
theorem encrypt_dst_indep (mode : Nat)
    (hmode : mode = SILC_CIPHER_MODE_ECB ∨ mode = SILC_CIPHER_MODE_CBC ∨
      mode = SILC_CIPHER_MODE_CTR ∨ mode = SILC_CIPHER_MODE_CFB)
    (s : SilcSt) (m : List Nat)
    (hlen : mode = SILC_CIPHER_MODE_ECB ∨ mode = SILC_CIPHER_MODE_CBC → m.length % 16 = 0)
    (d2 : Arr) :
    (silc_aes_encrypt mode s (Src.buf m) m.length).1 =
        (silc_aes_encrypt mode { s with dst := d2 } (Src.buf m) m.length).1 ∧
      bytes (silc_aes_encrypt mode s (Src.buf m) m.length).2.dst m.length =
        bytes (silc_aes_encrypt mode { s with dst := d2 } (Src.buf m) m.length).2.dst m.length ∧
      (silc_aes_encrypt mode s (Src.buf m) m.length).2.iv =
        (silc_aes_encrypt mode { s with dst := d2 } (Src.buf m) m.length).2.iv ∧
      (silc_aes_encrypt mode s (Src.buf m) m.length).2.block =
        (silc_aes_encrypt mode { s with dst := d2 } (Src.buf m) m.length).2.block ∧
      (silc_aes_encrypt mode s (Src.buf m) m.length).2.cx =
        (silc_aes_encrypt mode { s with dst := d2 } (Src.buf m) m.length).2.cx := by
  rcases hmode with rfl | rfl | rfl | rfl
  · have hm := len_blocks m (hlen (Or.inl rfl))
    generalize m.length / 16 = n at hm
    have e : 16 * n / 16 = n := by omega
    rw [hm, ecb_encrypt_call, ecb_encrypt_call, e]
    obtain ⟨a1, a2, a3, a4⟩ := ecb_encrypt_loop_eq m n 0 s
    obtain ⟨b1, b2, b3, b4⟩ := ecb_encrypt_loop_eq m n 0 { s with dst := d2 }
    refine ⟨rfl, bytes_congr _ _ _ (fun x hx => ?_), a2.trans b2.symm, a3.trans b3.symm,
      a1.trans b1.symm⟩
    have h1 := a4 x
    have h2 := b4 x
    rw [if_pos (by omega)] at h1 h2
    exact h1.trans h2.symm
  · have hm := len_blocks m (hlen (Or.inr rfl))
    generalize m.length / 16 = n at hm
    rw [hm, cbc_encrypt_call, cbc_encrypt_call]
    obtain ⟨a1, a2, a3, a4⟩ := cbc_encrypt_loop_eq m s.iv n 0 s rfl
    obtain ⟨b1, b2, b3, b4⟩ := cbc_encrypt_loop_eq m s.iv n 0 { s with dst := d2 } rfl
    refine ⟨rfl, bytes_congr _ _ _ (fun x hx => ?_), a2.trans b2.symm, a3.trans b3.symm,
      a1.trans b1.symm⟩
    have h1 := a4 x
    have h2 := b4 x
    rw [if_pos (by omega)] at h1 h2
    exact h1.trans h2.symm
  · rw [ctr_encrypt_eq, ctr_encrypt_eq]
    exact ⟨rfl, (bytes_uncore _ _ _ _ _ (stream_length _ _ _)).trans
      (bytes_uncore _ _ _ _ _ (stream_length _ _ _)).symm, rfl, rfl, rfl⟩
  · rw [cfb_encrypt_eq, cfb_encrypt_eq]
    exact ⟨rfl, (bytes_uncore _ _ _ _ _ (stream_length _ _ _)).trans
      (bytes_uncore _ _ _ _ _ (stream_length _ _ _)).symm, rfl, rfl, rfl⟩

/-- With a source of its own, what `silc_aes_decrypt` returns and writes does not depend on
what the destination held. -/
theorem decrypt_dst_indep (mode : Nat)
    (hmode : mode = SILC_CIPHER_MODE_ECB ∨ mode = SILC_CIPHER_MODE_CBC ∨
      mode = SILC_CIPHER_MODE_CTR ∨ mode = SILC_CIPHER_MODE_CFB)
    (s : SilcSt) (m : List Nat)
    (hlen : mode = SILC_CIPHER_MODE_ECB ∨ mode = SILC_CIPHER_MODE_CBC → m.length % 16 = 0)
    (d2 : Arr) :
    (silc_aes_decrypt mode s (Src.buf m) m.length).1 =
        (silc_aes_decrypt mode { s with dst := d2 } (Src.buf m) m.length).1 ∧
      bytes (silc_aes_decrypt mode s (Src.buf m) m.length).2.dst m.length =
        bytes (silc_aes_decrypt mode { s with dst := d2 } (Src.buf m) m.length).2.dst m.length ∧
      (silc_aes_decrypt mode s (Src.buf m) m.length).2.iv =
        (silc_aes_decrypt mode { s with dst := d2 } (Src.buf m) m.length).2.iv ∧
      (silc_aes_decrypt mode s (Src.buf m) m.length).2.block =
        (silc_aes_decrypt mode { s with dst := d2 } (Src.buf m) m.length).2.block ∧
      (silc_aes_decrypt mode s (Src.buf m) m.length).2.cx =
        (silc_aes_decrypt mode { s with dst := d2 } (Src.buf m) m.length).2.cx := by
  rcases hmode with rfl | rfl | rfl | rfl
  · have hm := len_blocks m (hlen (Or.inl rfl))
    generalize m.length / 16 = n at hm
    have e : 16 * n / 16 = n := by omega
    rw [hm, ecb_decrypt_call, ecb_decrypt_call, e]
    obtain ⟨a1, a2, a3, a4⟩ := ecb_decrypt_loop_eq m n 0 s
    obtain ⟨b1, b2, b3, b4⟩ := ecb_decrypt_loop_eq m n 0 { s with dst := d2 }
    refine ⟨rfl, bytes_congr _ _ _ (fun x hx => ?_), a2.trans b2.symm, a3.trans b3.symm,
      a1.trans b1.symm⟩
    have h1 := a4 x
    have h2 := b4 x
    rw [if_pos (by omega)] at h1 h2
    exact h1.trans h2.symm
  · have hm := len_blocks m (hlen (Or.inr rfl))
    generalize m.length / 16 = n at hm
    rw [hm, cbc_decrypt_call, cbc_decrypt_call]
    obtain ⟨a1, a2, a3, a4⟩ := cbc_decrypt_loop_eq m n 0 s
    obtain ⟨b1, b2, b3, b4⟩ := cbc_decrypt_loop_eq m n 0 { s with dst := d2 }
    refine ⟨rfl, bytes_congr _ _ _ (fun x hx => ?_), a2.trans b2.symm, a3.trans b3.symm,
      a1.trans b1.symm⟩
    have h1 := a4 x
    have h2 := b4 x
    rw [if_pos (by omega)] at h1 h2
    exact h1.trans h2.symm
  · rw [ctr_decrypt_eq, ctr_decrypt_eq]
    exact ⟨rfl, (bytes_uncore _ _ _ _ _ (stream_length _ _ _)).trans
      (bytes_uncore _ _ _ _ _ (stream_length _ _ _)).symm, rfl, rfl, rfl⟩
  · rw [cfb_decrypt_eq, cfb_decrypt_eq]
    exact ⟨rfl, (bytes_uncore _ _ _ _ _ (stream_length _ _ _)).trans
      (bytes_uncore _ _ _ _ _ (stream_length _ _ _)).symm, rfl, rfl, rfl⟩

/-- C24. In-place operation: in each of the modes ECB, CBC, CTR and CFB, for every state (key,
IV, cursor) and every length valid for the mode, `silc_aes_encrypt` and `silc_aes_decrypt`
called with the destination as the source return the same result, leave in the buffer the
same `len` bytes and leave the same IV buffer, keystream block and context as the call on a
copy of the input with a separate destination `d2`, whatever `d2` held. -/
theorem C24_in_place (mode : Nat)
    (hmode : mode = SILC_CIPHER_MODE_ECB ∨ mode = SILC_CIPHER_MODE_CBC ∨
      mode = SILC_CIPHER_MODE_CTR ∨ mode = SILC_CIPHER_MODE_CFB)
    (s : SilcSt) (len : Nat)
    (hlen : mode = SILC_CIPHER_MODE_ECB ∨ mode = SILC_CIPHER_MODE_CBC → len % 16 = 0)
    (d2 : Arr) :
    ((silc_aes_encrypt mode s Src.same len).1 =
        (silc_aes_encrypt mode { s with dst := d2 } (Src.buf (bytes s.dst len)) len).1 ∧
      bytes (silc_aes_encrypt mode s Src.same len).2.dst len =
        bytes (silc_aes_encrypt mode { s with dst := d2 }
          (Src.buf (bytes s.dst len)) len).2.dst len ∧
      (silc_aes_encrypt mode s Src.same len).2.iv =
        (silc_aes_encrypt mode { s with dst := d2 } (Src.buf (bytes s.dst len)) len).2.iv ∧
      (silc_aes_encrypt mode s Src.same len).2.block =
        (silc_aes_encrypt mode { s with dst := d2 } (Src.buf (bytes s.dst len)) len).2.block ∧
      (silc_aes_encrypt mode s Src.same len).2.cx =
        (silc_aes_encrypt mode { s with dst := d2 } (Src.buf (bytes s.dst len)) len).2.cx) ∧
    ((silc_aes_decrypt mode s Src.same len).1 =
        (silc_aes_decrypt mode { s with dst := d2 } (Src.buf (bytes s.dst len)) len).1 ∧
      bytes (silc_aes_decrypt mode s Src.same len).2.dst len =
        bytes (silc_aes_decrypt mode { s with dst := d2 }
          (Src.buf (bytes s.dst len)) len).2.dst len ∧
      (silc_aes_decrypt mode s Src.same len).2.iv =
        (silc_aes_decrypt mode { s with dst := d2 } (Src.buf (bytes s.dst len)) len).2.iv ∧
      (silc_aes_decrypt mode s Src.same len).2.block =
        (silc_aes_decrypt mode { s with dst := d2 } (Src.buf (bytes s.dst len)) len).2.block ∧
      (silc_aes_decrypt mode s Src.same len).2.cx =
        (silc_aes_decrypt mode { s with dst := d2 } (Src.buf (bytes s.dst len)) len).2.cx) := by
  have hl : (bytes s.dst len).length = len := bytes_length _ _
  have h1 := encrypt_dst_indep mode hmode s (bytes s.dst len) (by rw [hl]; exact hlen) d2
  have h2 := decrypt_dst_indep mode hmode s (bytes s.dst len) (by rw [hl]; exact hlen) d2
  rw [hl] at h1 h2
  rw [encrypt_same, decrypt_same]
  exact ⟨h1, h2⟩

/-- Witness of C24: CBC decryption in place of two blocks. -/
theorem C24_in_place_witness :
    (SILC_CIPHER_MODE_CBC = SILC_CIPHER_MODE_ECB ∨ SILC_CIPHER_MODE_CBC = SILC_CIPHER_MODE_CBC ∨
      SILC_CIPHER_MODE_CBC = SILC_CIPHER_MODE_CTR ∨ SILC_CIPHER_MODE_CBC = SILC_CIPHER_MODE_CFB) ∧
    (SILC_CIPHER_MODE_CBC = SILC_CIPHER_MODE_ECB ∨ SILC_CIPHER_MODE_CBC = SILC_CIPHER_MODE_CBC →
      32 % 16 = 0) ∧
    bytes (silc_aes_decrypt SILC_CIPHER_MODE_CBC
        (keyed SILC_CIPHER_MODE_CBC ctx0 fips_key128 16 false fips_plain []
          (wr_list Arr.zero 0 (fips_cipher128 ++ fips_plain))) Src.same 32).2.dst 32 =
      bytes (silc_aes_decrypt SILC_CIPHER_MODE_CBC
        { keyed SILC_CIPHER_MODE_CBC ctx0 fips_key128 16 false fips_plain []
            (wr_list Arr.zero 0 (fips_cipher128 ++ fips_plain)) with dst := Arr.zero }
        (Src.buf (bytes (keyed SILC_CIPHER_MODE_CBC ctx0 fips_key128 16 false fips_plain []
          (wr_list Arr.zero 0 (fips_cipher128 ++ fips_plain))).dst 32)) 32).2.dst 32 :=
  ⟨Or.inr (Or.inl rfl), fun _ => rfl,
    (C24_in_place SILC_CIPHER_MODE_CBC (Or.inr (Or.inl rfl))
      (keyed SILC_CIPHER_MODE_CBC ctx0 fips_key128 16 false fips_plain []
        (wr_list Arr.zero 0 (fips_cipher128 ++ fips_plain))) 32 (fun _ => rfl) Arr.zero).2.2.1⟩

/-! ## The code against the reference cipher -/

set_option maxRecDepth 100000 in
/-- The table `sb_data` is the S-box of the standard. -/
theorem sb_ref_aux : ∀ p, p < 256 → sb p = sbox_ref p := by decide!

set_option maxRecDepth 100000 in
/-- The multiples `f2` to `fe` are the products in GF(2^8), and are bytes. -/
theorem gf_tab_aux : ∀ p, p < 256 →
    (f2 p = gmul 2 p ∧ f3 p = gmul 3 p ∧ f9 p = gmul 9 p ∧ fb p = gmul 11 p ∧ fd p = gmul 13 p ∧
      fe p = gmul 14 p) ∧
    (f2 p < 256 ∧ f3 p < 256 ∧ f9 p < 256 ∧ fb p < 256 ∧ fd p < 256 ∧ fe p < 256) := by decide!

/-- The table `t_rc` holds the round constants of the standard. -/
theorem rc_ref : ∀ j, j < 10 → t_rc j = Rcon j := by decide!

theorem word_eq_pack (a : Nat) (ha : a < 2 ^ 32) :
    a = pack_le (a % 256) (a / 256 % 256) (a / 65536 % 256) (a / 16777216 % 256) := by
  unfold pack_le
  omega

theorem bval_eq (x : Nat) :
    bval x 0 = x % 256 ∧ bval x 1 = x / 256 % 256 ∧ bval x 2 = x / 65536 % 256 ∧
      bval x 3 = x / 16777216 % 256 := by
  simp [bval, Nat.shiftRight_eq_div_pow]

theorem word_byte_eq (x : Nat) :
    word_byte x 0 = x % 256 ∧ word_byte x 1 = x / 256 % 256 ∧ word_byte x 2 = x / 65536 % 256 ∧
      word_byte x 3 = x / 16777216 % 256 := by
  simp [word_byte]

/-- The byte `n` of a word as `bval` gives it is the byte of the reference. -/
theorem word_byte_bval (x n : Nat) (hn : n < 4) : word_byte x n = bval x n := by
  obtain ⟨a0, a1, a2, a3⟩ := bval_eq x
  obtain ⟨b0, b1, b2, b3⟩ := word_byte_eq x
  interval_cases n
  · rw [a0, b0]
  · rw [a1, b1]
  · rw [a2, b2]
  · rw [a3, b3]

theorem word_byte_lt (x n : Nat) : word_byte x n < 256 := Nat.mod_lt _ (by decide)

/-- A word below `2 ^ 32` is the packing of its four bytes. -/
theorem word_of_bval (a : Nat) (ha : a < 2 ^ 32) :
    a = pack_le (bval a 0) (bval a 1) (bval a 2) (bval a 3) := by
  obtain ⟨a0, a1, a2, a3⟩ := bval_eq a
  rw [a0, a1, a2, a3]
  exact word_eq_pack a ha

theorem shl_lt (b k : Nat) (hb : b < 256) (hk : k ≤ 24) : b <<< k < 2 ^ 32 := by
  rw [Nat.shiftLeft_eq]
  calc b * 2 ^ k < 256 * 2 ^ k := Nat.mul_lt_mul_of_pos_right hb (Nat.two_pow_pos k)
    _ ≤ 256 * 2 ^ 24 := Nat.mul_le_mul_left _ (Nat.pow_le_pow_right (by decide) hk)
    _ = 2 ^ 32 := by decide

theorem bytes2word_lt (b0 b1 b2 b3 : Nat) (h0 : b0 < 256) (h1 : b1 < 256) (h2 : b2 < 256)
    (h3 : b3 < 256) : bytes2word b0 b1 b2 b3 < 2 ^ 32 := by
  unfold bytes2word
  have g0 : b0 < 2 ^ 32 := by omega
  exact Nat.or_lt_two_pow (Nat.or_lt_two_pow (Nat.or_lt_two_pow (shl_lt b3 24 h3 (by decide))
    (shl_lt b2 16 h2 (by decide))) (shl_lt b1 8 h1 (by decide))) g0

/-- The macro `bytes2word` packs bytes as the reference does. -/
theorem bytes2word_pack (b0 b1 b2 b3 : Nat) (h0 : b0 < 256) (h1 : b1 < 256) (h2 : b2 < 256)
    (h3 : b3 < 256) : bytes2word b0 b1 b2 b3 = pack_le b0 b1 b2 b3 := by
  obtain ⟨e0, e1, e2, e3⟩ := bval_bytes2word b0 b1 b2 b3 h0 h1 h2 h3
  have := word_of_bval _ (bytes2word_lt b0 b1 b2 b3 h0 h1 h2 h3)
  rw [e0, e1, e2, e3] at this
  exact this

theorem wcol_lt (i p : Nat) (hp : p < 256) : wcol i p < 2 ^ 32 := by
  unfold wcol
  split <;> exact bytes2word_lt _ _ _ _ (by omega) (by omega) (by omega) (by omega)

/-- Four bytes placed in the four lanes give the packed word. -/
theorem lanes_pack (p0 p1 p2 p3 : Nat) (h0 : p0 < 256) (h1 : p1 < 256) (h2 : p2 < 256)
    (h3 : p3 < 256) :
    wcol 0 p0 ^^^ wcol 1 p1 ^^^ wcol 2 p2 ^^^ wcol 3 p3 = pack_le p0 p1 p2 p3 := by
  obtain ⟨e0, e1, e2, e3⟩ := bval_lanes p0 p1 p2 p3 h0 h1 h2 h3
  have := word_of_bval _ (Nat.xor_lt_two_pow (Nat.xor_lt_two_pow (Nat.xor_lt_two_pow
    (wcol_lt 0 p0 h0) (wcol_lt 1 p1 h1)) (wcol_lt 2 p2 h2)) (wcol_lt 3 p3 h3))
  rw [e0, e1, e2, e3] at this
  exact this

theorem sb_ref (b n : Nat) : sb (bval b n) = sbox_ref (bval b n) := sb_ref_aux _ (bval_lt _ _)

theorem word_byte_pack (b0 b1 b2 b3 : Nat) (h0 : b0 < 256) (h1 : b1 < 256) (h2 : b2 < 256)
    (h3 : b3 < 256) :
    word_byte (pack_le b0 b1 b2 b3) 0 = b0 ∧ word_byte (pack_le b0 b1 b2 b3) 1 = b1 ∧
      word_byte (pack_le b0 b1 b2 b3) 2 = b2 ∧ word_byte (pack_le b0 b1 b2 b3) 3 = b3 := by
  obtain ⟨e0, e1, e2, e3⟩ := word_byte_eq (pack_le b0 b1 b2 b3)
  rw [e0, e1, e2, e3]
  unfold pack_le
  omega

/-- The macro `ls_box(x, 3)` is `SubWord (RotWord x)`. -/
theorem ls_box_rot (x : Nat) : ls_box x 3 = SubWord (RotWord x) := by
  obtain ⟨r0, r1, r2, r3⟩ := word_byte_pack (word_byte x 1) (word_byte x 2) (word_byte x 3)
    (word_byte x 0) (word_byte_lt _ _) (word_byte_lt _ _) (word_byte_lt _ _) (word_byte_lt _ _)
  show t_fl 0 (bval x 1) ^^^ t_fl 1 (bval x 2) ^^^ t_fl 2 (bval x 3) ^^^ t_fl 3 (bval x 0) = _
  unfold t_fl SubWord RotWord
  rw [lanes_pack _ _ _ _ (sb_lt _ _) (sb_lt _ _) (sb_lt _ _) (sb_lt _ _), r0, r1, r2, r3,
    sb_ref, sb_ref, sb_ref, sb_ref, word_byte_bval x 0 (by decide), word_byte_bval x 1 (by decide),
    word_byte_bval x 2 (by decide), word_byte_bval x 3 (by decide)]

/-- The macro `ls_box(x, 0)` is `SubWord x`. -/
theorem ls_box_sub (x : Nat) : ls_box x 0 = SubWord x := by
  show t_fl 0 (bval x 0) ^^^ t_fl 1 (bval x 1) ^^^ t_fl 2 (bval x 2) ^^^ t_fl 3 (bval x 3) = _
  unfold t_fl SubWord
  rw [lanes_pack _ _ _ _ (sb_lt _ _) (sb_lt _ _) (sb_lt _ _) (sb_lt _ _),
    sb_ref, sb_ref, sb_ref, sb_ref, word_byte_bval x 0 (by decide), word_byte_bval x 1 (by decide),
    word_byte_bval x 2 (by decide), word_byte_bval x 3 (by decide)]

theorem xor_byte_lt (a b : Nat) (ha : a < 256) (hb : b < 256) : a ^^^ b < 256 :=
  Nat.xor_lt_two_pow (n := 8) ha hb

/-- The XOR of two packed words is packed from the XORs of their bytes. -/
theorem bytes2word_xor (a0 a1 a2 a3 b0 b1 b2 b3 : Nat) (h0 : a0 < 256) (h1 : a1 < 256)
    (h2 : a2 < 256) (h3 : a3 < 256) (g0 : b0 < 256) (g1 : b1 < 256) (g2 : b2 < 256)
    (g3 : b3 < 256) :
    bytes2word a0 a1 a2 a3 ^^^ bytes2word b0 b1 b2 b3 =
      bytes2word (a0 ^^^ b0) (a1 ^^^ b1) (a2 ^^^ b2) (a3 ^^^ b3) := by
  obtain ⟨x0, x1, x2, x3⟩ := bval_bytes2word a0 a1 a2 a3 h0 h1 h2 h3
  obtain ⟨y0, y1, y2, y3⟩ := bval_bytes2word b0 b1 b2 b3 g0 g1 g2 g3
  have hl := word_of_bval _ (Nat.xor_lt_two_pow (bytes2word_lt a0 a1 a2 a3 h0 h1 h2 h3)
    (bytes2word_lt b0 b1 b2 b3 g0 g1 g2 g3))
  rw [bval_xor, bval_xor, bval_xor, bval_xor, x0, x1, x2, x3, y0, y1, y2, y3] at hl
  rw [hl, bytes2word_pack _ _ _ _ (xor_byte_lt _ _ h0 g0) (xor_byte_lt _ _ h1 g1)
    (xor_byte_lt _ _ h2 g2) (xor_byte_lt _ _ h3 g3)]

/-- The macro `ff` (`inv_mcol`) is `InvMixColumns` on the column held in the word. -/
theorem ff_ref (x : Nat) : ff x = InvMixColumn x := by
  obtain ⟨⟨_, _, e9, eb, ed, ee⟩, _, _, l9, lb, ld, le⟩ := gf_tab_aux _ (bval_lt x 0)
  obtain ⟨⟨_, _, f9', fb', fd', fe'⟩, _, _, m9, mb, md, me⟩ := gf_tab_aux _ (bval_lt x 1)
  obtain ⟨⟨_, _, g9, gb, gd, ge⟩, _, _, n9, nb, nd, ne⟩ := gf_tab_aux _ (bval_lt x 2)
  obtain ⟨⟨_, _, h9, hb, hd, he⟩, _, _, o9, ob, od, oe⟩ := gf_tab_aux _ (bval_lt x 3)
  show bytes2word (fe (bval x 0)) (f9 (bval x 0)) (fd (bval x 0)) (fb (bval x 0)) ^^^
      bytes2word (fb (bval x 1)) (fe (bval x 1)) (f9 (bval x 1)) (fd (bval x 1)) ^^^
      bytes2word (fd (bval x 2)) (fb (bval x 2)) (fe (bval x 2)) (f9 (bval x 2)) ^^^
      bytes2word (f9 (bval x 3)) (fd (bval x 3)) (fb (bval x 3)) (fe (bval x 3)) = _
  rw [bytes2word_xor _ _ _ _ _ _ _ _ le l9 ld lb mb me m9 md,
    bytes2word_xor _ _ _ _ _ _ _ _ (xor_byte_lt _ _ le mb) (xor_byte_lt _ _ l9 me)
      (xor_byte_lt _ _ ld m9) (xor_byte_lt _ _ lb md) nd nb ne n9,
    bytes2word_xor _ _ _ _ _ _ _ _ (xor_byte_lt _ _ (xor_byte_lt _ _ le mb) nd)
      (xor_byte_lt _ _ (xor_byte_lt _ _ l9 me) nb) (xor_byte_lt _ _ (xor_byte_lt _ _ ld m9) ne)
      (xor_byte_lt _ _ (xor_byte_lt _ _ lb md) n9) o9 od ob oe,
    bytes2word_pack _ _ _ _
      (xor_byte_lt _ _ (xor_byte_lt _ _ (xor_byte_lt _ _ le mb) nd) o9)
      (xor_byte_lt _ _ (xor_byte_lt _ _ (xor_byte_lt _ _ l9 me) nb) od)
      (xor_byte_lt _ _ (xor_byte_lt _ _ (xor_byte_lt _ _ ld m9) ne) ob)
      (xor_byte_lt _ _ (xor_byte_lt _ _ (xor_byte_lt _ _ lb md) n9) oe)]
  unfold InvMixColumn
  rw [e9, eb, ed, ee, f9', fb', fd', fe', g9, gb, gd, ge, h9, hb, hd, he,
    word_byte_bval x 0 (by decide), word_byte_bval x 1 (by decide),
    word_byte_bval x 2 (by decide), word_byte_bval x 3 (by decide)]

/-- The words after the key in a 128-bit schedule follow the standard recurrence. -/
theorem exp4_ref (key : List Nat) (e : Arr) (h : Exp4 key e 10) :
    ∀ i, 4 ≤ i → i < 44 → e i = e (i - 4) ^^^ expansion_word 4 e i := by
  intro i h1 h2
  have hr : i / 4 - 1 < 10 := by omega
  obtain ⟨a0, a1, a2, a3⟩ := h.2 (i / 4 - 1) hr
  generalize hq : i / 4 - 1 = r at hr a0 a1 a2 a3
  unfold expansion_word
  have hk : i = 4 * r + 4 ∨ i = 4 * r + 5 ∨ i = 4 * r + 6 ∨ i = 4 * r + 7 := by omega
  rcases hk with rfl | rfl | rfl | rfl
  · rw [if_pos (by omega), ← ls_box_rot, hq, ← rc_ref r hr,
      show 4 * r + 4 - 4 = 4 * r by omega, show 4 * r + 4 - 1 = 4 * r + 3 by omega]
    exact a0
  · rw [if_neg (by omega), if_neg (by omega),
      show 4 * r + 5 - 4 = 4 * r + 1 by omega, show 4 * r + 5 - 1 = 4 * r + 4 by omega]
    exact a1
  · rw [if_neg (by omega), if_neg (by omega),
      show 4 * r + 6 - 4 = 4 * r + 2 by omega, show 4 * r + 6 - 1 = 4 * r + 5 by omega]
    exact a2
  · rw [if_neg (by omega), if_neg (by omega),
      show 4 * r + 7 - 4 = 4 * r + 3 by omega, show 4 * r + 7 - 1 = 4 * r + 6 by omega]
    exact a3

/-- The words after the key in a 192-bit schedule follow the standard recurrence. -/
theorem exp6_ref (key : List Nat) (e : Arr) (h : Exp6 key e 7 ∧ Rec6f e 7) :
    ∀ i, 6 ≤ i → i < 52 → e i = e (i - 6) ^^^ expansion_word 6 e i := by
  intro i h1 h2
  have hf : ∀ r, r < 8 → Rec6f e r := by
    intro r hr
    by_cases h7 : r = 7
    · rw [h7]; exact h.2
    · exact (h.1.2 r (by omega)).1
  have hr : i / 6 - 1 < 8 := by omega
  obtain ⟨a0, a1, a2, a3⟩ := hf (i / 6 - 1) hr
  have hrest : i / 6 - 1 < 7 → Rec6 e (i / 6 - 1) := fun hlt => h.1.2 _ hlt
  generalize hq : i / 6 - 1 = r at hr a0 a1 a2 a3 hrest
  unfold expansion_word
  have hk : i = 6 * r + 6 ∨ i = 6 * r + 7 ∨ i = 6 * r + 8 ∨ i = 6 * r + 9 ∨
      (r < 7 ∧ i = 6 * r + 10) ∨ (r < 7 ∧ i = 6 * r + 11) := by omega
  rcases hk with rfl | rfl | rfl | rfl | ⟨h7, rfl⟩ | ⟨h7, rfl⟩
  · rw [if_pos (by omega), ← ls_box_rot, hq, ← rc_ref r (by omega),
      show 6 * r + 6 - 6 = 6 * r by omega, show 6 * r + 6 - 1 = 6 * r + 5 by omega]
    exact a0
  · rw [if_neg (by omega), if_neg (by omega),
      show 6 * r + 7 - 6 = 6 * r + 1 by omega, show 6 * r + 7 - 1 = 6 * r + 6 by omega]
    exact a1
  · rw [if_neg (by omega), if_neg (by omega),
      show 6 * r + 8 - 6 = 6 * r + 2 by omega, show 6 * r + 8 - 1 = 6 * r + 7 by omega]
    exact a2
  · rw [if_neg (by omega), if_neg (by omega),
      show 6 * r + 9 - 6 = 6 * r + 3 by omega, show 6 * r + 9 - 1 = 6 * r + 8 by omega]
    exact a3
  · rw [if_neg (by omega), if_neg (by omega),
      show 6 * r + 10 - 6 = 6 * r + 4 by omega, show 6 * r + 10 - 1 = 6 * r + 9 by omega]
    exact (hrest h7).2.1
  · rw [if_neg (by omega), if_neg (by omega),
      show 6 * r + 11 - 6 = 6 * r + 5 by omega, show 6 * r + 11 - 1 = 6 * r + 10 by omega]
    exact (hrest h7).2.2

/-- The words after the key in a 256-bit schedule follow the standard recurrence. -/
theorem exp8_ref (key : List Nat) (e : Arr) (h : Exp8 key e 6 ∧ Rec8f e 6) :
    ∀ i, 8 ≤ i → i < 60 → e i = e (i - 8) ^^^ expansion_word 8 e i := by
  intro i h1 h2
  have hf : ∀ r, r < 7 → Rec8f e r := by
    intro r hr
    by_cases h6 : r = 6
    · rw [h6]; exact h.2
    · exact (h.1.2 r (by omega)).1
  have hr : i / 8 - 1 < 7 := by omega
  obtain ⟨a0, a1, a2, a3⟩ := hf (i / 8 - 1) hr
  have hrest : i / 8 - 1 < 6 → Rec8 e (i / 8 - 1) := fun hlt => h.1.2 _ hlt
  generalize hq : i / 8 - 1 = r at hr a0 a1 a2 a3 hrest
  unfold expansion_word
  have hk : i = 8 * r + 8 ∨ i = 8 * r + 9 ∨ i = 8 * r + 10 ∨ i = 8 * r + 11 ∨
      (r < 6 ∧ i = 8 * r + 12) ∨ (r < 6 ∧ i = 8 * r + 13) ∨ (r < 6 ∧ i = 8 * r + 14) ∨
      (r < 6 ∧ i = 8 * r + 15) := by omega
  rcases hk with rfl | rfl | rfl | rfl | ⟨h6, rfl⟩ | ⟨h6, rfl⟩ | ⟨h6, rfl⟩ | ⟨h6, rfl⟩
  · rw [if_pos (by omega), ← ls_box_rot, hq, ← rc_ref r (by omega),
      show 8 * r + 8 - 8 = 8 * r by omega, show 8 * r + 8 - 1 = 8 * r + 7 by omega]
    exact a0
  · rw [if_neg (by omega), if_neg (by omega),
      show 8 * r + 9 - 8 = 8 * r + 1 by omega, show 8 * r + 9 - 1 = 8 * r + 8 by omega]
    exact a1
  · rw [if_neg (by omega), if_neg (by omega),
      show 8 * r + 10 - 8 = 8 * r + 2 by omega, show 8 * r + 10 - 1 = 8 * r + 9 by omega]
    exact a2
  · rw [if_neg (by omega), if_neg (by omega),
      show 8 * r + 11 - 8 = 8 * r + 3 by omega, show 8 * r + 11 - 1 = 8 * r + 10 by omega]
    exact a3
  · rw [if_neg (by omega), if_pos ⟨rfl, by omega⟩, ← ls_box_sub,
      show 8 * r + 12 - 8 = 8 * r + 4 by omega, show 8 * r + 12 - 1 = 8 * r + 11 by omega]
    exact (hrest h6).2.1
  · rw [if_neg (by omega), if_neg (by omega),
      show 8 * r + 13 - 8 = 8 * r + 5 by omega, show 8 * r + 13 - 1 = 8 * r + 12 by omega]
    exact (hrest h6).2.2.1
  · rw [if_neg (by omega), if_neg (by omega),
      show 8 * r + 14 - 8 = 8 * r + 6 by omega, show 8 * r + 14 - 1 = 8 * r + 13 by omega]
    exact (hrest h6).2.2.2.1
  · rw [if_neg (by omega), if_neg (by omega),
      show 8 * r + 15 - 8 = 8 * r + 7 by omega, show 8 * r + 15 - 1 = 8 * r + 14 by omega]
    exact (hrest h6).2.2.2.2

/-- C26. Key expansion equals the standard recurrence: for every key of `Nk` = 4, 6 or 8
words (16, 24 or 32 bytes), the schedule `ks` written by `aes_encrypt_key` has `ks[i]` = key
word `i` for `i < Nk` and, for `Nk ≤ i < 4 * (Nr + 1)` (44, 52 or 60),
`ks[i] = ks[i - Nk] XOR t` with `t = SubWord (RotWord ks[i-1]) XOR Rcon[i / Nk - 1]` when
`i mod Nk = 0`, `t = SubWord ks[i-1]` when `Nk = 8` and `i mod 8 = 4`, and `t = ks[i-1]`
otherwise. -/
theorem C26_key_expansion (key : List Nat) (cx : aes_ctx) :
    ((∀ i, i < 4 → (aes_encrypt_key key 16 cx).ks i = word_in key i) ∧
      ∀ i, 4 ≤ i → i < 44 → (aes_encrypt_key key 16 cx).ks i =
        (aes_encrypt_key key 16 cx).ks (i - 4) ^^^
          expansion_word 4 (aes_encrypt_key key 16 cx).ks i) ∧
    ((∀ i, i < 6 → (aes_encrypt_key key 24 cx).ks i = word_in key i) ∧
      ∀ i, 6 ≤ i → i < 52 → (aes_encrypt_key key 24 cx).ks i =
        (aes_encrypt_key key 24 cx).ks (i - 6) ^^^
          expansion_word 6 (aes_encrypt_key key 24 cx).ks i) ∧
    ((∀ i, i < 8 → (aes_encrypt_key key 32 cx).ks i = word_in key i) ∧
      ∀ i, 8 ≤ i → i < 60 → (aes_encrypt_key key 32 cx).ks i =
        (aes_encrypt_key key 32 cx).ks (i - 8) ^^^
          expansion_word 8 (aes_encrypt_key key 32 cx).ks i) := by
  have h4 := enc128_exp key cx
  have h6 := enc192_exp key cx
  have h8 := enc256_exp key cx
  exact ⟨⟨h4.1, exp4_ref key _ h4⟩, ⟨h6.1.1, exp6_ref key _ h6⟩, h8.1.1, exp8_ref key _ h8⟩

/-- C27. Decrypt schedule is the transformed encrypt schedule: for every key of 16, 24 or 32
bytes, with `Nr = key_len / 4 + 6` rounds, `e` the schedule of `aes_encrypt_key` and `d` the
schedule of `aes_decrypt_key`, for every round `r ≤ Nr` and column `c < 4`,
`d[4 * (Nr - r) + c]` is `e[4 * r + c]` when `r = 0` or `r = Nr`, and
`InvMixColumn (e[4 * r + c])` otherwise. -/
theorem C27_decrypt_schedule (key : List Nat) (key_len : Nat)
    (hk : key_len = 16 ∨ key_len = 24 ∨ key_len = 32) (cxe cxd : aes_ctx) (r c : Nat)
    (hr : r ≤ key_len / 4 + 6) (hc : c < 4) :
    (aes_decrypt_key key key_len cxd).ks (4 * (key_len / 4 + 6 - r) + c) =
      if r = 0 ∨ r = key_len / 4 + 6 then (aes_encrypt_key key key_len cxe).ks (4 * r + c)
      else InvMixColumn ((aes_encrypt_key key key_len cxe).ks (4 * r + c)) := by
  have hk2 : KeyLenOk key_len := by
    rcases hk with h | h | h
    · exact Or.inl h
    · exact Or.inr (Or.inl h)
    · exact Or.inr (Or.inr (Or.inl h))
  have hn : rounds_of key_len = key_len / 4 + 6 := by
    rcases hk with rfl | rfl | rfl <;> rfl
  obtain ⟨_, _, _, hd⟩ := key_pair key key_len hk2 cxe cxd
  rw [hn] at hd
  rw [hd r hr c hc, ff_ref]

/-- Witness of C27: round 3 of 12, column 2, for the FIPS-197 C.2 key. -/
theorem C27_decrypt_schedule_witness :
    ((24 : Nat) = 16 ∨ (24 : Nat) = 24 ∨ (24 : Nat) = 32) ∧ 3 ≤ 24 / 4 + 6 ∧ 2 < 4 ∧
    (aes_decrypt_key fips_key192 24 ctx0).ks (4 * (24 / 4 + 6 - 3) + 2) =
      if 3 = 0 ∨ 3 = 24 / 4 + 6 then (aes_encrypt_key fips_key192 24 ctx0).ks (4 * 3 + 2)
      else InvMixColumn ((aes_encrypt_key fips_key192 24 ctx0).ks (4 * 3 + 2)) :=
  ⟨by decide, by decide, by decide,
    C27_decrypt_schedule fips_key192 24 (by decide) ctx0 ctx0 3 2 (by decide) (by decide)⟩

theorem idx4 (c r : Nat) (hr : r < 4) : (4 * c + r) / 4 = c ∧ (4 * c + r) % 4 = r := by
  constructor <;> omega

theorem AddRoundKey_getD (w : Arr) (k : Nat) (s : List Nat) (c r : Nat) (hc : c < 4)
    (hr : r < 4) :
    (AddRoundKey w k s).getD (4 * c + r) 0 = s.getD (4 * c + r) 0 ^^^ bval (w (4 * k + c)) r := by
  obtain ⟨e1, e2⟩ := idx4 c r hr
  unfold AddRoundKey
  rw [map16_getD _ _ (by omega), e1, e2, word_byte_bval _ _ hr]

theorem SubShift_getD (s : List Nat) (c r : Nat) (hc : c < 4) (hr : r < 4) :
    (ShiftRows (SubBytes s)).getD (4 * c + r) 0 =
      sbox_ref (s.getD (4 * ((c + r) % 4) + r) 0) := by
  obtain ⟨e1, e2⟩ := idx4 c r hr
  unfold ShiftRows SubBytes
  rw [map16_getD _ _ (by omega), e1, e2, map16_getD _ _ (by omega)]

theorem MixColumns_getD (s : List Nat) (c r : Nat) (hc : c < 4) (hr : r < 4) :
    (MixColumns s).getD (4 * c + r) 0 =
      gmul 2 (s.getD (4 * c + r) 0) ^^^ gmul 3 (s.getD (4 * c + (r + 1) % 4) 0)
        ^^^ s.getD (4 * c + (r + 2) % 4) 0 ^^^ s.getD (4 * c + (r + 3) % 4) 0 := by
  obtain ⟨e1, e2⟩ := idx4 c r hr
  unfold MixColumns
  rw [map16_getD _ _ (by omega), e1, e2]

theorem fwd_var_idx (x : Arr) (j c : Nat) (hj : j < 4) (hc : c < 4) :
    fwd_var x j c = x ((c + j) % 4) := by
  obtain ⟨⟨a0, a1, a2, a3⟩, ⟨b0, b1, b2, b3⟩, ⟨c0, c1, c2, c3⟩, d0, d1, d2, d3⟩ := fwd_var_eq x
  interval_cases j <;> interval_cases c <;> assumption

/-- The bytes of the column generators of the forward round. -/
theorem bval_ucol (p : Nat) (hp : p < 256) :
    (bval (ucol 0 p) 0 = f2 p ∧ bval (ucol 0 p) 1 = p ∧ bval (ucol 0 p) 2 = p ∧
      bval (ucol 0 p) 3 = f3 p) ∧
    (bval (ucol 1 p) 0 = f3 p ∧ bval (ucol 1 p) 1 = f2 p ∧ bval (ucol 1 p) 2 = p ∧
      bval (ucol 1 p) 3 = p) ∧
    (bval (ucol 2 p) 0 = p ∧ bval (ucol 2 p) 1 = f3 p ∧ bval (ucol 2 p) 2 = f2 p ∧
      bval (ucol 2 p) 3 = p) ∧
    (bval (ucol 3 p) 0 = p ∧ bval (ucol 3 p) 1 = p ∧ bval (ucol 3 p) 2 = f3 p ∧
      bval (ucol 3 p) 3 = f2 p) := by
  obtain ⟨_, l2, l3, _⟩ := gf_tab_aux p hp
  exact ⟨bval_bytes2word _ _ _ _ l2 hp hp l3, bval_bytes2word _ _ _ _ l3 l2 hp hp,
    bval_bytes2word _ _ _ _ hp l3 l2 hp, bval_bytes2word _ _ _ _ hp hp l3 l2⟩

/-- The four bytes of one column after a table round of `aes_encrypt`, in terms of the
S-box outputs `a_j` of the bytes that `fwd_var` selects. -/
theorem round_bytes (ks : Arr) (kp : Nat) (x : Arr) (c : Nat) :
    bval ((rnd t_fn fwd_var ks kp x) c) 0 = bval (ks (kp + c)) 0 ^^^
      (f2 (sb (bval (fwd_var x 0 c) 0)) ^^^ f3 (sb (bval (fwd_var x 1 c) 1)) ^^^
        sb (bval (fwd_var x 2 c) 2) ^^^ sb (bval (fwd_var x 3 c) 3)) ∧
    bval ((rnd t_fn fwd_var ks kp x) c) 1 = bval (ks (kp + c)) 1 ^^^
      (sb (bval (fwd_var x 0 c) 0) ^^^ f2 (sb (bval (fwd_var x 1 c) 1)) ^^^
        f3 (sb (bval (fwd_var x 2 c) 2)) ^^^ sb (bval (fwd_var x 3 c) 3)) ∧
    bval ((rnd t_fn fwd_var ks kp x) c) 2 = bval (ks (kp + c)) 2 ^^^
      (sb (bval (fwd_var x 0 c) 0) ^^^ sb (bval (fwd_var x 1 c) 1) ^^^
        f2 (sb (bval (fwd_var x 2 c) 2)) ^^^ f3 (sb (bval (fwd_var x 3 c) 3))) ∧
    bval ((rnd t_fn fwd_var ks kp x) c) 3 = bval (ks (kp + c)) 3 ^^^
      (f3 (sb (bval (fwd_var x 0 c) 0)) ^^^ sb (bval (fwd_var x 1 c) 1) ^^^
        sb (bval (fwd_var x 2 c) 2) ^^^ f2 (sb (bval (fwd_var x 3 c) 3))) := by
  obtain ⟨⟨a0, a1, a2, a3⟩, _, _, _⟩ := bval_ucol _ (sb_lt (fwd_var x 0 c) 0)
  obtain ⟨_, ⟨b0, b1, b2, b3⟩, _, _⟩ := bval_ucol _ (sb_lt (fwd_var x 1 c) 1)
  obtain ⟨_, _, ⟨c0, c1, c2, c3⟩, _⟩ := bval_ucol _ (sb_lt (fwd_var x 2 c) 2)
  obtain ⟨_, _, _, d0, d1, d2, d3⟩ := bval_ucol _ (sb_lt (fwd_var x 3 c) 3)
  have h : (rnd t_fn fwd_var ks kp x) c = ks (kp + c) ^^^
      (ucol 0 (sb (bval (fwd_var x 0 c) 0)) ^^^ ucol 1 (sb (bval (fwd_var x 1 c) 1)) ^^^
        ucol 2 (sb (bval (fwd_var x 2 c) 2)) ^^^ ucol 3 (sb (bval (fwd_var x 3 c) 3))) := rfl
  rw [h]
  refine ⟨?_, ?_, ?_, ?_⟩ <;>
    simp only [bval_xor, a0, a1, a2, a3, b0, b1, b2, b3, c0, c1, c2, c3, d0, d1, d2, d3]

/-- The four bytes of one column after a full round of the reference cipher, in terms of
the S-box outputs `t_j` of the bytes that `ShiftRows` brings into the column. -/
theorem ref_round_bytes (w : Arr) (k : Nat) (s : List Nat) (c : Nat) (hc : c < 4) :
    (AddRoundKey w k (MixColumns (ShiftRows (SubBytes s)))).getD (4 * c + 0) 0 =
      (gmul 2 (sbox_ref (s.getD (4 * ((c + 0) % 4) + 0) 0)) ^^^
        gmul 3 (sbox_ref (s.getD (4 * ((c + 1) % 4) + 1) 0)) ^^^
        sbox_ref (s.getD (4 * ((c + 2) % 4) + 2) 0) ^^^
        sbox_ref (s.getD (4 * ((c + 3) % 4) + 3) 0)) ^^^ bval (w (4 * k + c)) 0 ∧
    (AddRoundKey w k (MixColumns (ShiftRows (SubBytes s)))).getD (4 * c + 1) 0 =
      (gmul 2 (sbox_ref (s.getD (4 * ((c + 1) % 4) + 1) 0)) ^^^
        gmul 3 (sbox_ref (s.getD (4 * ((c + 2) % 4) + 2) 0)) ^^^
        sbox_ref (s.getD (4 * ((c + 3) % 4) + 3) 0) ^^^
        sbox_ref (s.getD (4 * ((c + 0) % 4) + 0) 0)) ^^^ bval (w (4 * k + c)) 1 ∧
    (AddRoundKey w k (MixColumns (ShiftRows (SubBytes s)))).getD (4 * c + 2) 0 =
      (gmul 2 (sbox_ref (s.getD (4 * ((c + 2) % 4) + 2) 0)) ^^^
        gmul 3 (sbox_ref (s.getD (4 * ((c + 3) % 4) + 3) 0)) ^^^
        sbox_ref (s.getD (4 * ((c + 0) % 4) + 0) 0) ^^^
        sbox_ref (s.getD (4 * ((c + 1) % 4) + 1) 0)) ^^^ bval (w (4 * k + c)) 2 ∧
    (AddRoundKey w k (MixColumns (ShiftRows (SubBytes s)))).getD (4 * c + 3) 0 =
      (gmul 2 (sbox_ref (s.getD (4 * ((c + 3) % 4) + 3) 0)) ^^^
        gmul 3 (sbox_ref (s.getD (4 * ((c + 0) % 4) + 0) 0)) ^^^
        sbox_ref (s.getD (4 * ((c + 1) % 4) + 1) 0) ^^^
        sbox_ref (s.getD (4 * ((c + 2) % 4) + 2) 0)) ^^^ bval (w (4 * k + c)) 3 := by
  have s0 := SubShift_getD s c 0 hc (by decide)
  have s1 := SubShift_getD s c 1 hc (by decide)
  have s2 := SubShift_getD s c 2 hc (by decide)
  have s3 := SubShift_getD s c 3 hc (by decide)
  have m0 : (MixColumns (ShiftRows (SubBytes s))).getD (4 * c + 0) 0 =
      gmul 2 ((ShiftRows (SubBytes s)).getD (4 * c + 0) 0) ^^^
        gmul 3 ((ShiftRows (SubBytes s)).getD (4 * c + 1) 0) ^^^
        (ShiftRows (SubBytes s)).getD (4 * c + 2) 0 ^^^
        (ShiftRows (SubBytes s)).getD (4 * c + 3) 0 := MixColumns_getD _ c 0 hc (by decide)
  have m1 : (MixColumns (ShiftRows (SubBytes s))).getD (4 * c + 1) 0 =
      gmul 2 ((ShiftRows (SubBytes s)).getD (4 * c + 1) 0) ^^^
        gmul 3 ((ShiftRows (SubBytes s)).getD (4 * c + 2) 0) ^^^
        (ShiftRows (SubBytes s)).getD (4 * c + 3) 0 ^^^
        (ShiftRows (SubBytes s)).getD (4 * c + 0) 0 := MixColumns_getD _ c 1 hc (by decide)
  have m2 : (MixColumns (ShiftRows (SubBytes s))).getD (4 * c + 2) 0 =
      gmul 2 ((ShiftRows (SubBytes s)).getD (4 * c + 2) 0) ^^^
        gmul 3 ((ShiftRows (SubBytes s)).getD (4 * c + 3) 0) ^^^
        (ShiftRows (SubBytes s)).getD (4 * c + 0) 0 ^^^
        (ShiftRows (SubBytes s)).getD (4 * c + 1) 0 := MixColumns_getD _ c 2 hc (by decide)
  have m3 : (MixColumns (ShiftRows (SubBytes s))).getD (4 * c + 3) 0 =
      gmul 2 ((ShiftRows (SubBytes s)).getD (4 * c + 3) 0) ^^^
        gmul 3 ((ShiftRows (SubBytes s)).getD (4 * c + 0) 0) ^^^
        (ShiftRows (SubBytes s)).getD (4 * c + 1) 0 ^^^
        (ShiftRows (SubBytes s)).getD (4 * c + 2) 0 := MixColumns_getD _ c 3 hc (by decide)
  rw [AddRoundKey_getD _ _ _ c 0 hc (by decide), AddRoundKey_getD _ _ _ c 1 hc (by decide),
    AddRoundKey_getD _ _ _ c 2 hc (by decide), AddRoundKey_getD _ _ _ c 3 hc (by decide),
    m0, m1, m2, m3, s0, s1, s2, s3]
  exact ⟨rfl, rfl, rfl, rfl⟩

/-- The S-box output of the byte that `fwd_var` selects is that of the byte that `ShiftRows`
brings into the column. -/
theorem sel_byte (x : Arr) (s : List Nat)
    (h : ∀ c, c < 4 → ∀ r, r < 4 → bval (x c) r = s.getD (4 * c + r) 0) (j c : Nat) (hj : j < 4)
    (hc : c < 4) :
    sb (bval (fwd_var x j c) j) = sbox_ref (s.getD (4 * ((c + j) % 4) + j) 0) := by
  rw [fwd_var_idx x j c hj hc, sb_ref, h _ (Nat.mod_lt _ (by decide)) j hj]

theorem xor_rot1 (k a b c d : Nat) : k ^^^ (a ^^^ b ^^^ c ^^^ d) = (b ^^^ c ^^^ d ^^^ a) ^^^ k := by
  simp only [Nat.xor_assoc, Nat.xor_comm, xor_left_comm]

theorem xor_rot2 (k a b c d : Nat) : k ^^^ (a ^^^ b ^^^ c ^^^ d) = (c ^^^ d ^^^ a ^^^ b) ^^^ k := by
  simp only [Nat.xor_assoc, Nat.xor_comm, xor_left_comm]

theorem xor_rot3 (k a b c d : Nat) : k ^^^ (a ^^^ b ^^^ c ^^^ d) = (d ^^^ a ^^^ b ^^^ c) ^^^ k := by
  simp only [Nat.xor_assoc, Nat.xor_comm, xor_left_comm]

/-- One table round of `aes_encrypt` is one full round of the reference cipher on the bytes
of the state. -/
theorem full_round_rep (ks : Arr) (k : Nat) (x : Arr) (s : List Nat)
    (h : ∀ c, c < 4 → ∀ r, r < 4 → bval (x c) r = s.getD (4 * c + r) 0) :
    ∀ c, c < 4 → ∀ r, r < 4 → bval ((rnd t_fn fwd_var ks (4 * k) x) c) r =
      (AddRoundKey ks k (MixColumns (ShiftRows (SubBytes s)))).getD (4 * c + r) 0 := by
  intro c hc r hr
  obtain ⟨a0, a1, a2, a3⟩ := round_bytes ks (4 * k) x c
  obtain ⟨b0, b1, b2, b3⟩ := ref_round_bytes ks k s c hc
  have t0 := sel_byte x s h 0 c (by decide) hc
  have t1 := sel_byte x s h 1 c (by decide) hc
  have t2 := sel_byte x s h 2 c (by decide) hc
  have t3 := sel_byte x s h 3 c (by decide) hc
  obtain ⟨⟨g0, g0', _⟩, _⟩ := gf_tab_aux _ (sb_lt (fwd_var x 0 c) 0)
  obtain ⟨⟨g1, g1', _⟩, _⟩ := gf_tab_aux _ (sb_lt (fwd_var x 1 c) 1)
  obtain ⟨⟨g2, g2', _⟩, _⟩ := gf_tab_aux _ (sb_lt (fwd_var x 2 c) 2)
  obtain ⟨⟨g3, g3', _⟩, _⟩ := gf_tab_aux _ (sb_lt (fwd_var x 3 c) 3)
  rw [t0] at g0 g0'
  rw [t1] at g1 g1'
  rw [t2] at g2 g2'
  rw [t3] at g3 g3'
  simp only [t0, t1, t2, t3, g0, g0', g1, g1', g2, g2', g3, g3'] at a0 a1 a2 a3
  have hr4 : r = 0 ∨ r = 1 ∨ r = 2 ∨ r = 3 := by omega
  rcases hr4 with rfl | rfl | rfl | rfl
  · exact a0.trans ((Nat.xor_comm _ _).trans b0.symm)
  · exact a1.trans ((xor_rot1 _ _ _ _ _).trans b1.symm)
  · exact a2.trans ((xor_rot2 _ _ _ _ _).trans b2.symm)
  · exact a3.trans ((xor_rot3 _ _ _ _ _).trans b3.symm)

/-- The last round of `aes_encrypt` is the last round of the reference cipher. -/
theorem last_round_rep (ks : Arr) (k : Nat) (x : Arr) (s : List Nat)
    (h : ∀ c, c < 4 → ∀ r, r < 4 → bval (x c) r = s.getD (4 * c + r) 0) :
    ∀ c, c < 4 → ∀ r, r < 4 → bval ((rnd t_fl fwd_var ks (4 * k) x) c) r =
      (AddRoundKey ks k (ShiftRows (SubBytes s))).getD (4 * c + r) 0 := by
  intro c hc r hr
  obtain ⟨a0, a1, a2, a3⟩ := bval_SR x c
  have e : (rnd t_fl fwd_var ks (4 * k) x) c = ks (4 * k + c) ^^^ (SR x) c := rfl
  rw [e, bval_xor, AddRoundKey_getD _ _ _ c r hc hr, SubShift_getD _ c r hc hr,
    ← sel_byte x s h r c hr hc, Nat.xor_comm]
  have hr4 : r = 0 ∨ r = 1 ∨ r = 2 ∨ r = 3 := by omega
  rcases hr4 with rfl | rfl | rfl | rfl
  · rw [a0]
  · rw [a1]
  · rw [a2]
  · rw [a3]

/-- Loading the state and adding round key 0. -/
theorem load_rep (ks : Arr) (inp : List Nat) (hb : IsBytes inp) :
    ∀ c, c < 4 → ∀ r, r < 4 → bval ((state_in Arr.zero inp ks 0) c) r =
      (AddRoundKey ks 0 inp).getD (4 * c + r) 0 := by
  intro c hc r hr
  rw [state_in_get _ _ _ _ _ hc, bval_xor, bval_word_in hb _ _ hr,
    AddRoundKey_getD _ _ _ c r hc hr, Nat.mul_zero]

/-- The first `n` table rounds are `n` full rounds of the reference cipher. -/
theorem rounds_rep (ks : Arr) (x : Arr) (s : List Nat)
    (h : ∀ c, c < 4 → ∀ r, r < 4 → bval (x c) r = s.getD (4 * c + r) 0) (n : Nat) :
    ∀ c, c < 4 → ∀ r, r < 4 → bval ((rnds t_fn fwd_var ks 0 n x) c) r =
      (cipher_rounds ks n s).getD (4 * c + r) 0 := by
  induction n with
  | zero => exact h
  | succ n ih =>
    have := full_round_rep ks (n + 1) _ _ ih
    intro c hc r hr
    rw [rnds, cipher_rounds, Nat.zero_add]
    exact this c hc r hr

theorem Cipher_length (nr : Nat) (w : Arr) (inp : List Nat) : (Cipher nr w inp).length = 16 := by
  simp [Cipher, AddRoundKey]

/-- C28. Table-driven encryption refines the reference cipher: for every context whose
schedule is set up for `nr` = 10, 12 or 14 rounds and every block of sixteen bytes,
`aes_encrypt` returns what the reference cipher of FIPS-197 returns: `AddRoundKey` with
round key 0, then `nr - 1` rounds of `SubBytes`, `ShiftRows`, `MixColumns`, `AddRoundKey`,
then a last round of `SubBytes`, `ShiftRows`, `AddRoundKey`, with the S-box and the
`MixColumns` products computed in GF(2^8) modulo `x^8 + x^4 + x^3 + x + 1`.  (The length
of the block is not used: both read a missing byte as zero.) -/
theorem C28_encrypt_refines_reference (cx : aes_ctx) (nr : Nat)
    (hn : nr = 10 ∨ nr = 12 ∨ nr = 14) (h0 : cx.inf_b0 = 16 * nr) (x : List Nat)
    (hb : IsBytes x) :
    aes_encrypt x cx = Cipher nr cx.ks x := by
  rw [aes_encrypt_rounds x cx nr ⟨hn, h0⟩]
  apply state_out_eq _ _ (Cipher_length _ _ _)
  exact last_round_rep cx.ks nr _ _ (rounds_rep cx.ks _ _ (load_rep cx.ks x hb) (nr - 1))

/-- Witness of C28: the FIPS-197 C.3 key and plaintext. -/
theorem C28_encrypt_refines_reference_witness :
    ((14 : Nat) = 10 ∨ (14 : Nat) = 12 ∨ (14 : Nat) = 14) ∧
    (aes_encrypt_key fips_key256 32 ctx0).inf_b0 = 16 * 14 ∧ IsBytes fips_plain ∧
    aes_encrypt fips_plain (aes_encrypt_key fips_key256 32 ctx0) =
      Cipher 14 (aes_encrypt_key fips_key256 32 ctx0).ks fips_plain :=
  ⟨by decide, rfl, fips_plain_bytes,
    C28_encrypt_refines_reference (aes_encrypt_key fips_key256 32 ctx0) 14 (by decide) rfl
      fips_plain fips_plain_bytes⟩

/-! ## The cursor and re-keying -/

theorem enc_key_cursor (key : List Nat) (key_len : Nat) (cx : aes_ctx) :
    (aes_encrypt_key key key_len cx).inf_b2 = cx.inf_b2 := by
  unfold aes_encrypt_key
  split_ifs <;> rfl

theorem dec_key_cursor (key : List Nat) (key_len : Nat) (cx : aes_ctx) :
    (aes_decrypt_key key key_len cx).inf_b2 = cx.inf_b2 := by
  unfold aes_decrypt_key
  split_ifs <;> rfl

/-- Setting a key leaves the cursor `inf.b[2]` as it was, in every mode. -/
theorem set_key_cursor (mode : Nat) (cx : aes_ctx) (key : List Nat) (keylen : Nat)
    (encryption : Bool) :
    (silc_aes_set_key mode cx key keylen encryption).2.inf_b2 = cx.inf_b2 := by
  unfold silc_aes_set_key
  by_cases h1 : mode = SILC_CIPHER_MODE_CTR ∨ mode = SILC_CIPHER_MODE_CFB
  · rw [if_pos h1]
    exact enc_key_cursor key keylen cx
  · rw [if_neg h1]
    by_cases h2 : mode = SILC_CIPHER_MODE_CBC ∨ mode = SILC_CIPHER_MODE_ECB
    · rw [if_pos h2]
      cases encryption
      · exact dec_key_cursor key keylen cx
      · exact enc_key_cursor key keylen cx
    · rw [if_neg h2]

/-- Setting the IV leaves the cursor at 16 or as it was. -/
theorem set_iv_cursor (mode : Nat) (cx : aes_ctx) (ivarg : Option (List Nat)) (h : cx.inf_b2 ≤ 16) :
    (silc_aes_set_iv mode cx ivarg).inf_b2 ≤ 16 := by
  unfold silc_aes_set_iv
  split_ifs
  · exact Nat.le_refl 16
  · exact h

/-- While the cursor stays within the buffered keystream block, CTR output is
the input XORed with that block, whatever the block function. -/
theorem ctr_stream_buffered (E : List Nat → List Nat) (m : List Nat) :
    ∀ c : Core, c.pad + m.length ≤ 16 →
      (stream (ctr_byte E) c m).2 = ⟨c.iv, c.block, c.pad + m.length⟩ ∧
      ∀ i, i < m.length →
        (stream (ctr_byte E) c m).1.getD i 0 = m.getD i 0 ^^^ c.block.getD (c.pad + i) 0 := by
  induction m with
  | nil => intro c _; exact ⟨rfl, fun i hi => absurd hi (Nat.not_lt_zero i)⟩
  | cons b bs ih =>
    intro c h
    rw [List.length_cons] at h
    have hp : c.pad ≠ 16 := by omega
    have e := ctr_byte_old E c b hp
    rw [show (c.pad + 1) % 256 = c.pad + 1 by omega] at e
    obtain ⟨i1, i2⟩ := ih ⟨c.iv, c.block, c.pad + 1⟩ (by show c.pad + 1 + bs.length ≤ 16; omega)
    constructor
    · show (stream (ctr_byte E) (ctr_byte E c b).2 bs).2 = _
      rw [e, i1, List.length_cons]
      show (⟨c.iv, c.block, c.pad + 1 + bs.length⟩ : Core) = ⟨c.iv, c.block, c.pad + (bs.length + 1)⟩
      rw [Nat.add_assoc, Nat.add_comm 1]
    · intro i hi
      rw [stream_cons, e]
      cases i with
      | zero => rfl
      | succ i =>
        rw [List.getD_cons_succ, List.getD_cons_succ, i2 i (by rw [List.length_cons] at hi; omega)]
        show _ ^^^ c.block.getD (c.pad + 1 + i) 0 = _ ^^^ c.block.getD (c.pad + (i + 1)) 0
        rw [Nat.add_assoc, Nat.add_comm 1]

/-- A CTR call that stays within the buffered keystream block: each output
byte is the input byte XORed with a byte of that block, and the IV buffer and
the block are as before. -/
theorem ctr_call_buffered (s : SilcSt) (m : List Nat) (h : s.cx.inf_b2 + m.length ≤ 16) :
    (silc_aes_encrypt SILC_CIPHER_MODE_CTR s (Src.buf m) m.length).2.iv = s.iv ∧
    (silc_aes_encrypt SILC_CIPHER_MODE_CTR s (Src.buf m) m.length).2.block = s.block ∧
    (silc_aes_encrypt SILC_CIPHER_MODE_CTR s (Src.buf m) m.length).2.cx.inf_b2 =
      s.cx.inf_b2 + m.length ∧
    ∀ j, j < m.length →
      (silc_aes_encrypt SILC_CIPHER_MODE_CTR s (Src.buf m) m.length).2.dst j =
        m.getD j 0 ^^^ s.block.getD (s.cx.inf_b2 + j) 0 := by
  obtain ⟨e1, e2⟩ := ctr_stream_buffered (enc_of s.cx) m (core s) h
  rw [ctr_encrypt_eq]
  refine ⟨?_, ?_, ?_, ?_⟩
  · show (stream (ctr_byte (enc_of s.cx)) (core s) m).2.iv = s.iv
    rw [e1]; rfl
  · show (stream (ctr_byte (enc_of s.cx)) (core s) m).2.block = s.block
    rw [e1]; rfl
  · show (stream (ctr_byte (enc_of s.cx)) (core s) m).2.pad = _
    rw [e1]; rfl
  · intro j hj
    show (wr_list s.dst 0 (stream (ctr_byte (enc_of s.cx)) (core s) m).1) j = _
    rw [wr_list_get, if_pos ⟨Nat.zero_le j, by rw [stream_length]; omega⟩, Nat.sub_zero, e2 j hj]
    rfl

/-- C34. Re-keying does not reset the stream position: for every context, key, key length
and direction, `aes_encrypt_key`, `aes_decrypt_key` and `silc_aes_set_key` (in every
mode) leave the cursor `inf.b[2]` as it was, and a `silc_aes_set_key` call leaves the IV
buffer and the buffered keystream block as they were; so in CTR mode, when the cursor
plus the length of the next input stays within 16, every output byte after re-keying is
the input byte XORed with the byte of the keystream block buffered before the re-keying
(the same bytes as without re-keying), and the IV buffer and that block stay. -/
theorem C34_rekey_keeps_stream_position (mode : Nat) (cx : aes_ctx) (key : List Nat)
    (keylen : Nat) (encryption : Bool) (s : SilcSt) (m : List Nat)
    (hlen : s.cx.inf_b2 + m.length ≤ 16) :
    ((aes_encrypt_key key keylen cx).inf_b2 = cx.inf_b2 ∧
      (aes_decrypt_key key keylen cx).inf_b2 = cx.inf_b2 ∧
      (silc_aes_set_key mode cx key keylen encryption).2.inf_b2 = cx.inf_b2) ∧
    ((call mode s (Call.set_key key keylen encryption)).cx.inf_b2 = s.cx.inf_b2 ∧
      (call mode s (Call.set_key key keylen encryption)).iv = s.iv ∧
      (call mode s (Call.set_key key keylen encryption)).block = s.block) ∧
    (∀ j, j < m.length →
      (silc_aes_encrypt SILC_CIPHER_MODE_CTR
          (call SILC_CIPHER_MODE_CTR s (Call.set_key key keylen encryption))
          (Src.buf m) m.length).2.dst j = m.getD j 0 ^^^ s.block.getD (s.cx.inf_b2 + j) 0 ∧
      (silc_aes_encrypt SILC_CIPHER_MODE_CTR
          (call SILC_CIPHER_MODE_CTR s (Call.set_key key keylen encryption))
          (Src.buf m) m.length).2.dst j =
        (silc_aes_encrypt SILC_CIPHER_MODE_CTR s (Src.buf m) m.length).2.dst j) ∧
    (silc_aes_encrypt SILC_CIPHER_MODE_CTR
        (call SILC_CIPHER_MODE_CTR s (Call.set_key key keylen encryption))
        (Src.buf m) m.length).2.block = s.block ∧
    (silc_aes_encrypt SILC_CIPHER_MODE_CTR
        (call SILC_CIPHER_MODE_CTR s (Call.set_key key keylen encryption))
        (Src.buf m) m.length).2.iv = s.iv := by
  have hk : ∀ md, (call md s (Call.set_key key keylen encryption)).cx.inf_b2 = s.cx.inf_b2 :=
    fun md => set_key_cursor md s.cx key keylen encryption
  have h2 : (call SILC_CIPHER_MODE_CTR s (Call.set_key key keylen encryption)).cx.inf_b2 +
      m.length ≤ 16 := by rw [hk]; exact hlen
  obtain ⟨a1, a2, _, a4⟩ :=
    ctr_call_buffered (call SILC_CIPHER_MODE_CTR s (Call.set_key key keylen encryption)) m h2
  obtain ⟨_, _, _, b4⟩ := ctr_call_buffered s m hlen
  refine ⟨⟨enc_key_cursor key keylen cx, dec_key_cursor key keylen cx,
    set_key_cursor mode cx key keylen encryption⟩, ⟨hk mode, rfl, rfl⟩, ?_, ?_, ?_⟩
  · intro j hj
    have e : (silc_aes_encrypt SILC_CIPHER_MODE_CTR
          (call SILC_CIPHER_MODE_CTR s (Call.set_key key keylen encryption))
          (Src.buf m) m.length).2.dst j = m.getD j 0 ^^^ s.block.getD (s.cx.inf_b2 + j) 0 := by
      rw [a4 j hj, hk]
      rfl
    exact ⟨e, by rw [e, b4 j hj]⟩
  · rw [a2]; rfl
  · rw [a1]; rfl

/-- Witness of C34: a CTR instance five bytes into its keystream block, re-keyed, then
three more bytes. -/
theorem C34_rekey_keeps_stream_position_witness :
    (⟨⟨Arr.zero, 160, 5⟩, fips_plain, fips_cipher128, Arr.zero⟩ : SilcSt).cx.inf_b2 +
      [1, 2, 3].length ≤ 16 ∧
    (silc_aes_encrypt SILC_CIPHER_MODE_CTR
        (call SILC_CIPHER_MODE_CTR ⟨⟨Arr.zero, 160, 5⟩, fips_plain, fips_cipher128, Arr.zero⟩
          (Call.set_key fips_key256 32 true))
        (Src.buf [1, 2, 3]) [1, 2, 3].length).2.block = fips_cipher128 :=
  ⟨by decide,
    (C34_rekey_keeps_stream_position SILC_CIPHER_MODE_CTR ctx0 fips_key256 32 true
      ⟨⟨Arr.zero, 160, 5⟩, fips_plain, fips_cipher128, Arr.zero⟩ [1, 2, 3] (by decide)).2.2.2.1⟩

/-! ## Ragged lengths, unkeyed contexts and call sequences -/

theorem div16_blocks (len : Nat) : 16 * (len / 16) / 16 = len / 16 := by omega

/-- C36. ECB on a ragged length: for every state and every length `len`, `silc_aes_encrypt`
and `silc_aes_decrypt` in ECB mode (total functions) do what they do on the length
`16 * (len / 16)`, for every source; on a source `m` of its own they return TRUE, block `i`
of the destination is the block transform of block `i` of `m` for every `i < len / 16`,
every destination byte from offset `16 * (len / 16)` on (the trailing `len mod 16` bytes
among them) is as before, and the IV buffer, the keystream block and the context are as
before. -/
theorem C36_ecb_ragged_length (s : SilcSt) (src : Src) (m : List Nat) (len : Nat) :
    (silc_aes_encrypt SILC_CIPHER_MODE_ECB s src len =
        silc_aes_encrypt SILC_CIPHER_MODE_ECB s src (16 * (len / 16)) ∧
      silc_aes_decrypt SILC_CIPHER_MODE_ECB s src len =
        silc_aes_decrypt SILC_CIPHER_MODE_ECB s src (16 * (len / 16))) ∧
    ((silc_aes_encrypt SILC_CIPHER_MODE_ECB s (Src.buf m) len).1 = true ∧
      (∀ i, i < len / 16 → ∀ t, t < 16 →
        (silc_aes_encrypt SILC_CIPHER_MODE_ECB s (Src.buf m) len).2.dst (16 * i + t) =
          (aes_encrypt (blk m i) s.cx).getD t 0) ∧
      (∀ x, 16 * (len / 16) ≤ x →
        (silc_aes_encrypt SILC_CIPHER_MODE_ECB s (Src.buf m) len).2.dst x = s.dst x) ∧
      (silc_aes_encrypt SILC_CIPHER_MODE_ECB s (Src.buf m) len).2.iv = s.iv ∧
      (silc_aes_encrypt SILC_CIPHER_MODE_ECB s (Src.buf m) len).2.block = s.block ∧
      (silc_aes_encrypt SILC_CIPHER_MODE_ECB s (Src.buf m) len).2.cx = s.cx) ∧
    ((silc_aes_decrypt SILC_CIPHER_MODE_ECB s (Src.buf m) len).1 = true ∧
      (∀ i, i < len / 16 → ∀ t, t < 16 →
        (silc_aes_decrypt SILC_CIPHER_MODE_ECB s (Src.buf m) len).2.dst (16 * i + t) =
          (aes_decrypt (blk m i) s.cx).getD t 0) ∧
      (∀ x, 16 * (len / 16) ≤ x →
        (silc_aes_decrypt SILC_CIPHER_MODE_ECB s (Src.buf m) len).2.dst x = s.dst x) ∧
      (silc_aes_decrypt SILC_CIPHER_MODE_ECB s (Src.buf m) len).2.iv = s.iv ∧
      (silc_aes_decrypt SILC_CIPHER_MODE_ECB s (Src.buf m) len).2.block = s.block ∧
      (silc_aes_decrypt SILC_CIPHER_MODE_ECB s (Src.buf m) len).2.cx = s.cx) := by
  refine ⟨⟨?_, ?_⟩, ?_, ?_⟩
  · rw [ecb_encrypt_call, ecb_encrypt_call, div16_blocks]
  · rw [ecb_decrypt_call, ecb_decrypt_call, div16_blocks]
  · rw [ecb_encrypt_call]
    obtain ⟨e1, e2, e3, e4⟩ := ecb_encrypt_loop_eq m (len / 16) 0 s
    rw [Nat.mul_zero] at e1 e2 e3 e4
    rw [Nat.zero_add] at e4
    refine ⟨rfl, ?_, ?_, e2, e3, e1⟩
    · intro i hi t ht
      show (ecb_encrypt_loop (Src.buf m) (len / 16) 0 s).dst (16 * i + t) = _
      rw [e4, if_pos ⟨Nat.zero_le _, by omega⟩, show (16 * i + t) / 16 = i by omega,
        show (16 * i + t) % 16 = t by omega]
      rfl
    · intro x hx
      show (ecb_encrypt_loop (Src.buf m) (len / 16) 0 s).dst x = _
      rw [e4, if_neg (by omega)]
  · rw [ecb_decrypt_call]
    obtain ⟨e1, e2, e3, e4⟩ := ecb_decrypt_loop_eq m (len / 16) 0 s
    rw [Nat.mul_zero] at e1 e2 e3 e4
    rw [Nat.zero_add] at e4
    refine ⟨rfl, ?_, ?_, e2, e3, e1⟩
    · intro i hi t ht
      show (ecb_decrypt_loop (Src.buf m) (len / 16) 0 s).dst (16 * i + t) = _
      rw [e4, if_pos ⟨Nat.zero_le _, by omega⟩, show (16 * i + t) / 16 = i by omega,
        show (16 * i + t) % 16 = t by omega]
      rfl
    · intro x hx
      show (ecb_decrypt_loop (Src.buf m) (len / 16) 0 s).dst x = _
      rw [e4, if_neg (by omega)]

/-- With a round-count byte that is none of 160, 192 and 224, `aes_encrypt`
stores the loaded state back without any round. -/
theorem aes_encrypt_no_round (cx : aes_ctx)
    (h : cx.inf_b0 ≠ 160 ∧ cx.inf_b0 ≠ 192 ∧ cx.inf_b0 ≠ 224) (inp : List Nat) :
    aes_encrypt inp cx = state_out (state_in Arr.zero inp cx.ks 0) := by
  unfold aes_encrypt
  simp only []
  rw [if_neg (show ¬cx.inf_b0 = 14 * 16 by omega), if_neg (show ¬cx.inf_b0 = 12 * 16 by omega),
    if_neg (show ¬cx.inf_b0 = 10 * 16 by omega)]

theorem bval_zero (n : Nat) : bval 0 n = 0 := by
  unfold bval
  rw [Nat.zero_shiftRight]

/-- C35. Unkeyed block transform: for every context whose round-count byte `inf.b[0]` is
none of 160, 192 and 224 and every block `inp` of bytes, `aes_encrypt` applies no round (it
stores the loaded state back) and byte `4 * c + n` of its result is byte `4 * c + n` of the
input XORed with byte `n` of the schedule word `ks[c]`; and on the context that
`silc_aes_init` prepares, `silc_aes_encrypt` in ECB mode returns TRUE for every length and
every byte of the destination within the `len / 16` whole blocks is the input byte. -/
theorem C35_unkeyed_block_transform (cx : aes_ctx)
    (h : cx.inf_b0 ≠ 160 ∧ cx.inf_b0 ≠ 192 ∧ cx.inf_b0 ≠ 224) (inp : List Nat)
    (hb : IsBytes inp) (m : List Nat) (hm : IsBytes m) (len : Nat) (iv block : List Nat)
    (dst : Arr) :
    aes_encrypt inp cx = state_out (state_in Arr.zero inp cx.ks 0) ∧
    (∀ c, c < 4 → ∀ n, n < 4 →
      (aes_encrypt inp cx).getD (4 * c + n) 0 = inp.getD (4 * c + n) 0 ^^^ bval (cx.ks c) n) ∧
    (∀ cx0, silc_aes_init true = some cx0 →
      (silc_aes_encrypt SILC_CIPHER_MODE_ECB ⟨cx0, iv, block, dst⟩ (Src.buf m) len).1 = true ∧
      ∀ x, x < 16 * (len / 16) →
        (silc_aes_encrypt SILC_CIPHER_MODE_ECB ⟨cx0, iv, block, dst⟩ (Src.buf m) len).2.dst x =
          m.getD x 0) := by
  have key : ∀ (cx : aes_ctx), (cx.inf_b0 ≠ 160 ∧ cx.inf_b0 ≠ 192 ∧ cx.inf_b0 ≠ 224) →
      ∀ inp : List Nat, IsBytes inp → ∀ c, c < 4 → ∀ n, n < 4 →
        (aes_encrypt inp cx).getD (4 * c + n) 0 =
          inp.getD (4 * c + n) 0 ^^^ bval (cx.ks c) n := by
    intro cx h inp hb c hc n hn
    rw [aes_encrypt_no_round cx h, state_out_getD _ c n hc hn, state_in_get _ _ _ _ c hc,
      bval_xor, bval_word_in hb c n hn, Nat.zero_add]
  refine ⟨aes_encrypt_no_round cx h inp, key cx h inp hb, ?_⟩
  intro cx0 h0
  have e : cx0 = ⟨Arr.zero, 0, 16⟩ := (Option.some.inj h0).symm
  subst e
  rw [ecb_encrypt_call]
  refine ⟨rfl, ?_⟩
  intro x hx
  obtain ⟨_, _, _, e4⟩ := ecb_encrypt_loop_eq m (len / 16) 0 ⟨⟨Arr.zero, 0, 16⟩, iv, block, dst⟩
  rw [Nat.mul_zero, Nat.zero_add] at e4
  show (ecb_encrypt_loop (Src.buf m) (len / 16) 0 ⟨⟨Arr.zero, 0, 16⟩, iv, block, dst⟩).dst x = _
  rw [e4, if_pos ⟨Nat.zero_le _, hx⟩]
  have k := key ⟨Arr.zero, 0, 16⟩ (by decide) (blk m (x / 16)) (blk_bytes m hm (x / 16))
    (x % 16 / 4) (by omega) (x % 4) (by omega)
  rw [show 4 * (x % 16 / 4) + x % 4 = x % 16 by omega] at k
  show (aes_encrypt (blk m (x / 16)) ⟨Arr.zero, 0, 16⟩).getD (x % 16) 0 = _
  rw [k, blk_getD m _ _ (by omega), show 16 * (x / 16) + x % 16 = x by omega]
  show m.getD x 0 ^^^ bval 0 (x % 4) = _
  rw [bval_zero, Nat.xor_zero]

/-- Witness of C35: the prepared context, the FIPS-197 plaintext and seventeen bytes. -/
theorem C35_unkeyed_block_transform_witness :
    ((⟨Arr.zero, 0, 16⟩ : aes_ctx).inf_b0 ≠ 160 ∧ (⟨Arr.zero, 0, 16⟩ : aes_ctx).inf_b0 ≠ 192 ∧
      (⟨Arr.zero, 0, 16⟩ : aes_ctx).inf_b0 ≠ 224) ∧
    IsBytes fips_plain ∧
    (silc_aes_encrypt SILC_CIPHER_MODE_ECB ⟨⟨Arr.zero, 0, 16⟩, [], [], Arr.zero⟩
      (Src.buf fips_plain) 17).2.dst 5 = fips_plain.getD 5 0 :=
  ⟨by decide, fips_plain_bytes,
    ((C35_unkeyed_block_transform ⟨Arr.zero, 0, 16⟩ (by decide) fips_plain fips_plain_bytes
      fips_plain fips_plain_bytes 17 [] [] Arr.zero).2.2 ⟨Arr.zero, 0, 16⟩ rfl).2 5 (by decide)⟩

theorem ecb_encrypt_loop_cx (src : Src) :
    ∀ (nb j : Nat) (s : SilcSt), (ecb_encrypt_loop src nb j s).cx = s.cx := by
  intro nb
  induction nb with
  | zero => intro j s; rfl
  | succ nb ih => intro j s; rw [ecb_encrypt_loop, ih]

theorem ecb_decrypt_loop_cx (src : Src) :
    ∀ (nb j : Nat) (s : SilcSt), (ecb_decrypt_loop src nb j s).cx = s.cx := by
  intro nb
  induction nb with
  | zero => intro j s; rfl
  | succ nb ih => intro j s; rw [ecb_decrypt_loop, ih]

theorem cbc_encrypt_loop_cx (src : Src) :
    ∀ (nb j : Nat) (s : SilcSt), (cbc_encrypt_loop src nb j s).cx = s.cx := by
  intro nb
  induction nb with
  | zero => intro j s; rfl
  | succ nb ih => intro j s; rw [cbc_encrypt_loop, ih]

theorem cbc_decrypt_loop_cx (src : Src) :
    ∀ (nb j : Nat) (s : SilcSt), (cbc_decrypt_loop src nb j s).cx = s.cx := by
  intro nb
  induction nb with
  | zero => intro j s; rfl
  | succ nb ih => intro j s; rw [cbc_decrypt_loop, ih]

/-- A call of `silc_aes_encrypt` keeps the cursor at most 16, in every mode. -/
theorem encrypt_cursor (mode : Nat) (s : SilcSt) (src : Src) (len : Nat)
    (h : s.cx.inf_b2 ≤ 16) : (silc_aes_encrypt mode s src len).2.cx.inf_b2 ≤ 16 := by
  unfold silc_aes_encrypt
  by_cases h1 : mode = SILC_CIPHER_MODE_CTR
  · rw [if_pos h1]
    exact ctr_loop_cursor src len 0 s h
  rw [if_neg h1]
  by_cases h2 : mode = SILC_CIPHER_MODE_ECB
  · rw [if_pos h2]
    show (ecb_encrypt_loop src (len >>> 4) 0 s).cx.inf_b2 ≤ 16
    rw [ecb_encrypt_loop_cx]
    exact h
  rw [if_neg h2]
  by_cases h3 : mode = SILC_CIPHER_MODE_CBC
  · rw [if_pos h3]
    by_cases h4 : len &&& (16 - 1) ≠ 0
    · simp only [if_pos h4]
      exact h
    · simp only [if_neg h4]
      rw [cbc_encrypt_loop_cx]
      exact h
  rw [if_neg h3]
  by_cases h5 : mode = SILC_CIPHER_MODE_CFB
  · rw [if_pos h5]
    exact cfb_enc_loop_cursor src len 0 s h
  rw [if_neg h5]
  exact h

/-- A call of `silc_aes_decrypt` keeps the cursor at most 16, in every mode. -/
theorem decrypt_cursor (mode : Nat) (s : SilcSt) (src : Src) (len : Nat)
    (h : s.cx.inf_b2 ≤ 16) : (silc_aes_decrypt mode s src len).2.cx.inf_b2 ≤ 16 := by
  unfold silc_aes_decrypt
  by_cases h1 : mode = SILC_CIPHER_MODE_CTR
  · rw [if_pos h1]
    exact encrypt_cursor mode s src len h
  rw [if_neg h1]
  by_cases h2 : mode = SILC_CIPHER_MODE_ECB
  · rw [if_pos h2]
    show (ecb_decrypt_loop src (len >>> 4) 0 s).cx.inf_b2 ≤ 16
    rw [ecb_decrypt_loop_cx]
    exact h
  rw [if_neg h2]
  by_cases h3 : mode = SILC_CIPHER_MODE_CBC
  · rw [if_pos h3]
    by_cases h4 : len &&& (16 - 1) ≠ 0
    · simp only [if_pos h4]
      exact h
    · simp only [if_neg h4]
      rw [cbc_decrypt_loop_cx]
      exact h
  rw [if_neg h3]
  by_cases h5 : mode = SILC_CIPHER_MODE_CFB
  · rw [if_pos h5]
    exact cfb_dec_loop_cursor src len 0 s h
  rw [if_neg h5]
  exact h

/-- One API call keeps the cursor at most 16. -/
theorem call_cursor (mode : Nat) (s : SilcSt) (c : Call) (h : s.cx.inf_b2 ≤ 16) :
    (call mode s c).cx.inf_b2 ≤ 16 := by
  cases c with
  | set_key key keylen encryption =>
    show (silc_aes_set_key mode s.cx key keylen encryption).2.inf_b2 ≤ 16
    rw [set_key_cursor]
    exact h
  | set_iv iv0 ivarg => exact set_iv_cursor mode s.cx ivarg h
  | encrypt src len => exact encrypt_cursor mode s src len h
  | decrypt src len => exact decrypt_cursor mode s src len h

/-- A sequence of API calls keeps the cursor at most 16. -/
theorem calls_cursor (mode : Nat) (l : List Call) :
    ∀ s : SilcSt, s.cx.inf_b2 ≤ 16 → (calls mode s l).cx.inf_b2 ≤ 16 := by
  induction l with
  | nil => intro s h; exact h
  | cons c l ih =>
    intro s h
    exact ih (call mode s c) (call_cursor mode s c h)

/-- C31, counterexample. The cursor is not always below 16: the context that
`silc_aes_init` prepares has cursor 16 before any call (here as a CTR instance), a
`silc_aes_set_iv` call in CTR mode puts it back to 16, and so does a CTR encryption that
ends on a block boundary (sixteen bytes from a fresh cursor). -/
theorem C31_cursor_sixteen_reachable :
    silc_aes_init true = some ⟨Arr.zero, 0, 16⟩ ∧
    ¬((calls SILC_CIPHER_MODE_CTR ⟨⟨Arr.zero, 0, 16⟩, fips_plain, [], Arr.zero⟩
        []).cx.inf_b2 < 16) ∧
    ¬((calls SILC_CIPHER_MODE_CTR ⟨⟨Arr.zero, 0, 16⟩, fips_plain, [], Arr.zero⟩
        [Call.set_key fips_key128 16 true, Call.encrypt (Src.buf [1, 2, 3]) 3,
          Call.set_iv fips_plain none]).cx.inf_b2 < 16) ∧
    ¬((calls SILC_CIPHER_MODE_CTR ⟨⟨Arr.zero, 0, 16⟩, fips_plain, [], Arr.zero⟩
        [Call.set_key fips_key128 16 true, Call.set_iv fips_plain none,
          Call.encrypt (Src.buf fips_plain) 16]).cx.inf_b2 < 16) := by
  refine ⟨rfl, by decide, by decide, ?_⟩
  decide

/-- C31, amended. In every state reachable from the context that `silc_aes_init` prepares
through any sequence of `silc_aes_set_key`, `silc_aes_set_iv`, `silc_aes_encrypt` and
`silc_aes_decrypt` calls, in any mode and with any buffers, the cursor `inf.b[2]` is at
most 16 (16 included: it is the start-a-new-block state). -/
theorem C31_cursor_at_most_sixteen (alloc_ok : Bool) (cx : aes_ctx)
    (h : silc_aes_init alloc_ok = some cx) (mode : Nat) (iv block : List Nat) (dst : Arr)
    (l : List Call) : (calls mode ⟨cx, iv, block, dst⟩ l).cx.inf_b2 ≤ 16 := by
  apply calls_cursor
  have e : cx = ⟨Arr.zero, 0, 16⟩ := by
    cases alloc_ok
    · exact absurd h (by simp [silc_aes_init])
    · exact (Option.some.inj h).symm
  rw [e]

/-- Witness of C31 (amended): the prepared context as a CFB instance, keyed, reset, then
seventeen bytes encrypted and three decrypted in place. -/
theorem C31_cursor_at_most_sixteen_witness :
    silc_aes_init true = some ⟨Arr.zero, 0, 16⟩ ∧
    (calls SILC_CIPHER_MODE_CFB ⟨⟨Arr.zero, 0, 16⟩, fips_plain, [], Arr.zero⟩
      [Call.set_key fips_key128 16 true, Call.set_iv fips_plain none,
        Call.encrypt (Src.buf (fips_plain ++ [7])) 17, Call.decrypt Src.same 3]).cx.inf_b2 ≤ 16 :=
  ⟨rfl, C31_cursor_at_most_sixteen true ⟨Arr.zero, 0, 16⟩ rfl SILC_CIPHER_MODE_CFB fips_plain []
    Arr.zero _⟩

theorem cbc_length_assert_iff (len : Nat) : cbc_length_assert len = true ↔ len % 16 = 0 := by
  unfold cbc_length_assert
  rw [and15, beq_iff_eq]

/-- C32. The length assertion of the CBC branch of `silc_aes_encrypt` can fail: its
condition `(len & (16 - 1)) == 0` holds exactly for the multiples of 16, so it is false
at `len = 17`; for every length, `silc_aes_encrypt` in CBC mode returns FALSE exactly
when that assertion has failed on the way, whereas `silc_aes_decrypt` in CBC mode has no
assertion and reports the same lengths by its FALSE result alone. -/
theorem C32_cbc_length_assert_can_fail (s : SilcSt) (src : Src) (len : Nat) :
    (silc_aes_encrypt_asserts SILC_CIPHER_MODE_CBC len = true ↔ len % 16 = 0) ∧
    silc_aes_encrypt_asserts SILC_CIPHER_MODE_CBC 17 = false ∧
    ((silc_aes_encrypt SILC_CIPHER_MODE_CBC s src len).1 = false ↔
      silc_aes_encrypt_asserts SILC_CIPHER_MODE_CBC len = false) ∧
    silc_aes_decrypt_asserts SILC_CIPHER_MODE_CBC len = true ∧
    ((silc_aes_decrypt SILC_CIPHER_MODE_CBC s src len).1 = false ↔ len % 16 ≠ 0) := by
  have ha : silc_aes_encrypt_asserts SILC_CIPHER_MODE_CBC len = cbc_length_assert len := rfl
  have he := encrypt_result SILC_CIPHER_MODE_CBC s src len
  have hd := decrypt_result SILC_CIPHER_MODE_CBC s src len
  have hm : ∀ P : Prop, (SILC_CIPHER_MODE_CBC = SILC_CIPHER_MODE_CTR ∨
      SILC_CIPHER_MODE_CBC = SILC_CIPHER_MODE_ECB ∨ SILC_CIPHER_MODE_CBC = SILC_CIPHER_MODE_CFB ∨
      (SILC_CIPHER_MODE_CBC = SILC_CIPHER_MODE_CBC ∧ P)) ↔ P := by
    intro P
    constructor
    · rintro (h | h | h | h)
      · exact absurd h (by decide)
      · exact absurd h (by decide)
      · exact absurd h (by decide)
      · exact h.2
    · intro h; exact Or.inr (Or.inr (Or.inr ⟨rfl, h⟩))
  rw [hm] at he hd
  refine ⟨?_, by decide, ?_, rfl, ?_⟩
  · rw [ha]; exact cbc_length_assert_iff len
  · rw [ha, Bool.eq_false_iff, Bool.eq_false_iff, Ne, Ne, he, cbc_length_assert_iff]
  · rw [Bool.eq_false_iff, Ne, hd]

/-- C37. The context of `silc_aes_init`: its body hands nothing to its caller (there is no
`return` statement on any path), whether the allocation succeeded or not; the context it
allocated and prepared is zero-filled except for the cursor `inf.b[2]`, which is 16, and
there is none when the allocation fails; on that context the first byte processed in CTR
mode increments the counter and encrypts it into the keystream block, and the first byte
processed in CFB mode encrypts the IV buffer, and either leaves the cursor at 1. -/
theorem C37_init_context (alloc_ok : Bool) (iv block : List Nat) (dst : Arr) (src : Src) :
    silc_aes_init_returned alloc_ok = none ∧
    silc_aes_init true = some ⟨Arr.zero, 0, 16⟩ ∧
    silc_aes_init false = none ∧
    (∀ cx, silc_aes_init alloc_ok = some cx →
      ((silc_aes_encrypt SILC_CIPHER_MODE_CTR ⟨cx, iv, block, dst⟩ src 1).2.iv = ctr_inc iv 16 ∧
        (silc_aes_encrypt SILC_CIPHER_MODE_CTR ⟨cx, iv, block, dst⟩ src 1).2.block =
          aes_encrypt (ctr_inc iv 16) cx ∧
        (silc_aes_encrypt SILC_CIPHER_MODE_CTR ⟨cx, iv, block, dst⟩ src 1).2.cx.inf_b2 = 1) ∧
      ((silc_aes_encrypt SILC_CIPHER_MODE_CFB ⟨cx, iv, block, dst⟩ src 1).2.iv =
          (aes_encrypt iv cx).set 0 (rd src dst 0 ^^^ (aes_encrypt iv cx).getD 0 0) ∧
        (silc_aes_encrypt SILC_CIPHER_MODE_CFB ⟨cx, iv, block, dst⟩ src 1).2.cx.inf_b2 = 1) ∧
      ((silc_aes_decrypt SILC_CIPHER_MODE_CFB ⟨cx, iv, block, dst⟩ src 1).2.iv =
          (aes_encrypt iv cx).set 0 (rd src dst 0) ∧
        (silc_aes_decrypt SILC_CIPHER_MODE_CFB ⟨cx, iv, block, dst⟩ src 1).2.cx.inf_b2 = 1)) := by
  refine ⟨rfl, rfl, rfl, ?_⟩
  intro cx h
  have e : cx = ⟨Arr.zero, 0, 16⟩ := by
    cases alloc_ok
    · exact absurd h (by simp [silc_aes_init])
    · exact (Option.some.inj h).symm
  subst e
  exact ⟨⟨rfl, rfl, rfl⟩, ⟨rfl, rfl⟩, ⟨rfl, rfl⟩⟩

/-! ## The CFB feedback buffer -/

/-- One byte of CFB decryption keeps the buffer invariant, with the input byte
as the next ciphertext byte. -/
theorem cfb_dec_step (E : List Nat → List Nat) (hE : ∀ x, (E x).length = 16) (iv0 pre : List Nat)
    (c : Core) (b : Nat) (h : CfbInv E iv0 pre c) :
    CfbInv E iv0 (pre ++ [b]) (cfb_dec_byte E c b).2 := by
  have e := (cfb_enc_step E hE iv0 pre c (cfb_dec_byte E c b).1 h).2
  rw [cfb_byte_inv2] at e
  exact e

/-- The buffer invariant after a CFB encryption stream: the ciphertext that
went through is extended by the output. -/
theorem cfb_enc_stream_inv (E : List Nat → List Nat) (hE : ∀ x, (E x).length = 16)
    (iv0 : List Nat) (rest : List Nat) :
    ∀ (pre : List Nat) (c : Core), CfbInv E iv0 pre c →
      CfbInv E iv0 (pre ++ (stream (cfb_enc_byte E) c rest).1)
        (stream (cfb_enc_byte E) c rest).2 := by
  induction rest with
  | nil =>
    intro pre c h
    show CfbInv E iv0 (pre ++ []) c
    rw [List.append_nil]
    exact h
  | cons b bs ih =>
    intro pre c h
    have e := ih (pre ++ [(cfb_enc_byte E c b).1]) (cfb_enc_byte E c b).2
      (cfb_enc_step E hE iv0 pre c b h).2
    rw [List.append_assoc, List.singleton_append] at e
    exact e

/-- The buffer invariant after a CFB decryption stream: the ciphertext that
went through is extended by the input. -/
theorem cfb_dec_stream_inv (E : List Nat → List Nat) (hE : ∀ x, (E x).length = 16)
    (iv0 : List Nat) (rest : List Nat) :
    ∀ (pre : List Nat) (c : Core), CfbInv E iv0 pre c →
      CfbInv E iv0 (pre ++ rest) (stream (cfb_dec_byte E) c rest).2 := by
  induction rest with
  | nil =>
    intro pre c h
    show CfbInv E iv0 (pre ++ []) c
    rw [List.append_nil]
    exact h
  | cons b bs ih =>
    intro pre c h
    have e := ih (pre ++ [b]) (cfb_dec_byte E c b).2 (cfb_dec_step E hE iv0 pre c b h)
    rw [List.append_assoc, List.singleton_append] at e
    exact e

theorem cfb_enc_byte_pad (E : List Nat → List Nat) (c : Core) (b : Nat) (h : c.pad ≤ 16) :
    1 ≤ (cfb_enc_byte E c b).2.pad ∧ (cfb_enc_byte E c b).2.pad ≤ 16 := by
  by_cases hp : c.pad = 16
  · rw [cfb_enc_new E c b hp]
    exact ⟨Nat.le_refl 1, show (1 : Nat) ≤ 16 by decide⟩
  · rw [cfb_enc_old E c b hp]
    show 1 ≤ (c.pad + 1) % 256 ∧ (c.pad + 1) % 256 ≤ 16
    omega

theorem cfb_dec_byte_pad (E : List Nat → List Nat) (c : Core) (b : Nat) (h : c.pad ≤ 16) :
    1 ≤ (cfb_dec_byte E c b).2.pad ∧ (cfb_dec_byte E c b).2.pad ≤ 16 := by
  have e := congrArg (fun p => p.2.pad) (cfb_byte_inv2 E c b)
  have e2 : (cfb_enc_byte E c (cfb_dec_byte E c b).1).2.pad = (cfb_dec_byte E c b).2.pad := e
  rw [← e2]
  exact cfb_enc_byte_pad E c _ h

/-- After at least one byte, a byte stream whose step leaves the cursor
between 1 and 16 leaves it there. -/
theorem stream_pad (f : Core → Nat → Nat × Core)
    (hf : ∀ c b, c.pad ≤ 16 → 1 ≤ (f c b).2.pad ∧ (f c b).2.pad ≤ 16) (m : List Nat) :
    ∀ c : Core, c.pad ≤ 16 → m ≠ [] → 1 ≤ (stream f c m).2.pad ∧ (stream f c m).2.pad ≤ 16 := by
  induction m with
  | nil => intro c _ h; exact absurd rfl h
  | cons b bs ih =>
    intro c hc _
    show 1 ≤ (stream f (f c b).2 bs).2.pad ∧ (stream f (f c b).2 bs).2.pad ≤ 16
    by_cases hb : bs = []
    · subst hb
      exact hf c b hc
    · exact ih (f c b).2 (hf c b hc).2 hb

/-- What the buffer invariant says at a cursor between 1 and 16 once at least
one ciphertext byte went through. -/
theorem cfb_buffer_of_inv (E : List Nat → List Nat) (iv0 ct : List Nat) (c : Core)
    (h : CfbInv E iv0 ct c) (hn : ct ≠ []) (h1 : 1 ≤ c.pad) (h2 : c.pad ≤ 16) :
    c.pad = (ct.length - 1) % 16 + 1 ∧
    (∀ t, t < c.pad → c.iv.getD t 0 = ct.getD (ct.length - c.pad + t) 0) ∧
    (∀ t, c.pad ≤ t → t < 16 →
      c.iv.getD t 0 = (E (cfb_feedback iv0 ct ((ct.length - 1) / 16))).getD t 0) ∧
    (c.pad = 16 → c.iv = blk ct (ct.length / 16 - 1)) := by
  have hlen : 1 ≤ ct.length := by
    cases ct with
    | nil => exact absurd rfl hn
    | cons a l => rw [List.length_cons]; omega
  by_cases hp : c.pad = 16
  · obtain ⟨hm, hiv⟩ := h.1 hp
    have hq : ct.length / 16 ≠ 0 := by omega
    have hiv2 : c.iv = blk ct (ct.length / 16 - 1) := by
      rw [hiv]
      unfold cfb_feedback
      rw [if_neg hq]
    refine ⟨by omega, ?_, ?_, fun _ => hiv2⟩
    · intro t ht
      rw [hiv2, blk_getD _ _ _ (by omega)]
      congr 1
      omega
    · intro t ht1 ht2
      omega
  · obtain ⟨hpad, _, g1, g2⟩ := h.2 hp
    refine ⟨by omega, ?_, ?_, fun h16 => absurd h16 hp⟩
    · intro t ht
      rw [g1 t ht]
      congr 1
      omega
    · intro t ht1 ht2
      rw [g2 t ht1 ht2, show (ct.length - 1) / 16 = ct.length / 16 by omega]

/-- C38. CFB mid-block buffer contents: on a CFB instance whose IV buffer holds `iv` and
that was reset by `silc_aes_set_iv`, after any sequence of `silc_aes_encrypt` calls (or of
`silc_aes_decrypt` calls) that processed at least one byte, with `ct` the ciphertext that
went through (the collected output when encrypting, the input when decrypting) and `c` the
cursor left behind: `c` is between 1 and 16 and is `(length ct - 1) mod 16 + 1`; bytes
`0 .. c - 1` of the IV buffer are the last `c` bytes of `ct`; bytes `c .. 15` are the
bytes of `aes_encrypt` of the feedback register of the current block (`iv` for the first
block, the ciphertext block before it otherwise), the keystream not yet consumed; and at
`c = 16` the whole buffer is the last ciphertext block. -/
theorem C38_cfb_buffer_contents (s0 : SilcSt) (iv : List Nat) (ivarg : Option (List Nat))
    (chunks : List (List Nat)) (hn : chunks.flatten ≠ []) (ct : List Nat) (s1 s2 : SilcSt)
    (he : encrypt_chunks SILC_CIPHER_MODE_CFB (reset_iv SILC_CIPHER_MODE_CFB s0 iv ivarg) chunks =
      (ct, s1))
    (hd : (decrypt_chunks SILC_CIPHER_MODE_CFB (reset_iv SILC_CIPHER_MODE_CFB s0 iv ivarg)
      chunks).2 = s2) :
    ((1 ≤ s1.cx.inf_b2 ∧ s1.cx.inf_b2 ≤ 16 ∧ s1.cx.inf_b2 = (ct.length - 1) % 16 + 1) ∧
      (∀ t, t < s1.cx.inf_b2 → s1.iv.getD t 0 = ct.getD (ct.length - s1.cx.inf_b2 + t) 0) ∧
      (∀ t, s1.cx.inf_b2 ≤ t → t < 16 →
        s1.iv.getD t 0 =
          (aes_encrypt (cfb_feedback iv ct ((ct.length - 1) / 16)) s0.cx).getD t 0) ∧
      (s1.cx.inf_b2 = 16 → s1.iv = blk ct (ct.length / 16 - 1))) ∧
    ((1 ≤ s2.cx.inf_b2 ∧ s2.cx.inf_b2 ≤ 16 ∧
        s2.cx.inf_b2 = (chunks.flatten.length - 1) % 16 + 1) ∧
      (∀ t, t < s2.cx.inf_b2 →
        s2.iv.getD t 0 = chunks.flatten.getD (chunks.flatten.length - s2.cx.inf_b2 + t) 0) ∧
      (∀ t, s2.cx.inf_b2 ≤ t → t < 16 →
        s2.iv.getD t 0 =
          (aes_encrypt (cfb_feedback iv chunks.flatten ((chunks.flatten.length - 1) / 16))
            s0.cx).getD t 0) ∧
      (s2.cx.inf_b2 = 16 → s2.iv = blk chunks.flatten (chunks.flatten.length / 16 - 1))) := by
  have hE : ∀ x, (enc_of s0.cx x).length = 16 := enc_of_length s0.cx
  have hfresh : CfbInv (enc_of s0.cx) iv [] ⟨iv, s0.block, 16⟩ := cfb_inv_fresh _ _ _
  constructor
  · obtain ⟨e1, d, e2⟩ := encrypt_chunks_stream SILC_CIPHER_MODE_CFB cfb_enc_byte cfb_encrypt_eq
      chunks (reset_iv SILC_CIPHER_MODE_CFB s0 iv ivarg)
    rw [he] at e1 e2
    have e1' : ct = (stream (cfb_enc_byte (enc_of s0.cx)) ⟨iv, s0.block, 16⟩ chunks.flatten).1 := e1
    have e2' : s1 = uncore (reset_iv SILC_CIPHER_MODE_CFB s0 iv ivarg)
        (stream (cfb_enc_byte (enc_of s0.cx)) ⟨iv, s0.block, 16⟩ chunks.flatten).2 d := e2
    have hinv := cfb_enc_stream_inv (enc_of s0.cx) hE iv chunks.flatten [] _ hfresh
    rw [List.nil_append, ← e1'] at hinv
    have hp := stream_pad (cfb_enc_byte (enc_of s0.cx)) (cfb_enc_byte_pad _) chunks.flatten
      ⟨iv, s0.block, 16⟩ (Nat.le_refl 16) hn
    have hct : ct ≠ [] := by
      intro h0
      have hl := stream_length (cfb_enc_byte (enc_of s0.cx)) chunks.flatten ⟨iv, s0.block, 16⟩
      rw [← e1', h0] at hl
      exact hn (List.length_eq_zero.mp hl.symm)
    obtain ⟨a1, a2, a3, a4⟩ := cfb_buffer_of_inv (enc_of s0.cx) iv ct _ hinv hct hp.1 hp.2
    rw [e2']
    exact ⟨⟨hp.1, hp.2, a1⟩, a2, a3, a4⟩
  · obtain ⟨_, d, e2⟩ := decrypt_chunks_stream SILC_CIPHER_MODE_CFB cfb_dec_byte cfb_decrypt_eq
      chunks (reset_iv SILC_CIPHER_MODE_CFB s0 iv ivarg)
    rw [hd] at e2
    have e2' : s2 = uncore (reset_iv SILC_CIPHER_MODE_CFB s0 iv ivarg)
        (stream (cfb_dec_byte (enc_of s0.cx)) ⟨iv, s0.block, 16⟩ chunks.flatten).2 d := e2
    have hinv := cfb_dec_stream_inv (enc_of s0.cx) hE iv chunks.flatten [] _ hfresh
    rw [List.nil_append] at hinv
    have hp := stream_pad (cfb_dec_byte (enc_of s0.cx)) (cfb_dec_byte_pad _) chunks.flatten
      ⟨iv, s0.block, 16⟩ (Nat.le_refl 16) hn
    obtain ⟨a1, a2, a3, a4⟩ := cfb_buffer_of_inv (enc_of s0.cx) iv chunks.flatten _ hinv hn
      hp.1 hp.2
    rw [e2']
    exact ⟨⟨hp.1, hp.2, a1⟩, a2, a3, a4⟩

/-- Witness of C38: a keyed CFB instance, reset, then calls on three and on two bytes. -/
theorem C38_cfb_buffer_contents_witness :
    [[1, 2, 3], [4, 5]].flatten ≠ [] ∧
    (decrypt_chunks SILC_CIPHER_MODE_CFB
      (reset_iv SILC_CIPHER_MODE_CFB
        (keyed SILC_CIPHER_MODE_CFB ctx0 fips_key128 16 true [] [] Arr.zero) fips_plain none)
      [[1, 2, 3], [4, 5]]).2.cx.inf_b2 = ([[1, 2, 3], [4, 5]].flatten.length - 1) % 16 + 1 :=
  ⟨by decide,
    (C38_cfb_buffer_contents (keyed SILC_CIPHER_MODE_CFB ctx0 fips_key128 16 true [] [] Arr.zero)
      fips_plain none [[1, 2, 3], [4, 5]] (by decide) _ _ _ rfl rfl).2.1.2.2⟩

/-! ## The extent of the key schedule -/

/-- A store below `N` changes nothing from `N` on. -/
theorem above_upd (a b : Arr) (i x N : Nat) (h : ∀ j, N ≤ j → a j = b j) (hi : i < N) :
    ∀ j, N ≤ j → (upd a i x) j = b j := by
  intro j hj
  rw [upd_get, if_neg (by omega)]
  exact h j hj

/-- The macro `v` stays within the schedule. -/
theorem v_below (n w N : Nat) (hn : n % 4 = 0) (hw : w ≤ n + 3) (hN : n + 4 ≤ N) : v n w < N := by
  rw [v_nat n w (by omega)]
  omega

theorem key_in_above (key : List Nat) (n : Nat) (st : KSt) :
    ∀ j, n ≤ j → (key_in key n st).k j = st.k j := by
  induction n with
  | zero => intro j _; rfl
  | succ n ih =>
    intro j hj
    show (upd (key_in key n st).k n (word_in key n)) j = st.k j
    rw [upd_get, if_neg (by omega)]
    exact ih j (by omega)

theorem key_in_rev_above (key : List Nat) (nn N : Nat) (hn : nn % 4 = 0) (hN : nn + 4 ≤ N)
    (n : Nat) (st : KSt) (h : n ≤ nn + 4) :
    ∀ j, N ≤ j → (key_in_rev key nn n st).k j = st.k j := by
  induction n with
  | zero => intro j _; rfl
  | succ n ih =>
    exact above_upd _ _ _ _ _ (ih (by omega)) (v_below nn n N hn (by omega) hN)

theorem key_in_ff_above (key : List Nat) (nn N : Nat) (hn : nn % 4 = 0) (hN : nn + 4 ≤ N)
    (w : Nat) (st : KSt) (h : w ≤ nn + 3) :
    ∀ j, N ≤ j → (key_in_ff key nn w st).k j = st.k j :=
  above_upd _ _ _ _ _ (fun _ _ => rfl) (v_below nn w N hn h hN)

theorem ke4_above (i : Nat) (E : KSt) (N : Nat) (hN : 4 * i + 8 ≤ N) :
    ∀ j, N ≤ j → (ke4 i E).k j = E.k j := by
  rw [ke4_k]
  repeat (first | exact fun _ _ => rfl | refine above_upd _ _ _ _ _ ?_ ?_)
  all_goals omega

theorem kef6_above (i : Nat) (E : KSt) (N : Nat) (hN : 6 * i + 10 ≤ N) :
    ∀ j, N ≤ j → (kef6 i E).k j = E.k j := by
  rw [kef6_k]
  repeat (first | exact fun _ _ => rfl | refine above_upd _ _ _ _ _ ?_ ?_)
  all_goals omega

theorem ke6_above (i : Nat) (E : KSt) (N : Nat) (hN : 6 * i + 12 ≤ N) :
    ∀ j, N ≤ j → (ke6 i E).k j = E.k j := by
  rw [ke6_k]
  refine above_upd _ _ _ _ _ (above_upd _ _ _ _ _ (kef6_above i E N (by omega)) ?_) ?_
  all_goals omega

theorem kef8_above (i : Nat) (E : KSt) (N : Nat) (hN : 8 * i + 12 ≤ N) :
    ∀ j, N ≤ j → (kef8 i E).k j = E.k j := by
  rw [kef8_k]
  repeat (first | exact fun _ _ => rfl | refine above_upd _ _ _ _ _ ?_ ?_)
  all_goals omega

theorem ke8_above (i : Nat) (E : KSt) (N : Nat) (hN : 8 * i + 16 ≤ N) :
    ∀ j, N ≤ j → (ke8 i E).k j = E.k j := by
  rw [ke8_k]
  refine above_upd _ _ _ _ _ (above_upd _ _ _ _ _ (above_upd _ _ _ _ _ (above_upd _ _ _ _ _
    (kef8_above i E N (by omega)) ?_) ?_) ?_) ?_
  all_goals omega

theorem kdf4_above (D : KSt) : ∀ j, 44 ≤ j → (kdf4 0 D).k j = D.k j := by
  rw [kdf4_k]
  repeat (first | exact fun _ _ => rfl | refine above_upd _ _ _ _ _ ?_ ?_)
  all_goals decide

theorem kd4_above (i : Nat) (D : KSt) (hi : i ≤ 9) : ∀ j, 44 ≤ j → (kd4 i D).k j = D.k j := by
  rw [kd4_k i D hi]
  repeat (first | exact fun _ _ => rfl | refine above_upd _ _ _ _ _ ?_ ?_)
  all_goals omega

theorem kdl4_above (D : KSt) : ∀ j, 44 ≤ j → (kdl4 9 D).k j = D.k j := by
  rw [kdl4_k]
  repeat (first | exact fun _ _ => rfl | refine above_upd _ _ _ _ _ ?_ ?_)
  all_goals decide

theorem kdf6_above (D : KSt) : ∀ j, 52 ≤ j → (kdf6 0 D).k j = D.k j := by
  rw [kdf6_k]
  repeat (first | exact fun _ _ => rfl | refine above_upd _ _ _ _ _ ?_ ?_)
  all_goals exact v_below 48 _ 52 (by decide) (by decide) (by decide)

theorem kd6_above (i : Nat) (D : KSt) (h1 : 1 ≤ i) (h6 : i ≤ 6) :
    ∀ j, 52 ≤ j → (kd6 i D).k j = D.k j := by
  rw [kd6_k i D h1 h6]
  repeat (first | exact fun _ _ => rfl | refine above_upd _ _ _ _ _ ?_ ?_)
  all_goals exact v_below 48 _ 52 (by decide) (by omega) (by decide)

theorem kdl6_above (D : KSt) : ∀ j, 52 ≤ j → (kdl6 7 D).k j = D.k j := by
  rw [kdl6_k]
  repeat (first | exact fun _ _ => rfl | refine above_upd _ _ _ _ _ ?_ ?_)
  all_goals exact v_below 48 _ 52 (by decide) (by decide) (by decide)

theorem kdf8_above (D : KSt) : ∀ j, 60 ≤ j → (kdf8 0 D).k j = D.k j := by
  rw [kdf8_k]
  repeat (first | exact fun _ _ => rfl | refine above_upd _ _ _ _ _ ?_ ?_)
  all_goals exact v_below 56 _ 60 (by decide) (by decide) (by decide)

theorem kd8_above (i : Nat) (D : KSt) (h1 : 1 ≤ i) (h5 : i ≤ 5) :
    ∀ j, 60 ≤ j → (kd8 i D).k j = D.k j := by
  rw [kd8_k i D h1 h5]
  repeat (first | exact fun _ _ => rfl | refine above_upd _ _ _ _ _ ?_ ?_)
  all_goals exact v_below 56 _ 60 (by decide) (by omega) (by decide)

theorem kdl8_above (D : KSt) : ∀ j, 60 ≤ j → (kdl8 6 D).k j = D.k j := by
  rw [kdl8_k]
  repeat (first | exact fun _ _ => rfl | refine above_upd _ _ _ _ _ ?_ ?_)
  all_goals exact v_below 56 _ 60 (by decide) (by decide) (by decide)

/-- The encryption key routines leave the schedule words from 44, 52 and 60
on as they were. -/
theorem enc_key_above (key : List Nat) (cx : aes_ctx) :
    (∀ j, 44 ≤ j → (aes_encrypt_key128 key cx).ks j = cx.ks j) ∧
    (∀ j, 52 ≤ j → (aes_encrypt_key192 key cx).ks j = cx.ks j) ∧
    (∀ j, 60 ≤ j → (aes_encrypt_key256 key cx).ks j = cx.ks j) := by
  refine ⟨?_, ?_, ?_⟩
  · intro j hj
    show (ke4 9 (ke4 8 (ke4 7 (ke4 6 (ke4 5 (ke4 4 (ke4 3 (ke4 2 (ke4 1 (ke4 0 (key_in key 4
      ⟨cx.ks, Arr.zero⟩))))))))))).k j = cx.ks j
    rw [ke4_above 9 _ 44 (by omega) j hj, ke4_above 8 _ 44 (by omega) j hj,
      ke4_above 7 _ 44 (by omega) j hj, ke4_above 6 _ 44 (by omega) j hj,
      ke4_above 5 _ 44 (by omega) j hj, ke4_above 4 _ 44 (by omega) j hj,
      ke4_above 3 _ 44 (by omega) j hj, ke4_above 2 _ 44 (by omega) j hj,
      ke4_above 1 _ 44 (by omega) j hj, ke4_above 0 _ 44 (by omega) j hj,
      key_in_above key 4 _ j (by omega)]
  · intro j hj
    show (kef6 7 (ke6 6 (ke6 5 (ke6 4 (ke6 3 (ke6 2 (ke6 1 (ke6 0 (key_in key 6 ⟨cx.ks,
      Arr.zero⟩))))))))).k j = cx.ks j
    rw [kef6_above 7 _ 52 (by omega) j hj, ke6_above 6 _ 52 (by omega) j hj,
      ke6_above 5 _ 52 (by omega) j hj, ke6_above 4 _ 52 (by omega) j hj,
      ke6_above 3 _ 52 (by omega) j hj, ke6_above 2 _ 52 (by omega) j hj,
      ke6_above 1 _ 52 (by omega) j hj, ke6_above 0 _ 52 (by omega) j hj,
      key_in_above key 6 _ j (by omega)]
  · intro j hj
    show (kef8 6 (ke8 5 (ke8 4 (ke8 3 (ke8 2 (ke8 1 (ke8 0 (key_in key 8 ⟨cx.ks,
      Arr.zero⟩)))))))).k j = cx.ks j
    rw [kef8_above 6 _ 60 (by omega) j hj, ke8_above 5 _ 60 (by omega) j hj,
      ke8_above 4 _ 60 (by omega) j hj, ke8_above 3 _ 60 (by omega) j hj,
      ke8_above 2 _ 60 (by omega) j hj, ke8_above 1 _ 60 (by omega) j hj,
      ke8_above 0 _ 60 (by omega) j hj, key_in_above key 8 _ j (by omega)]

/-- The decryption key routines leave the schedule words from 44, 52 and 60
on as they were. -/
theorem dec_key_above (key : List Nat) (cx : aes_ctx) :
    (∀ j, 44 ≤ j → (aes_decrypt_key128 key cx).ks j = cx.ks j) ∧
    (∀ j, 52 ≤ j → (aes_decrypt_key192 key cx).ks j = cx.ks j) ∧
    (∀ j, 60 ≤ j → (aes_decrypt_key256 key cx).ks j = cx.ks j) := by
  refine ⟨?_, ?_, ?_⟩
  · intro j hj
    show (kdl4 9 (kd4 8 (kd4 7 (kd4 6 (kd4 5 (kd4 4 (kd4 3 (kd4 2 (kd4 1 (kdf4 0 (key_in_rev
      key 40 4 ⟨cx.ks, Arr.zero⟩))))))))))).k j = cx.ks j
    rw [kdl4_above _ j hj, kd4_above 8 _ (by omega) j hj, kd4_above 7 _ (by omega) j hj,
      kd4_above 6 _ (by omega) j hj, kd4_above 5 _ (by omega) j hj,
      kd4_above 4 _ (by omega) j hj, kd4_above 3 _ (by omega) j hj,
      kd4_above 2 _ (by omega) j hj, kd4_above 1 _ (by omega) j hj, kdf4_above _ j hj,
      key_in_rev_above key 40 44 (by decide) (by decide) 4 _ (by decide) j hj]
  · intro j hj
    show (kdl6 7 (kd6 6 (kd6 5 (kd6 4 (kd6 3 (kd6 2 (kd6 1 (kdf6 0 (key_in_ff key 48 5
      (key_in_ff key 48 4 (key_in_rev key 48 4 ⟨cx.ks, Arr.zero⟩))))))))))).k j = cx.ks j
    rw [kdl6_above _ j hj, kd6_above 6 _ (by omega) (by omega) j hj,
      kd6_above 5 _ (by omega) (by omega) j hj, kd6_above 4 _ (by omega) (by omega) j hj,
      kd6_above 3 _ (by omega) (by omega) j hj, kd6_above 2 _ (by omega) (by omega) j hj,
      kd6_above 1 _ (by omega) (by omega) j hj, kdf6_above _ j hj,
      key_in_ff_above key 48 52 (by decide) (by decide) 5 _ (by decide) j hj,
      key_in_ff_above key 48 52 (by decide) (by decide) 4 _ (by decide) j hj,
      key_in_rev_above key 48 52 (by decide) (by decide) 4 _ (by decide) j hj]
  · intro j hj
    show (kdl8 6 (kd8 5 (kd8 4 (kd8 3 (kd8 2 (kd8 1 (kdf8 0 (key_in_ff key 56 7 (key_in_ff key
      56 6 (key_in_ff key 56 5 (key_in_ff key 56 4 (key_in_rev key 56 4 ⟨cx.ks,
      Arr.zero⟩)))))))))))).k j = cx.ks j
    rw [kdl8_above _ j hj, kd8_above 5 _ (by omega) (by omega) j hj,
      kd8_above 4 _ (by omega) (by omega) j hj, kd8_above 3 _ (by omega) (by omega) j hj,
      kd8_above 2 _ (by omega) (by omega) j hj, kd8_above 1 _ (by omega) (by omega) j hj,
      kdf8_above _ j hj,
      key_in_ff_above key 56 60 (by decide) (by decide) 7 _ (by decide) j hj,
      key_in_ff_above key 56 60 (by decide) (by decide) 6 _ (by decide) j hj,
      key_in_ff_above key 56 60 (by decide) (by decide) 5 _ (by decide) j hj,
      key_in_ff_above key 56 60 (by decide) (by decide) 4 _ (by decide) j hj,
      key_in_rev_above key 56 60 (by decide) (by decide) 4 _ (by decide) j hj]

/-- The macro `v` maps the words of a schedule of `nr` rounds into the
schedule and is its own inverse there. -/
theorem v_involution (nr i : Nat) (hi : i < 4 * (nr + 1)) :
    v (4 * nr) i < 4 * (nr + 1) ∧ v (4 * nr) (v (4 * nr) i) = i := by
  have e1 : v (4 * nr) i = 4 * nr + 2 * (i % 4) - i := v_nat (4 * nr) i (by omega)
  have h1 : 4 * nr + 2 * (i % 4) - i < 4 * (nr + 1) := by omega
  have h2 : (4 * nr + 2 * (i % 4) - i) % 4 = i % 4 := by omega
  rw [e1]
  refine ⟨h1, ?_⟩
  rw [v_nat (4 * nr) _ (by omega), h2]
  omega

/-- The extent of the schedule written by the key routines, for one of the
three round counts. -/
theorem key_extent (key : List Nat) (key_len : Nat) (hk : KeyLenOk key_len) (cx cx2 : aes_ctx) :
    (∀ j, 4 * (rounds_of key_len + 1) ≤ j →
      (aes_encrypt_key key key_len cx).ks j = cx.ks j ∧
      (aes_decrypt_key key key_len cx).ks j = cx.ks j) ∧
    (∀ j, j < 4 * (rounds_of key_len + 1) →
      (aes_encrypt_key key key_len cx).ks j = (aes_encrypt_key key key_len cx2).ks j ∧
      (aes_decrypt_key key key_len cx).ks j = (aes_decrypt_key key key_len cx2).ks j) := by
  obtain ⟨e1, e2, e3⟩ := enc_key_above key cx
  obtain ⟨d1, d2, d3⟩ := dec_key_above key cx
  obtain ⟨f1, f2, f3⟩ := enc_key_indep key cx cx2
  obtain ⟨g1, g2, g3⟩ := dec_key_indep key cx cx2
  rcases hk with rfl | rfl | rfl | rfl | rfl | rfl
  · exact ⟨fun j hj => ⟨e1 j hj, d1 j hj⟩, fun j hj => ⟨f1 j hj, g1 j hj⟩⟩
  · exact ⟨fun j hj => ⟨e2 j hj, d2 j hj⟩, fun j hj => ⟨f2 j hj, g2 j hj⟩⟩
  · exact ⟨fun j hj => ⟨e3 j hj, d3 j hj⟩, fun j hj => ⟨f3 j hj, g3 j hj⟩⟩
  · exact ⟨fun j hj => ⟨e1 j hj, d1 j hj⟩, fun j hj => ⟨f1 j hj, g1 j hj⟩⟩
  · exact ⟨fun j hj => ⟨e2 j hj, d2 j hj⟩, fun j hj => ⟨f2 j hj, g2 j hj⟩⟩
  · exact ⟨fun j hj => ⟨e3 j hj, d3 j hj⟩, fun j hj => ⟨f3 j hj, g3 j hj⟩⟩

theorem rounds_of_cases (key_len : Nat) :
    rounds_of key_len = 10 ∨ rounds_of key_len = 12 ∨ rounds_of key_len = 14 := by
  unfold rounds_of
  split_ifs
  · exact Or.inl rfl
  · exact Or.inr (Or.inl rfl)
  · exact Or.inr (Or.inr rfl)

/-- C39. Key-schedule index safety and coverage: for every supported key length, with
`Nr` its round count, the schedule has `4 * (Nr + 1)` words (44, 52 or 60, so at most 60);
`aes_encrypt_key` and `aes_decrypt_key` leave every schedule word from index
`4 * (Nr + 1)` on as it was (no store outside the range), and every word below that index
is the same whatever the schedule held before (every index of the range is stored to);
and the index map `v(4 * Nr, i)` of the decryption schedule takes every index below
`4 * (Nr + 1)` to an index below `4 * (Nr + 1)`, is its own inverse there, and so is a
bijection of that range onto itself. -/
theorem C39_schedule_extent (key : List Nat) (key_len : Nat) (hk : KeyLenOk key_len)
    (cx cx2 : aes_ctx) :
    ((4 * (rounds_of key_len + 1) = 44 ∨ 4 * (rounds_of key_len + 1) = 52 ∨
        4 * (rounds_of key_len + 1) = 60) ∧ 4 * (rounds_of key_len + 1) ≤ 60) ∧
    (∀ j, 4 * (rounds_of key_len + 1) ≤ j →
      (aes_encrypt_key key key_len cx).ks j = cx.ks j ∧
      (aes_decrypt_key key key_len cx).ks j = cx.ks j) ∧
    (∀ j, j < 4 * (rounds_of key_len + 1) →
      (aes_encrypt_key key key_len cx).ks j = (aes_encrypt_key key key_len cx2).ks j ∧
      (aes_decrypt_key key key_len cx).ks j = (aes_decrypt_key key key_len cx2).ks j) ∧
    (∀ i, i < 4 * (rounds_of key_len + 1) →
      v (4 * rounds_of key_len) i < 4 * (rounds_of key_len + 1) ∧
      v (4 * rounds_of key_len) (v (4 * rounds_of key_len) i) = i) ∧
    Set.BijOn (v (4 * rounds_of key_len)) {i | i < 4 * (rounds_of key_len + 1)}
      {i | i < 4 * (rounds_of key_len + 1)} := by
  obtain ⟨k1, k2⟩ := key_extent key key_len hk cx cx2
  refine ⟨?_, k1, k2, v_involution (rounds_of key_len), ?_, ?_, ?_⟩
  · rcases rounds_of_cases key_len with h | h | h <;> rw [h] <;> decide
  · intro i hi
    exact (v_involution (rounds_of key_len) i hi).1
  · intro a ha b hb hab
    have ea := (v_involution (rounds_of key_len) a ha).2
    have eb := (v_involution (rounds_of key_len) b hb).2
    rw [hab, eb] at ea
    exact ea.symm
  · intro b hb
    exact ⟨v (4 * rounds_of key_len) b, (v_involution (rounds_of key_len) b hb).1,
      (v_involution (rounds_of key_len) b hb).2⟩

/-- Witness of C39: the FIPS-197 192-bit key on the zero context and on a context whose
schedule holds other words. -/
theorem C39_schedule_extent_witness :
    KeyLenOk 24 ∧
    (aes_decrypt_key fips_key192 24 ctx0).ks 7 =
      (aes_decrypt_key fips_key192 24 ⟨⟨fun j => j + 1⟩, 0, 16⟩).ks 7 ∧
    (aes_decrypt_key fips_key192 24 ⟨⟨fun j => j + 1⟩, 0, 16⟩).ks 52 = 53 :=
  ⟨Or.inr (Or.inl rfl),
    ((C39_schedule_extent fips_key192 24 (Or.inr (Or.inl rfl)) ctx0
      ⟨⟨fun j => j + 1⟩, 0, 16⟩).2.2.1 7 (by decide)).2,
    ((C39_schedule_extent fips_key192 24 (Or.inr (Or.inl rfl)) ⟨⟨fun j => j + 1⟩, 0, 16⟩
      ctx0).2.1 52 (by decide)).2⟩

end Aes
